import Mathlib

/-!
# A boundary-tag allocator with a size-indexed free list (`mm.c`)

Shallow embedding of `mm.c` and of the parts of `mdriver.c` that check it.

Conventions of the embedding.

* The target is the 32-bit build the code is written for (`WSIZE = 4`, block
  pointers advanced with `(size_t *)blk + n`, a minimum block of 8 words that
  holds exactly one `struct block` plus a footer): `size_t` and `int` are 32
  bits wide.  `size_t` values are naturals below `2^32` and every `size_t`
  operation is reduced modulo `2^32`; `int` values are integers.
* Addresses are counted in words of `WSIZE` bytes from `mem_heap_lo()`: the
  word with index `w` is at byte address `lo + 4 * w`.  Every pointer the code
  computes is a whole number of words away from `mem_heap_lo()`.  Pointer
  arithmetic is done in the integers and is not wrapped.
* `heap` is the raw memory of the arena, one 32-bit value per word; boundary
  tags are stored in it as bit-fields (`inuse` in bit 0, `size` in bits 1..31)
  and payload words share the same memory.
* The fields `prev` and `next` of `struct block` are kept as maps from the
  block pointer to the stored pointer, and the red-black tree of `tree.h` is
  kept as the collection of its entries.  In the code these fields and the
  field `node` lie in the block itself, in the six words that follow the
  header (`link_fields`); the maps record their values and not their place in
  `heap`, and the routines `add_writes`, `remove_writes` and the ones built on
  them give the blocks whose fields each call writes.  Maps and memory agree
  while every indexed block has at least `MIN_BLOCK_SIZE_WORDS` words, so that
  its fields lie between its header and its footer; this holds in every state
  reached from `mm_init` by `mm_malloc` and `mm_free` (C36).  `mm_realloc` can
  put a block of two words into the index (C35); there the code writes the
  fields over the words that follow the block, which `heap` does not show.
* `memcpy` copies in ascending address order.  The C standard defines the
  call for ranges that do not overlap, where the order does not matter;
  `mm_realloc` also makes it on ranges that overlap (C8).
-/

namespace MM

/-! ## Constants of `mm.c` and `config.h` -/

def WSIZE : Nat := 4

def DSIZE : Nat := 8

def MIN_BLOCK_SIZE_WORDS : Nat := 8

def CHUNKSIZE : Nat := 16

def PADDING : Nat := 3

def DIV : Nat := 84

def PT : Nat := 2

def ALIGNMENT : Nat := 8

def MAX_HEAP : Nat := 1024 * 2 ^ 20

/-! ## Machine arithmetic -/

/-- Modulus of `size_t`. -/
def SZ : Nat := 2 ^ 32

/-- Addition of two `size_t` values. -/
def add32 (a b : Nat) : Nat := (a + b) % SZ

/-- Subtraction of two `size_t` values. -/
def sub32 (a b : Nat) : Nat := (a + SZ - b % SZ) % SZ

/-- Multiplication of two `size_t` values. -/
def mul32 (a b : Nat) : Nat := (a * b) % SZ

/-- Conversion of an `int` to `size_t`. -/
def toSizeT (z : Int) : Nat := (z % (2 ^ 32 : Int)).toNat

/-- Conversion of a `size_t` to `int`. -/
def toInt (n : Nat) : Int := if n % SZ < 2 ^ 31 then ((n % SZ : Nat) : Int) else ((n % SZ : Nat) : Int) - 2 ^ 32

/-- The expression `x & ~(DSIZE - 1)` on a `size_t`. -/
def clear_low3 (x : Nat) : Nat := x - x % DSIZE

/-- The expression `x & ~1` on a `size_t`. -/
def clear_low1 (x : Nat) : Nat := x - x % 2

/-- Function update. -/
def upd {α : Type} (f : Nat → α) (a : Nat) (v : α) : Nat → α := fun x => if x = a then v else f x

/-! ## Boundary tags -/

/-- The `struct boundary_tag`: `int inuse:1; int size:31;`. -/
structure boundary_tag where
  inuse : Bool
  size : Int
deriving DecidableEq, Repr

/-- The constant `FENCE = { .inuse = 1, .size = 0 }`. -/
def FENCE : boundary_tag := { inuse := true, size := 0 }

/-- Value read from a signed 31-bit field holding the bit pattern `n`. -/
def sext31 (n : Nat) : Int := if n < 2 ^ 30 then (n : Int) else (n : Int) - 2 ^ 31

/-- The word that stores a tag: assignment to the bit-fields keeps the low bits. -/
def tag_word (t : boundary_tag) : Nat := 2 * (t.size % (2 ^ 31 : Int)).toNat + (if t.inuse then 1 else 0)

/-- The tag stored in a word. -/
def word_tag (w : Nat) : boundary_tag := { inuse := decide (w % 2 = 1), size := sext31 (w / 2 % 2 ^ 31) }

/-! ## Engine state -/

/-- The arena together with the globals of `mm.c`. -/
structure State where
  heap : Nat → Nat
  brk : Nat
  tree : List Nat
  prev : Nat → Option Nat
  next : Nat → Option Nat
  first : Nat
  second : Nat
  first_timer : Nat
  second_timer : Nat

/-- The tag stored at word `w`. -/
def tag_at (s : State) (w : Nat) : boundary_tag := word_tag (s.heap w)

/-- Store a tag at word `w`. -/
def set_tag (s : State) (w : Nat) (t : boundary_tag) : State := { s with heap := upd s.heap w (tag_word t) }

/-! ## The arena provider -/

/-- Modelled from the spec: the arena provider `mem_sbrk` of memlib, which is not part of the
sources at hand.  It grows the arena by `incr` bytes and returns the old break, and fails when
the growth would exceed the configured maximum `MAX_HEAP`; it never shrinks the arena.  The
break is kept in words: every request of `mm.c` is a multiple of `WSIZE` bytes. -/
def mem_sbrk (s : State) (incr : Nat) : Option (Nat × State) :=
  if s.brk * WSIZE + incr > MAX_HEAP then none
  else some (s.brk, { s with brk := s.brk + incr / WSIZE })

/-- Modelled from the spec: `mem_heap_hi` of memlib, the byte offset of the last byte of the
arena (relative to `mem_heap_lo()`). -/
def mem_heap_hi (s : State) : Nat := s.brk * WSIZE - 1

/-! ## Block primitives -/

def blk_size (s : State) (blk : Nat) : Nat := toSizeT (tag_at s blk).size

def next_blk (s : State) (blk : Nat) : Nat := ((blk : Int) + (tag_at s blk).size).toNat

def prev_blk_footer (blk : Nat) : Nat := blk - 1

def prev_blk (s : State) (blk : Nat) : Nat := ((blk : Int) - (tag_at s (prev_blk_footer blk)).size).toNat

def get_footer (s : State) (blk : Nat) : Nat := ((blk : Int) + (tag_at s blk).size - 1).toNat

def set_header_and_footer (s : State) (blk : Nat) (size : Int) (inuse : Bool) : State :=
  let s1 := set_tag s blk { inuse := inuse, size := size }
  { s1 with heap := upd s1.heap (get_footer s1 blk) (s1.heap blk) }

def mark_block_used (s : State) (blk : Nat) (size : Int) : State := set_header_and_footer s blk size true

def mark_block_free (s : State) (blk : Nat) (size : Int) : State := set_header_and_footer s blk size false

def blk_free (s : State) (blk : Nat) : Bool := !(tag_at s blk).inuse

/-! ## The ordered index of `tree.h` -/

def block_compare (a b : Int) : Int := a - b

/-- Modelled from the spec: `RB_FIND` of `tree.h` (not part of the sources at hand), the entry
whose key compares equal to `key` under `block_compare`, if there is one. -/
def RB_FIND (s : State) (key : Int) : Option Nat :=
  s.tree.find? (fun x => decide (block_compare key (tag_at s x).size = 0))

/-- Smallest element of a list of entries under `block_compare`. -/
def rb_min (s : State) : List Nat → Option Nat
  | [] => none
  | x :: xs =>
    match rb_min s xs with
    | none => some x
    | some y => if block_compare (tag_at s x).size (tag_at s y).size ≤ 0 then some x else some y

/-- Modelled from the spec: `RB_NFIND` of `tree.h`, the entry with the smallest key that is
greater than or equal to `key`, if there is one. -/
def RB_NFIND (s : State) (key : Int) : Option Nat :=
  rb_min s (s.tree.filter (fun x => decide (block_compare key (tag_at s x).size ≤ 0)))

/-- Modelled from the spec: `RB_INSERT` of `tree.h`, which adds the entry unless an entry with
an equal key is present. -/
def RB_INSERT (s : State) (elm : Nat) : State :=
  match RB_FIND s (tag_at s elm).size with
  | some _ => s
  | none => { s with tree := elm :: s.tree }

/-- Modelled from the spec: `RB_REMOVE` of `tree.h`, which removes the given entry. -/
def RB_REMOVE (s : State) (elm : Nat) : State := { s with tree := s.tree.erase elm }

/-- Modelled from the spec: `RB_INIT` of `tree.h`, the empty index. -/
def RB_INIT (s : State) : State := { s with tree := [] }

/-! ## The free-block index of `mm.c` -/

/-- The routine `add_free_block`.  The assignments to `bp->prev`, `bp->next`, `blk->next` and
`next->prev` update the maps `prev` and `next` and leave `heap` as it is; the words of the
blocks that hold these fields are given by `add_writes` and `link_fields`. -/
def add_free_block (s : State) (bp : Option Nat) : State :=
  match bp with
  | none => s
  | some b =>
    match RB_FIND s (tag_at s b).size with
    | none =>
      let s1 := { s with prev := upd s.prev b none }
      let s2 := { s1 with next := upd s1.next b none }
      RB_INSERT s2 b
    | some blk =>
      let next := s.next blk
      let s1 := match next with
        | some n => { s with prev := upd s.prev n (some b) }
        | none => s
      let s2 := { s1 with next := upd s1.next b next }
      let s3 := { s2 with next := upd s2.next blk (some b) }
      { s3 with prev := upd s3.prev b (some blk) }

/-- The routine `remove_free_block`.  As in `add_free_block`, the assignments to the fields
`prev` and `next` update the maps and leave `heap` as it is; the blocks that hold the written
fields are given by `remove_writes`. -/
def remove_free_block (s : State) (bp : Option Nat) : State :=
  match bp with
  | none => s
  | some b =>
    match s.prev b with
    | some p =>
      match s.next b with
      | some n =>
        let s1 := { s with prev := upd s.prev n (some p) }
        let s2 := { s1 with next := upd s1.next p (some n) }
        let s3 := { s2 with prev := upd s2.prev b none }
        { s3 with next := upd s3.next b none }
      | none =>
        let s1 := { s with next := upd s.next p none }
        { s1 with prev := upd s1.prev b none }
    | none =>
      match s.next b with
      | some blk =>
        let s1 := { s with prev := upd s.prev blk none }
        let s2 := { s1 with next := upd s1.next b none }
        RB_INSERT (RB_REMOVE s2 b) blk
      | none => RB_REMOVE s b

/-! ## Coalescing, heap extension, placement -/

def coalesce (s : State) (bp : Nat) : Nat × State :=
  let prev_alloc := (tag_at s (prev_blk_footer bp)).inuse
  let next_alloc := !(blk_free s (next_blk s bp))
  let size := blk_size s bp
  if prev_alloc && next_alloc then (bp, s)
  else if prev_alloc && !next_alloc then
    let next := next_blk s bp
    let s1 := remove_free_block s (some next)
    (bp, mark_block_free s1 bp (toInt (add32 size (blk_size s1 next))))
  else if !prev_alloc && next_alloc then
    let prev := prev_blk s bp
    let s1 := remove_free_block s (some prev)
    (prev, mark_block_free s1 prev (toInt (add32 size (blk_size s1 prev))))
  else
    let prev := prev_blk s bp
    let next := next_blk s bp
    let s1 := remove_free_block s (some next)
    let s2 := remove_free_block s1 (some prev)
    (prev, mark_block_free s2 prev (toInt (add32 (add32 size (blk_size s2 next)) (blk_size s2 prev))))

def extend_heap (s : State) (words : Nat) : Option Nat × State :=
  let words := clear_low1 (add32 words 1)
  match mem_sbrk s (mul32 words WSIZE) with
  | none => (none, s)
  | some (bp, s1) =>
    let blk := bp - 1
    let s2 := mark_block_free s1 blk (toInt words)
    let s3 := set_tag s2 (next_blk s2 blk) FENCE
    let r := coalesce s3 blk
    (some r.1, r.2)

def mm_init (s : State) : Int × State :=
  let s0 := RB_INIT s
  match mem_sbrk s0 (2 * 4) with
  | none => (-1, s0)
  | some (ini, s1) =>
    let s2 := { s1 with first := DIV, second := DIV - 2, first_timer := 0, second_timer := 0 }
    let s3 := set_tag s2 ini FENCE
    let s4 := set_tag s3 (ini + 1) FENCE
    let blk := ini + 1
    match extend_heap s4 CHUNKSIZE with
    | (none, s5) => (-1, s5)
    | (some _, s5) => (0, add_free_block s5 (some blk))

def find_fit (s : State) (asize : Nat) : Option Nat × State :=
  let bp := RB_NFIND s (sext31 (asize % 2 ^ 31))
  match bp with
  | some b => (bp, remove_free_block s (some b))
  | none => (bp, s)

def place (s : State) (bp : Nat) (asize : Nat) : State :=
  let csize := blk_size s bp
  if sub32 csize asize ≥ MIN_BLOCK_SIZE_WORDS then
    let s1 := mark_block_used s bp (toInt asize)
    let bp1 := next_blk s1 bp
    let s2 := mark_block_free s1 bp1 (toInt (sub32 csize asize))
    add_free_block s2 (some bp1)
  else
    mark_block_used s bp (toInt csize)

/-! ## The public entry points -/

/-- The profiling prologue of `mm_malloc`: updates the trackers and returns the possibly
padded request size. -/
def profile (s : State) (size : Nat) : Nat × State :=
  if size = add32 s.first s.second then (size, s)
  else
    let s1 :=
      if size = s.first then { s with first_timer := add32 s.first_timer 1 }
      else if size = s.second then { s with second_timer := add32 s.second_timer 1 }
      else if size > s.first then { s with first := size, first_timer := 0 }
      else if size < s.second then { s with second := size, second_timer := 0 }
      else s
    if s1.first_timer ≥ PT ∧ s1.second_timer ≥ PT then
      if size = s1.first then (add32 size s1.second, s1) else (size, s1)
    else (size, s1)

/-- The size adjustment of `mm_malloc` and `mm_realloc`: account for the tags and align to a
double word. -/
def adjust (size : Nat) : Nat := clear_low3 (add32 (add32 size (2 * 4)) (DSIZE - 1))

def mm_malloc (s : State) (size : Nat) : Option Nat × State :=
  if size = 0 then (none, s)
  else
    let ps := profile s size
    let s := ps.2
    let size := adjust ps.1
    let awords := max MIN_BLOCK_SIZE_WORDS (size / WSIZE)
    match find_fit s awords with
    | (some bp, s1) => (some (bp + 1), place s1 bp awords)
    | (none, s1) =>
      let prev_boundary_tag := (mem_heap_hi s1 - 4 - PADDING) / WSIZE
      let extendwords :=
        if !(tag_at s1 prev_boundary_tag).inuse then sub32 awords (toSizeT (tag_at s1 prev_boundary_tag).size)
        else awords
      match extend_heap s1 extendwords with
      | (none, s2) => (none, s2)
      | (some bp, s2) => (some (bp + 1), place s2 bp awords)

def mm_free (s : State) (ptr : Option Nat) : State :=
  match ptr with
  | none => s
  | some p =>
    let blk := p - 1
    let s1 := mark_block_free s blk (toInt (blk_size s blk))
    let r := coalesce s1 blk
    add_free_block r.2 (some r.1)

/-- The library routine `memcpy`, copying `n` words in ascending address order.  The C standard
defines the call only for ranges that do not overlap; there every order of copying gives this
result (`memcpy_desc_eq` for the descending order).  For ranges that overlap, which the
left-merge branches of `mm_realloc` can pass, the ascending order is a choice of this
embedding. -/
def memcpy (h : Nat → Nat) (dst src : Nat) : Nat → (Nat → Nat)
  | 0 => h
  | n + 1 => memcpy (upd h dst (h src)) (dst + 1) (src + 1) n

/-- Wrap an integer result to the range of `int`. -/
def wrapInt (z : Int) : Int := toInt (toSizeT z)

def mm_realloc (s : State) (ptr : Option Nat) (size : Nat) : Option Nat × State :=
  let raw_size := size
  if size = 0 then (none, mm_free s ptr)
  else
    match ptr with
    | none => mm_malloc s size
    | some p =>
      let size := adjust size
      let oldblock := p - 1
      let oldsize := mul32 (blk_size s oldblock) WSIZE
      let next := next_blk s oldblock
      if size ≤ oldsize then (some p, s)
      else if blk_free s next then
        let temp := toSizeT ((tag_at s next).size * WSIZE)
        if sub32 (add32 temp oldsize) size > WSIZE * MIN_BLOCK_SIZE_WORDS then
          let s1 := remove_free_block s (some next)
          let s2 := mark_block_used s1 oldblock (toInt (size / WSIZE))
          let next := next_blk s2 oldblock
          let s3 := mark_block_free s2 next (toInt (sub32 (add32 (temp / WSIZE) (oldsize / WSIZE)) (size / WSIZE)))
          (some p, add_free_block s3 (some next))
        else if sub32 (add32 temp oldsize) size ≥ 0 then
          let s1 := remove_free_block s (some next)
          (some p, mark_block_used s1 oldblock (toInt (add32 (toSizeT (tag_at s1 next).size) (oldsize / 4))))
        else if (tag_at s (next_blk s next)).size = 0 then
          let s1 := remove_free_block s (some next)
          let s2 := (extend_heap s1 (sub32 (sub32 (size / WSIZE) (oldsize / WSIZE)) (toSizeT (tag_at s1 next).size))).2
          let s3 := remove_free_block s2 (some next)
          (some p, mark_block_used s3 oldblock (toInt (size / WSIZE)))
        else if !(tag_at s (prev_blk_footer oldblock)).inuse
            ∧ wrapInt ((tag_at s (prev_blk_footer oldblock)).size * WSIZE) > 24
            ∧ add32 (add32 (toSizeT ((tag_at s (prev_blk_footer oldblock)).size * WSIZE)) oldsize) temp > size then
          let s1 := remove_free_block s (some next)
          let prev := prev_blk s1 oldblock
          let prev_size := toSizeT (tag_at s1 prev).size
          if sub32 (add32 (add32 temp oldsize) (blk_size s1 prev)) size > WSIZE * MIN_BLOCK_SIZE_WORDS then
            let s2 := remove_free_block s1 (some prev)
            let s3 := { s2 with heap := memcpy s2.heap (prev + 1) p (oldsize / WSIZE) }
            let s4 := mark_block_used s3 prev (toInt (size / WSIZE))
            let next := next_blk s4 prev
            let s5 := mark_block_free s4 next
              (toInt (sub32 (add32 (add32 (temp / WSIZE) (oldsize / WSIZE)) prev_size) (size / WSIZE)))
            (some (prev + 1), add_free_block s5 (some next))
          else
            let s2 := remove_free_block s1 (some prev)
            let s3 := { s2 with heap := memcpy s2.heap (prev + 1) p (oldsize / WSIZE) }
            (some (prev + 1),
              mark_block_used s3 prev (toInt (add32 (add32 (temp / WSIZE) (oldsize / WSIZE)) prev_size)))
        else
          match mm_malloc s raw_size with
          | (none, s1) => (none, s1)
          | (some newptr, s1) =>
            let oldsize := if size < oldsize then size else oldsize
            let s2 := { s1 with heap := memcpy s1.heap newptr p (oldsize / WSIZE) }
            (some newptr, mm_free s2 (some p))
      else if (tag_at s next).size = 0 then
        let s1 := (extend_heap s (sub32 (size / WSIZE) (oldsize / WSIZE))).2
        (some p, mark_block_used s1 oldblock (toInt (size / WSIZE)))
      else if !(tag_at s (prev_blk_footer oldblock)).inuse
          ∧ add32 (toSizeT ((tag_at s (prev_blk_footer oldblock)).size * WSIZE)) oldsize > size then
        let prev := prev_blk s oldblock
        let prev_size := toSizeT (tag_at s prev).size
        if sub32 (add32 oldsize (blk_size s prev)) size > WSIZE * MIN_BLOCK_SIZE_WORDS then
          let s1 := remove_free_block s (some prev)
          let s2 := { s1 with heap := memcpy s1.heap (prev + 1) p (oldsize / WSIZE) }
          let s3 := mark_block_used s2 prev (toInt (size / WSIZE))
          let next := next_blk s3 prev
          let s4 := mark_block_free s3 next (toInt (sub32 (add32 (oldsize / WSIZE) prev_size) (size / WSIZE)))
          (some (prev + 1), add_free_block s4 (some next))
        else
          let s1 := remove_free_block s (some prev)
          let s2 := { s1 with heap := memcpy s1.heap (prev + 1) p (oldsize / WSIZE) }
          (some (prev + 1), mark_block_used s2 prev (toInt (add32 (oldsize / WSIZE) prev_size)))
      else
        match mm_malloc s raw_size with
        | (none, s1) => (none, s1)
        | (some newptr, s1) =>
          let oldsize := if size < oldsize then size else oldsize
          let s2 := { s1 with heap := memcpy s1.heap newptr p (oldsize / WSIZE) }
          (some newptr, mm_free s2 (some p))

/-- A block of the arena: the word index of its header, its size in words, its `inuse` bit. -/
structure Blk where
  addr : Nat
  size : Nat
  used : Bool
deriving DecidableEq, Repr

/-- The blocks of `l`, laid out one after the other, cover the words from `a` up to `e`, and
each of them carries its size and `inuse` bit in its header and in its footer. -/
def Tiles (h : Nat → Nat) : Nat → List Blk → Nat → Prop
  | a, [], e => a = e
  | a, b :: bs, e =>
    b.addr = a ∧ 8 ≤ b.size ∧ b.size % 2 = 0 ∧
    word_tag (h a) = { inuse := b.used, size := (b.size : Int) } ∧
    word_tag (h (a + b.size - 1)) = { inuse := b.used, size := (b.size : Int) } ∧
    Tiles h (a + b.size) bs e

/-- No two neighbouring blocks are both free. -/
def NoAdjFree (l : List Blk) : Prop := List.Chain' (fun x y => x.used = true ∨ y.used = true) l

/-- One entry of the index: the blocks of one size, the first of them being the tree entry. -/
structure Chain where
  size : Nat
  head : Nat
  tail : List Nat

/-- The blocks of an entry, in list order. -/
def Chain.blocks (c : Chain) : List Nat := c.head :: c.tail

/-- The blocks of `l` form a doubly linked list through `prev` and `next`, the first block
having `p` as its `prev`. -/
def Linked (prev next : Nat → Option Nat) : Option Nat → List Nat → Prop
  | _, [] => True
  | p, x :: r => prev x = p ∧ next x = r.head? ∧ Linked prev next (some x) r

/-- The index of state `s` consists of the entries `cs`. -/
structure IndexOK (s : State) (cs : List Chain) : Prop where
  tree_eq : s.tree = cs.map Chain.head
  sizes_nodup : (cs.map Chain.size).Nodup
  blocks_nodup : (cs.flatMap Chain.blocks).Nodup
  linked : ∀ c ∈ cs, Linked s.prev s.next none c.blocks
  tags : ∀ c ∈ cs, ∀ b ∈ c.blocks, tag_at s b = { inuse := false, size := (c.size : Int) }

/-- Block `b` of size `sz` is held by the index `cs`. -/
def idx_mem (cs : List Chain) (b sz : Nat) : Prop := ∃ c ∈ cs, c.size = sz ∧ b ∈ c.blocks

/-- The two states agree on everything except the index linkage. -/
def same_arena (s s' : State) : Prop :=
  s'.heap = s.heap ∧ s'.brk = s.brk ∧ s'.first = s.first ∧ s'.second = s.second ∧
  s'.first_timer = s.first_timer ∧ s'.second_timer = s.second_timer

/-- The arena and index invariant: the blocks `l` tile the arena between the two fences, no
two neighbours are free, and the index `cs` holds exactly the free blocks. -/
structure Inv (s : State) (l : List Blk) (cs : List Chain) : Prop where
  brk_ge : 2 ≤ s.brk
  brk_le : s.brk * WSIZE ≤ MAX_HEAP
  pro : tag_at s 0 = FENCE
  epi : tag_at s (s.brk - 1) = FENCE
  tiles : Tiles s.heap 1 l (s.brk - 1)
  noadj : NoAdjFree l
  index : IndexOK s cs
  compl : ∀ b z, idx_mem cs b z ↔ Blk.mk b z false ∈ l

/-- The invariant with one block taken out: the block at `a` of `sz` words carries free tags and
is not in the index; `l1` are the blocks before it and `l2` the blocks behind it. -/
structure Focus (s : State) (l1 : List Blk) (a sz : Nat) (l2 : List Blk) (cs : List Chain) : Prop where
  brk_ge : 2 ≤ s.brk
  brk_le : s.brk * WSIZE ≤ MAX_HEAP
  pro : tag_at s 0 = FENCE
  epi : tag_at s (s.brk - 1) = FENCE
  tiles1 : Tiles s.heap 1 l1 a
  sz_ge : 2 ≤ sz
  sz_even : sz % 2 = 0
  hd : tag_at s a = { inuse := false, size := (sz : Int) }
  ft : tag_at s (a + sz - 1) = { inuse := false, size := (sz : Int) }
  tiles2 : Tiles s.heap (a + sz) l2 (s.brk - 1)
  noadj1 : NoAdjFree l1
  noadj2 : NoAdjFree l2
  index : IndexOK s cs
  compl : ∀ b z, idx_mem cs b z ↔ Blk.mk b z false ∈ l1 ++ l2

/-- The heap after writing the two tags of a block. -/
def write_tags (h : Nat → Nat) (a n : Nat) (u : Bool) : Nat → Nat :=
  upd (upd h a (tag_word { inuse := u, size := (n : Int) })) (a + n - 1)
    (tag_word { inuse := u, size := (n : Int) })

/-- Size of the last block of `l` when that block is free, `0` otherwise. -/
def lastFree (l : List Blk) : Nat :=
  match l.getLast? with
  | some x => if x.used then 0 else x.size
  | none => 0

/-- The list `l` without its last block when that block is free. -/
def trimLast (l : List Blk) : List Blk :=
  match l.getLast? with
  | some x => if x.used then l else l.dropLast
  | none => l

/-- Size of the first block of `l` when that block is free, `0` otherwise. -/
def headFree (l : List Blk) : Nat :=
  match l.head? with
  | some x => if x.used then 0 else x.size
  | none => 0

/-- The list `l` without its first block when that block is free. -/
def trimHead (l : List Blk) : List Blk :=
  match l.head? with
  | some x => if x.used then l else l.tail
  | none => l

/-- The two states agree on the break and on the sizing trackers. -/
def same_globals (s s' : State) : Prop :=
  s'.brk = s.brk ∧ s'.first = s.first ∧ s'.second = s.second ∧
  s'.first_timer = s.first_timer ∧ s'.second_timer = s.second_timer

/-- The blocks after `place`: the block at `a` of `sz` words receives a request of `asize`. -/
def placed (l1 : List Blk) (a sz asize : Nat) (l2 : List Blk) : List Blk :=
  if sz - asize ≥ MIN_BLOCK_SIZE_WORDS then
    l1 ++ Blk.mk a asize true :: Blk.mk (a + asize) (sz - asize) false :: l2
  else l1 ++ Blk.mk a sz true :: l2

/-- The block size in words that `mm_malloc` derives from a request. -/
def awords_of (s : State) (n : Nat) : Nat := max MIN_BLOCK_SIZE_WORDS (adjust (profile s n).1 / WSIZE)

/-- The two states agree on the sizing trackers. -/
def same_trackers (s s' : State) : Prop :=
  s'.first = s.first ∧ s'.second = s.second ∧ s'.first_timer = s.first_timer ∧
  s'.second_timer = s.second_timer

/-- The blocks after `mm_free` of the block at `a` of `sz` words. -/
def freed (l1 : List Blk) (a sz : Nat) (l2 : List Blk) : List Blk :=
  trimLast l1 ++ Blk.mk (a - lastFree l1) (lastFree l1 + sz + headFree l2) false :: trimHead l2

/-- The state of `mm_init` right before it extends the heap: two fences and no block. -/
def init_fences (s0 : State) : State :=
  set_tag (set_tag { RB_INIT s0 with brk := 2, first := DIV, second := DIV - 2, first_timer := 0, second_timer := 0 } 0 FENCE) 1 FENCE

/-- Modelled from the spec: `mem_reset_brk` of memlib, which the driver calls before each run:
the arena is empty again. -/
def mem_reset_brk (s : State) : State := { s with brk := 0 }

/-- A request of a trace: allocate `n` bytes, or free the region whose payload starts at word
`p`. -/
inductive Op where
  | alloc (n : Nat)
  | free (p : Nat)

/-- State of a run of the driver: the engine state and the range list, one record (first payload
word, size in bytes) for each live region. -/
structure Driver where
  s : State
  ranges : List (Nat × Nat)

/-- One request of a trace.  Requests outside of the contract of the engine (a size that is zero
or above `2^30`, freeing a region that is not live) are skipped. -/
def step (d : Driver) : Op → Driver
  | Op.alloc n =>
    if 0 < n ∧ n ≤ 2 ^ 30 then
      match (mm_malloc d.s n).1 with
      | some p => { s := (mm_malloc d.s n).2, ranges := (p, n) :: d.ranges }
      | none => { s := (mm_malloc d.s n).2, ranges := d.ranges }
    else d
  | Op.free p =>
    if p ∈ d.ranges.map Prod.fst then
      { s := mm_free d.s (some p), ranges := d.ranges.filter (fun r => r.1 != p) }
    else d

/-- A run of the driver: reset the arena, call `mm_init`, interpret the requests in order. -/
def run (s0 : State) (ops : List Op) : Driver :=
  ops.foldl step { s := (mm_init (mem_reset_brk s0)).2, ranges := [] }

/-- The byte ranges of two regions do not intersect (addresses relative to `mem_heap_lo()`). -/
def disjoint_ranges (r1 r2 : Nat × Nat) : Prop :=
  WSIZE * r1.1 + r1.2 ≤ WSIZE * r2.1 ∨ WSIZE * r2.1 + r2.2 ≤ WSIZE * r1.1

/-- Every live region lies in an allocated block of its own that is large enough. -/
def LiveOK (l : List Blk) (rs : List (Nat × Nat)) : Prop :=
  (rs.map Prod.fst).Nodup ∧
  ∀ r ∈ rs, 1 ≤ r.1 ∧ ∃ z, Blk.mk (r.1 - 1) z true ∈ l ∧ r.2 + 8 ≤ 4 * z

/-- The invariant of a run. -/
def DInv (d : Driver) : Prop :=
  ∃ l cs, Inv d.s l cs ∧ LiveOK l d.ranges ∧ d.s.second ≤ 82 ∧ d.s.first ≤ 2 ^ 30

/-- Walk the arena from word `a`, advancing by the size in each header, until the last word of
the arena is reached; the result lists the headers visited.  The walk fails when a header has
no positive size or when it steps over the last word. -/
def walk (s : State) : Nat → Nat → Option (List Nat)
  | 0, a => if a = s.brk - 1 then some [] else none
  | fuel + 1, a =>
    if a = s.brk - 1 then some []
    else if a < s.brk - 1 ∧ 0 < (tag_at s a).size then
      (walk s fuel (next_blk s a)).map (fun r => a :: r)
    else none

/-- The blocks of the arena, from the word after the left fence to the right fence. -/
def heap_blocks (s : State) : Option (List Nat) := walk s s.brk 1

/-- The blocks chained to `b` through `next`, `b` included. -/
def chain_of (s : State) : Nat → Nat → List Nat
  | 0, b => [b]
  | fuel + 1, b =>
    b :: (match s.next b with
      | some n => chain_of s fuel n
      | none => [])

/-- The blocks reachable from the index: the tree entries and the blocks chained to them. -/
def index_blocks (s : State) : List Nat := s.tree.flatMap (chain_of s s.brk)

/-- A fresh process: an empty arena, zeroed memory and zeroed globals. -/
def empty_state : State :=
  { heap := fun _ => 0, brk := 0, tree := [], prev := fun _ => none, next := fun _ => none,
    first := 0, second := 0, first_timer := 0, second_timer := 0 }

/-- The trace `a 0 24; a 1 24; a 2 24; f 1`: three blocks of 8 words, the middle one freed. -/
def trace7 : List Op := [Op.alloc 24, Op.alloc 24, Op.alloc 24, Op.free 10]

/-- Byte `k` of the region whose first payload word is `p`: byte `k % 4` of word `p + k / 4`. -/
def byte_at (h : Nat → Nat) (p k : Nat) : Nat := h (p + k / WSIZE) / 256 ^ (k % WSIZE) % 256

/-- A fresh process whose memory holds a pattern instead of zeroes, so that payload words can be
told apart. -/
def patterned : State := { empty_state with heap := fun w => 7 * w + 3 }

/-- The number of bytes that `mm_malloc` asks of `mem_sbrk` (through `extend_heap`) for a request
of `n` bytes when no free block fits: the block size in words, less the size of the last block
of the arena when that block is free, rounded up to an even number of words. -/
def extend_request (s : State) (n : Nat) : Nat :=
  let s1 := (profile s n).2
  let awords := awords_of s n
  let prev_boundary_tag := (mem_heap_hi s1 - 4 - PADDING) / WSIZE
  let extendwords :=
    if !(tag_at s1 prev_boundary_tag).inuse then sub32 awords (toSizeT (tag_at s1 prev_boundary_tag).size)
    else awords
  mul32 (clear_low1 (add32 extendwords 1)) WSIZE

/-- The trace of `k` cycles `p = mm_malloc 48; mm_free p`; after `mm_init` the region `p` starts
at word 2 in every cycle. -/
def cycles : Nat → List Op
  | 0 => []
  | k + 1 => cycles k ++ [Op.alloc 48, Op.free 2]

/-- The arena is one free block of 16 words, no region is live, `first` is 84 with repeat
counter 0, and `second` is 82 or 48. -/
def Idle (d : Driver) : Prop :=
  d.ranges = [] ∧ (∃ cs, Inv d.s [Blk.mk 1 16 false] cs) ∧ d.s.brk = 18 ∧
  d.s.first = 84 ∧ d.s.first_timer = 0 ∧ (d.s.second = 48 ∨ d.s.second = 82)

/-- The first step of `mm_free`, `mark_block_free(blk, blk_size(blk))`: the state in which
`mm_free` calls `coalesce`. -/
def mark_freed (s : State) (blk : Nat) : State := mark_block_free s blk (toInt (blk_size s blk))

/-- A trace for C23: four regions of 24 bytes (blocks at words 1, 9, 17 and 25), of which the
first and the third are freed; the second then has a free neighbour on either side. -/
def trace23 : List Op :=
  [Op.alloc 24, Op.alloc 24, Op.alloc 24, Op.alloc 24, Op.free 2, Op.free 18]

/-- The blocks after `mm_realloc` has grown the block at `a` (`z` words) to `A` words into its
free right neighbour of `t` words: a remainder of more than 8 words stays a free block. -/
def grown (l1 : List Blk) (a z t A : Nat) (l2 : List Blk) : List Blk :=
  if 8 < z + t - A then l1 ++ Blk.mk a A true :: Blk.mk (a + A) (z + t - A) false :: l2
  else l1 ++ Blk.mk a (z + t) true :: l2

/-- The state in which `extend_heap` calls `coalesce`: the arena has grown by `words`, the new
words are one free block that starts at the old right fence, and a new right fence follows. -/
def extended (s : State) (words : Nat) : State :=
  { s with brk := s.brk + words
           heap := upd (write_tags s.heap (s.brk - 1) words false) (s.brk - 1 + words) (tag_word FENCE) }

/-- A trace for C24: regions of 24, 100 and 24 bytes (blocks of 8, 28 and 8 words at words 1, 9
and 37), of which the second is freed. -/
def trace24 : List Op := [Op.alloc 24, Op.alloc 100, Op.alloc 24, Op.free 10]

/-- A trace for C25: regions of 24, 56 and 24 bytes (blocks of 8, 16 and 8 words at words 1, 9
and 25), of which the second is freed. -/
def trace25 : List Op := [Op.alloc 24, Op.alloc 56, Op.alloc 24, Op.free 10]

/-- A trace for C26: one region of 24 bytes; its block of 8 words is followed by a free block of
8 words, which ends at the right fence. -/
def trace26 : List Op := [Op.alloc 24]

/-- The first branch of the free-right-neighbour case of `mm_realloc` (`ptr` is the payload word
`p`, `size` the adjusted size): the neighbour leaves the index, the block is cut to `size` and
the rest becomes a free block that is put into the index. -/
def realloc_split (s : State) (p size : Nat) : State :=
  let oldblock := p - 1
  let oldsize := mul32 (blk_size s oldblock) WSIZE
  let next := next_blk s oldblock
  let temp := toSizeT ((tag_at s next).size * WSIZE)
  let s1 := remove_free_block s (some next)
  let s2 := mark_block_used s1 oldblock (toInt (size / WSIZE))
  let next := next_blk s2 oldblock
  let s3 := mark_block_free s2 next (toInt (sub32 (add32 (temp / WSIZE) (oldsize / WSIZE)) (size / WSIZE)))
  add_free_block s3 (some next)

/-- The second branch of the free-right-neighbour case of `mm_realloc`: the neighbour leaves the
index and is consumed wholly. -/
def realloc_absorb (s : State) (p : Nat) : State :=
  let oldblock := p - 1
  let oldsize := mul32 (blk_size s oldblock) WSIZE
  let next := next_blk s oldblock
  let s1 := remove_free_block s (some next)
  mark_block_used s1 oldblock (toInt (add32 (toSizeT (tag_at s1 next).size) (oldsize / 4)))

/-- The value of `temp + oldsize - size` in the free-right-neighbour case of `mm_realloc`, a
`size_t`. -/
def realloc_slack (s : State) (p size : Nat) : Nat :=
  sub32 (add32 (toSizeT ((tag_at s (next_blk s (p - 1))).size * WSIZE))
    (mul32 (blk_size s (p - 1)) WSIZE)) size

/-- A trace for C33: one region of 24 bytes, followed by a free block of 8 words. -/
def trace33 : List Op := [Op.alloc 24]

/-- A trace for C35: three regions of 24 bytes (blocks of 8 words at words 1, 9 and 17), of which
the first is freed: the second then has a free left neighbour and an allocated right one. -/
def trace35 : List Op := [Op.alloc 24, Op.alloc 24, Op.alloc 24, Op.free 2]

/-- A trace for C35: regions of 152, 24 and 24 bytes (blocks of 40, 8 and 8 words at words 1, 41
and 49), of which the first is freed. -/
def trace35b : List Op := [Op.alloc 152, Op.alloc 24, Op.alloc 24, Op.free 2]

/-- A call of the interface of the engine with arbitrary arguments. -/
inductive Call where
  | malloc (n : Nat)
  | free (p : Option Nat)
  | realloc (p : Option Nat) (n : Nat)

/-- The state after a call of the interface. -/
def call (s : State) : Call → State
  | Call.malloc n => (mm_malloc s n).2
  | Call.free p => mm_free s p
  | Call.realloc p n => (mm_realloc s p n).2

/-- The state after `mm_init` on a reset arena and a sequence of calls of the interface. -/
def calls (s0 : State) (cl : List Call) : State := cl.foldl call (mm_init (mem_reset_brk s0)).2

/-- The requested size of a call, for the calls that have one. -/
def Call.size : Call → Option Nat
  | Call.malloc n => some n
  | Call.free _ => none
  | Call.realloc _ n => some n

/-- The four tracker fields of the sizing heuristic. -/
def trackers (s : State) : Nat × Nat × Nat × Nat := (s.first, s.second, s.first_timer, s.second_timer)

/-- A trace for C31: five regions of 24 bytes (blocks of 8 words at words 1, 9, 17, 25 and 33), of
which the second and the fourth are freed: the index has one entry, the block at word 9, with
the block at word 25 chained to it. -/
def trace31 : List Op :=
  [Op.alloc 24, Op.alloc 24, Op.alloc 24, Op.alloc 24, Op.alloc 24, Op.free 10, Op.free 26]

/-- The `prev` or the `next` field of block `x` differs between the two states. -/
def link_changed (s s' : State) (x : Nat) : Prop := s'.prev x ≠ s.prev x ∨ s'.next x ≠ s.next x

/-- The public entry points of the allocator, with their arguments. -/
inductive Entry where
  | init
  | malloc (size : Nat)
  | free (bp : Option Nat)
  | realloc (ptr : Option Nat) (size : Nat)
deriving DecidableEq

/-- An event in the run of one thread: `pthread_mutex_lock(&malloc_lock)` returns,
`pthread_mutex_unlock(&malloc_lock)` is called, or a routine of `mm.c` runs on the engine
state. -/
inductive Event where
  | lock
  | unlock
  | engine (e : Entry)
deriving DecidableEq

/-- The state of a program built with `mm_ts.c` included and `THREAD_SAFE` defined, as one
thread sees it: the engine state, whether `malloc_lock` is held, and the events so far. -/
structure TsState where
  s : State
  held : Bool
  log : List Event

/-- The library routine `pthread_mutex_lock` on `malloc_lock` (a default mutex), as seen by one
thread: it takes the lock when the lock is free; when the lock is held the call does not
return. -/
def pthread_mutex_lock (t : TsState) : Option TsState :=
  if t.held then none else some { t with held := true, log := t.log ++ [Event.lock] }

/-- The library routine `pthread_mutex_unlock` on `malloc_lock`. -/
def pthread_mutex_unlock (t : TsState) : TsState :=
  { t with held := false, log := t.log ++ [Event.unlock] }

/-- The routine `mm_malloc` of `mm.c`, which `mm_ts.c` renames to
`_mm_malloc_thread_unsafe`, running on the engine state. -/
def engine_malloc (t : TsState) (size : Nat) : Option Nat × TsState :=
  ((mm_malloc t.s size).1,
    { t with s := (mm_malloc t.s size).2, log := t.log ++ [Event.engine (Entry.malloc size)] })

/-- The routine `mm_free` of `mm.c`, which `mm_ts.c` renames to `_mm_free_thread_unsafe`. -/
def engine_free (t : TsState) (bp : Option Nat) : TsState :=
  { t with s := mm_free t.s bp, log := t.log ++ [Event.engine (Entry.free bp)] }

/-- The routine `mm_realloc` of `mm.c`, which `mm_ts.c` renames to
`_mm_realloc_thread_unsafe`. -/
def engine_realloc (t : TsState) (ptr : Option Nat) (size : Nat) : Option Nat × TsState :=
  ((mm_realloc t.s ptr size).1,
    { t with s := (mm_realloc t.s ptr size).2,
             log := t.log ++ [Event.engine (Entry.realloc ptr size)] })

/-- The wrapper `mm_malloc` of `mm_ts.c`. -/
def mm_malloc_ts (t : TsState) (size : Nat) : Option (Option Nat × TsState) :=
  match pthread_mutex_lock t with
  | none => none
  | some t1 =>
    let p := engine_malloc t1 size
    some (p.1, pthread_mutex_unlock p.2)

/-- The wrapper `mm_free` of `mm_ts.c`. -/
def mm_free_ts (t : TsState) (bp : Option Nat) : Option TsState :=
  match pthread_mutex_lock t with
  | none => none
  | some t1 => some (pthread_mutex_unlock (engine_free t1 bp))

/-- The wrapper `mm_realloc` of `mm_ts.c`. -/
def mm_realloc_ts (t : TsState) (ptr : Option Nat) (size : Nat) : Option (Option Nat × TsState) :=
  match pthread_mutex_lock t with
  | none => none
  | some t1 =>
    let p := engine_realloc t1 ptr size
    some (p.1, pthread_mutex_unlock p.2)

/-- The entry point `mm_init` of a build with the wrapper enabled: `mm_ts.c` defines no wrapper
for it and does not rename it, so it is the routine of `mm.c`, running on the engine state. -/
def mm_init_ts (t : TsState) : Int × TsState :=
  ((mm_init t.s).1, { t with s := (mm_init t.s).2, log := t.log ++ [Event.engine Entry.init] })

/-- The lock discipline on a sequence of events, `held` telling whether the lock is held at its
start: the lock is taken only when free and released only when held, every engine routine runs
while the lock is held, and the lock is free at the end. -/
def disciplined : Bool → List Event → Bool
  | held, [] => !held
  | held, Event.lock :: r => !held && disciplined true r
  | held, Event.unlock :: r => held && disciplined false r
  | held, Event.engine _ :: r => held && disciplined held r

/-- A fresh process with the wrapper enabled: the lock is free and nothing has happened. -/
def ts_start : TsState := { s := empty_state, held := false, log := [] }

/-- Modelled from the spec: the size in words of the field `RB_ENTRY(block) node` of `tree.h`,
which is not part of the sources at hand: three pointers and a colour. -/
def RB_ENTRY_WORDS : Nat := 4

/-- The words that hold the fields `node`, `prev` and `next` of the `struct block` at word `b`:
the header is word `b`, the union of `payload` and `node` starts at word `b + 1`, and `prev` and
`next` follow it. -/
def link_fields (b : Nat) : List Nat := (List.range (RB_ENTRY_WORDS + 2)).map (fun i => b + 1 + i)

/-- Modelled from the spec: the blocks whose field `node` the macro `RB_INSERT` of `tree.h` may
write: the new entry and, through the links and the rebalancing of the tree, entries of the
tree. -/
def RB_INSERT_writes (s : State) (elm : Nat) : List Nat := elm :: s.tree

/-- Modelled from the spec: the blocks whose field `node` the macro `RB_REMOVE` of `tree.h` may
write: the removed entry and entries of the tree. -/
def RB_REMOVE_writes (s : State) (elm : Nat) : List Nat := elm :: s.tree

/-- The blocks to whose fields `node`, `prev` or `next` the routine `add_free_block` writes, one
item for each assignment, in the order of the source. -/
def add_writes (s : State) (bp : Option Nat) : List Nat :=
  match bp with
  | none => []
  | some b =>
    match RB_FIND s (tag_at s b).size with
    | none =>
      let s1 := { s with prev := upd s.prev b none }
      let s2 := { s1 with next := upd s1.next b none }
      [b, b] ++ RB_INSERT_writes s2 b
    | some blk =>
      let next := s.next blk
      (match next with
        | some n => [n]
        | none => []) ++ [b, blk, b]

/-- The blocks to whose fields `node`, `prev` or `next` the routine `remove_free_block` writes. -/
def remove_writes (s : State) (bp : Option Nat) : List Nat :=
  match bp with
  | none => []
  | some b =>
    match s.prev b with
    | some p =>
      match s.next b with
      | some n => [n, p, b, b]
      | none => [p, b]
    | none =>
      match s.next b with
      | some blk =>
        let s1 := { s with prev := upd s.prev blk none }
        let s2 := { s1 with next := upd s1.next b none }
        [blk, b] ++ RB_REMOVE_writes s2 b ++ RB_INSERT_writes (RB_REMOVE s2 b) blk
      | none => RB_REMOVE_writes s b

/-- The blocks to whose linkage fields a call of `coalesce` writes (through
`remove_free_block`). -/
def coalesce_writes (s : State) (bp : Nat) : List Nat :=
  let prev_alloc := (tag_at s (prev_blk_footer bp)).inuse
  let next_alloc := !(blk_free s (next_blk s bp))
  if prev_alloc && next_alloc then []
  else if prev_alloc && !next_alloc then remove_writes s (some (next_blk s bp))
  else if !prev_alloc && next_alloc then remove_writes s (some (prev_blk s bp))
  else
    let prev := prev_blk s bp
    let next := next_blk s bp
    let s1 := remove_free_block s (some next)
    remove_writes s (some next) ++ remove_writes s1 (some prev)

/-- The blocks to whose linkage fields a call of `extend_heap` writes (through `coalesce`). -/
def extend_heap_writes (s : State) (words : Nat) : List Nat :=
  let words := clear_low1 (add32 words 1)
  match mem_sbrk s (mul32 words WSIZE) with
  | none => []
  | some (bp, s1) =>
    let blk := bp - 1
    let s2 := mark_block_free s1 blk (toInt words)
    let s3 := set_tag s2 (next_blk s2 blk) FENCE
    coalesce_writes s3 blk

/-- The blocks to whose linkage fields a call of `find_fit` writes (through
`remove_free_block`). -/
def find_fit_writes (s : State) (asize : Nat) : List Nat :=
  match RB_NFIND s (sext31 (asize % 2 ^ 31)) with
  | some b => remove_writes s (some b)
  | none => []

/-- The blocks to whose linkage fields a call of `place` writes (through `add_free_block`). -/
def place_writes (s : State) (bp : Nat) (asize : Nat) : List Nat :=
  let csize := blk_size s bp
  if sub32 csize asize ≥ MIN_BLOCK_SIZE_WORDS then
    let s1 := mark_block_used s bp (toInt asize)
    let bp1 := next_blk s1 bp
    let s2 := mark_block_free s1 bp1 (toInt (sub32 csize asize))
    add_writes s2 (some bp1)
  else []

/-- The blocks to whose linkage fields a call of `mm_malloc` writes. -/
def mm_malloc_writes (s : State) (size : Nat) : List Nat :=
  if size = 0 then []
  else
    let ps := profile s size
    let s := ps.2
    let size := adjust ps.1
    let awords := max MIN_BLOCK_SIZE_WORDS (size / WSIZE)
    find_fit_writes s awords ++
    match find_fit s awords with
    | (some bp, s1) => place_writes s1 bp awords
    | (none, s1) =>
      let prev_boundary_tag := (mem_heap_hi s1 - 4 - PADDING) / WSIZE
      let extendwords :=
        if !(tag_at s1 prev_boundary_tag).inuse then sub32 awords (toSizeT (tag_at s1 prev_boundary_tag).size)
        else awords
      extend_heap_writes s1 extendwords ++
      match extend_heap s1 extendwords with
      | (none, _) => []
      | (some bp, s2) => place_writes s2 bp awords

/-- The blocks to whose linkage fields a call of `mm_free` writes. -/
def mm_free_writes (s : State) (ptr : Option Nat) : List Nat :=
  match ptr with
  | none => []
  | some p =>
    let blk := p - 1
    let s1 := mark_block_free s blk (toInt (blk_size s blk))
    let r := coalesce s1 blk
    coalesce_writes s1 blk ++ add_writes r.2 (some r.1)

/-- Block `x` is a free block of the index of state `s`, of at least `MIN_BLOCK_SIZE_WORDS`
words, and the words of its fields `node`, `prev` and `next` lie between its header (word `x`)
and its footer (word `x + blk_size s x - 1`). -/
def linkage_in_free_block (s : State) (x : Nat) : Prop :=
  x ∈ index_blocks s ∧ blk_free s x = true ∧ MIN_BLOCK_SIZE_WORDS ≤ blk_size s x ∧
  ∀ w ∈ link_fields x, x < w ∧ w < x + blk_size s x - 1

/-- A second behaviour that the C standard allows for the library routine `memcpy`: copying `n`
words in descending address order.  The standard defines `memcpy` only for ranges that do not
overlap, and there this routine and `memcpy` give the same result. -/
def memcpy_desc (h : Nat → Nat) (dst src : Nat) : Nat → (Nat → Nat)
  | 0 => h
  | n + 1 => memcpy_desc (upd h (dst + n) (h (src + n))) dst src n

/-- The branch of `mm_realloc` for an allocated right neighbour and a free left neighbour
(the block of `p` is not the last one and `size`, the adjusted size in bytes, exceeds the size
of the block), with the copy routine that stands for the library call `memcpy` as a
parameter. -/
def realloc_left_merge (cpy : (Nat → Nat) → Nat → Nat → Nat → (Nat → Nat)) (s : State) (p : Nat)
    (size : Nat) : Option Nat × State :=
  let oldblock := p - 1
  let oldsize := mul32 (blk_size s oldblock) WSIZE
  let prev := prev_blk s oldblock
  let prev_size := toSizeT (tag_at s prev).size
  if sub32 (add32 oldsize (blk_size s prev)) size > WSIZE * MIN_BLOCK_SIZE_WORDS then
    let s1 := remove_free_block s (some prev)
    let s2 := { s1 with heap := cpy s1.heap (prev + 1) p (oldsize / WSIZE) }
    let s3 := mark_block_used s2 prev (toInt (size / WSIZE))
    let next := next_blk s3 prev
    let s4 := mark_block_free s3 next (toInt (sub32 (add32 (oldsize / WSIZE) prev_size) (size / WSIZE)))
    (some (prev + 1), add_free_block s4 (some next))
  else
    let s1 := remove_free_block s (some prev)
    let s2 := { s1 with heap := cpy s1.heap (prev + 1) p (oldsize / WSIZE) }
    (some (prev + 1), mark_block_used s2 prev (toInt (add32 (oldsize / WSIZE) prev_size)))

/-- Three regions of 24, 56 and 24 bytes, the first released: the block of the second region
(16 words at word 9) has a free left neighbour of 8 words and an allocated right neighbour. -/
def trace8 : List Op := [Op.alloc 24, Op.alloc 56, Op.alloc 24, Op.free 2]

/-! ## Properties -/

theorem toSizeT_ofNat (n : Nat) (h : n < 2 ^ 32) : toSizeT (n : Int) = n := by
  unfold toSizeT
  have : ((n : Int) % (2 ^ 32 : Int)) = n := by
    apply Int.emod_eq_of_lt <;> omega
  rw [this]; simp

theorem toInt_small (n : Nat) (h : n < 2 ^ 31) : toInt n = n := by
  unfold toInt SZ
  have : n % 2 ^ 32 = n := Nat.mod_eq_of_lt (by omega)
  rw [this, if_pos h]

theorem add32_small (a b : Nat) (h : a + b < 2 ^ 32) : add32 a b = a + b := by
  unfold add32 SZ; exact Nat.mod_eq_of_lt h

theorem sub32_small (a b : Nat) (h : b ≤ a) (ha : a < 2 ^ 32) : sub32 a b = a - b := by
  unfold sub32 SZ
  have : b % 2 ^ 32 = b := Nat.mod_eq_of_lt (by omega)
  rw [this]
  omega

theorem mul32_small (a b : Nat) (h : a * b < 2 ^ 32) : mul32 a b = a * b := by
  unfold mul32 SZ; exact Nat.mod_eq_of_lt h

theorem word_tag_tag_word (u : Bool) (n : Nat) (h : n < 2 ^ 30) :
    word_tag (tag_word { inuse := u, size := (n : Int) }) = { inuse := u, size := (n : Int) } := by
  unfold word_tag tag_word sext31
  have h1 : ((n : Int) % (2 ^ 31 : Int)).toNat = n := by
    have : ((n : Int) % (2 ^ 31 : Int)) = n := by
      apply Int.emod_eq_of_lt <;> omega
    rw [this]; simp
  simp only [h1]
  cases u <;> simp <;> omega

theorem word_tag_size_bounds (w : Nat) : -(2 ^ 30 : Int) ≤ (word_tag w).size ∧ (word_tag w).size < 2 ^ 30 := by
  unfold word_tag sext31
  simp only
  have : w / 2 % 2 ^ 31 < 2 ^ 31 := Nat.mod_lt _ (by norm_num)
  split <;> omega

theorem Tiles_le {h : Nat → Nat} : ∀ {l : List Blk} {a e : Nat}, Tiles h a l e → a ≤ e
  | [], a, e, ht => by simp [Tiles] at ht; omega
  | b :: bs, a, e, ht => by
    simp only [Tiles] at ht
    have := Tiles_le ht.2.2.2.2.2
    omega

theorem Tiles_append {h : Nat → Nat} {l1 l2 : List Blk} {a e : Nat} :
    Tiles h a (l1 ++ l2) e ↔ ∃ m, Tiles h a l1 m ∧ Tiles h m l2 e := by
  induction l1 generalizing a with
  | nil => simp [Tiles]
  | cons b bs ih =>
    rw [List.cons_append]
    simp only [Tiles, ih]
    constructor
    · rintro ⟨h1, h2, h3, h4, h5, m, h6, h7⟩
      exact ⟨m, ⟨h1, h2, h3, h4, h5, h6⟩, h7⟩
    · rintro ⟨m, ⟨h1, h2, h3, h4, h5, h6⟩, h7⟩
      exact ⟨h1, h2, h3, h4, h5, m, h6, h7⟩

theorem Tiles_congr {h h' : Nat → Nat} : ∀ {l : List Blk} {a e : Nat},
    (∀ w, a ≤ w → w < e → h' w = h w) → Tiles h a l e → Tiles h' a l e
  | [], a, e, _, ht => by simpa [Tiles] using ht
  | b :: bs, a, e, hw, ht => by
    simp only [Tiles] at ht ⊢
    obtain ⟨h1, h2, h3, h4, h5, h6⟩ := ht
    have hle := Tiles_le h6
    refine ⟨h1, h2, h3, ?_, ?_, Tiles_congr (fun w hw1 hw2 => hw w (by omega) hw2) h6⟩
    · rw [hw a (by omega) (by omega)]; exact h4
    · rw [hw _ (by omega) (by omega)]; exact h5

theorem Tiles_mem {h : Nat → Nat} : ∀ {l : List Blk} {a e : Nat} {b : Blk},
    Tiles h a l e → b ∈ l →
    a ≤ b.addr ∧ b.addr + b.size ≤ e ∧ 8 ≤ b.size ∧ b.size % 2 = 0 ∧
    word_tag (h b.addr) = { inuse := b.used, size := (b.size : Int) } ∧
    word_tag (h (b.addr + b.size - 1)) = { inuse := b.used, size := (b.size : Int) }
  | [], a, e, b, _, hb => by simp at hb
  | c :: cs, a, e, b, ht, hb => by
    simp only [Tiles] at ht
    obtain ⟨h1, h2, h3, h4, h5, h6⟩ := ht
    rcases List.mem_cons.1 hb with rfl | hb
    · have := Tiles_le h6
      subst h1
      exact ⟨le_refl _, this, h2, h3, h4, h5⟩
    · have := Tiles_mem h6 hb
      refine ⟨by omega, this.2⟩

theorem Tiles_odd {h : Nat → Nat} : ∀ {l : List Blk} {a e : Nat},
    Tiles h a l e → a % 2 = 1 → e % 2 = 1 ∧ ∀ b ∈ l, b.addr % 2 = 1
  | [], a, e, ht, ha => by simp [Tiles] at ht; subst ht; simp [ha]
  | c :: cs, a, e, ht, ha => by
    simp only [Tiles] at ht
    obtain ⟨h1, h2, h3, h4, h5, h6⟩ := ht
    have := Tiles_odd h6 (by omega)
    refine ⟨this.1, ?_⟩
    intro b hb
    rcases List.mem_cons.1 hb with rfl | hb
    · omega
    · exact this.2 b hb

/-- Two blocks of a tiling with the same address are the same block. -/
theorem Tiles_addr_inj {h : Nat → Nat} {l : List Blk} {a e : Nat} {b c : Blk}
    (ht : Tiles h a l e) (hb : b ∈ l) (hc : c ∈ l) (hbc : b.addr = c.addr) : b = c := by
  induction l generalizing a with
  | nil => simp at hb
  | cons d ds ih =>
    simp only [Tiles] at ht
    obtain ⟨h1, h2, h3, h4, h5, h6⟩ := ht
    rcases List.mem_cons.1 hb with hb1 | hb1
    · rcases List.mem_cons.1 hc with hc1 | hc1
      · rw [hb1, hc1]
      · have := Tiles_mem h6 hc1
        rw [hb1] at hbc; omega
    · rcases List.mem_cons.1 hc with hc1 | hc1
      · have := Tiles_mem h6 hb1
        rw [hc1] at hbc; omega
      · exact ih h6 hb1 hc1

/-- A block is determined by its address: the tags fix size and flag. -/
theorem Tiles_mem_unique {h : Nat → Nat} {l : List Blk} {a e : Nat} {b : Blk} {x z : Nat} {u : Bool}
    (ht : Tiles h a l e) (hb : b ∈ l) (hx : b.addr = x)
    (htag : word_tag (h x) = { inuse := u, size := (z : Int) }) : b = { addr := x, size := z, used := u } := by
  have := (Tiles_mem ht hb).2.2.2.2.1
  rw [hx, htag] at this
  cases b
  simp only [boundary_tag.mk.injEq, Nat.cast_inj] at this
  simp at hx
  simp [hx, this.1, this.2]

theorem Linked_congr {prev next prev' next' : Nat → Option Nat} {l : List Nat} {p : Option Nat}
    (hx : ∀ x ∈ l, prev' x = prev x ∧ next' x = next x) (hl : Linked prev next p l) :
    Linked prev' next' p l := by
  induction l generalizing p with
  | nil => trivial
  | cons x r ih =>
    obtain ⟨h1, h2, h3⟩ := hl
    have hxx := hx x (List.mem_cons_self _ _)
    exact ⟨hxx.1.trans h1, hxx.2.trans h2, ih (fun y hy => hx y (List.mem_cons_of_mem _ hy)) h3⟩

theorem Linked_next_mem {prev next : Nat → Option Nat} {l : List Nat} {p : Option Nat} {b z : Nat}
    (hl : Linked prev next p l) (hb : b ∈ l) (hz : next b = some z) : z ∈ l := by
  induction l generalizing p with
  | nil => simp at hb
  | cons x r ih =>
    obtain ⟨_, h2, h3⟩ := hl
    rcases List.mem_cons.1 hb with hbx | hbr
    · subst hbx
      rw [hz] at h2
      cases r with
      | nil => simp at h2
      | cons y r' => simp at h2; simp [h2]
    · exact List.mem_cons_of_mem _ (ih h3 hbr)

theorem Linked_prev_mem {prev next : Nat → Option Nat} {l : List Nat} {x b : Nat} {q : Option Nat}
    (hl : Linked prev next q (x :: l)) (hb : b ∈ l) : ∃ p, prev b = some p ∧ p ∈ x :: l := by
  induction l generalizing x q with
  | nil => simp at hb
  | cons y r ih =>
    obtain ⟨_, _, h3⟩ := hl
    rcases List.mem_cons.1 hb with hby | hbr
    · subst hby
      exact ⟨x, h3.1, List.mem_cons_self _ _⟩
    · obtain ⟨p, hp1, hp2⟩ := ih h3 hbr
      exact ⟨p, hp1, List.mem_cons_of_mem _ hp2⟩

/-- Unlinking a block that is not the first of its list. -/
theorem Linked_erase {prev next prev' next' : Nat → Option Nat} {b : Nat}
    (hp : ∀ y, y ≠ b → (next b = some y → prev' y = prev b) ∧ (next b ≠ some y → prev' y = prev y))
    (hn : ∀ y, y ≠ b → (prev b = some y → next' y = next b) ∧ (prev b ≠ some y → next' y = next y))
    {l : List Nat} {x : Nat} {q : Option Nat}
    (hnd : (x :: l).Nodup) (hb : b ∈ l) (hl : Linked prev next q (x :: l)) :
    Linked prev' next' q (x :: l.erase b) := by
  induction l generalizing x q with
  | nil => simp at hb
  | cons y r ih =>
    obtain ⟨h1, h2, h3⟩ := hl
    have hxb : x ≠ b := by
      intro h; subst h; exact (List.nodup_cons.1 hnd).1 hb
    have hnd' := (List.nodup_cons.1 hnd).2
    by_cases hyb : y = b
    · subst hyb
      rw [List.erase_cons_head]
      obtain ⟨g1, g2, g3⟩ := h3
      have hxr : x ∉ r := fun h => (List.nodup_cons.1 hnd).1 (List.mem_cons_of_mem _ h)
      have hyr : y ∉ r := (List.nodup_cons.1 hnd').1
      refine ⟨?_, ?_, ?_⟩
      · rw [((hp x hxb).2 ?_), h1]
        rw [g2]; intro h
        cases r with
        | nil => simp at h
        | cons z r' => simp at h; exact hxr (by simp [h])
      · rw [(hn x hxb).1 g1, g2]
      · cases r with
        | nil => trivial
        | cons z r' =>
          obtain ⟨k1, k2, k3⟩ := g3
          have hzy : z ≠ y := fun h => hyr (by simp [h])
          have hzx : z ≠ x := fun h => hxr (by simp [h])
          refine ⟨?_, ?_, ?_⟩
          · rw [(hp z hzy).1 (by simpa using g2), g1]
          · rw [(hn z hzy).2 (by rw [g1]; simpa using hzx.symm), k2]
          · apply Linked_congr _ k3
            intro w hw
            have hwy : w ≠ y := fun h => hyr (by simp [← h, hw])
            have hwx : w ≠ x := fun h => hxr (by simp [← h, hw])
            have hwz : w ≠ z := by
              intro h
              have := (List.nodup_cons.1 hnd').2
              exact (List.nodup_cons.1 this).1 (h ▸ hw)
            refine ⟨(hp w hwy).2 ?_, (hn w hwy).2 ?_⟩
            · rw [g2]; simpa using hwz.symm
            · rw [g1]; simpa using hwx.symm
    · have hbr : b ∈ r := by
        rcases List.mem_cons.1 hb with h | h
        · exact absurd h.symm hyb
        · exact h
      have hne : List.erase (y :: r) b = y :: r.erase b := by
        rw [List.erase_cons_tail]
        simpa using hyb
      rw [hne]
      have ih' := ih hnd' hbr h3
      refine ⟨?_, ?_, ih'⟩
      · rw [(hp x hxb).2 ?_, h1]
        intro h
        have := Linked_next_mem h3 (List.mem_cons_of_mem _ hbr) h
        exact (List.nodup_cons.1 hnd).1 this
      · rw [(hn x hxb).2 ?_, h2]
        · rfl
        · intro h
          obtain ⟨p, hp1, hp2⟩ := Linked_prev_mem h3 hbr
          rw [hp1] at h
          simp at h
          subst h
          exact (List.nodup_cons.1 hnd).1 hp2

theorem find?_congr_mem {α : Type} {p q : α → Bool} {l : List α} (h : ∀ x ∈ l, p x = q x) :
    l.find? p = l.find? q := by
  induction l with
  | nil => rfl
  | cons x r ih =>
    simp only [List.find?_cons, h x (List.mem_cons_self _ _)]
    rw [ih (fun y hy => h y (List.mem_cons_of_mem _ hy))]

theorem RB_FIND_eq {s : State} {cs : List Chain} (hi : IndexOK s cs) (z : Int) :
    RB_FIND s z = (cs.find? (fun c => decide ((c.size : Int) = z))).map Chain.head := by
  unfold RB_FIND
  rw [hi.tree_eq, List.find?_map]
  congr 1
  apply find?_congr_mem
  intro c hc
  have := hi.tags c hc c.head (List.mem_cons_self _ _)
  simp only [Function.comp, this, block_compare]
  apply decide_eq_decide.2
  constructor <;> intro h <;> omega

theorem IndexOK_heads_blocks {s : State} {cs : List Chain} (_hi : IndexOK s cs) {c : Chain} (hc : c ∈ cs) :
    c.head ∈ cs.flatMap Chain.blocks :=
  List.mem_flatMap.2 ⟨c, hc, List.mem_cons_self _ _⟩

theorem idx_mem_iff_flatMap {cs : List Chain} {b : Nat} :
    (∃ z, idx_mem cs b z) ↔ b ∈ cs.flatMap Chain.blocks := by
  simp only [idx_mem, List.mem_flatMap]
  constructor
  · rintro ⟨z, c, hc, _, hb⟩; exact ⟨c, hc, hb⟩
  · rintro ⟨c, hc, hb⟩; exact ⟨c.size, c, hc, rfl, hb⟩

theorem nodup_append3 {α : Type} {A B C : List α} :
    (A ++ (B ++ C)).Nodup ↔
      A.Nodup ∧ B.Nodup ∧ C.Nodup ∧ (∀ x ∈ A, x ∉ B) ∧ (∀ x ∈ A, x ∉ C) ∧ (∀ x ∈ B, x ∉ C) := by
  constructor
  · intro h
    obtain ⟨h1, h2, h5⟩ := List.nodup_append.1 h
    obtain ⟨h2, h3, h4⟩ := List.nodup_append.1 h2
    refine ⟨h1, h2, h3, ?_, ?_, ?_⟩
    · intro x hx hb; exact h5 hx (List.mem_append_left _ hb)
    · intro x hx hc; exact h5 hx (List.mem_append_right _ hc)
    · intro x hx hc; exact h4 hx hc
  · rintro ⟨h1, h2, h3, h4, h5, h6⟩
    refine List.nodup_append.2 ⟨h1, List.nodup_append.2 ⟨h2, h3, ?_⟩, ?_⟩
    · intro x hx hc; exact h6 x hx hc
    · intro x hx hbc
      rcases List.mem_append.1 hbc with hb | hc
      · exact h4 x hx hb
      · exact h5 x hx hc

theorem IndexOK_split_nodup {s : State} {cs1 cs2 : List Chain} {c : Chain}
    (hi : IndexOK s (cs1 ++ c :: cs2)) :
    (cs1.flatMap Chain.blocks).Nodup ∧ c.blocks.Nodup ∧ (cs2.flatMap Chain.blocks).Nodup ∧
    (∀ x ∈ cs1.flatMap Chain.blocks, x ∉ c.blocks) ∧
    (∀ x ∈ cs1.flatMap Chain.blocks, x ∉ cs2.flatMap Chain.blocks) ∧
    (∀ x ∈ c.blocks, x ∉ cs2.flatMap Chain.blocks) := by
  have hnd := hi.blocks_nodup
  rw [List.flatMap_append, List.flatMap_cons] at hnd
  exact nodup_append3.1 hnd

/-- Replace one entry by an entry with the same head and size. -/
theorem IndexOK_replace {s s' : State} {cs1 cs2 : List Chain} {c c' : Chain}
    (hi : IndexOK s (cs1 ++ c :: cs2))
    (hheap : s'.heap = s.heap) (htree : s'.tree = s.tree)
    (hhead : c'.head = c.head) (hsize : c'.size = c.size)
    (hnd : c'.blocks.Nodup)
    (htags : ∀ x ∈ c'.blocks, tag_at s x = { inuse := false, size := (c.size : Int) })
    (hdisj : ∀ x ∈ c'.blocks, ∀ d ∈ cs1 ++ cs2, x ∉ d.blocks)
    (hlinked : Linked s'.prev s'.next none c'.blocks)
    (hframe : ∀ d ∈ cs1 ++ cs2, ∀ x ∈ d.blocks, s'.prev x = s.prev x ∧ s'.next x = s.next x) :
    IndexOK s' (cs1 ++ c' :: cs2) := by
  have htag' : ∀ x, tag_at s' x = tag_at s x := fun x => by simp [tag_at, hheap]
  refine ⟨?_, ?_, ?_, ?_, ?_⟩
  · rw [htree, hi.tree_eq]; simp [hhead]
  · have := hi.sizes_nodup
    simpa [hsize] using this
  · obtain ⟨n1, _, n3, _, n5, _⟩ := IndexOK_split_nodup hi
    rw [List.flatMap_append, List.flatMap_cons]
    refine nodup_append3.2 ⟨n1, hnd, n3, ?_, n5, ?_⟩
    · intro x hx1 hx
      obtain ⟨d, hd, hxd⟩ := List.mem_flatMap.1 hx1
      exact hdisj x hx d (List.mem_append_left _ hd) hxd
    · intro x hx hx2
      obtain ⟨d, hd, hxd⟩ := List.mem_flatMap.1 hx2
      exact hdisj x hx d (List.mem_append_right _ hd) hxd
  · intro d hd
    rcases List.mem_append.1 hd with h | h
    · exact Linked_congr (hframe d (List.mem_append_left _ h)) (hi.linked d (List.mem_append_left _ h))
    · rcases List.mem_cons.1 h with h | h
      · subst h; exact hlinked
      · exact Linked_congr (hframe d (List.mem_append_right _ h))
          (hi.linked d (List.mem_append_right _ (List.mem_cons_of_mem _ h)))
  · intro d hd x hx
    rw [htag']
    rcases List.mem_append.1 hd with h | h
    · exact hi.tags d (List.mem_append_left _ h) x hx
    · rcases List.mem_cons.1 h with h | h
      · subst h; rw [hsize]; exact htags x hx
      · exact hi.tags d (List.mem_append_right _ (List.mem_cons_of_mem _ h)) x hx

/-- Drop one entry of the index. -/
theorem IndexOK_drop {s s' : State} {cs1 cs2 : List Chain} {c : Chain}
    (hi : IndexOK s (cs1 ++ c :: cs2))
    (hheap : s'.heap = s.heap) (htree : s'.tree = s.tree.erase c.head)
    (hframe : ∀ d ∈ cs1 ++ cs2, ∀ x ∈ d.blocks, s'.prev x = s.prev x ∧ s'.next x = s.next x) :
    IndexOK s' (cs1 ++ cs2) := by
  have htag' : ∀ x, tag_at s' x = tag_at s x := fun x => by simp [tag_at, hheap]
  obtain ⟨n1, _, n3, n4, n5, _⟩ := IndexOK_split_nodup hi
  refine ⟨?_, ?_, ?_, ?_, ?_⟩
  · rw [htree, hi.tree_eq, List.map_append, List.map_cons, List.erase_append_right, List.erase_cons_head,
      List.map_append]
    intro h
    obtain ⟨d, hd, hdh⟩ := List.mem_map.1 h
    exact n4 c.head (List.mem_flatMap.2 ⟨d, hd, by rw [← hdh]; exact List.mem_cons_self _ _⟩)
      (List.mem_cons_self _ _)
  · have := hi.sizes_nodup
    simp only [List.map_append, List.map_cons] at this ⊢
    exact (List.nodup_cons.1 (List.nodup_middle.1 this)).2
  · rw [List.flatMap_append, List.nodup_append, List.disjoint_left]
    exact ⟨n1, n3, fun x hx => n5 x hx⟩
  · intro d hd
    refine Linked_congr (hframe d hd) (hi.linked d ?_)
    rcases List.mem_append.1 hd with h | h
    · exact List.mem_append_left _ h
    · exact List.mem_append_right _ (List.mem_cons_of_mem _ h)
  · intro d hd x hx
    rw [htag']
    refine hi.tags d ?_ x hx
    rcases List.mem_append.1 hd with h | h
    · exact List.mem_append_left _ h
    · exact List.mem_append_right _ (List.mem_cons_of_mem _ h)

/-- Add a new entry in front of the index. -/
theorem IndexOK_cons {s s' : State} {cs : List Chain} {c : Chain}
    (hi : IndexOK s cs)
    (hheap : s'.heap = s.heap) (htree : s'.tree = c.head :: s.tree)
    (hsize : ∀ d ∈ cs, d.size ≠ c.size)
    (hnd : c.blocks.Nodup)
    (htags : ∀ x ∈ c.blocks, tag_at s x = { inuse := false, size := (c.size : Int) })
    (hdisj : ∀ x ∈ c.blocks, ∀ d ∈ cs, x ∉ d.blocks)
    (hlinked : Linked s'.prev s'.next none c.blocks)
    (hframe : ∀ d ∈ cs, ∀ x ∈ d.blocks, s'.prev x = s.prev x ∧ s'.next x = s.next x) :
    IndexOK s' (c :: cs) := by
  have htag' : ∀ x, tag_at s' x = tag_at s x := fun x => by simp [tag_at, hheap]
  refine ⟨?_, ?_, ?_, ?_, ?_⟩
  · rw [htree, hi.tree_eq]; rfl
  · rw [List.map_cons, List.nodup_cons]
    refine ⟨?_, hi.sizes_nodup⟩
    intro h
    obtain ⟨d, hd, hdh⟩ := List.mem_map.1 h
    exact hsize d hd hdh
  · rw [List.flatMap_cons, List.nodup_append]
    refine ⟨hnd, hi.blocks_nodup, ?_⟩
    rw [List.disjoint_left]
    intro x hx h
    obtain ⟨d, hd, hxd⟩ := List.mem_flatMap.1 h
    exact hdisj x hx d hd hxd
  · intro d hd
    rcases List.mem_cons.1 hd with h | h
    · subst h; exact hlinked
    · exact Linked_congr (hframe d h) (hi.linked d h)
  · intro d hd x hx
    rw [htag']
    rcases List.mem_cons.1 hd with h | h
    · subst h; exact htags x hx
    · exact hi.tags d h x hx

/-- Blocks of two different entries of an index are different. -/
theorem IndexOK_disj {s : State} {cs1 cs2 : List Chain} {c : Chain}
    (hi : IndexOK s (cs1 ++ c :: cs2)) : ∀ x ∈ c.blocks, ∀ d ∈ cs1 ++ cs2, x ∉ d.blocks := by
  obtain ⟨_, _, _, n4, _, n6⟩ := IndexOK_split_nodup hi
  intro x hx d hd hxd
  rcases List.mem_append.1 hd with h | h
  · exact n4 x (List.mem_flatMap.2 ⟨d, h, hxd⟩) hx
  · exact n6 x hx (List.mem_flatMap.2 ⟨d, h, hxd⟩)

theorem IndexOK_chain_nodup {s : State} {cs : List Chain} {c : Chain}
    (hi : IndexOK s cs) (hc : c ∈ cs) : c.blocks.Nodup := by
  have := (List.nodup_flatMap.1 hi.blocks_nodup).1 c hc
  exact this

theorem IndexOK_size_inj {s : State} {cs1 cs2 : List Chain} {c : Chain}
    (hi : IndexOK s (cs1 ++ c :: cs2)) : ∀ d ∈ cs1 ++ cs2, d.size ≠ c.size := by
  have := hi.sizes_nodup
  simp only [List.map_append, List.map_cons] at this
  have h2 := (List.nodup_cons.1 (List.nodup_middle.1 this)).1
  intro d hd hds
  apply h2
  rw [← List.map_append, ← hds]
  exact List.mem_map_of_mem _ hd

theorem same_arena_refl (s : State) : same_arena s s := ⟨rfl, rfl, rfl, rfl, rfl, rfl⟩

theorem same_arena_trans {s s' s'' : State} (h1 : same_arena s s') (h2 : same_arena s' s'') :
    same_arena s s'' :=
  ⟨h2.1.trans h1.1, h2.2.1.trans h1.2.1, h2.2.2.1.trans h1.2.2.1, h2.2.2.2.1.trans h1.2.2.2.1,
    h2.2.2.2.2.1.trans h1.2.2.2.2.1, h2.2.2.2.2.2.trans h1.2.2.2.2.2⟩

theorem RB_INSERT_same (s : State) (b : Nat) : same_arena s (RB_INSERT s b) := by
  unfold RB_INSERT
  split <;> exact ⟨rfl, rfl, rfl, rfl, rfl, rfl⟩

theorem add_free_block_same (s : State) (bp : Option Nat) : same_arena s (add_free_block s bp) := by
  unfold add_free_block
  split
  · exact same_arena_refl s
  · split
    · exact same_arena_trans ⟨rfl, rfl, rfl, rfl, rfl, rfl⟩ (RB_INSERT_same _ _)
    · dsimp only
      split <;> exact ⟨rfl, rfl, rfl, rfl, rfl, rfl⟩

theorem remove_free_block_same (s : State) (bp : Option Nat) : same_arena s (remove_free_block s bp) := by
  unfold remove_free_block
  split
  · exact same_arena_refl s
  · split
    · split <;> exact ⟨rfl, rfl, rfl, rfl, rfl, rfl⟩
    · split
      · exact same_arena_trans ⟨rfl, rfl, rfl, rfl, rfl, rfl⟩ (RB_INSERT_same _ _)
      · exact ⟨rfl, rfl, rfl, rfl, rfl, rfl⟩

theorem RB_FIND_congr {s s' : State} (h1 : s'.heap = s.heap) (h2 : s'.tree = s.tree) (z : Int) :
    RB_FIND s' z = RB_FIND s z := by
  unfold RB_FIND tag_at
  rw [h1, h2]

theorem upd_same {α : Type} (f : Nat → α) (a : Nat) (v : α) : upd f a v a = v := by simp [upd]

theorem upd_other {α : Type} (f : Nat → α) (a : Nat) (v : α) (x : Nat) (h : x ≠ a) : upd f a v x = f x := by
  simp [upd, h]

theorem idx_mem_split {cs1 cs2 : List Chain} {c : Chain} {x z : Nat} :
    idx_mem (cs1 ++ c :: cs2) x z ↔ (idx_mem (cs1 ++ cs2) x z ∨ (c.size = z ∧ x ∈ c.blocks)) := by
  simp only [idx_mem, List.mem_append, List.mem_cons]
  constructor
  · rintro ⟨d, (hd | hd | hd), h1, h2⟩
    · exact Or.inl ⟨d, Or.inl hd, h1, h2⟩
    · rw [hd] at h1 h2; exact Or.inr ⟨h1, h2⟩
    · exact Or.inl ⟨d, Or.inr hd, h1, h2⟩
  · rintro (⟨d, (hd | hd), h1, h2⟩ | ⟨h1, h2⟩)
    · exact ⟨d, Or.inl hd, h1, h2⟩
    · exact ⟨d, Or.inr (Or.inr hd), h1, h2⟩
    · exact ⟨c, Or.inr (Or.inl rfl), h1, h2⟩

theorem idx_mem_cons {cs : List Chain} {c : Chain} {x z : Nat} :
    idx_mem (c :: cs) x z ↔ (idx_mem cs x z ∨ (c.size = z ∧ x ∈ c.blocks)) :=
  @idx_mem_split [] cs c x z

theorem add_free_block_spec {s : State} {cs : List Chain} {b sz : Nat} (hi : IndexOK s cs)
    (htag : tag_at s b = { inuse := false, size := (sz : Int) })
    (hb : b ∉ cs.flatMap Chain.blocks) :
    ∃ cs', IndexOK (add_free_block s (some b)) cs' ∧
      ∀ x z, idx_mem cs' x z ↔ (idx_mem cs x z ∨ (x = b ∧ z = sz)) := by
  have hbd : ∀ d ∈ cs, b ∉ d.blocks := fun d hd hbd => hb (List.mem_flatMap.2 ⟨d, hd, hbd⟩)
  unfold add_free_block
  simp only [htag]
  rw [RB_FIND_eq hi]
  cases hfind : cs.find? (fun c => decide ((c.size : Int) = (sz : Int))) with
  | none =>
    simp only [Option.map_none']
    have hsz : ∀ d ∈ cs, d.size ≠ sz := by
      intro d hd hds
      have := List.find?_eq_none.1 hfind d hd
      simp [hds] at this
    have hins : RB_FIND { s with prev := upd s.prev b none, next := upd s.next b none } (sz : Int) = none :=
      (RB_FIND_congr (s := s) rfl rfl _).trans (by rw [RB_FIND_eq hi, hfind]; rfl)
    have htag2 : tag_at { s with prev := upd s.prev b none, next := upd s.next b none } b
        = { inuse := false, size := (sz : Int) } := htag
    unfold RB_INSERT
    simp only [htag2, hins]
    refine ⟨{ size := sz, head := b, tail := [] } :: cs, ?_, ?_⟩
    · refine IndexOK_cons hi (show _ = s.heap from rfl)
        (show _ = Chain.head { size := sz, head := b, tail := [] } :: s.tree from rfl) ?_ ?_ ?_ ?_ ?_ ?_
      · exact hsz
      · simp [Chain.blocks]
      · intro x hx
        simp [Chain.blocks] at hx
        subst hx; exact htag
      · intro x hx d hd
        simp [Chain.blocks] at hx
        subst hx; exact hbd d hd
      · simp [Chain.blocks, Linked, upd_same]
      · intro d hd x hx
        have hxb : x ≠ b := fun h => hbd d hd (h ▸ hx)
        simp [upd_other _ _ _ _ hxb]
    · intro x z
      rw [idx_mem_cons]
      simp only [Chain.blocks, List.mem_singleton]
      constructor
      · rintro (h | ⟨h1, h2⟩)
        · exact Or.inl h
        · exact Or.inr ⟨h2, h1.symm⟩
      · rintro (h | ⟨h1, h2⟩)
        · exact Or.inl h
        · exact Or.inr ⟨h2.symm, h1⟩
  | some c =>
    simp only [Option.map_some']
    obtain ⟨hcs, cs1, cs2, hsplit, _⟩ := List.find?_eq_some.1 hfind
    have hcsz : c.size = sz := by simpa using hcs
    subst hsplit
    have hc : c ∈ cs1 ++ c :: cs2 := by simp
    have hl := hi.linked c hc
    have hnd := IndexOK_chain_nodup hi hc
    have hdisj := IndexOK_disj hi
    have hbc : b ∉ c.blocks := hbd c hc
    simp only [Chain.blocks] at hl hnd hbc
    obtain ⟨l1, l2, l3⟩ := hl
    have hhb : c.head ≠ b := fun h => hbc (by simp [h])
    have hbd2 : ∀ d ∈ cs1 ++ cs2, b ∉ d.blocks := by
      intro d hd
      apply hbd d
      rcases List.mem_append.1 hd with h | h
      · exact List.mem_append_left _ h
      · exact List.mem_append_right _ (List.mem_cons_of_mem _ h)
    refine ⟨cs1 ++ { size := c.size, head := c.head, tail := b :: c.tail } :: cs2, ?_, ?_⟩
    · refine IndexOK_replace hi ?_ ?_ rfl rfl ?_ ?_ ?_ ?_ ?_
      · dsimp only; split <;> rfl
      · dsimp only; split <;> rfl
      · simp only [Chain.blocks]
        rw [List.nodup_cons] at hnd ⊢
        refine ⟨?_, List.nodup_cons.2 ⟨?_, hnd.2⟩⟩
        · intro h
          rcases List.mem_cons.1 h with h | h
          · exact hhb h
          · exact hnd.1 h
        · intro h; exact hbc (List.mem_cons_of_mem _ h)
      · intro x hx
        simp only [Chain.blocks, List.mem_cons] at hx
        rcases hx with h | h | h
        · subst h; exact hi.tags c hc _ (List.mem_cons_self _ _)
        · subst h; rw [hcsz]; exact htag
        · exact hi.tags c hc _ (List.mem_cons_of_mem _ h)
      · intro x hx d hd
        simp only [Chain.blocks, List.mem_cons] at hx
        rcases hx with h | h | h
        · subst h; exact hdisj _ (List.mem_cons_self _ _) d hd
        · subst h; exact hbd2 d hd
        · exact hdisj _ (List.mem_cons_of_mem _ h) d hd
      · show Linked _ _ none (c.head :: b :: c.tail)
        cases htl : c.tail with
        | nil =>
          have hn : s.next c.head = none := by rw [l2, htl]; rfl
          simp only [hn, Linked, List.head?_cons, List.head?_nil, and_true]
          refine ⟨?_, ?_, ?_, ?_⟩
          · rw [upd_other _ _ _ _ hhb]; exact l1
          · rw [upd_same]
          · rw [upd_same]
          · rw [upd_other _ _ _ _ hhb.symm, upd_same]
        | cons y r =>
          rw [htl] at l3 hnd hbc
          have hn : s.next c.head = some y := by rw [l2, htl]; rfl
          obtain ⟨k1, k2, k3⟩ := l3
          have hyb : y ≠ b := fun h => hbc (by simp [h])
          have hyh : y ≠ c.head := fun h => (List.nodup_cons.1 hnd).1 (by simp [h])
          simp only [hn, Linked, List.head?_cons]
          refine ⟨?_, ?_, ?_, ?_, ?_, ?_, ?_⟩
          · rw [upd_other _ _ _ _ hhb, upd_other _ _ _ _ hyh.symm]; exact l1
          · rw [upd_same]
          · rw [upd_same]
          · rw [upd_other _ _ _ _ hhb.symm, upd_same]
          · rw [upd_other _ _ _ _ hyb, upd_same]
          · rw [upd_other _ _ _ _ hyh, upd_other _ _ _ _ hyb]; exact k2
          · apply Linked_congr _ k3
            intro w hw
            have hwb : w ≠ b := fun h => hbc (by simp [← h, hw])
            have hwh : w ≠ c.head := fun h => (List.nodup_cons.1 hnd).1 (by simp [← h, hw])
            have hwy : w ≠ y := fun h => (List.nodup_cons.1 (List.nodup_cons.1 hnd).2).1 (h ▸ hw)
            simp [upd_other _ _ _ _ hwb, upd_other _ _ _ _ hwh, upd_other _ _ _ _ hwy]
      · intro d hd x hx
        have hxb : x ≠ b := fun h => hbd2 d hd (h ▸ hx)
        have hxh : x ≠ c.head := fun h => hdisj _ (List.mem_cons_self _ _) d hd (h ▸ hx)
        have hxt : ∀ y, s.next c.head = some y → x ≠ y := by
          intro y hy h
          rw [l2] at hy
          have : y ∈ c.tail := by
            cases htl : c.tail with
            | nil => simp [htl] at hy
            | cons y' r => simp [htl] at hy; simp [hy]
          exact hdisj _ (List.mem_cons_of_mem _ this) d hd (h ▸ hx)
        dsimp only
        split
        · rename_i n hn
          simp [upd_other _ _ _ _ hxb, upd_other _ _ _ _ hxh, upd_other _ _ _ _ (hxt n hn)]
        · simp [upd_other _ _ _ _ hxb, upd_other _ _ _ _ hxh]
    · intro x z
      rw [idx_mem_split, idx_mem_split]
      simp only [Chain.blocks, List.mem_cons]
      constructor
      · rintro (h | ⟨h1, (h | h | h)⟩)
        · exact Or.inl (Or.inl h)
        · exact Or.inl (Or.inr ⟨h1, Or.inl h⟩)
        · exact Or.inr ⟨h, by rw [← h1, hcsz]⟩
        · exact Or.inl (Or.inr ⟨h1, Or.inr h⟩)
      · rintro ((h | ⟨h1, (h | h)⟩) | ⟨h1, h2⟩)
        · exact Or.inl h
        · exact Or.inr ⟨h1, Or.inl h⟩
        · exact Or.inr ⟨h1, Or.inr (Or.inr h)⟩
        · exact Or.inr ⟨by rw [hcsz, h2], Or.inr (Or.inl h1)⟩

theorem remove_free_block_spec {s : State} {cs : List Chain} {b : Nat} (hi : IndexOK s cs)
    (hb : b ∈ cs.flatMap Chain.blocks) :
    ∃ cs', IndexOK (remove_free_block s (some b)) cs' ∧
      ∀ x z, idx_mem cs' x z ↔ (idx_mem cs x z ∧ x ≠ b) := by
  obtain ⟨c, hc, hbc⟩ := List.mem_flatMap.1 hb
  obtain ⟨cs1, cs2, hsplit⟩ := List.append_of_mem hc
  subst hsplit
  have hl := hi.linked c hc
  have hnd := IndexOK_chain_nodup hi hc
  have hdisj := IndexOK_disj hi
  have hsz := IndexOK_size_inj hi
  have hob : ∀ d ∈ cs1 ++ cs2, ∀ x ∈ d.blocks, x ∉ c.blocks := fun d hd x hx hxc => hdisj x hxc d hd hx
  simp only [Chain.blocks] at hl hnd hbc
  rcases List.mem_cons.1 hbc with hbh | hbt
  · -- the block is the tree entry
    obtain ⟨l1, l2, l3⟩ := hl
    rw [← hbh] at l1 l2 l3 hnd
    unfold remove_free_block
    simp only [l1]
    cases htl : c.tail with
    | nil =>
      have hn : s.next b = none := by rw [l2, htl]; rfl
      simp only [hn]
      refine ⟨cs1 ++ cs2, IndexOK_drop hi rfl (by rw [← hbh]; rfl) (fun _ _ _ _ => ⟨rfl, rfl⟩), ?_⟩
      intro x z
      rw [idx_mem_split]
      simp only [Chain.blocks, htl, List.mem_singleton, ← hbh]
      constructor
      · intro h
        refine ⟨Or.inl h, ?_⟩
        obtain ⟨d, hd, _, hxd⟩ := h
        intro hxb
        exact hob d hd x hxd (by simp [Chain.blocks, hxb, hbh])
      · rintro ⟨(h | ⟨_, h⟩), hxb⟩
        · exact h
        · exact absurd h hxb
    | cons y r =>
      have hn : s.next b = some y := by rw [l2, htl]; rfl
      rw [htl] at l3 hnd
      obtain ⟨k1, k2, k3⟩ := l3
      have hyb : y ≠ b := fun h => (List.nodup_cons.1 hnd).1 (by simp [h])
      simp only [hn]
      have hmid : IndexOK (RB_REMOVE { s with prev := upd s.prev y none, next := upd s.next b none } b)
          (cs1 ++ cs2) := by
        refine IndexOK_drop hi rfl (by rw [← hbh]; rfl) ?_
        intro d hd x hx
        have hxb : x ≠ b := fun h => hob d hd x hx (by simp [Chain.blocks, h, hbh])
        have hxy : x ≠ y := fun h => hob d hd x hx (by simp [Chain.blocks, h, htl])
        show upd s.prev y none x = s.prev x ∧ upd s.next b none x = s.next x
        rw [upd_other _ _ _ _ hxy, upd_other _ _ _ _ hxb]
        exact ⟨rfl, rfl⟩
      have hytag : tag_at s y = { inuse := false, size := (c.size : Int) } :=
        hi.tags c hc y (by simp [Chain.blocks, htl])
      have hfind : RB_FIND (RB_REMOVE { s with prev := upd s.prev y none, next := upd s.next b none } b)
          (c.size : Int) = none := by
        rw [RB_FIND_eq hmid]
        have : List.find? (fun d : Chain => decide ((d.size : Int) = (c.size : Int))) (cs1 ++ cs2) = none := by
          apply List.find?_eq_none.2
          intro d hd
          have := hsz d hd
          simpa using this
        rw [this]; rfl
      have hytag2 : tag_at (RB_REMOVE { s with prev := upd s.prev y none, next := upd s.next b none } b) y
          = { inuse := false, size := (c.size : Int) } := hytag
      unfold RB_INSERT
      simp only [hytag2, hfind]
      refine ⟨{ size := c.size, head := y, tail := r } :: (cs1 ++ cs2), ?_, ?_⟩
      · refine IndexOK_cons hmid (show _ = (RB_REMOVE _ b).heap from rfl)
          (show _ = Chain.head { size := c.size, head := y, tail := r } :: (RB_REMOVE _ b).tree from rfl)
          ?_ ?_ ?_ ?_ ?_ ?_
        · exact hsz
        · exact (List.nodup_cons.1 hnd).2
        · intro x hx
          exact hi.tags c hc x (by simp only [Chain.blocks, htl]; exact List.mem_cons_of_mem _ hx)
        · intro x hx d hd hxd
          exact hob d hd x hxd (by simp only [Chain.blocks, htl]; exact List.mem_cons_of_mem _ hx)
        · show Linked (upd s.prev y none) (upd s.next b none) none (y :: r)
          simp only [Linked]
          refine ⟨upd_same _ _ _, ?_, ?_⟩
          · rw [upd_other _ _ _ _ hyb]; exact k2
          · apply Linked_congr _ k3
            intro w hw
            have hwy : w ≠ y := fun h => (List.nodup_cons.1 (List.nodup_cons.1 hnd).2).1 (h ▸ hw)
            have hwb : w ≠ b := fun h => (List.nodup_cons.1 hnd).1 (by simp [← h, hw])
            rw [upd_other _ _ _ _ hwy, upd_other _ _ _ _ hwb]
            exact ⟨rfl, rfl⟩
        · intro d hd x hx
          exact ⟨rfl, rfl⟩
      · intro x z
        rw [idx_mem_cons, idx_mem_split]
        simp only [Chain.blocks, htl, List.mem_cons, ← hbh]
        constructor
        · rintro (h | ⟨h1, h2⟩)
          · refine ⟨Or.inl h, ?_⟩
            obtain ⟨d, hd, _, hxd⟩ := h
            intro hxb
            exact hob d hd x hxd (by simp [Chain.blocks, hxb, hbh])
          · refine ⟨Or.inr ⟨h1, Or.inr h2⟩, ?_⟩
            intro hxb
            apply (List.nodup_cons.1 hnd).1
            rw [← hxb]
            exact List.mem_cons.2 h2
        · rintro ⟨(h | ⟨h1, (h | h)⟩), hxb⟩
          · exact Or.inl h
          · exact absurd h hxb
          · exact Or.inr ⟨h1, h⟩
  · -- the block is chained behind the tree entry
    obtain ⟨p, hp1, hp2⟩ := Linked_prev_mem hl hbt
    have hbh : b ≠ c.head := fun h => (List.nodup_cons.1 hnd).1 (h ▸ hbt)
    have hkey : ∀ s' : State, s'.heap = s.heap → s'.tree = s.tree →
        (∀ y, y ≠ b → (s.next b = some y → s'.prev y = s.prev b) ∧ (s.next b ≠ some y → s'.prev y = s.prev y)) →
        (∀ y, y ≠ b → (s.prev b = some y → s'.next y = s.next b) ∧ (s.prev b ≠ some y → s'.next y = s.next y)) →
        ∃ cs', IndexOK s' cs' ∧ ∀ x z, idx_mem cs' x z ↔ (idx_mem (cs1 ++ c :: cs2) x z ∧ x ≠ b) := by
      intro s' hheap htree hp hn
      refine ⟨cs1 ++ { size := c.size, head := c.head, tail := c.tail.erase b } :: cs2, ?_, ?_⟩
      · refine IndexOK_replace hi hheap htree rfl rfl ?_ ?_ ?_ ?_ ?_
        · simp only [Chain.blocks]
          rw [List.nodup_cons] at hnd ⊢
          exact ⟨fun h => hnd.1 (List.mem_of_mem_erase h), hnd.2.erase _⟩
        · intro x hx
          apply hi.tags c hc x
          simp only [Chain.blocks, List.mem_cons] at hx ⊢
          rcases hx with h | h
          · exact Or.inl h
          · exact Or.inr (List.mem_of_mem_erase h)
        · intro x hx d hd hxd
          apply hob d hd x hxd
          simp only [Chain.blocks, List.mem_cons] at hx ⊢
          rcases hx with h | h
          · exact Or.inl h
          · exact Or.inr (List.mem_of_mem_erase h)
        · exact Linked_erase hp hn hnd hbt hl
        · intro d hd x hx
          have hxb : x ≠ b := fun h => hob d hd x hx (by simp [Chain.blocks, h, hbt])
          refine ⟨(hp x hxb).2 ?_, (hn x hxb).2 ?_⟩
          · intro h
            have := Linked_next_mem hl (List.mem_cons_of_mem _ hbt) h
            exact hob d hd x hx this
          · intro h
            rw [hp1] at h
            simp only [Option.some.injEq] at h
            exact hob d hd x hx (h ▸ hp2)
      · intro x z
        rw [idx_mem_split, idx_mem_split]
        simp only [Chain.blocks, List.mem_cons]
        constructor
        · rintro (h | ⟨h1, (h | h)⟩)
          · refine ⟨Or.inl h, ?_⟩
            obtain ⟨d, hd, _, hxd⟩ := h
            intro hxb
            exact hob d hd x hxd (by simp [Chain.blocks, hxb, hbt])
          · exact ⟨Or.inr ⟨h1, Or.inl h⟩, fun hxb => hbh (hxb ▸ h)⟩
          · exact ⟨Or.inr ⟨h1, Or.inr (List.mem_of_mem_erase h)⟩,
              ((List.Nodup.mem_erase_iff (List.nodup_cons.1 hnd).2).1 h).1⟩
        · rintro ⟨(h | ⟨h1, (h | h)⟩), hxb⟩
          · exact Or.inl h
          · exact Or.inr ⟨h1, Or.inl h⟩
          · exact Or.inr ⟨h1, Or.inr ((List.Nodup.mem_erase_iff (List.nodup_cons.1 hnd).2).2 ⟨hxb, h⟩)⟩
    unfold remove_free_block
    simp only [hp1]
    cases hnx : s.next b with
    | none =>
      simp only
      refine hkey { s with next := upd s.next p none, prev := upd s.prev b none } rfl rfl ?_ ?_
      · intro y hyb
        rw [hnx, hp1]
        refine ⟨fun h => by simp at h, fun _ => ?_⟩
        show upd s.prev b none y = s.prev y
        rw [upd_other _ _ _ _ hyb]
      · intro y hyb
        rw [hnx, hp1]
        refine ⟨fun h => ?_, fun h => ?_⟩
        · have : p = y := by simpa using h
          subst this
          show upd s.next p none p = none
          rw [upd_same]
        · have : y ≠ p := fun h' => h (by rw [h'])
          show upd s.next p none y = s.next y
          rw [upd_other _ _ _ _ this]
    | some n =>
      simp only
      refine hkey { s with prev := upd (upd s.prev n (some p)) b none,
                           next := upd (upd s.next p (some n)) b none } rfl rfl ?_ ?_
      · intro y hyb
        rw [hnx, hp1]
        refine ⟨fun h => ?_, fun h => ?_⟩
        · have : n = y := by simpa using h
          subst this
          show upd (upd s.prev n (some p)) b none n = some p
          rw [upd_other _ _ _ _ hyb, upd_same]
        · have : y ≠ n := fun h' => h (by rw [h'])
          show upd (upd s.prev n (some p)) b none y = s.prev y
          rw [upd_other _ _ _ _ hyb, upd_other _ _ _ _ this]
      · intro y hyb
        rw [hnx, hp1]
        refine ⟨fun h => ?_, fun h => ?_⟩
        · have : p = y := by simpa using h
          subst this
          show upd (upd s.next p (some n)) b none p = some n
          rw [upd_other _ _ _ _ hyb, upd_same]
        · have : y ≠ p := fun h' => h (by rw [h'])
          show upd (upd s.next p (some n)) b none y = s.next y
          rw [upd_other _ _ _ _ hyb, upd_other _ _ _ _ this]

theorem tag_at_heap (s : State) (h : Nat → Nat) (w : Nat) :
    tag_at { s with heap := h } w = word_tag (h w) := rfl

theorem set_header_and_footer_eq (s : State) (blk n : Nat) (u : Bool) (h1 : 1 ≤ n) (h2 : n < 2 ^ 30) :
    set_header_and_footer s blk (n : Int) u = { s with heap := write_tags s.heap blk n u } := by
  unfold set_header_and_footer set_tag get_footer write_tags
  simp only [tag_at_heap, upd_same, word_tag_tag_word u n h2]
  have : ((blk : Int) + (n : Int) - 1).toNat = blk + n - 1 := by omega
  rw [this]

theorem mark_block_free_eq (s : State) (blk n : Nat) (h1 : 1 ≤ n) (h2 : n < 2 ^ 30) :
    mark_block_free s blk (toInt n) = { s with heap := write_tags s.heap blk n false } := by
  unfold mark_block_free
  rw [toInt_small n (by omega), set_header_and_footer_eq s blk n false h1 h2]

theorem mark_block_used_eq (s : State) (blk n : Nat) (h1 : 1 ≤ n) (h2 : n < 2 ^ 30) :
    mark_block_used s blk (toInt n) = { s with heap := write_tags s.heap blk n true } := by
  unfold mark_block_used
  rw [toInt_small n (by omega), set_header_and_footer_eq s blk n true h1 h2]

theorem write_tags_other (h : Nat → Nat) (a n : Nat) (u : Bool) (w : Nat) (h1 : w ≠ a) (h2 : w ≠ a + n - 1) :
    write_tags h a n u w = h w := by
  unfold write_tags
  rw [upd_other _ _ _ _ h2, upd_other _ _ _ _ h1]

theorem write_tags_hd (h : Nat → Nat) (a n : Nat) (u : Bool) (h2 : n < 2 ^ 30) :
    word_tag (write_tags h a n u a) = { inuse := u, size := (n : Int) } := by
  unfold write_tags upd
  split <;> simp [word_tag_tag_word u n h2]

theorem write_tags_ft (h : Nat → Nat) (a n : Nat) (u : Bool) (h2 : n < 2 ^ 30) :
    word_tag (write_tags h a n u (a + n - 1)) = { inuse := u, size := (n : Int) } := by
  unfold write_tags
  rw [upd_same, word_tag_tag_word u n h2]

theorem IndexOK_heap_congr {s s' : State} {cs : List Chain}
    (htree : s'.tree = s.tree) (hprev : s'.prev = s.prev) (hnext : s'.next = s.next)
    (hheap : ∀ b ∈ cs.flatMap Chain.blocks, s'.heap b = s.heap b) (hi : IndexOK s cs) : IndexOK s' cs := by
  refine ⟨htree.trans hi.tree_eq, hi.sizes_nodup, hi.blocks_nodup, ?_, ?_⟩
  · intro c hc
    rw [hprev, hnext]
    exact hi.linked c hc
  · intro c hc b hb
    have := hi.tags c hc b hb
    unfold tag_at at this ⊢
    rw [hheap b (List.mem_flatMap.2 ⟨c, hc, hb⟩)]
    exact this

theorem Tiles_size_lt {h : Nat → Nat} {l : List Blk} {a e : Nat} {b : Blk}
    (ht : Tiles h a l e) (hb : b ∈ l) : b.size < 2 ^ 30 := by
  have h1 := (Tiles_mem ht hb).2.2.2.2.1
  have h2 := word_tag_size_bounds (h b.addr)
  rw [h1] at h2
  simp only at h2
  omega

/-- Members of the index are blocks on either side of the focus, hence outside of it. -/
theorem focus_members_outside {h : Nat → Nat} {l1 l2 : List Blk} {a sz e : Nat} {cs : List Chain}
    (t1 : Tiles h 1 l1 a) (t2 : Tiles h (a + sz) l2 e)
    (compl : ∀ b z, idx_mem cs b z ↔ Blk.mk b z false ∈ l1 ++ l2) :
    ∀ b ∈ cs.flatMap Chain.blocks, b < a ∨ a + sz ≤ b := by
  intro b hb
  obtain ⟨z, hz⟩ := idx_mem_iff_flatMap.2 hb
  have := (compl b z).1 hz
  rcases List.mem_append.1 this with h | h
  · have := Tiles_mem t1 h
    simp only at this
    omega
  · have := Tiles_mem t2 h
    simp only at this
    omega

/-- Writing free tags on the words between two tilings gives a focus state. -/
theorem Focus_of_write {s s1 : State} {l1 l2 : List Blk} {a sz : Nat} {cs : List Chain}
    (hbg : 2 ≤ s.brk) (hbl : s.brk * WSIZE ≤ MAX_HEAP)
    (hpro : tag_at s 0 = FENCE) (hepi : tag_at s (s.brk - 1) = FENCE)
    (t1 : Tiles s.heap 1 l1 a) (t2 : Tiles s.heap (a + sz) l2 (s.brk - 1))
    (hsz : 2 ≤ sz) (hev : sz % 2 = 0)
    (n1 : NoAdjFree l1) (n2 : NoAdjFree l2)
    (hsame : same_arena s s1) (hi : IndexOK s1 cs)
    (compl : ∀ b z, idx_mem cs b z ↔ Blk.mk b z false ∈ l1 ++ l2) :
    Focus { s1 with heap := write_tags s1.heap a sz false } l1 a sz l2 cs := by
  have ha : 1 ≤ a := Tiles_le t1
  have he : a + sz ≤ s.brk - 1 := Tiles_le t2
  have hlt : sz < 2 ^ 30 := by
    have : s.brk * 4 ≤ 1024 * 2 ^ 20 := hbl
    omega
  obtain ⟨hheap, hbrk, _⟩ := hsame
  refine ⟨?_, ?_, ?_, ?_, ?_, hsz, hev, ?_, ?_, ?_, n1, n2, ?_, compl⟩
  · show 2 ≤ s1.brk
    rw [hbrk]; exact hbg
  · show s1.brk * WSIZE ≤ MAX_HEAP
    rw [hbrk]; exact hbl
  · rw [tag_at_heap, write_tags_other _ _ _ _ _ (by omega) (by omega), hheap]; exact hpro
  · show tag_at { s1 with heap := write_tags s1.heap a sz false } (s1.brk - 1) = FENCE
    rw [tag_at_heap, write_tags_other _ _ _ _ _ (by omega) (by omega), hheap, hbrk]; exact hepi
  · apply Tiles_congr _ t1
    intro w _ hw2
    show write_tags s1.heap a sz false w = s.heap w
    rw [write_tags_other _ _ _ _ _ (by omega) (by omega), hheap]
  · rw [tag_at_heap]; exact write_tags_hd _ _ _ _ hlt
  · rw [tag_at_heap]; exact write_tags_ft _ _ _ _ hlt
  · show Tiles (write_tags s1.heap a sz false) (a + sz) l2 (s1.brk - 1)
    rw [hbrk]
    apply Tiles_congr _ t2
    intro w hw1 _
    rw [write_tags_other _ _ _ _ _ (by omega) (by omega), hheap]
  · refine IndexOK_heap_congr (s := s1) rfl rfl rfl ?_ hi
    intro b hb
    have := focus_members_outside t1 t2 compl b hb
    show write_tags s1.heap a sz false b = s1.heap b
    rw [write_tags_other _ _ _ _ _ (by omega) (by omega)]

theorem tag_size_lt {s : State} {b n : Nat} {u : Bool}
    (h : tag_at s b = { inuse := u, size := (n : Int) }) : n < 2 ^ 30 := by
  have h2 := word_tag_size_bounds (s.heap b)
  unfold tag_at at h
  rw [h] at h2
  simp only at h2
  omega

theorem blk_size_of_tag {s : State} {b n : Nat} {u : Bool}
    (h : tag_at s b = { inuse := u, size := (n : Int) }) : blk_size s b = n := by
  have := tag_size_lt h
  unfold blk_size
  rw [h]
  exact toSizeT_ofNat n (by omega)

theorem next_blk_of_tag {s : State} {b n : Nat} {u : Bool}
    (h : tag_at s b = { inuse := u, size := (n : Int) }) : next_blk s b = b + n := by
  unfold next_blk
  rw [h]
  simp only
  omega

theorem prev_blk_of_tag {s : State} {b n : Nat} {u : Bool}
    (h : tag_at s (b - 1) = { inuse := u, size := (n : Int) }) (hn : n ≤ b) : prev_blk s b = b - n := by
  unfold prev_blk prev_blk_footer
  rw [h]
  simp only
  omega

theorem tag_at_same {s s1 : State} (h : same_arena s s1) (w : Nat) : tag_at s1 w = tag_at s w := by
  unfold tag_at
  rw [h.1]

theorem Tiles_concat {h : Nat → Nat} {L : List Blk} {X : Blk} {a0 a : Nat} :
    Tiles h a0 (L ++ [X]) a ↔
      (Tiles h a0 L X.addr ∧ X.addr + X.size = a ∧ 8 ≤ X.size ∧ X.size % 2 = 0 ∧
       word_tag (h X.addr) = { inuse := X.used, size := (X.size : Int) } ∧
       word_tag (h (a - 1)) = { inuse := X.used, size := (X.size : Int) }) := by
  rw [Tiles_append]
  simp only [Tiles]
  constructor
  · rintro ⟨m, h1, h2, h3, h4, h5, h6, h7⟩
    subst h2
    subst h7
    exact ⟨h1, rfl, h3, h4, h5, h6⟩
  · rintro ⟨h1, h2, h3, h4, h5, h6⟩
    subst h2
    exact ⟨X.addr, h1, rfl, h3, h4, h5, h6, rfl⟩

theorem lastFree_nil : lastFree [] = 0 := rfl

theorem trimLast_nil : trimLast [] = [] := rfl

theorem headFree_nil : headFree [] = 0 := rfl

theorem trimHead_nil : trimHead [] = [] := rfl

theorem lastFree_concat (L : List Blk) (X : Blk) :
    lastFree (L ++ [X]) = if X.used then 0 else X.size := by
  unfold lastFree
  rw [List.getLast?_concat]

theorem trimLast_concat (L : List Blk) (X : Blk) :
    trimLast (L ++ [X]) = if X.used then L ++ [X] else L := by
  unfold trimLast
  rw [List.getLast?_concat, List.dropLast_concat]

theorem headFree_cons (Y : Blk) (L : List Blk) :
    headFree (Y :: L) = if Y.used then 0 else Y.size := rfl

theorem trimHead_cons (Y : Blk) (L : List Blk) :
    trimHead (Y :: L) = if Y.used then Y :: L else L := rfl

/-- What `coalesce` reads to the left of the block at `a`. -/
theorem left_neighbour {s : State} {l1 : List Blk} {a : Nat}
    (hpro : tag_at s 0 = FENCE) (t1 : Tiles s.heap 1 l1 a) (n1 : NoAdjFree l1) :
    (tag_at s (a - 1)).inuse = decide (lastFree l1 = 0) ∧
    (lastFree l1 ≠ 0 → tag_at s (a - 1) = { inuse := false, size := (lastFree l1 : Int) }) ∧
    lastFree l1 + 1 ≤ a ∧ lastFree l1 % 2 = 0 ∧ (lastFree l1 = 0 ∨ 8 ≤ lastFree l1) ∧
    Tiles s.heap 1 (trimLast l1) (a - lastFree l1) ∧ NoAdjFree (trimLast l1) ∧
    (∀ x ∈ (trimLast l1).getLast?, x.used = true) ∧
    (∀ b, b ∈ l1 ↔ (b ∈ trimLast l1 ∨ (lastFree l1 ≠ 0 ∧ b = Blk.mk (a - lastFree l1) (lastFree l1) false))) := by
  rcases List.eq_nil_or_concat l1 with h | ⟨L, X, h⟩
  · subst h
    have ha : 1 = a := t1
    subst ha
    rw [lastFree_nil, trimLast_nil]
    refine ⟨?_, fun h => absurd rfl h, by omega, by omega, Or.inl rfl, t1, n1, by simp, by simp⟩
    rw [hpro]; rfl
  · rw [List.concat_eq_append] at h
    subst h
    obtain ⟨h1, h2, h3, h4, h5, h6⟩ := Tiles_concat.1 t1
    have hX1 : 1 ≤ X.addr := Tiles_le h1
    have ht : tag_at s (a - 1) = { inuse := X.used, size := (X.size : Int) } := h6
    cases hu : X.used with
    | true =>
      have e1 : lastFree (L ++ [X]) = 0 := by rw [lastFree_concat, hu]; rfl
      have e2 : trimLast (L ++ [X]) = L ++ [X] := by rw [trimLast_concat, hu]; rfl
      rw [e1, e2]
      refine ⟨?_, fun h => absurd rfl h, by omega, by omega, Or.inl rfl, t1, n1, ?_, by simp⟩
      · rw [ht, hu]; rfl
      · intro x hx
        rw [List.getLast?_concat] at hx
        simp only [Option.mem_def, Option.some.injEq] at hx
        rw [← hx]; exact hu
    | false =>
      have e1 : lastFree (L ++ [X]) = X.size := by rw [lastFree_concat, hu]; rfl
      have e2 : trimLast (L ++ [X]) = L := by rw [trimLast_concat, hu]; rfl
      rw [e1, e2]
      have hne : X.size ≠ 0 := by omega
      have hn1 := List.chain'_append.1 n1
      have hax : a - X.size = X.addr := by omega
      rw [hax]
      refine ⟨?_, ?_, by omega, h4, Or.inr h3, h1, hn1.1, ?_, ?_⟩
      · rw [ht, hu]; simp [hne]
      · intro _; rw [ht, hu]
      · intro x hx
        have := hn1.2.2 x hx X (by simp)
        rcases this with h | h
        · exact h
        · rw [hu] at h; exact absurd h (by simp)
      · intro b
        have hX : X = { addr := X.addr, size := X.size, used := false } := by
          cases X; simp at hu; simp [hu]
        rw [← hX]
        simp only [List.mem_append, List.mem_singleton, ne_eq, hne, not_false_eq_true, true_and]

/-- What `coalesce` reads to the right of the block that ends at `e`. -/
theorem right_neighbour {s : State} {l2 : List Blk} {e : Nat}
    (hepi : tag_at s (s.brk - 1) = FENCE) (t2 : Tiles s.heap e l2 (s.brk - 1)) (n2 : NoAdjFree l2) :
    (tag_at s e).inuse = decide (headFree l2 = 0) ∧
    (headFree l2 ≠ 0 → tag_at s e = { inuse := false, size := (headFree l2 : Int) }) ∧
    headFree l2 % 2 = 0 ∧ (headFree l2 = 0 ∨ 8 ≤ headFree l2) ∧
    Tiles s.heap (e + headFree l2) (trimHead l2) (s.brk - 1) ∧ NoAdjFree (trimHead l2) ∧
    (∀ x ∈ (trimHead l2).head?, x.used = true) ∧
    (∀ b, b ∈ l2 ↔ (b ∈ trimHead l2 ∨ (headFree l2 ≠ 0 ∧ b = Blk.mk e (headFree l2) false))) := by
  cases l2 with
  | nil =>
    have he : e = s.brk - 1 := t2
    subst he
    rw [headFree_nil, trimHead_nil]
    refine ⟨?_, fun h => absurd rfl h, by omega, Or.inl rfl, t2, n2, by simp, by simp⟩
    rw [hepi]; rfl
  | cons Y L =>
    obtain ⟨h1, h2, h3, h4, h5, h6⟩ := t2
    have ht : tag_at s e = { inuse := Y.used, size := (Y.size : Int) } := h4
    cases hu : Y.used with
    | true =>
      have e1 : headFree (Y :: L) = 0 := by rw [headFree_cons, hu]; rfl
      have e2 : trimHead (Y :: L) = Y :: L := by rw [trimHead_cons, hu]; rfl
      rw [e1, e2]
      refine ⟨?_, fun h => absurd rfl h, by omega, Or.inl rfl, ⟨h1, h2, h3, h4, h5, h6⟩, n2, ?_, by simp⟩
      · rw [ht, hu]; rfl
      · intro x hx
        simp only [List.head?_cons, Option.mem_def, Option.some.injEq] at hx
        rw [← hx]; exact hu
    | false =>
      have e1 : headFree (Y :: L) = Y.size := by rw [headFree_cons, hu]; rfl
      have e2 : trimHead (Y :: L) = L := by rw [trimHead_cons, hu]; rfl
      rw [e1, e2]
      have hne : Y.size ≠ 0 := by omega
      refine ⟨?_, ?_, h3, Or.inr h2, h6, List.Chain'.tail n2, ?_, ?_⟩
      · rw [ht, hu]; simp [hne]
      · intro _; rw [ht, hu]
      · intro x hx
        cases L with
        | nil => simp at hx
        | cons Z L' =>
          simp only [List.head?_cons, Option.mem_def, Option.some.injEq] at hx
          have := (List.chain'_cons.1 n2).1
          rw [hu] at this
          rcases this with h | h
          · exact absurd h (by simp)
          · rw [← hx]; exact h
      · intro b
        have hY : Y = { addr := e, size := Y.size, used := false } := by
          cases Y; simp at hu h1; simp [hu, h1]
        rw [← hY]
        simp only [List.mem_cons, ne_eq, hne, not_false_eq_true, true_and]
        constructor
        · rintro (h | h)
          · exact Or.inr h
          · exact Or.inl h
        · rintro (h | h)
          · exact Or.inr h
          · exact Or.inl h

theorem same_arena_globals {s s1 : State} (h : same_arena s s1) : same_globals s s1 :=
  ⟨h.2.1, h.2.2.1, h.2.2.2.1, h.2.2.2.2.1, h.2.2.2.2.2⟩

/-- The index content after the free neighbours of the focus have been taken out. -/
theorem compl_after_merge {s : State} {l1 l2 : List Blk} {a sz : Nat} {cs cs' : List Chain}
    (hf : Focus s l1 a sz l2 cs)
    (hcs : ∀ x z, idx_mem cs' x z ↔
      (idx_mem cs x z ∧ (lastFree l1 ≠ 0 → x ≠ a - lastFree l1) ∧ (headFree l2 ≠ 0 → x ≠ a + sz))) :
    ∀ b z, idx_mem cs' b z ↔ Blk.mk b z false ∈ trimLast l1 ++ trimHead l2 := by
  obtain ⟨_, _, L3, _, L5, L6, _, _, L9⟩ := left_neighbour hf.pro hf.tiles1 hf.noadj1
  obtain ⟨_, _, _, R4, R5, _, _, R8⟩ := right_neighbour hf.epi hf.tiles2 hf.noadj2
  intro b z
  rw [hcs, hf.compl, List.mem_append, List.mem_append, L9, R8]
  constructor
  · rintro ⟨(h | ⟨h1, h2⟩) | (h | ⟨h1, h2⟩), h3, h4⟩
    · exact Or.inl h
    · have := h3 h1
      simp only [Blk.mk.injEq] at h2
      exact absurd h2.1 this
    · exact Or.inr h
    · have := h4 h1
      simp only [Blk.mk.injEq] at h2
      exact absurd h2.1 this
  · rintro (h | h)
    · refine ⟨Or.inl (Or.inl h), ?_, ?_⟩
      · intro _ hb
        have := Tiles_mem L6 h
        simp only at this
        omega
      · intro _ hb
        have := Tiles_mem L6 h
        simp only at this
        omega
    · refine ⟨Or.inr (Or.inl h), ?_, ?_⟩
      · intro _ hb
        have := Tiles_mem R5 h
        simp only at this
        omega
      · intro h0 hb
        have := Tiles_mem R5 h
        simp only at this
        omega

theorem coalesce_spec {s : State} {l1 l2 : List Blk} {a sz : Nat} {cs : List Chain}
    (hf : Focus s l1 a sz l2 cs) :
    ∃ cs', (coalesce s a).1 = a - lastFree l1 ∧
      Focus (coalesce s a).2 (trimLast l1) (a - lastFree l1) (lastFree l1 + sz + headFree l2)
        (trimHead l2) cs' ∧
      same_globals s (coalesce s a).2 ∧
      (∀ w, w ≠ a - lastFree l1 → w ≠ a + sz + headFree l2 - 1 → (coalesce s a).2.heap w = s.heap w) ∧
      (∀ x z, idx_mem cs' x z → idx_mem cs x z) := by
  obtain ⟨L1, L2, L3, L4, L5, L6, L7, L8, L9⟩ := left_neighbour hf.pro hf.tiles1 hf.noadj1
  obtain ⟨R1, R2, R3, R4, R5, R6, R7, R8⟩ := right_neighbour hf.epi hf.tiles2 hf.noadj2
  have hsize : blk_size s a = sz := blk_size_of_tag hf.hd
  have hnext : next_blk s a = a + sz := next_blk_of_tag hf.hd
  have hszlt : sz < 2 ^ 30 := tag_size_lt hf.hd
  have hbrk : s.brk * 4 ≤ 1024 * 2 ^ 20 := hf.brk_le
  have hend : a + sz + headFree l2 ≤ s.brk - 1 := Tiles_le R5
  have hpf : prev_blk_footer a = a - 1 := rfl
  have hfree : blk_free s (a + sz) = !decide (headFree l2 = 0) := by
    unfold blk_free; rw [R1]
  have hsum : a - lastFree l1 + (lastFree l1 + sz + headFree l2) = a + sz + headFree l2 := by omega
  have hsum2 : a - lastFree l1 + (lastFree l1 + sz + headFree l2) - 1 = a + sz + headFree l2 - 1 := by omega
  -- the common last step: write the merged tags
  have hfinal : ∀ (s1 : State) (cs' : List Chain), same_arena s s1 → IndexOK s1 cs' →
      (∀ x z, idx_mem cs' x z ↔
        (idx_mem cs x z ∧ (lastFree l1 ≠ 0 → x ≠ a - lastFree l1) ∧ (headFree l2 ≠ 0 → x ≠ a + sz))) →
      Focus { s1 with heap := write_tags s1.heap (a - lastFree l1) (lastFree l1 + sz + headFree l2) false }
        (trimLast l1) (a - lastFree l1) (lastFree l1 + sz + headFree l2) (trimHead l2) cs' := by
    intro s1 cs' hsame hi hcs
    refine Focus_of_write hf.brk_ge hf.brk_le hf.pro hf.epi L6 (by rw [hsum]; exact R5) ?_ ?_ L7 R6 hsame hi
      (compl_after_merge hf hcs)
    · have := hf.sz_ge; omega
    · have := hf.sz_even; omega
  have hframe : ∀ (s1 : State), same_arena s s1 → ∀ w, w ≠ a - lastFree l1 → w ≠ a + sz + headFree l2 - 1 →
      write_tags s1.heap (a - lastFree l1) (lastFree l1 + sz + headFree l2) false w = s.heap w := by
    intro s1 hsame w h1 h2
    rw [write_tags_other _ _ _ _ _ h1 (by rw [hsum2]; exact h2), hsame.1]
  -- the shape of the result in the three merging cases
  have hmerge : ∀ (s1 : State) (cs' : List Chain), same_arena s s1 → IndexOK s1 cs' →
      (∀ x z, idx_mem cs' x z ↔
        (idx_mem cs x z ∧ (lastFree l1 ≠ 0 → x ≠ a - lastFree l1) ∧ (headFree l2 ≠ 0 → x ≠ a + sz))) →
      coalesce s a = (a - lastFree l1,
        { s1 with heap := write_tags s1.heap (a - lastFree l1) (lastFree l1 + sz + headFree l2) false }) →
      ∃ cs', (coalesce s a).1 = a - lastFree l1 ∧
        Focus (coalesce s a).2 (trimLast l1) (a - lastFree l1) (lastFree l1 + sz + headFree l2)
          (trimHead l2) cs' ∧
        same_globals s (coalesce s a).2 ∧
        (∀ w, w ≠ a - lastFree l1 → w ≠ a + sz + headFree l2 - 1 → (coalesce s a).2.heap w = s.heap w) ∧
        (∀ x z, idx_mem cs' x z → idx_mem cs x z) := by
    intro s1 cs' hsame hi hcs hc
    rw [hc]
    exact ⟨cs', rfl, hfinal s1 cs' hsame hi hcs,
      ⟨hsame.2.1, hsame.2.2.1, hsame.2.2.2.1, hsame.2.2.2.2.1, hsame.2.2.2.2.2⟩, hframe s1 hsame,
      fun x z h => ((hcs x z).1 h).1⟩
  by_cases hL : lastFree l1 = 0
  · by_cases hR : headFree l2 = 0
    · -- case 1
      have hc : coalesce s a = (a, s) := by
        unfold coalesce
        simp only [hpf, L1, hnext, hfree, hL, hR, decide_True, Bool.not_true, Bool.not_false, Bool.and_self,
          if_true]
      rw [hc]
      have hcm : ∀ b z, idx_mem cs b z ↔ Blk.mk b z false ∈ trimLast l1 ++ trimHead l2 :=
        compl_after_merge hf (by
          intro x z
          simp [hL, hR])
      have h6 := L6
      have h5 := R5
      have e1 : a - lastFree l1 = a := by omega
      have e2 : lastFree l1 + sz + headFree l2 = sz := by omega
      have e3 : a + sz + headFree l2 = a + sz := by omega
      rw [e1] at h6 ⊢
      rw [e3] at h5
      rw [e2]
      exact ⟨cs, rfl, ⟨hf.brk_ge, hf.brk_le, hf.pro, hf.epi, h6, hf.sz_ge, hf.sz_even, hf.hd, hf.ft, h5, L7, R6,
        hf.index, hcm⟩, ⟨rfl, rfl, rfl, rfl, rfl⟩, fun _ _ _ => rfl, fun _ _ h => h⟩
    · -- case 2
      have hmem : (a + sz) ∈ cs.flatMap Chain.blocks := by
        apply idx_mem_iff_flatMap.1
        exact ⟨headFree l2, (hf.compl _ _).2 (List.mem_append_right _ ((R8 _).2 (Or.inr ⟨hR, rfl⟩)))⟩
      obtain ⟨cs1, hi1, hm1⟩ := remove_free_block_spec hf.index hmem
      have hsame1 := remove_free_block_same s (some (a + sz))
      have hbs : blk_size (remove_free_block s (some (a + sz))) (a + sz) = headFree l2 := by
        apply blk_size_of_tag (u := false)
        rw [tag_at_same hsame1]; exact R2 hR
      refine hmerge _ cs1 hsame1 hi1 ?_ ?_
      · intro x z
        rw [hm1]
        simp [hL, hR]
      · unfold coalesce
        simp only [hpf, L1, hnext, hfree, hL, hR, hsize, decide_True, decide_False, Bool.not_true,
          Bool.not_false, Bool.and_self, Bool.and_false, Bool.false_and, Bool.true_and, if_true, if_false,
          Bool.false_eq_true, Nat.sub_zero, Nat.zero_add]
        rw [hbs, add32_small _ _ (by omega), mark_block_free_eq _ _ _ (by omega) (by omega)]
  · have hptag := L2 hL
    have hprev : prev_blk s a = a - lastFree l1 := prev_blk_of_tag hptag (by omega)
    have hmemp : (a - lastFree l1) ∈ cs.flatMap Chain.blocks := by
      apply idx_mem_iff_flatMap.1
      exact ⟨lastFree l1, (hf.compl _ _).2 (List.mem_append_left _ ((L9 _).2 (Or.inr ⟨hL, rfl⟩)))⟩
    have hptag2 : tag_at s (a - lastFree l1) = { inuse := false, size := (lastFree l1 : Int) } := by
      have := (L9 (Blk.mk (a - lastFree l1) (lastFree l1) false)).2 (Or.inr ⟨hL, rfl⟩)
      exact (Tiles_mem hf.tiles1 this).2.2.2.2.1
    by_cases hR : headFree l2 = 0
    · -- case 3
      obtain ⟨cs1, hi1, hm1⟩ := remove_free_block_spec hf.index hmemp
      have hsame1 := remove_free_block_same s (some (a - lastFree l1))
      have hbs : blk_size (remove_free_block s (some (a - lastFree l1))) (a - lastFree l1) = lastFree l1 := by
        apply blk_size_of_tag (u := false)
        rw [tag_at_same hsame1]; exact hptag2
      refine hmerge _ cs1 hsame1 hi1 ?_ ?_
      · intro x z
        rw [hm1]
        simp [hL, hR]
      · unfold coalesce
        simp only [hpf, L1, hnext, hfree, hL, hR, hsize, hprev, decide_True, decide_False, Bool.not_true,
          Bool.not_false, Bool.and_self, Bool.and_false, Bool.false_and, Bool.true_and, Bool.and_true,
          if_true, if_false, Bool.false_eq_true, Nat.add_zero]
        rw [hbs, add32_small _ _ (by omega), mark_block_free_eq _ _ _ (by omega) (by omega)]
        have : sz + lastFree l1 = lastFree l1 + sz := by omega
        rw [this]
    · -- case 4
      have hmem : (a + sz) ∈ cs.flatMap Chain.blocks := by
        apply idx_mem_iff_flatMap.1
        exact ⟨headFree l2, (hf.compl _ _).2 (List.mem_append_right _ ((R8 _).2 (Or.inr ⟨hR, rfl⟩)))⟩
      obtain ⟨cs1, hi1, hm1⟩ := remove_free_block_spec hf.index hmem
      have hsame1 := remove_free_block_same s (some (a + sz))
      have hmemp1 : (a - lastFree l1) ∈ cs1.flatMap Chain.blocks := by
        apply idx_mem_iff_flatMap.1
        obtain ⟨z, hz⟩ := idx_mem_iff_flatMap.2 hmemp
        exact ⟨z, (hm1 _ _).2 ⟨hz, by omega⟩⟩
      obtain ⟨cs2, hi2, hm2⟩ := remove_free_block_spec hi1 hmemp1
      have hsame2 := same_arena_trans hsame1
        (remove_free_block_same (remove_free_block s (some (a + sz))) (some (a - lastFree l1)))
      have hbs1 : blk_size (remove_free_block (remove_free_block s (some (a + sz))) (some (a - lastFree l1)))
          (a + sz) = headFree l2 := by
        apply blk_size_of_tag (u := false)
        rw [tag_at_same hsame2]; exact R2 hR
      have hbs2 : blk_size (remove_free_block (remove_free_block s (some (a + sz))) (some (a - lastFree l1)))
          (a - lastFree l1) = lastFree l1 := by
        apply blk_size_of_tag (u := false)
        rw [tag_at_same hsame2]; exact hptag2
      refine hmerge _ cs2 hsame2 hi2 ?_ ?_
      · intro x z
        rw [hm2, hm1]
        simp only [ne_eq, hL, hR, not_false_eq_true, true_implies]
        tauto
      · unfold coalesce
        simp only [hpf, L1, hnext, hfree, hL, hR, hsize, hprev, decide_True, decide_False, Bool.not_true,
          Bool.not_false, Bool.and_self, Bool.and_false, Bool.false_and, Bool.true_and, Bool.and_true,
          if_true, if_false, Bool.false_eq_true]
        rw [hbs1, hbs2, add32_small sz (headFree l2) (by omega),
          add32_small (sz + headFree l2) (lastFree l1) (by omega),
          mark_block_free_eq _ _ _ (by omega) (by omega)]
        have : sz + headFree l2 + lastFree l1 = lastFree l1 + sz + headFree l2 := by omega
        rw [this]

theorem NoAdjFree_insert {l1 l2 : List Blk} {B : Blk} (n1 : NoAdjFree l1) (n2 : NoAdjFree l2)
    (h1 : ∀ x ∈ l1.getLast?, x.used = true ∨ B.used = true)
    (h2 : ∀ y ∈ l2.head?, B.used = true ∨ y.used = true) : NoAdjFree (l1 ++ B :: l2) := by
  unfold NoAdjFree at *
  rw [List.chain'_append]
  refine ⟨n1, ?_, ?_⟩
  · cases l2 with
    | nil => exact List.chain'_singleton _
    | cons y r =>
      rw [List.chain'_cons]
      exact ⟨h2 y (by simp), n2⟩
  · intro x hx y hy
    simp only [List.head?_cons, Option.mem_def, Option.some.injEq] at hy
    rw [← hy]
    exact h1 x hx

/-- Writing allocated tags on the words between two tilings restores the invariant. -/
theorem Inv_of_write_used {s : State} {l1 l2 : List Blk} {a sz : Nat} {cs : List Chain}
    (hbg : 2 ≤ s.brk) (hbl : s.brk * WSIZE ≤ MAX_HEAP)
    (hpro : tag_at s 0 = FENCE) (hepi : tag_at s (s.brk - 1) = FENCE)
    (t1 : Tiles s.heap 1 l1 a) (t2 : Tiles s.heap (a + sz) l2 (s.brk - 1))
    (hsz : 8 ≤ sz) (hev : sz % 2 = 0)
    (n1 : NoAdjFree l1) (n2 : NoAdjFree l2)
    (hi : IndexOK s cs)
    (compl : ∀ b z, idx_mem cs b z ↔ Blk.mk b z false ∈ l1 ++ l2) :
    Inv { s with heap := write_tags s.heap a sz true } (l1 ++ Blk.mk a sz true :: l2) cs := by
  have ha : 1 ≤ a := Tiles_le t1
  have he : a + sz ≤ s.brk - 1 := Tiles_le t2
  have hlt : sz < 2 ^ 30 := by
    have : s.brk * 4 ≤ 1024 * 2 ^ 20 := hbl
    omega
  refine ⟨hbg, hbl, ?_, ?_, ?_, ?_, ?_, ?_⟩
  · rw [tag_at_heap, write_tags_other _ _ _ _ _ (by omega) (by omega)]; exact hpro
  · show tag_at { s with heap := write_tags s.heap a sz true } (s.brk - 1) = FENCE
    rw [tag_at_heap, write_tags_other _ _ _ _ _ (by omega) (by omega)]; exact hepi
  · show Tiles (write_tags s.heap a sz true) 1 (l1 ++ Blk.mk a sz true :: l2) (s.brk - 1)
    rw [Tiles_append]
    refine ⟨a, ?_, rfl, hsz, hev, write_tags_hd _ _ _ _ hlt, write_tags_ft _ _ _ _ hlt, ?_⟩
    · apply Tiles_congr _ t1
      intro w _ hw2
      rw [write_tags_other _ _ _ _ _ (by omega) (by omega)]
    · apply Tiles_congr _ t2
      intro w hw1 _
      rw [write_tags_other _ _ _ _ _ (by omega) (by omega)]
  · exact NoAdjFree_insert n1 n2 (fun _ _ => Or.inr rfl) (fun _ _ => Or.inl rfl)
  · refine IndexOK_heap_congr (s := s) rfl rfl rfl ?_ hi
    intro b hb
    have := focus_members_outside t1 t2 compl b hb
    show write_tags s.heap a sz true b = s.heap b
    rw [write_tags_other _ _ _ _ _ (by omega) (by omega)]
  · intro b z
    rw [compl]
    simp only [List.mem_append, List.mem_cons, Blk.mk.injEq, Bool.false_eq_true, and_false, false_or]

/-- Putting the focus block into the index restores the invariant. -/
theorem Focus_add {s : State} {l1 l2 : List Blk} {a sz : Nat} {cs : List Chain}
    (hf : Focus s l1 a sz l2 cs) (hsz : 8 ≤ sz)
    (h1 : ∀ x ∈ l1.getLast?, x.used = true) (h2 : ∀ y ∈ l2.head?, y.used = true) :
    ∃ cs', Inv (add_free_block s (some a)) (l1 ++ Blk.mk a sz false :: l2) cs' := by
  have hout := focus_members_outside hf.tiles1 hf.tiles2 hf.compl
  have hnot : a ∉ cs.flatMap Chain.blocks := by
    intro h
    have := hout a h
    have := hf.sz_ge
    omega
  obtain ⟨cs', hi', hm'⟩ := add_free_block_spec hf.index hf.hd hnot
  have hsame := add_free_block_same s (some a)
  refine ⟨cs', ?_, ?_, ?_, ?_, ?_, ?_, hi', ?_⟩
  · rw [hsame.2.1]; exact hf.brk_ge
  · rw [hsame.2.1]; exact hf.brk_le
  · rw [tag_at_same hsame]; exact hf.pro
  · rw [tag_at_same hsame, hsame.2.1]; exact hf.epi
  · rw [hsame.1, hsame.2.1, Tiles_append]
    exact ⟨a, hf.tiles1, rfl, hsz, hf.sz_even, hf.hd, hf.ft, hf.tiles2⟩
  · exact NoAdjFree_insert hf.noadj1 hf.noadj2 (fun x hx => Or.inl (h1 x hx)) (fun y hy => Or.inr (h2 y hy))
  · intro b z
    rw [hm', hf.compl]
    simp only [List.mem_append, List.mem_cons, Blk.mk.injEq, and_true]
    tauto

theorem place_spec {s : State} {l1 l2 : List Blk} {a sz asize : Nat} {cs : List Chain}
    (hf : Focus s l1 a sz l2 cs) (h2 : ∀ y ∈ l2.head?, y.used = true)
    (h8 : 8 ≤ asize) (hev : asize % 2 = 0) (hle : asize ≤ sz) :
    ∃ cs', Inv (place s a asize) (placed l1 a sz asize l2) cs' ∧
      same_globals s (place s a asize) ∧
      (∀ w, (w < a ∨ a + sz ≤ w) → (place s a asize).heap w = s.heap w) := by
  have hsize : blk_size s a = sz := blk_size_of_tag hf.hd
  have hszlt : sz < 2 ^ 30 := tag_size_lt hf.hd
  have ha : 1 ≤ a := Tiles_le hf.tiles1
  have he : a + sz ≤ s.brk - 1 := Tiles_le hf.tiles2
  have hout := focus_members_outside hf.tiles1 hf.tiles2 hf.compl
  have hsze := hf.sz_even
  unfold place placed
  simp only [hsize, sub32_small sz asize hle (by omega), MIN_BLOCK_SIZE_WORDS]
  by_cases hsplit : sz - asize ≥ 8
  · simp only [hsplit, if_true]
    rw [mark_block_used_eq _ _ _ (by omega) (by omega)]
    have hnext : next_blk { s with heap := write_tags s.heap a asize true } a = a + asize := by
      apply next_blk_of_tag (u := true)
      rw [tag_at_heap]; exact write_tags_hd _ _ _ _ (by omega)
    rw [hnext]
    rw [mark_block_free_eq _ (a + asize) (sz - asize) (by omega) (by omega)]
    have hfoc : Focus { s with heap := write_tags (write_tags s.heap a asize true) (a + asize) (sz - asize) false }
        (l1 ++ [Blk.mk a asize true]) (a + asize) (sz - asize) l2 cs := by
      refine Focus_of_write (s := { s with heap := write_tags s.heap a asize true })
        hf.brk_ge hf.brk_le ?_ ?_ ?_ ?_ (by omega) (by omega) ?_ hf.noadj2 (same_arena_refl _) ?_ ?_
      · rw [tag_at_heap, write_tags_other _ _ _ _ _ (by omega) (by omega)]; exact hf.pro
      · show tag_at { s with heap := write_tags s.heap a asize true } (s.brk - 1) = FENCE
        rw [tag_at_heap, write_tags_other _ _ _ _ _ (by omega) (by omega)]; exact hf.epi
      · show Tiles (write_tags s.heap a asize true) 1 (l1 ++ [Blk.mk a asize true]) (a + asize)
        rw [Tiles_concat]
        refine ⟨?_, rfl, h8, hev, write_tags_hd _ _ _ _ (by omega), ?_⟩
        · apply Tiles_congr _ hf.tiles1
          intro w _ hw2
          rw [write_tags_other _ _ _ _ _ (by omega) (by omega)]
        · exact write_tags_ft _ _ _ _ (by omega)
      · show Tiles (write_tags s.heap a asize true) (a + asize + (sz - asize)) l2 (s.brk - 1)
        have : a + asize + (sz - asize) = a + sz := by omega
        rw [this]
        apply Tiles_congr _ hf.tiles2
        intro w hw1 _
        rw [write_tags_other _ _ _ _ _ (by omega) (by omega)]
      · unfold NoAdjFree
        rw [List.chain'_append]
        refine ⟨hf.noadj1, List.chain'_singleton _, ?_⟩
        intro x _ y hy
        simp only [List.head?_cons, Option.mem_def, Option.some.injEq] at hy
        rw [← hy]
        exact Or.inr rfl
      · refine IndexOK_heap_congr (s := s) rfl rfl rfl ?_ hf.index
        intro b hb
        have := hout b hb
        show write_tags s.heap a asize true b = s.heap b
        rw [write_tags_other _ _ _ _ _ (by omega) (by omega)]
      · intro b z
        rw [hf.compl]
        simp only [List.mem_append, List.mem_cons, List.mem_singleton, Blk.mk.injEq, Bool.false_eq_true,
          and_false, or_false, List.not_mem_nil]
    obtain ⟨cs', hinv⟩ := Focus_add hfoc hsplit (by simp) h2
    have hsame := add_free_block_same
      { s with heap := write_tags (write_tags s.heap a asize true) (a + asize) (sz - asize) false }
      (some (a + asize))
    refine ⟨cs', ?_, ?_, ?_⟩
    · have e : l1 ++ Blk.mk a asize true :: Blk.mk (a + asize) (sz - asize) false :: l2
          = (l1 ++ [Blk.mk a asize true]) ++ Blk.mk (a + asize) (sz - asize) false :: l2 := by simp
      rw [e]; exact hinv
    · exact ⟨hsame.2.1, hsame.2.2.1, hsame.2.2.2.1, hsame.2.2.2.2.1, hsame.2.2.2.2.2⟩
    · intro w hw
      rw [hsame.1]
      show write_tags (write_tags s.heap a asize true) (a + asize) (sz - asize) false w = s.heap w
      rw [write_tags_other _ _ _ _ _ (by omega) (by omega), write_tags_other _ _ _ _ _ (by omega) (by omega)]
  · simp only [hsplit, if_false]
    rw [mark_block_used_eq _ _ _ (by omega) (by omega)]
    refine ⟨cs, Inv_of_write_used hf.brk_ge hf.brk_le hf.pro hf.epi hf.tiles1 hf.tiles2 (by omega) hf.sz_even
      hf.noadj1 hf.noadj2 hf.index hf.compl, ⟨rfl, rfl, rfl, rfl, rfl⟩, ?_⟩
    intro w hw
    show write_tags s.heap a sz true w = s.heap w
    rw [write_tags_other _ _ _ _ _ (by omega) (by omega)]

theorem rb_min_none {s : State} {xs : List Nat} (h : rb_min s xs = none) : xs = [] := by
  cases xs with
  | nil => rfl
  | cons x r =>
    unfold rb_min at h
    split at h
    · simp at h
    · split at h <;> simp at h

theorem rb_min_mem {s : State} {xs : List Nat} {b : Nat} (h : rb_min s xs = some b) : b ∈ xs := by
  induction xs generalizing b with
  | nil => simp [rb_min] at h
  | cons x r ih =>
    unfold rb_min at h
    split at h
    · simp only [Option.some.injEq] at h
      rw [← h]; exact List.mem_cons_self _ _
    · rename_i y hy
      split at h
      · simp only [Option.some.injEq] at h
        rw [← h]; exact List.mem_cons_self _ _
      · simp only [Option.some.injEq] at h
        rw [← h]; exact List.mem_cons_of_mem _ (ih hy)

theorem sext31_small (n : Nat) (h : n < 2 ^ 30) : sext31 (n % 2 ^ 31) = (n : Int) := by
  have : n % 2 ^ 31 = n := Nat.mod_eq_of_lt (by omega)
  rw [this]
  unfold sext31
  rw [if_pos h]

/-- The free neighbours of a free block of a state that satisfies the invariant are allocated. -/
theorem free_block_neighbours {l1 l2 : List Blk} {B : Blk} (hn : NoAdjFree (l1 ++ B :: l2))
    (hB : B.used = false) :
    NoAdjFree l1 ∧ NoAdjFree l2 ∧ (∀ x ∈ l1.getLast?, x.used = true) ∧ (∀ y ∈ l2.head?, y.used = true) := by
  unfold NoAdjFree at *
  obtain ⟨h1, h2, h3⟩ := List.chain'_append.1 hn
  refine ⟨h1, List.Chain'.tail h2, ?_, ?_⟩
  · intro x hx
    rcases h3 x hx B (by simp) with h | h
    · exact h
    · rw [hB] at h; exact absurd h (by simp)
  · intro y hy
    cases l2 with
    | nil => simp at hy
    | cons z r =>
      simp only [List.head?_cons, Option.mem_def, Option.some.injEq] at hy
      rcases (List.chain'_cons.1 h2).1 with h | h
      · rw [hB] at h; exact absurd h (by simp)
      · rw [← hy]; exact h

/-- Taking a block out of a tiling: the remaining blocks have other addresses. -/
theorem mem_split_ne {h : Nat → Nat} {l1 l2 : List Blk} {B : Blk} {a e : Nat}
    (ht : Tiles h a (l1 ++ B :: l2) e) (x : Blk) :
    x ∈ l1 ++ l2 ↔ (x ∈ l1 ++ B :: l2 ∧ x.addr ≠ B.addr) := by
  obtain ⟨m, t1, t2⟩ := Tiles_append.1 ht
  obtain ⟨g1, g2, g3, g4, g5, g6⟩ := t2
  simp only [List.mem_append, List.mem_cons]
  constructor
  · rintro (hx | hx)
    · have := Tiles_mem t1 hx
      exact ⟨Or.inl hx, by omega⟩
    · have := Tiles_mem g6 hx
      exact ⟨Or.inr (Or.inr hx), by omega⟩
  · rintro ⟨(hx | hx | hx), hne⟩
    · exact Or.inl hx
    · rw [hx] at hne; exact absurd rfl hne
    · exact Or.inr hx

/-- Taking a free block out of the arena and out of the index. -/
theorem Focus_of_remove {s : State} {l1 l2 : List Blk} {b z : Nat} {cs : List Chain}
    (hinv : Inv s (l1 ++ Blk.mk b z false :: l2) cs) :
    ∃ cs', Focus (remove_free_block s (some b)) l1 b z l2 cs' ∧
      (∀ x ∈ l1.getLast?, x.used = true) ∧ (∀ y ∈ l2.head?, y.used = true) := by
  have hmem : idx_mem cs b z := (hinv.compl b z).2 (by simp)
  obtain ⟨cs', hi', hm'⟩ := remove_free_block_spec hinv.index (idx_mem_iff_flatMap.1 ⟨z, hmem⟩)
  have hsame := remove_free_block_same s (some b)
  obtain ⟨n1, n2, n3, n4⟩ := free_block_neighbours hinv.noadj rfl
  obtain ⟨m, t1, t2⟩ := Tiles_append.1 hinv.tiles
  obtain ⟨g1, g2, g3, g4, g5, g6⟩ := t2
  simp only at g1 g2 g3 g4 g5 g6
  subst g1
  refine ⟨cs', ⟨?_, ?_, ?_, ?_, ?_, by omega, g3, ?_, ?_, ?_, n1, n2, hi', ?_⟩, n3, n4⟩
  · rw [hsame.2.1]; exact hinv.brk_ge
  · rw [hsame.2.1]; exact hinv.brk_le
  · rw [tag_at_same hsame]; exact hinv.pro
  · rw [tag_at_same hsame, hsame.2.1]; exact hinv.epi
  · rw [hsame.1]; exact t1
  · rw [tag_at_same hsame]; exact g4
  · rw [tag_at_same hsame]; exact g5
  · rw [hsame.1, hsame.2.1]; exact g6
  · intro x y
    rw [hm', hinv.compl, mem_split_ne hinv.tiles]

theorem find_fit_spec {s : State} {l : List Blk} {cs : List Chain} {asize : Nat}
    (hinv : Inv s l cs) (ha : asize < 2 ^ 30) :
    (find_fit s asize = (none, s) ∧ ∀ b z, Blk.mk b z false ∈ l → z < asize) ∨
    (∃ b z l1 l2 cs', find_fit s asize = (some b, remove_free_block s (some b)) ∧
      l = l1 ++ Blk.mk b z false :: l2 ∧ asize ≤ z ∧
      Focus (remove_free_block s (some b)) l1 b z l2 cs' ∧
      (∀ x ∈ l1.getLast?, x.used = true) ∧ (∀ y ∈ l2.head?, y.used = true)) := by
  unfold find_fit RB_NFIND
  rw [sext31_small asize ha]
  cases hmin : rb_min s (List.filter (fun x => decide (block_compare (asize : Int) (tag_at s x).size ≤ 0)) s.tree) with
  | none =>
    left
    refine ⟨rfl, ?_⟩
    intro b z hb
    obtain ⟨c, hc, hcz, _⟩ := (hinv.compl b z).2 hb
    have hnil := rb_min_none hmin
    have hhead : c.head ∈ s.tree := by
      rw [hinv.index.tree_eq]; exact List.mem_map_of_mem _ hc
    have htag := hinv.index.tags c hc c.head (List.mem_cons_self _ _)
    have : c.head ∉ List.filter (fun x => decide (block_compare (asize : Int) (tag_at s x).size ≤ 0)) s.tree := by
      rw [hnil]; simp
    rw [List.mem_filter] at this
    simp only [hhead, true_and, htag, block_compare, decide_eq_true_eq] at this
    omega
  | some b =>
    right
    have hb := rb_min_mem hmin
    rw [List.mem_filter] at hb
    obtain ⟨hb1, hb2⟩ := hb
    rw [hinv.index.tree_eq] at hb1
    obtain ⟨c, hc, hcb⟩ := List.mem_map.1 hb1
    have htag := hinv.index.tags c hc c.head (List.mem_cons_self _ _)
    rw [hcb] at htag
    simp only [htag, block_compare, decide_eq_true_eq] at hb2
    have hmem : Blk.mk b c.size false ∈ l :=
      (hinv.compl b c.size).1 ⟨c, hc, rfl, by rw [← hcb]; exact List.mem_cons_self _ _⟩
    obtain ⟨l1, l2, hl⟩ := List.append_of_mem hmem
    subst hl
    obtain ⟨cs', hf, h1, h2⟩ := Focus_of_remove hinv
    exact ⟨b, c.size, l1, l2, cs', rfl, rfl, by omega, hf, h1, h2⟩

theorem word_tag_FENCE : word_tag (tag_word FENCE) = FENCE := by decide

theorem clear_low1_even (w : Nat) (h1 : w % 2 = 0) (h2 : w < 2 ^ 30) : clear_low1 (add32 w 1) = w := by
  unfold clear_low1
  rw [add32_small _ _ (by omega)]
  omega

theorem extend_heap_fail {s : State} {words : Nat} (h1 : words % 2 = 0) (h2 : words < 2 ^ 30)
    (h : s.brk * 4 + words * 4 > MAX_HEAP) : extend_heap s words = (none, s) := by
  unfold extend_heap
  simp only [clear_low1_even words h1 h2, WSIZE, mul32_small words 4 (by omega), mem_sbrk, h, if_true]

theorem extend_heap_spec {s : State} {l : List Blk} {cs : List Chain} {words : Nat}
    (hinv : Inv s l cs) (hw2 : 2 ≤ words) (hev : words % 2 = 0)
    (hfit : ¬ (s.brk * 4 + words * 4 > MAX_HEAP)) :
    ∃ cs', (extend_heap s words).1 = some (s.brk - 1 - lastFree l) ∧
      Focus (extend_heap s words).2 (trimLast l) (s.brk - 1 - lastFree l) (lastFree l + words) [] cs' ∧
      (extend_heap s words).2.brk = s.brk + words ∧
      (extend_heap s words).2.first = s.first ∧ (extend_heap s words).2.second = s.second ∧
      (extend_heap s words).2.first_timer = s.first_timer ∧
      (extend_heap s words).2.second_timer = s.second_timer ∧
      (∀ w, w < s.brk - 1 - lastFree l → (extend_heap s words).2.heap w = s.heap w) ∧
      (∀ x z, idx_mem cs' x z → idx_mem cs x z) := by
  have hmax : MAX_HEAP = 1024 * 2 ^ 20 := rfl
  have hfit2 := hfit
  rw [hmax] at hfit2
  have hbg := hinv.brk_ge
  have hwlt : words < 2 ^ 30 := by omega
  have hdiv : words * 4 / 4 = words := by omega
  have hle := Tiles_le hinv.tiles
  have hs3 : set_tag (mark_block_free { s with brk := s.brk + words } (s.brk - 1) (toInt words))
      (s.brk - 1 + words) FENCE =
      { s with brk := s.brk + words
               heap := upd (write_tags s.heap (s.brk - 1) words false) (s.brk - 1 + words) (tag_word FENCE) } := by
    rw [mark_block_free_eq _ _ _ (by omega) (by omega)]
    rfl
  have hfoc : Focus { s with brk := s.brk + words
                             heap := upd (write_tags s.heap (s.brk - 1) words false) (s.brk - 1 + words)
                               (tag_word FENCE) } l (s.brk - 1) words [] cs := by
    refine ⟨?_, ?_, ?_, ?_, ?_, hw2, hev, ?_, ?_, ?_, hinv.noadj, List.chain'_nil, ?_, ?_⟩
    · show 2 ≤ s.brk + words
      omega
    · show (s.brk + words) * WSIZE ≤ MAX_HEAP
      rw [hmax]; unfold WSIZE; omega
    · show word_tag (upd (write_tags s.heap (s.brk - 1) words false) (s.brk - 1 + words) (tag_word FENCE) 0)
        = FENCE
      rw [upd_other _ _ _ _ (by omega), write_tags_other _ _ _ _ _ (by omega) (by omega)]
      exact hinv.pro
    · show word_tag (upd (write_tags s.heap (s.brk - 1) words false) (s.brk - 1 + words) (tag_word FENCE)
        (s.brk + words - 1)) = FENCE
      have : s.brk + words - 1 = s.brk - 1 + words := by omega
      rw [this, upd_same]
      exact word_tag_FENCE
    · apply Tiles_congr _ hinv.tiles
      intro w _ hw
      show upd (write_tags s.heap (s.brk - 1) words false) (s.brk - 1 + words) _ w = s.heap w
      rw [upd_other _ _ _ _ (by omega), write_tags_other _ _ _ _ _ (by omega) (by omega)]
    · show word_tag (upd (write_tags s.heap (s.brk - 1) words false) (s.brk - 1 + words) (tag_word FENCE)
        (s.brk - 1)) = _
      rw [upd_other _ _ _ _ (by omega)]
      exact write_tags_hd _ _ _ _ (by omega)
    · show word_tag (upd (write_tags s.heap (s.brk - 1) words false) (s.brk - 1 + words) (tag_word FENCE)
        (s.brk - 1 + words - 1)) = _
      rw [upd_other _ _ _ _ (by omega)]
      exact write_tags_ft _ _ _ _ (by omega)
    · show s.brk - 1 + words = s.brk + words - 1
      omega
    · refine IndexOK_heap_congr (s := s) rfl rfl rfl ?_ hinv.index
      intro b hb
      obtain ⟨z, hz⟩ := idx_mem_iff_flatMap.2 hb
      have := Tiles_mem hinv.tiles ((hinv.compl b z).1 hz)
      simp only at this
      show upd (write_tags s.heap (s.brk - 1) words false) (s.brk - 1 + words) _ b = s.heap b
      rw [upd_other _ _ _ _ (by omega), write_tags_other _ _ _ _ _ (by omega) (by omega)]
    · intro b z
      rw [hinv.compl, List.append_nil]
  obtain ⟨cs', c1, c2, c3, c4, c5⟩ := coalesce_spec hfoc
  have hnext : next_blk (mark_block_free { s with brk := s.brk + words } (s.brk - 1) (toInt words)) (s.brk - 1)
      = s.brk - 1 + words := by
    apply next_blk_of_tag (u := false)
    rw [mark_block_free_eq _ _ _ (by omega) (by omega), tag_at_heap]
    exact write_tags_hd _ _ _ _ (by omega)
  have hext : extend_heap s words =
      (some (coalesce { s with brk := s.brk + words
                               heap := upd (write_tags s.heap (s.brk - 1) words false) (s.brk - 1 + words)
                                 (tag_word FENCE) } (s.brk - 1)).1,
       (coalesce { s with brk := s.brk + words
                          heap := upd (write_tags s.heap (s.brk - 1) words false) (s.brk - 1 + words)
                            (tag_word FENCE) } (s.brk - 1)).2) := by
    unfold extend_heap
    simp only [clear_low1_even words hev hwlt, WSIZE, mul32_small words 4 (by omega), mem_sbrk, hfit, if_false,
      hdiv]
    rw [hnext, hs3]
  rw [hext]
  simp only [headFree_nil, trimHead_nil, Nat.add_zero] at c2 c4
  refine ⟨cs', by rw [c1], c2, c3.1, c3.2.1, c3.2.2.1, c3.2.2.2.1, c3.2.2.2.2, ?_, c5⟩
  intro w hw
  rw [c4 w (by omega) (by omega)]
  show upd (write_tags s.heap (s.brk - 1) words false) (s.brk - 1 + words) _ w = s.heap w
  rw [upd_other _ _ _ _ (by omega), write_tags_other _ _ _ _ _ (by omega) (by omega)]

/-- The invariant does not depend on the sizing trackers. -/
theorem Inv_congr {s s' : State} {l : List Blk} {cs : List Chain}
    (h1 : s'.heap = s.heap) (h2 : s'.brk = s.brk) (h3 : s'.tree = s.tree) (h4 : s'.prev = s.prev)
    (h5 : s'.next = s.next) (hinv : Inv s l cs) : Inv s' l cs := by
  have ht : ∀ w, tag_at s' w = tag_at s w := fun w => by unfold tag_at; rw [h1]
  refine ⟨?_, ?_, ?_, ?_, ?_, hinv.noadj, ?_, hinv.compl⟩
  · rw [h2]; exact hinv.brk_ge
  · rw [h2]; exact hinv.brk_le
  · rw [ht]; exact hinv.pro
  · rw [ht, h2]; exact hinv.epi
  · rw [h1, h2]; exact hinv.tiles
  · exact IndexOK_heap_congr h3 h4 h5 (fun b _ => by rw [h1]) hinv.index

theorem profile_frame (s : State) (n : Nat) :
    (profile s n).2.heap = s.heap ∧ (profile s n).2.brk = s.brk ∧ (profile s n).2.tree = s.tree ∧
    (profile s n).2.prev = s.prev ∧ (profile s n).2.next = s.next := by
  unfold profile
  split
  · exact ⟨rfl, rfl, rfl, rfl, rfl⟩
  · dsimp only
    split_ifs <;> exact ⟨rfl, rfl, rfl, rfl, rfl⟩

theorem adjust_props (x : Nat) : adjust x % 8 = 0 ∧ adjust x < 2 ^ 32 := by
  unfold adjust clear_low3 DSIZE
  have : add32 (add32 x (2 * 4)) (8 - 1) < 2 ^ 32 := Nat.mod_lt _ (by unfold SZ; norm_num)
  omega

theorem awords_props (s : State) (n : Nat) :
    8 ≤ awords_of s n ∧ awords_of s n % 2 = 0 ∧ awords_of s n < 2 ^ 30 := by
  unfold awords_of MIN_BLOCK_SIZE_WORDS WSIZE
  have := adjust_props (profile s n).1
  omega

theorem Tiles_free_unique {h : Nat → Nat} {l : List Blk} {a e : Nat} {b : Blk} {x z : Nat}
    (ht : Tiles h a l e) (hb : b ∈ l) (hu : b.used = true) (hx : Blk.mk x z false ∈ l) : b.addr ≠ x := by
  intro h
  have := Tiles_addr_inj ht hb hx h
  rw [this] at hu
  simp at hu

theorem mm_malloc_spec {s : State} {l : List Blk} {cs : List Chain} {n : Nat}
    (hinv : Inv s l cs) (hn : n ≠ 0) :
    ∃ l' cs', Inv (mm_malloc s n).2 l' cs' ∧
      (∀ b ∈ l, b.used = true → b ∈ l') ∧
      (∀ b ∈ l, b.used = true → ∀ w, b.addr ≤ w → w < b.addr + b.size →
        (mm_malloc s n).2.heap w = s.heap w) ∧
      (∀ p, (mm_malloc s n).1 = some p →
        ∃ z, Blk.mk (p - 1) z true ∈ l' ∧ 1 ≤ p ∧ awords_of s n ≤ z ∧
          (∀ b ∈ l, b.used = true → b.addr ≠ p - 1)) ∧
      ((mm_malloc s n).1 = none → l' = l ∧ cs' = cs ∧ (mm_malloc s n).2.brk = s.brk) ∧
      same_trackers (profile s n).2 (mm_malloc s n).2 := by
  obtain ⟨p1, p2, p3, p4, p5⟩ := profile_frame s n
  have hinv1 : Inv (profile s n).2 l cs := Inv_congr p1 p2 p3 p4 p5 hinv
  obtain ⟨a8, aev, alt⟩ := awords_props s n
  have hmm : mm_malloc s n =
      match find_fit (profile s n).2 (awords_of s n) with
      | (some bp, s1) => (some (bp + 1), place s1 bp (awords_of s n))
      | (none, s1) =>
        let prev_boundary_tag := (mem_heap_hi s1 - 4 - PADDING) / WSIZE
        let extendwords :=
          if !(tag_at s1 prev_boundary_tag).inuse then
            sub32 (awords_of s n) (toSizeT (tag_at s1 prev_boundary_tag).size)
          else awords_of s n
        match extend_heap s1 extendwords with
        | (none, s2) => (none, s2)
        | (some bp, s2) => (some (bp + 1), place s2 bp (awords_of s n)) := by
    unfold mm_malloc
    rw [if_neg hn]
    rfl
  rw [hmm]
  rcases find_fit_spec hinv1 alt with ⟨hff, hsmall⟩ | ⟨b, z, l1, l2, cs1, hff, hl, hz, hfoc, hn1, hn2⟩
  · -- no fit: extend the arena
    rw [hff]
    simp only
    have hbg := hinv1.brk_ge
    have hpbt : (mem_heap_hi (profile s n).2 - 4 - PADDING) / WSIZE = (profile s n).2.brk - 1 - 1 := by
      unfold mem_heap_hi PADDING WSIZE
      omega
    rw [hpbt]
    obtain ⟨L1, L2, L3, L4, L5, L6, L7, L8, L9⟩ := left_neighbour hinv1.pro hinv1.tiles hinv1.noadj
    have hlf : lastFree l < awords_of s n := by
      by_cases h0 : lastFree l = 0
      · omega
      · exact hsmall _ _ ((L9 _).2 (Or.inr ⟨h0, rfl⟩))
    have hew : (if !(tag_at (profile s n).2 ((profile s n).2.brk - 1 - 1)).inuse then
            sub32 (awords_of s n) (toSizeT (tag_at (profile s n).2 ((profile s n).2.brk - 1 - 1)).size)
          else awords_of s n) = awords_of s n - lastFree l := by
      rw [L1]
      by_cases h0 : lastFree l = 0
      · simp [h0]
      · rw [L2 h0]
        simp only [h0, decide_False, Bool.not_false, if_true]
        rw [toSizeT_ofNat _ (by omega), sub32_small _ _ (by omega) (by omega)]
    rw [hew]
    by_cases hfit : (profile s n).2.brk * 4 + (awords_of s n - lastFree l) * 4 > MAX_HEAP
    · rw [extend_heap_fail (by omega) (by omega) hfit]
      simp only
      refine ⟨l, cs, hinv1, fun b hb _ => hb, ?_, ?_, fun _ => ⟨rfl, rfl, p2⟩, ⟨rfl, rfl, rfl, rfl⟩⟩
      · intro b _ _ w _ _
        rw [p1]
      · intro p hp
        simp at hp
    · obtain ⟨cs2, e1, e2, e3, e4, e5, e6, e7, e8, e9⟩ :=
        extend_heap_spec hinv1 (by omega) (by omega) hfit
      have hsum : lastFree l + (awords_of s n - lastFree l) = awords_of s n := by omega
      rw [hsum] at e2
      have hres : extend_heap (profile s n).2 (awords_of s n - lastFree l) =
          (some ((profile s n).2.brk - 1 - lastFree l),
            (extend_heap (profile s n).2 (awords_of s n - lastFree l)).2) := by
        rw [← e1]
      rw [hres]
      simp only
      obtain ⟨cs3, q1, q2, q3⟩ := place_spec e2 (by simp) a8 aev (le_refl _)
      have hpl : placed (trimLast l) ((profile s n).2.brk - 1 - lastFree l) (awords_of s n) (awords_of s n) []
          = trimLast l ++ [Blk.mk ((profile s n).2.brk - 1 - lastFree l) (awords_of s n) true] := by
        unfold placed MIN_BLOCK_SIZE_WORDS
        rw [if_neg (by omega)]
      rw [hpl] at q1
      have hused : ∀ b ∈ l, b.used = true → b ∈ trimLast l := by
        intro b hb hu
        rcases (L9 b).1 hb with h | ⟨_, h⟩
        · exact h
        · rw [h] at hu; simp at hu
      refine ⟨_, cs3, q1, ?_, ?_, ?_, ?_, ⟨q2.2.1.trans e4, q2.2.2.1.trans e5, q2.2.2.2.1.trans e6,
        q2.2.2.2.2.trans e7⟩⟩
      · intro b hb hu
        exact List.mem_append_left _ (hused b hb hu)
      · intro b hb hu w hw1 hw2
        have := Tiles_mem L6 (hused b hb hu)
        rw [q3 w (Or.inl (by omega)), e8 w (by omega), p1]
      · intro p hp
        simp only [Option.some.injEq] at hp
        subst hp
        refine ⟨awords_of s n, by simp, by omega, le_refl _, ?_⟩
        intro b hb hu
        have := Tiles_mem L6 (hused b hb hu)
        omega
      · intro h; simp at h
  · -- a fit was found
    rw [hff]
    simp only
    subst hl
    have hm1 := hinv1.tiles
    obtain ⟨m, t1, t2⟩ := Tiles_append.1 hm1
    obtain ⟨g1, g2, g3, g4, g5, g6⟩ := t2
    simp only at g1 g2 g3 g4 g5 g6
    subst g1
    obtain ⟨cs3, q1, q2, q3⟩ := place_spec hfoc hn2 a8 aev hz
    have hsame := remove_free_block_same (profile s n).2 (some b)
    refine ⟨_, cs3, q1, ?_, ?_, ?_, ?_, ⟨q2.2.1.trans hsame.2.2.1, q2.2.2.1.trans hsame.2.2.2.1,
      q2.2.2.2.1.trans hsame.2.2.2.2.1, q2.2.2.2.2.trans hsame.2.2.2.2.2⟩⟩
    · intro x hx hu
      have hx' : x ∈ l1 ∨ x ∈ l2 := by
        rcases List.mem_append.1 hx with h | h
        · exact Or.inl h
        · rcases List.mem_cons.1 h with h | h
          · rw [h] at hu; simp at hu
          · exact Or.inr h
      unfold placed
      split <;> simp only [List.mem_append, List.mem_cons] <;> tauto
    · intro x hx hu w hw1 hw2
      have hx' : x ∈ l1 ∨ x ∈ l2 := by
        rcases List.mem_append.1 hx with h | h
        · exact Or.inl h
        · rcases List.mem_cons.1 h with h | h
          · rw [h] at hu; simp at hu
          · exact Or.inr h
      have hout : w < b ∨ b + z ≤ w := by
        rcases hx' with h | h
        · have := Tiles_mem t1 h; omega
        · have := Tiles_mem g6 h; omega
      rw [q3 w hout, hsame.1, p1]
    · intro p hp
      simp only [Option.some.injEq] at hp
      subst hp
      have hb1 : 1 ≤ b := Tiles_le t1
      by_cases hsplit : z - awords_of s n ≥ MIN_BLOCK_SIZE_WORDS
      · refine ⟨awords_of s n, ?_, by omega, le_refl _, ?_⟩
        · unfold placed; rw [if_pos hsplit]; simp
        · intro x hx hu
          exact Tiles_free_unique (z := z) hm1 hx hu (by simp)
      · refine ⟨z, ?_, by omega, hz, ?_⟩
        · unfold placed; rw [if_neg hsplit]; simp
        · intro x hx hu
          exact Tiles_free_unique (z := z) hm1 hx hu (by simp)
    · intro h; simp at h

theorem mm_free_spec {s : State} {l1 l2 : List Blk} {a sz : Nat} {cs : List Chain}
    (hinv : Inv s (l1 ++ Blk.mk a sz true :: l2) cs) :
    ∃ cs', Inv (mm_free s (some (a + 1))) (freed l1 a sz l2) cs' ∧
      same_globals s (mm_free s (some (a + 1))) ∧
      (∀ w, (w < a - lastFree l1 ∨ a + sz + headFree l2 ≤ w) →
        (mm_free s (some (a + 1))).heap w = s.heap w) := by
  obtain ⟨m, t1, t2⟩ := Tiles_append.1 hinv.tiles
  obtain ⟨g1, g2, g3, g4, g5, g6⟩ := t2
  simp only at g1 g2 g3 g4 g5 g6
  subst g1
  have hsize : blk_size s a = sz := blk_size_of_tag (u := true) g4
  have hszlt : sz < 2 ^ 30 := tag_size_lt (s := s) (u := true) g4
  obtain ⟨n1, n2, _⟩ := List.chain'_append.1 hinv.noadj
  have hfoc : Focus { s with heap := write_tags s.heap a sz false } l1 a sz l2 cs := by
    refine Focus_of_write hinv.brk_ge hinv.brk_le hinv.pro hinv.epi t1 g6 (by omega) g3 n1
      (List.Chain'.tail n2) (same_arena_refl s) hinv.index ?_
    intro b z
    rw [hinv.compl]
    simp only [List.mem_append, List.mem_cons, Blk.mk.injEq, Bool.false_eq_true, and_false, false_or]
  obtain ⟨cs1, c1, c2, c3, c4, _⟩ := coalesce_spec hfoc
  obtain ⟨_, _, L3, _, _, _, _, L8, _⟩ := left_neighbour hfoc.pro hfoc.tiles1 hfoc.noadj1
  obtain ⟨_, _, _, _, _, _, R7, _⟩ := right_neighbour hfoc.epi hfoc.tiles2 hfoc.noadj2
  obtain ⟨cs2, hinv2⟩ := Focus_add c2 (by omega) L8 R7
  have hmm : mm_free s (some (a + 1)) =
      add_free_block (coalesce { s with heap := write_tags s.heap a sz false } a).2
        (some (a - lastFree l1)) := by
    unfold mm_free
    simp only [Nat.add_sub_cancel, hsize]
    rw [mark_block_free_eq _ _ _ (by omega) (by omega), c1]
  rw [hmm]
  have hsame := add_free_block_same (coalesce { s with heap := write_tags s.heap a sz false } a).2
    (some (a - lastFree l1))
  refine ⟨cs2, hinv2, ?_, ?_⟩
  · exact ⟨hsame.2.1.trans c3.1, hsame.2.2.1.trans c3.2.1, hsame.2.2.2.1.trans c3.2.2.1,
      hsame.2.2.2.2.1.trans c3.2.2.2.1, hsame.2.2.2.2.2.trans c3.2.2.2.2⟩
  · intro w hw
    rw [hsame.1, c4 w (by omega) (by omega)]
    show write_tags s.heap a sz false w = s.heap w
    rw [write_tags_other _ _ _ _ _ (by omega) (by omega)]

theorem mm_init_spec {s0 : State} (h0 : s0.brk = 0) :
    (mm_init s0).1 = 0 ∧ (∃ cs, Inv (mm_init s0).2 [Blk.mk 1 16 false] cs) ∧
    (mm_init s0).2.brk = 18 ∧ (mm_init s0).2.first = 84 ∧ (mm_init s0).2.second = 82 ∧
    (mm_init s0).2.first_timer = 0 ∧ (mm_init s0).2.second_timer = 0 := by
  have hbrk : (init_fences s0).brk = 2 := rfl
  have hh0 : (init_fences s0).heap 0 = tag_word FENCE := rfl
  have hh1 : (init_fences s0).heap 1 = tag_word FENCE := rfl
  have hinv : Inv (init_fences s0) [] [] := by
    refine ⟨by rw [hbrk], by rw [hbrk]; decide, ?_, ?_, ?_, List.chain'_nil, ?_, ?_⟩
    · show word_tag ((init_fences s0).heap 0) = FENCE
      rw [hh0]; exact word_tag_FENCE
    · show word_tag ((init_fences s0).heap ((init_fences s0).brk - 1)) = FENCE
      rw [hbrk, hh1]; exact word_tag_FENCE
    · show 1 = (init_fences s0).brk - 1
      rw [hbrk]
    · exact ⟨rfl, List.nodup_nil, List.nodup_nil, fun _ h => by simp at h, fun _ h => by simp at h⟩
    · intro b z
      simp [idx_mem]
  obtain ⟨cs1, e1, e2, e3, e4, e5, e6, e7, _, _⟩ :=
    @extend_heap_spec _ _ _ 16 hinv (by omega) (by omega) (by rw [hbrk]; decide)
  simp only [lastFree_nil, trimLast_nil, hbrk] at e1 e2 e3
  have e2' : Focus (extend_heap (init_fences s0) 16).2 [] 1 16 [] cs1 := e2
  obtain ⟨cs2, hinv2⟩ := Focus_add e2' (by omega) (by simp) (by simp)
  have hmm : mm_init s0 = (0, add_free_block (extend_heap (init_fences s0) 16).2 (some 1)) := by
    have hsbrk : mem_sbrk (RB_INIT s0) (2 * 4) = some (0, { RB_INIT s0 with brk := 2 }) := by
      unfold mem_sbrk RB_INIT
      simp only [h0]
      rfl
    unfold mm_init
    simp only [hsbrk, CHUNKSIZE]
    have : extend_heap (init_fences s0) 16 = (some 1, (extend_heap (init_fences s0) 16).2) := by
      rw [← e1]
    unfold init_fences at this
    rw [this]
    rfl
  rw [hmm]
  have hsame := add_free_block_same (extend_heap (init_fences s0) 16).2 (some 1)
  refine ⟨rfl, ⟨cs2, hinv2⟩, ?_, ?_, ?_, ?_, ?_⟩
  · rw [hsame.2.1, e3]
  · rw [hsame.2.2.1, e4]; rfl
  · rw [hsame.2.2.2.1, e5]; rfl
  · rw [hsame.2.2.2.2.1, e6]; rfl
  · rw [hsame.2.2.2.2.2, e7]; rfl

theorem profile_trackers (s : State) (n : Nat) (hn : n ≤ 2 ^ 30) (h2 : s.second ≤ 82) (h1 : s.first ≤ 2 ^ 30) :
    (profile s n).2.second ≤ 82 ∧ (profile s n).2.first ≤ 2 ^ 30 ∧
    n ≤ (profile s n).1 ∧ (profile s n).1 ≤ n + 82 := by
  unfold profile
  have hs : ∀ a b, a ≤ 2 ^ 30 → b ≤ 82 → add32 a b = a + b := fun a b ha hb => add32_small a b (by omega)
  split
  · exact ⟨h2, h1, le_refl _, by omega⟩
  · dsimp only
    split_ifs <;> simp only [hs n _ hn h2] <;> refine ⟨?_, ?_, ?_, ?_⟩ <;> omega

theorem adjust_ge (x : Nat) (h : x ≤ 2 ^ 30 + 82) : x + 8 ≤ adjust x := by
  unfold adjust clear_low3 DSIZE
  rw [add32_small x (2 * 4) (by omega), add32_small (x + 2 * 4) (8 - 1) (by omega)]
  omega

theorem awords_capacity (s : State) (n : Nat) (hn : n ≤ 2 ^ 30) (h2 : s.second ≤ 82)
    (h1 : s.first ≤ 2 ^ 30) : n + 8 ≤ 4 * awords_of s n := by
  obtain ⟨_, _, p3, p4⟩ := profile_trackers s n hn h2 h1
  have := adjust_ge (profile s n).1 (by omega)
  unfold awords_of MIN_BLOCK_SIZE_WORDS WSIZE
  have h8 := (adjust_props (profile s n).1).1
  omega

theorem DInv_init (s0 : State) : DInv { s := (mm_init (mem_reset_brk s0)).2, ranges := [] } := by
  obtain ⟨_, ⟨cs, hinv⟩, _, h1, h2, _, _⟩ := @mm_init_spec (mem_reset_brk s0) rfl
  refine ⟨_, cs, hinv, ⟨List.nodup_nil, fun r hr => by simp at hr⟩, ?_, ?_⟩
  · show (mm_init (mem_reset_brk s0)).2.second ≤ 82
    rw [h2]
  · show (mm_init (mem_reset_brk s0)).2.first ≤ 2 ^ 30
    rw [h1]; norm_num

theorem DInv_alloc {d : Driver} (hd : DInv d) (n : Nat) (h0 : 0 < n) (hn : n ≤ 2 ^ 30) :
    DInv (step d (Op.alloc n)) := by
  obtain ⟨l, cs, hinv, ⟨hnd, hlive⟩, h2, h1⟩ := hd
  obtain ⟨l', cs', m1, m2, m3, m4, m5, m6⟩ := mm_malloc_spec (n := n) hinv (by omega)
  obtain ⟨t1, t2, _, _⟩ := profile_trackers d.s n hn h2 h1
  have hcap := awords_capacity d.s n hn h2 h1
  have hsec : (mm_malloc d.s n).2.second ≤ 82 := by rw [m6.2.1]; exact t1
  have hfst : (mm_malloc d.s n).2.first ≤ 2 ^ 30 := by rw [m6.1]; exact t2
  have hold : ∀ r ∈ d.ranges, 1 ≤ r.1 ∧ ∃ z, Blk.mk (r.1 - 1) z true ∈ l' ∧ r.2 + 8 ≤ 4 * z := by
    intro r hr
    obtain ⟨g1, z, g2, g3⟩ := hlive r hr
    exact ⟨g1, z, m2 _ g2 rfl, g3⟩
  simp only [step]
  rw [if_pos ⟨h0, hn⟩]
  cases hres : (mm_malloc d.s n).1 with
  | none =>
    exact ⟨l', cs', m1, ⟨hnd, hold⟩, hsec, hfst⟩
  | some p =>
    obtain ⟨z, k1, k2, k3, k4⟩ := m4 p hres
    refine ⟨l', cs', m1, ⟨?_, ?_⟩, hsec, hfst⟩
    · rw [List.map_cons, List.nodup_cons]
      refine ⟨?_, hnd⟩
      intro hp
      obtain ⟨r, hr, hrp⟩ := List.mem_map.1 hp
      obtain ⟨g1, z', g2, _⟩ := hlive r hr
      have := k4 _ g2 rfl
      simp only at this hrp
      omega
    · intro r hr
      rcases List.mem_cons.1 hr with h | h
      · rw [h]
        exact ⟨k2, z, k1, by simp only; omega⟩
      · exact hold r h

theorem DInv_free {d : Driver} (hd : DInv d) (p : Nat) : DInv (step d (Op.free p)) := by
  obtain ⟨l, cs, hinv, ⟨hnd, hlive⟩, h2, h1⟩ := hd
  simp only [step]
  split
  · rename_i hp
    obtain ⟨r, hr, hrp⟩ := List.mem_map.1 hp
    obtain ⟨g1, z, g2, _⟩ := hlive r hr
    rw [hrp] at g1 g2
    obtain ⟨l1, l2, hl⟩ := List.append_of_mem g2
    subst hl
    have hpe : p = (p - 1) + 1 := by omega
    obtain ⟨cs', f1, f2, f3⟩ := mm_free_spec hinv
    rw [← hpe] at f1 f2 f3
    obtain ⟨m, t1, t2⟩ := Tiles_append.1 hinv.tiles
    obtain ⟨n1, n2, _⟩ := List.chain'_append.1 hinv.noadj
    obtain ⟨_, _, _, _, _, _, _, _, L9⟩ := left_neighbour hinv.pro t1 n1
    have t2' := t2.2.2.2.2.2
    simp only at t2'
    obtain ⟨_, _, _, _, _, _, _, R8⟩ := right_neighbour hinv.epi t2' (List.Chain'.tail n2)
    refine ⟨_, cs', f1, ⟨?_, ?_⟩, ?_, ?_⟩
    · exact (List.Nodup.sublist (List.Sublist.map _ (List.filter_sublist _)) hnd)
    · intro q hq
      obtain ⟨hq1, hq2⟩ := List.mem_filter.1 hq
      simp only [bne_iff_ne, ne_eq] at hq2
      obtain ⟨k1, z', k2, k3⟩ := hlive q hq1
      refine ⟨k1, z', ?_, k3⟩
      unfold freed
      simp only [List.mem_append, List.mem_cons] at k2 ⊢
      rcases k2 with h | h | h
      · rcases (L9 _).1 h with h' | ⟨_, h'⟩
        · exact Or.inl h'
        · simp at h'
      · simp only [Blk.mk.injEq, and_true] at h
        omega
      · rcases (R8 _).1 h with h' | ⟨_, h'⟩
        · exact Or.inr (Or.inr h')
        · simp at h'
    · show (mm_free d.s (some p)).second ≤ 82
      rw [f2.2.2.1]; exact h2
    · show (mm_free d.s (some p)).first ≤ 2 ^ 30
      rw [f2.2.1]; exact h1
  · exact ⟨l, cs, hinv, ⟨hnd, hlive⟩, h2, h1⟩

theorem DInv_step {d : Driver} (hd : DInv d) (op : Op) : DInv (step d op) := by
  cases op with
  | alloc n =>
    by_cases h : 0 < n ∧ n ≤ 2 ^ 30
    · exact DInv_alloc hd n h.1 h.2
    · simp only [step]
      rw [if_neg h]
      exact hd
  | free p => exact DInv_free hd p

theorem DInv_foldl (ops : List Op) : ∀ d : Driver, DInv d → DInv (ops.foldl step d) := by
  induction ops with
  | nil => intro d hd; exact hd
  | cons op r ih => intro d hd; exact ih _ (DInv_step hd op)

theorem DInv_run (s0 : State) (ops : List Op) : DInv (run s0 ops) :=
  DInv_foldl ops _ (DInv_init s0)

theorem Tiles_length {h : Nat → Nat} {l : List Blk} {a e : Nat} (ht : Tiles h a l e) :
    l.length + a ≤ e := by
  induction l generalizing a with
  | nil => have : a = e := ht; simp; omega
  | cons b r ih =>
    obtain ⟨_, h2, _, _, _, h6⟩ := ht
    have := ih h6
    simp only [List.length_cons]
    omega

theorem Tiles_sum {h : Nat → Nat} {l : List Blk} {a e : Nat} (ht : Tiles h a l e) :
    (l.map Blk.size).sum + a = e := by
  induction l generalizing a with
  | nil => have : a = e := ht; simp; omega
  | cons b r ih =>
    obtain ⟨_, h2, _, _, _, h6⟩ := ht
    have := ih h6
    simp only [List.map_cons, List.sum_cons]
    omega

theorem walk_of_Tiles {s : State} {l : List Blk} {a : Nat} {fuel : Nat}
    (ht : Tiles s.heap a l (s.brk - 1)) (hf : l.length ≤ fuel) :
    walk s fuel a = some (l.map Blk.addr) := by
  induction l generalizing a fuel with
  | nil =>
    have : a = s.brk - 1 := ht
    cases fuel <;> simp [walk, this]
  | cons b r ih =>
    obtain ⟨h1, h2, h3, h4, h5, h6⟩ := ht
    have hle := Tiles_le h6
    cases fuel with
    | zero => simp at hf
    | succ f =>
      have htag : tag_at s a = { inuse := b.used, size := (b.size : Int) } := h4
      have hnext : next_blk s a = a + b.size := next_blk_of_tag htag
      unfold walk
      rw [if_neg (by omega), if_pos ⟨by omega, by rw [htag]; simp only; omega⟩, hnext,
        ih h6 (by simpa using hf)]
      simp [h1]

theorem heap_blocks_of_Inv {s : State} {l : List Blk} {cs : List Chain} (hinv : Inv s l cs) :
    heap_blocks s = some (l.map Blk.addr) := by
  unfold heap_blocks
  apply walk_of_Tiles hinv.tiles
  have := Tiles_length hinv.tiles
  omega

theorem chain_of_Linked {s : State} {r : List Nat} {x : Nat} {p : Option Nat} {fuel : Nat}
    (hl : Linked s.prev s.next p (x :: r)) (hf : r.length ≤ fuel) : chain_of s fuel x = x :: r := by
  induction r generalizing x p fuel with
  | nil =>
    obtain ⟨_, h2, _⟩ := hl
    cases fuel with
    | zero => rfl
    | succ f =>
      unfold chain_of
      rw [h2]; rfl
  | cons y r' ih =>
    obtain ⟨_, h2, h3⟩ := hl
    cases fuel with
    | zero => simp at hf
    | succ f =>
      unfold chain_of
      rw [h2]
      simp only [List.head?_cons]
      rw [ih h3 (by simpa using hf)]

theorem nodup_length_le {l : List Nat} {n : Nat} (hnd : l.Nodup) (hlt : ∀ x ∈ l, x < n) : l.length ≤ n := by
  have hsub : l ⊆ List.range n := fun x hx => List.mem_range.2 (hlt x hx)
  have := (List.Nodup.subperm hnd hsub).length_le
  simpa using this

theorem index_blocks_of_Inv {s : State} {l : List Blk} {cs : List Chain} (hinv : Inv s l cs) :
    index_blocks s = cs.flatMap Chain.blocks := by
  unfold index_blocks
  rw [hinv.index.tree_eq, List.flatMap_map]
  apply List.flatMap_congr
  intro c hc
  have hl := hinv.index.linked c hc
  apply chain_of_Linked hl
  have hnd := IndexOK_chain_nodup hinv.index hc
  have hlt : ∀ x ∈ c.blocks, x < s.brk := by
    intro x hx
    have := (hinv.compl x c.size).1 ⟨c, hc, rfl, hx⟩
    have := Tiles_mem hinv.tiles this
    simp only at this
    omega
  have := nodup_length_le hnd hlt
  simp only [Chain.blocks, List.length_cons] at this
  omega

theorem free_next_used {h : Nat → Nat} {l : List Blk} {a e : Nat}
    (ht : Tiles h a l e) (hn : NoAdjFree l) (he : (word_tag (h e)).inuse = true) :
    ∀ b ∈ l, b.used = false → (word_tag (h (b.addr + b.size))).inuse = true := by
  induction l generalizing a with
  | nil => intro b hb; simp at hb
  | cons c r ih =>
    obtain ⟨h1, h2, h3, h4, h5, h6⟩ := ht
    intro b hb hu
    rcases List.mem_cons.1 hb with hbc | hbr
    · subst hbc
      rw [h1]
      cases r with
      | nil =>
        have : a + b.size = e := h6
        rw [this]; exact he
      | cons y r' =>
        obtain ⟨g1, _, _, g4, _, _⟩ := h6
        rw [g4]
        rcases (List.chain'_cons.1 hn).1 with h | h
        · rw [hu] at h; exact absurd h (by simp)
        · exact h
    · exact ih h6 (List.Chain'.tail hn) b hbr hu

theorem Tiles_disjoint {h : Nat → Nat} {l : List Blk} {a e : Nat} {b c : Blk}
    (ht : Tiles h a l e) (hb : b ∈ l) (hc : c ∈ l) (hlt : b.addr < c.addr) :
    b.addr + b.size ≤ c.addr := by
  induction l generalizing a with
  | nil => simp at hb
  | cons d ds ih =>
    obtain ⟨h1, h2, h3, h4, h5, h6⟩ := ht
    rcases List.mem_cons.1 hb with hb1 | hb1
    · rcases List.mem_cons.1 hc with hc1 | hc1
      · rw [hb1, hc1] at hlt; omega
      · have := Tiles_mem h6 hc1
        rw [hb1]; omega
    · rcases List.mem_cons.1 hc with hc1 | hc1
      · have := Tiles_mem h6 hb1
        rw [hc1] at hlt; omega
      · exact ih h6 hb1 hc1

theorem blocks_of_Inv {s : State} {l : List Blk} {cs : List Chain} (hinv : Inv s l cs) {b : Nat} :
    (b ∈ l.map Blk.addr ∧ blk_free s b = true) ↔ ∃ z, Blk.mk b z false ∈ l := by
  constructor
  · rintro ⟨hb, hf⟩
    obtain ⟨B, hB, hBb⟩ := List.mem_map.1 hb
    have := (Tiles_mem hinv.tiles hB).2.2.2.2.1
    have htag : tag_at s b = { inuse := B.used, size := (B.size : Int) } := by rw [← hBb]; exact this
    unfold blk_free at hf
    rw [htag] at hf
    simp only [Bool.not_eq_true', ] at hf
    refine ⟨B.size, ?_⟩
    have : B = Blk.mk b B.size false := by
      cases B
      simp only at hBb hf
      rw [hBb, hf]
    rw [← this]; exact hB
  · rintro ⟨z, hz⟩
    refine ⟨List.mem_map.2 ⟨_, hz, rfl⟩, ?_⟩
    have := (Tiles_mem hinv.tiles hz).2.2.2.2.1
    unfold blk_free tag_at
    rw [this]; rfl

/-- C1 (no overlap).  In every state reached from `mm_init` by a sequence of `mm_malloc` calls
(sizes between 1 and `2^30`) and `mm_free` calls on live regions, the byte ranges of any two
live regions are disjoint. -/
theorem no_overlap (s0 : State) (ops : List Op) :
    (run s0 ops).ranges.Pairwise disjoint_ranges := by
  obtain ⟨l, cs, hinv, ⟨hnd, hlive⟩, _, _⟩ := DInv_run s0 ops
  apply List.Nodup.pairwise_of_forall_ne (List.Nodup.of_map _ hnd)
  intro r1 hr1 r2 hr2 hne
  obtain ⟨g1, z1, b1, c1⟩ := hlive r1 hr1
  obtain ⟨g2, z2, b2, c2⟩ := hlive r2 hr2
  have hfst : r1.1 ≠ r2.1 := by
    intro h
    apply hne
    exact List.inj_on_of_nodup_map hnd hr1 hr2 h
  unfold disjoint_ranges WSIZE
  rcases Nat.lt_or_gt_of_ne hfst with h | h
  · have := Tiles_disjoint hinv.tiles b1 b2 (by simp only; omega)
    simp only at this
    left; omega
  · have := Tiles_disjoint hinv.tiles b2 b1 (by simp only; omega)
    simp only at this
    right; omega

/-- C3 (capacity and bounds).  In a state reached by `mm_malloc` and `mm_free` calls, when
`mm_malloc n` with `0 < n ≤ 2^30` returns the payload word `p`, the block of `p` is marked
allocated, its size in bytes minus the two tags of 4 bytes is at least `n`, and the bytes
`[p, p + n)` lie inside the arena. -/
theorem capacity_and_bounds (s0 : State) (ops : List Op) (n p : Nat) (h0 : 0 < n) (hn : n ≤ 2 ^ 30)
    (hp : (mm_malloc (run s0 ops).s n).1 = some p) :
    (tag_at (mm_malloc (run s0 ops).s n).2 (p - 1)).inuse = true ∧
    n + 2 * 4 ≤ WSIZE * blk_size (mm_malloc (run s0 ops).s n).2 (p - 1) ∧
    1 ≤ p ∧ WSIZE * p + n ≤ WSIZE * (mm_malloc (run s0 ops).s n).2.brk := by
  obtain ⟨l, cs, hinv, _, h2, h1⟩ := DInv_run s0 ops
  obtain ⟨l', cs', m1, _, _, m4, _, _⟩ := mm_malloc_spec (n := n) hinv (by omega)
  obtain ⟨z, k1, k2, k3, _⟩ := m4 p hp
  have hcap := awords_capacity (run s0 ops).s n hn h2 h1
  obtain ⟨t1, t2, _, _, t5, _⟩ := Tiles_mem m1.tiles k1
  simp only at t1 t2 t5
  have htag : tag_at (mm_malloc (run s0 ops).s n).2 (p - 1) = { inuse := true, size := (z : Int) } := t5
  rw [blk_size_of_tag htag, htag]
  have := m1.brk_ge
  unfold WSIZE
  refine ⟨rfl, by omega, k2, by omega⟩

/-- C4 (tiling).  In every state reached from `mm_init` by `mm_malloc` calls (sizes up to `2^30`)
and `mm_free` calls on live regions, the walk from the word after the left fence arrives exactly
at the right fence in the last word of the arena, every block visited has a footer equal to its
header, and the block sizes add up to the arena extent minus the two fence words. -/
theorem tiling_invariant (s0 : State) (ops : List Op) :
    ∃ bl, heap_blocks (run s0 ops).s = some bl ∧
      (∀ b ∈ bl, tag_at (run s0 ops).s (get_footer (run s0 ops).s b) = tag_at (run s0 ops).s b) ∧
      tag_at (run s0 ops).s 0 = FENCE ∧
      tag_at (run s0 ops).s ((run s0 ops).s.brk - 1) = FENCE ∧
      (bl.map (blk_size (run s0 ops).s)).sum + 2 = (run s0 ops).s.brk := by
  obtain ⟨l, cs, hinv, _, _, _⟩ := DInv_run s0 ops
  refine ⟨l.map Blk.addr, heap_blocks_of_Inv hinv, ?_, hinv.pro, hinv.epi, ?_⟩
  · intro b hb
    obtain ⟨B, hB, hBb⟩ := List.mem_map.1 hb
    obtain ⟨_, _, t3, _, t5, t6⟩ := Tiles_mem hinv.tiles hB
    rw [hBb] at t5 t6
    have htag : tag_at (run s0 ops).s b = { inuse := B.used, size := (B.size : Int) } := t5
    have hft : get_footer (run s0 ops).s b = b + B.size - 1 := by
      unfold get_footer
      rw [htag]
      simp only
      omega
    rw [hft, htag]
    exact t6
  · have hsum := Tiles_sum hinv.tiles
    have : List.map (blk_size (run s0 ops).s) (List.map Blk.addr l) = l.map Blk.size := by
      rw [List.map_map]
      apply List.map_congr_left
      intro B hB
      exact blk_size_of_tag (Tiles_mem hinv.tiles hB).2.2.2.2.1
    rw [this]
    have := hinv.brk_ge
    omega

/-- C5 (no adjacent free blocks).  In every state reached from `mm_init` by `mm_malloc` calls
(sizes up to `2^30`) and `mm_free` calls on live regions, no free block of the arena is directly
followed by a free block. -/
theorem no_adjacent_free (s0 : State) (ops : List Op) :
    ∃ bl, heap_blocks (run s0 ops).s = some bl ∧
      ∀ b ∈ bl, blk_free (run s0 ops).s b = true →
        blk_free (run s0 ops).s (next_blk (run s0 ops).s b) = false := by
  obtain ⟨l, cs, hinv, _, _, _⟩ := DInv_run s0 ops
  refine ⟨l.map Blk.addr, heap_blocks_of_Inv hinv, ?_⟩
  intro b hb hf
  obtain ⟨z, hz⟩ := (blocks_of_Inv hinv).1 ⟨hb, hf⟩
  have htag := (Tiles_mem hinv.tiles hz).2.2.2.2.1
  have hnext : next_blk (run s0 ops).s b = b + z := next_blk_of_tag htag
  have hepi : (word_tag ((run s0 ops).s.heap ((run s0 ops).s.brk - 1))).inuse = true := by
    have := hinv.epi
    unfold tag_at at this
    rw [this]; rfl
  have := free_next_used hinv.tiles hinv.noadj hepi _ hz rfl
  rw [hnext]
  unfold blk_free tag_at
  simp only at this
  rw [this]; rfl

/-- C6 (index completeness).  In every state reached from `mm_init` by `mm_malloc` calls (sizes
up to `2^30`) and `mm_free` calls on live regions, the blocks reachable from the index (tree
entries and the blocks chained to them) are exactly the blocks of the arena whose tag says
free, each of them once; no allocated block is reachable from the index. -/
theorem index_complete (s0 : State) (ops : List Op) :
    ∃ bl, heap_blocks (run s0 ops).s = some bl ∧
      (∀ b, b ∈ index_blocks (run s0 ops).s ↔ (b ∈ bl ∧ blk_free (run s0 ops).s b = true)) ∧
      (index_blocks (run s0 ops).s).Nodup := by
  obtain ⟨l, cs, hinv, _, _, _⟩ := DInv_run s0 ops
  refine ⟨l.map Blk.addr, heap_blocks_of_Inv hinv, ?_, ?_⟩
  · intro b
    rw [index_blocks_of_Inv hinv, blocks_of_Inv hinv, ← idx_mem_iff_flatMap]
    constructor
    · rintro ⟨z, hz⟩; exact ⟨z, (hinv.compl b z).1 hz⟩
    · rintro ⟨z, hz⟩; exact ⟨z, (hinv.compl b z).2 hz⟩
  · rw [index_blocks_of_Inv hinv]
    exact hinv.index.blocks_nodup

/-- C10 (resize to zero).  For every state and every region pointer, null included,
`mm_realloc ptr 0` returns null and leaves exactly the state that `mm_free ptr` leaves. -/
theorem realloc_zero_is_free (s : State) (ptr : Option Nat) :
    mm_realloc s ptr 0 = (none, mm_free s ptr) := by
  unfold mm_realloc
  simp

set_option maxRecDepth 1000000 in
/-- Witness for C3: the first request of 24 bytes after `mm_init`. -/
theorem capacity_and_bounds_witness :
    0 < 24 ∧ 24 ≤ 2 ^ 30 ∧ (mm_malloc (run empty_state []).s 24).1 = some 2 ∧
    ((tag_at (mm_malloc (run empty_state []).s 24).2 (2 - 1)).inuse = true ∧
     24 + 2 * 4 ≤ WSIZE * blk_size (mm_malloc (run empty_state []).s 24).2 (2 - 1) ∧
     1 ≤ 2 ∧ WSIZE * 2 + 24 ≤ WSIZE * (mm_malloc (run empty_state []).s 24).2.brk) :=
  ⟨by decide, by decide, by decide,
    capacity_and_bounds empty_state [] 24 2 (by decide) (by decide) (by decide)⟩

set_option maxRecDepth 1000000 in
/-- C7 (resize preserves the invariants) fails on the code.  After the trace `trace7` the arena
is tiled by the blocks at words 1, 9 and 17, the regions at words 2 and 18 are live and the free
block at word 9 is the only index entry.  `mm_realloc` of the region at word 2 to 100 bytes
(28 words, more than the 16 words of the block and its free right neighbour) returns the region
itself; afterwards the header at word 1 claims 28 words, the walk of the arena no longer reaches
the right fence, the index holds a block outside of the arena, and the bytes of the returned
region overlap the live region at word 18. -/
theorem realloc_breaks_invariants :
    (run empty_state trace7).ranges = [(18, 24), (2, 24)] ∧
    heap_blocks (run empty_state trace7).s = some [1, 9, 17] ∧
    index_blocks (run empty_state trace7).s = [9] ∧
    (run empty_state trace7).s.brk = 26 ∧
    (mm_realloc (run empty_state trace7).s (some 2) 100).1 = some 2 ∧
    tag_at (mm_realloc (run empty_state trace7).s (some 2) 100).2 1 = { inuse := true, size := 28 } ∧
    heap_blocks (mm_realloc (run empty_state trace7).s (some 2) 100).2 = none ∧
    index_blocks (mm_realloc (run empty_state trace7).s (some 2) 100).2 = [29] ∧
    (mm_realloc (run empty_state trace7).s (some 2) 100).2.brk = 26 ∧
    ¬ disjoint_ranges (2, 100) (18, 24) := by
  refine ⟨by decide, by decide, by decide, by decide, by decide, by decide, by decide, by decide,
    by decide, ?_⟩
  unfold disjoint_ranges
  decide

/-- C9 (shrinking resize).  For a live region `r` of a state reached by `mm_malloc` and `mm_free`
calls and a size `n > 0` whose adjusted size (`n` plus 8 bytes of tags, rounded up to a multiple
of 8) is at most the size in bytes of the block of `r`, `mm_realloc r n` returns `r` and the
state is unchanged: arena, tags, index and trackers. -/
theorem shrink_is_identity (s0 : State) (ops : List Op) (r m n : Nat)
    (hr : (r, m) ∈ (run s0 ops).ranges) (h0 : 0 < n)
    (hfit : (n + 2 * 4 + (DSIZE - 1)) / DSIZE * DSIZE ≤ WSIZE * blk_size (run s0 ops).s (r - 1)) :
    mm_realloc (run s0 ops).s (some r) n = (some r, (run s0 ops).s) := by
  obtain ⟨l, cs, hinv, ⟨_, hlive⟩, _, _⟩ := DInv_run s0 ops
  obtain ⟨_, z, hz, _⟩ := hlive _ hr
  simp only at hz
  have htag := (Tiles_mem hinv.tiles hz).2.2.2.2.1
  have hbs : blk_size (run s0 ops).s (r - 1) = z := blk_size_of_tag htag
  have hzlt : z < 2 ^ 30 := tag_size_lt htag
  have hle := (Tiles_mem hinv.tiles hz).2.1
  have hbrk : (run s0 ops).s.brk * 4 ≤ 1024 * 2 ^ 20 := hinv.brk_le
  simp only at hle
  rw [hbs] at hfit
  unfold WSIZE DSIZE at hfit
  have hadj : adjust n ≤ mul32 (blk_size (run s0 ops).s (r - 1)) WSIZE := by
    rw [hbs]
    unfold WSIZE
    rw [mul32_small z 4 (by omega)]
    unfold adjust clear_low3 DSIZE
    rw [add32_small n (2 * 4) (by omega), add32_small (n + 2 * 4) (8 - 1) (by omega)]
    omega
  unfold mm_realloc
  rw [if_neg (by omega)]
  simp only
  rw [if_pos hadj]

set_option maxRecDepth 1000000 in
/-- Witness for C9: a region of 64 bytes resized to 8 bytes. -/
theorem shrink_is_identity_witness :
    (2, 64) ∈ (run empty_state [Op.alloc 64]).ranges ∧ 0 < 8 ∧
    (8 + 2 * 4 + (DSIZE - 1)) / DSIZE * DSIZE ≤ WSIZE * blk_size (run empty_state [Op.alloc 64]).s (2 - 1) ∧
    mm_realloc (run empty_state [Op.alloc 64]).s (some 2) 8 = (some 2, (run empty_state [Op.alloc 64]).s) :=
  ⟨by decide, by decide, by decide,
    shrink_is_identity empty_state [Op.alloc 64] 2 64 8 (by decide) (by decide) (by decide)⟩

theorem word_tag_tag_word_int (u : Bool) (z : Int) (h1 : -(2 ^ 30 : Int) ≤ z) (h2 : z < 2 ^ 30) :
    word_tag (tag_word { inuse := u, size := z }) = { inuse := u, size := z } := by
  unfold word_tag tag_word sext31
  simp only
  have hpos : (0 : Int) ≤ z % (2 ^ 31 : Int) := Int.emod_nonneg _ (by norm_num)
  have hlt : z % (2 ^ 31 : Int) < 2 ^ 31 := Int.emod_lt_of_pos _ (by norm_num)
  have hdiv : (2 * (z % (2 ^ 31 : Int)).toNat + (if u = true then 1 else 0)) / 2 % 2 ^ 31
      = (z % (2 ^ 31 : Int)).toNat := by
    cases u <;> simp <;> omega
  have hmod : decide ((2 * (z % (2 ^ 31 : Int)).toNat + (if u = true then 1 else 0)) % 2 = 1) = u := by
    cases u <;> simp <;> omega
  rw [hdiv, hmod]
  congr 1
  split <;> omega

theorem toInt_sub32 (x y : Nat) (hx : x < 2 ^ 30) (hy : y < 2 ^ 30) :
    toInt (sub32 x y) = (x : Int) - (y : Int) := by
  unfold toInt sub32 SZ
  have hy' : y % 2 ^ 32 = y := Nat.mod_eq_of_lt (by omega)
  rw [hy']
  by_cases h : y ≤ x
  · have e : (x + 2 ^ 32 - y) % 2 ^ 32 = x - y := by omega
    rw [e]
    have e2 : (x - y) % 2 ^ 32 = x - y := Nat.mod_eq_of_lt (by omega)
    rw [e2, if_pos (by omega)]
    omega
  · have e : (x + 2 ^ 32 - y) % 2 ^ 32 = x + 2 ^ 32 - y := Nat.mod_eq_of_lt (by omega)
    rw [e, e, if_neg (by omega)]
    omega

/-- The heap after `set_header_and_footer` with any size that fits the bit-field. -/
theorem set_header_and_footer_heap (s : State) (blk : Nat) (z : Int) (u : Bool)
    (h1 : -(2 ^ 30 : Int) ≤ z) (h2 : z < 2 ^ 30) :
    set_header_and_footer s blk z u =
      { s with heap := upd (upd s.heap blk (tag_word { inuse := u, size := z }))
                         (((blk : Int) + z - 1).toNat) (tag_word { inuse := u, size := z }) } := by
  unfold set_header_and_footer set_tag get_footer
  simp only [tag_at_heap, upd_same, word_tag_tag_word_int u z h1 h2]

theorem memcpy_outside (h : Nat → Nat) (dst src n w : Nat) (hw : w < dst ∨ dst + n ≤ w) :
    memcpy h dst src n w = h w := by
  induction n generalizing h dst src with
  | zero => rfl
  | succ k ih =>
    unfold memcpy
    rw [ih _ _ _ (by omega), upd_other _ _ _ _ (by omega)]

theorem memcpy_copied (h : Nat → Nat) (dst src n j : Nat) (hj : j < n)
    (hd : dst ≤ src ∨ src + n ≤ dst) : memcpy h dst src n (dst + j) = h (src + j) := by
  induction n generalizing h dst src j with
  | zero => omega
  | succ k ih =>
    unfold memcpy
    cases j with
    | zero =>
      rw [memcpy_outside _ _ _ _ _ (by omega)]
      simp only [Nat.add_zero, upd_same]
    | succ i =>
      have e1 : dst + (i + 1) = dst + 1 + i := by omega
      have e2 : src + (i + 1) = src + 1 + i := by omega
      rw [e1, e2, ih _ _ _ _ (by omega) (by omega), upd_other _ _ _ _ (by omega)]

theorem Tiles_tags_congr {h h' : Nat → Nat} {l : List Blk} {a e : Nat}
    (hw : ∀ b ∈ l, h' b.addr = h b.addr ∧ h' (b.addr + b.size - 1) = h (b.addr + b.size - 1))
    (ht : Tiles h a l e) : Tiles h' a l e := by
  induction l generalizing a with
  | nil => exact ht
  | cons b r ih =>
    obtain ⟨h1, h2, h3, h4, h5, h6⟩ := ht
    have hb := hw b (List.mem_cons_self _ _)
    rw [h1] at hb
    refine ⟨h1, h2, h3, ?_, ?_, ih (fun c hc => hw c (List.mem_cons_of_mem _ hc)) h6⟩
    · rw [hb.1]; exact h4
    · rw [hb.2]; exact h5

/-- Stores into the payload of an allocated block keep the invariant. -/
theorem Inv_payload_write {s : State} {l : List Blk} {cs : List Chain} {N : Blk} {h' : Nat → Nat}
    (hinv : Inv s l cs) (hN : N ∈ l)
    (hw : ∀ w, (w ≤ N.addr ∨ N.addr + N.size - 1 ≤ w) → h' w = s.heap w) :
    Inv { s with heap := h' } l cs := by
  obtain ⟨n1, n2, n3, _, _, _⟩ := Tiles_mem hinv.tiles hN
  have hout : ∀ b ∈ l, (b.addr ≤ N.addr ∨ N.addr + N.size - 1 ≤ b.addr) ∧
      (b.addr + b.size - 1 ≤ N.addr ∨ N.addr + N.size - 1 ≤ b.addr + b.size - 1) := by
    intro b hb
    obtain ⟨b1, b2, b3, _, _, _⟩ := Tiles_mem hinv.tiles hb
    rcases Nat.lt_trichotomy b.addr N.addr with h | h | h
    · have := Tiles_disjoint hinv.tiles hb hN h
      omega
    · have := Tiles_addr_inj hinv.tiles hb hN h
      rw [this]; omega
    · have := Tiles_disjoint hinv.tiles hN hb h
      omega
  have hbg := hinv.brk_ge
  refine ⟨hinv.brk_ge, hinv.brk_le, ?_, ?_, ?_, hinv.noadj, ?_, hinv.compl⟩
  · rw [tag_at_heap, hw 0 (by omega)]; exact hinv.pro
  · show tag_at { s with heap := h' } (s.brk - 1) = FENCE
    rw [tag_at_heap, hw _ (by omega)]; exact hinv.epi
  · apply Tiles_tags_congr _ hinv.tiles
    intro b hb
    exact ⟨hw _ (hout b hb).1, hw _ (hout b hb).2⟩
  · refine IndexOK_heap_congr (s := s) rfl rfl rfl ?_ hinv.index
    intro b hb
    obtain ⟨z, hz⟩ := idx_mem_iff_flatMap.2 hb
    have := (hout _ ((hinv.compl b z).1 hz)).1
    exact hw b this

theorem profile_ge (s : State) (n : Nat) (h2 : s.second ≤ 82) (h1 : s.first ≤ 2 ^ 30) :
    n ≤ (profile s n).1 ∧ (profile s n).1 ≤ n + 82 ∧ (2 ^ 30 < n → (profile s n).1 = n) := by
  by_cases hn : n ≤ 2 ^ 30
  · obtain ⟨_, _, p3, p4⟩ := profile_trackers s n hn h2 h1
    exact ⟨p3, p4, fun h => absurd hn (by omega)⟩
  · have hres : (profile s n).1 = n := by
      unfold profile PT
      split
      · rfl
      · dsimp only
        split_ifs <;> first | rfl | (exfalso; simp only at *; omega)
    rw [hres]
    exact ⟨le_refl _, by omega, fun _ => rfl⟩

theorem awords_ge_adjust (s : State) (n : Nat) (h2 : s.second ≤ 82) (h1 : s.first ≤ 2 ^ 30) :
    adjust n / 4 ≤ awords_of s n := by
  obtain ⟨p1, p2, p3⟩ := profile_ge s n h2 h1
  unfold awords_of MIN_BLOCK_SIZE_WORDS WSIZE
  by_cases hn : 2 ^ 30 < n
  · rw [p3 hn]; omega
  · have e1 : adjust n = n + 15 - (n + 15) % 8 := by
      unfold adjust clear_low3 DSIZE
      rw [add32_small n (2 * 4) (by omega), add32_small (n + 2 * 4) (8 - 1) (by omega)]
    have e2 : adjust (profile s n).1 = (profile s n).1 + 15 - ((profile s n).1 + 15) % 8 := by
      unfold adjust clear_low3 DSIZE
      rw [add32_small _ (2 * 4) (by omega), add32_small (_ + 2 * 4) (8 - 1) (by omega)]
    rw [e1, e2]
    omega

/-- The fallback of `mm_realloc`: allocate, copy, free the old block. -/
theorem fallback_ok {s s1 : State} {l1 l2 : List Blk} {a z : Nat} {cs : List Chain} {n newptr : Nat}
    (hinv : Inv s (l1 ++ Blk.mk a z true :: l2) cs) (hn : n ≠ 0)
    (h2 : s.second ≤ 82) (h1 : s.first ≤ 2 ^ 30) (hA : 4 * z < adjust n)
    (hm : mm_malloc s n = (some newptr, s1)) :
    newptr % 2 = 0 ∧ ∀ j, j + 2 < z →
      (mm_free { s1 with heap := memcpy s1.heap newptr (a + 1) z } (some (a + 1))).heap (newptr + j)
        = s.heap (a + 1 + j) := by
  obtain ⟨l', cs', m1, m2, m3, m4, _, _⟩ := mm_malloc_spec (n := n) hinv hn
  rw [hm] at m1 m3 m4
  simp only at m1 m3 m4
  obtain ⟨z', k1, k2, k3, k4⟩ := m4 newptr rfl
  have hB : Blk.mk a z true ∈ l' := m2 _ (by simp) rfl
  have hne : a ≠ newptr - 1 := k4 (Blk.mk a z true) (by simp) rfl
  have hodd := (Tiles_odd m1.tiles (by norm_num)).2 _ k1
  simp only at hodd
  have hadj := adjust_props n
  have hge := awords_ge_adjust s n h2 h1
  obtain ⟨_, _, bz8, bzev, _, _⟩ := Tiles_mem m1.tiles hB
  simp only at bz8 bzev
  have hz' : z + 2 ≤ z' := by omega
  obtain ⟨nb1, nb2, _, _, _, _⟩ := Tiles_mem m1.tiles k1
  simp only at nb1 nb2
  refine ⟨by omega, ?_⟩
  have hinv2 : Inv { s1 with heap := memcpy s1.heap newptr (a + 1) z } l' cs' := by
    apply Inv_payload_write m1 k1
    intro w hw
    simp only at hw
    exact memcpy_outside _ _ _ _ _ (by omega)
  obtain ⟨l1', l2', hl'⟩ := List.append_of_mem hB
  subst hl'
  obtain ⟨cs'', f1, f2, f3⟩ := mm_free_spec hinv2
  obtain ⟨m, t1, t2⟩ := Tiles_append.1 hinv2.tiles
  obtain ⟨n1, n2, _⟩ := List.chain'_append.1 hinv2.noadj
  obtain ⟨_, _, L3, _, _, L6, _, _, L9⟩ := left_neighbour hinv2.pro t1 n1
  obtain ⟨g1, _, _, _, _, g6⟩ := t2
  simp only at g1 g6
  subst g1
  obtain ⟨_, _, _, _, R5, _, _, R8⟩ := right_neighbour hinv2.epi g6 (List.Chain'.tail n2)
  have hside : (newptr - 1 + z' ≤ a - lastFree l1') ∨ (a + z + headFree l2' ≤ newptr - 1) := by
    rcases List.mem_append.1 k1 with h | h
    · rcases (L9 _).1 h with h' | ⟨_, h'⟩
      · have := Tiles_mem L6 h'
        simp only at this
        left; omega
      · simp at h'
    · rcases List.mem_cons.1 h with h | h
      · simp only [Blk.mk.injEq, and_true] at h
        omega
      · rcases (R8 _).1 h with h' | ⟨_, h'⟩
        · have := Tiles_mem R5 h'
          simp only at this
          right; omega
        · simp at h'
  intro j hj
  rw [f3 (newptr + j) (by omega)]
  show memcpy s1.heap newptr (a + 1) z (newptr + j) = s.heap (a + 1 + j)
  rw [memcpy_copied _ _ _ _ _ (by omega) (by omega)]
  exact m3 (Blk.mk a z true) (by simp) rfl _ (by simp only; omega) (by simp only; omega)

theorem realloc_result {s : State} {l1 l2 : List Blk} {a z : Nat} {cs : List Chain} {n : Nat}
    (hinv : Inv s (l1 ++ Blk.mk a z true :: l2) cs) (hn : n ≠ 0)
    (h2 : s.second ≤ 82) (h1 : s.first ≤ 2 ^ 30) :
    ∀ p, (mm_realloc s (some (a + 1)) n).1 = some p →
      p % 2 = 0 ∧ ∀ j, j + 2 < z → (mm_realloc s (some (a + 1)) n).2.heap (p + j) = s.heap (a + 1 + j) := by
  obtain ⟨m, t1, t2⟩ := Tiles_append.1 hinv.tiles
  obtain ⟨n1, n2, _⟩ := List.chain'_append.1 hinv.noadj
  obtain ⟨g1, g2, g3, g4, g5, g6⟩ := t2
  simp only at g1 g2 g3 g4 g5 g6
  subst g1
  have haodd := (Tiles_odd t1 (by norm_num)).1
  have ha1 : 1 ≤ a := Tiles_le t1
  have hsize : blk_size s a = z := blk_size_of_tag (u := true) g4
  have hzlt : z < 2 ^ 30 := tag_size_lt (s := s) (u := true) g4
  have hnext : next_blk s a = a + z := next_blk_of_tag (u := true) g4
  have hbrk : s.brk * 4 ≤ 1024 * 2 ^ 20 := hinv.brk_le
  have hend := Tiles_le g6
  obtain ⟨L1, L2, L3, L4, L5, L6, L7, L8, L9⟩ := left_neighbour hinv.pro t1 n1
  obtain ⟨R1, R2, R3, R4, R5, R6, R7, R8⟩ := right_neighbour hinv.epi g6 (List.Chain'.tail n2)
  have hRle := Tiles_le R5
  have hLle := Tiles_le L6
  obtain ⟨hadj8, hadjlt⟩ := adjust_props n
  have hold : mul32 z 4 = 4 * z := by rw [mul32_small z 4 (by omega)]; omega
  have hpf : prev_blk_footer a = a - 1 := rfl
  obtain ⟨A, hA⟩ : ∃ A, adjust n = 4 * A := ⟨adjust n / 4, by omega⟩
  have hAlt : A < 2 ^ 30 := by omega
  have hAev : A % 2 = 0 := by omega
  have hd4 : ∀ x : Nat, 4 * x / 4 = x := fun x => by omega
  have hfreeR : blk_free s (a + z) = !decide (headFree l2 = 0) := by
    unfold blk_free; rw [R1]
  unfold mm_realloc
  rw [if_neg hn]
  simp only [Nat.add_sub_cancel, hsize, hnext, WSIZE, hold, MIN_BLOCK_SIZE_WORDS, hpf, hA, hd4, hfreeR]
  by_cases hP1 : 4 * A ≤ 4 * z
  · -- the block is large enough
    rw [if_pos hP1]
    intro p hp
    simp only [Option.some.injEq] at hp
    subst hp
    exact ⟨by omega, fun j _ => rfl⟩
  rw [if_neg hP1]
  have hAz : z + 2 ≤ A := by omega
  have hsame1 := remove_free_block_same s (some (a + z))
  by_cases hR : headFree l2 = 0
  · simp only [hR, decide_True, Bool.not_true, Bool.false_eq_true, if_false]
    cases l2 with
    | nil =>
      -- the block is the last one: the heap is extended
      have hab : a + z = s.brk - 1 := g6
      have hsz0 : (tag_at s (a + z)).size = 0 := by rw [hab, hinv.epi]; rfl
      rw [if_pos hsz0]
      intro p hp
      simp only [Option.some.injEq] at hp
      subst hp
      refine ⟨by omega, fun j hj => ?_⟩
      rw [sub32_small A z (by omega) (by omega)]
      have hE : ∀ w, w < a + z → (extend_heap s (A - z)).2.heap w = s.heap w := by
        by_cases hfit : s.brk * 4 + (A - z) * 4 > MAX_HEAP
        · rw [extend_heap_fail (by omega) (by omega) hfit]
          intro w _
          rfl
        · obtain ⟨cs', _, _, _, _, _, _, _, hfr, _⟩ :=
            extend_heap_spec hinv (by omega) (by omega) hfit
          intro w hw
          apply hfr
          have hl0 : lastFree (l1 ++ [Blk.mk a z true]) = 0 := by rw [lastFree_concat]; rfl
          rw [hl0]
          omega
      rw [mark_block_used_eq _ _ _ (by omega) (by omega)]
      show write_tags (extend_heap s (A - z)).2.heap a A true (a + 1 + j) = s.heap (a + 1 + j)
      rw [write_tags_other _ _ _ _ _ (by omega) (by omega), hE _ (by omega)]
    | cons Y L =>
      obtain ⟨y1, y2, y3, y4, y5, y6⟩ := g6
      have hsz : ¬ (tag_at s (a + z)).size = 0 := by
        have e : tag_at s (a + z) = { inuse := Y.used, size := (Y.size : Int) } := y4
        rw [e]
        simp only
        omega
      rw [if_neg hsz]
      have hcond : ((!(tag_at s (a - 1)).inuse) = true ∧
          add32 (toSizeT ((tag_at s (a - 1)).size * ((4 : Nat) : Int))) (4 * z) > 4 * A) ↔
          (lastFree l1 ≠ 0 ∧ 4 * lastFree l1 + 4 * z > 4 * A) := by
        by_cases hL : lastFree l1 = 0
        · rw [L1]
          simp [hL]
        · rw [L2 hL]
          simp only
          rw [← Nat.cast_mul, toSizeT_ofNat _ (by omega), add32_small _ _ (by omega)]
          simp only [Bool.not_false, true_and]
          constructor
          · intro h; exact ⟨hL, by omega⟩
          · intro h; omega
      by_cases hP4 : lastFree l1 ≠ 0 ∧ 4 * lastFree l1 + 4 * z > 4 * A
      · -- the left neighbour is free and large enough
        rw [if_pos (hcond.2 hP4)]
        obtain ⟨hL, hbig⟩ := hP4
        have hprev : prev_blk s a = a - lastFree l1 := prev_blk_of_tag (L2 hL) (by omega)
        have hpt : tag_at s (a - lastFree l1) = { inuse := false, size := (lastFree l1 : Int) } :=
          (Tiles_mem t1 ((L9 _).2 (Or.inr ⟨hL, rfl⟩))).2.2.2.2.1
        have hps : blk_size s (a - lastFree l1) = lastFree l1 := blk_size_of_tag hpt
        have hsame2 := remove_free_block_same s (some (a - lastFree l1))
        rw [hprev, hps, hpt]
        simp only
        rw [toSizeT_ofNat _ (by omega), add32_small z (lastFree l1) (by omega)]
        by_cases hsplit : sub32 (add32 (4 * z) (lastFree l1)) (4 * A) > 4 * 8
        · rw [if_pos hsplit]
          rw [mark_block_used_eq _ _ _ (by omega) (by omega)]
          have hnx : next_blk { remove_free_block s (some (a - lastFree l1)) with
                heap := write_tags (memcpy (remove_free_block s (some (a - lastFree l1))).heap
                  (a - lastFree l1 + 1) (a + 1) z) (a - lastFree l1) A true } (a - lastFree l1)
              = a - lastFree l1 + A := by
            apply next_blk_of_tag (u := true)
            rw [tag_at_heap]
            exact write_tags_hd _ _ _ _ hAlt
          intro p hp
          simp only [Option.some.injEq] at hp
          subst hp
          refine ⟨by omega, fun j hj => ?_⟩
          rw [(add_free_block_same _ _).1]
          unfold mark_block_free
          rw [toInt_sub32 _ _ (by omega) hAlt,
            set_header_and_footer_heap _ _ _ _ (by omega) (by omega)]
          simp only [tag_at_heap] at hnx ⊢
          rw [hnx]
          show upd (upd (write_tags (memcpy (remove_free_block s (some (a - lastFree l1))).heap
            (a - lastFree l1 + 1) (a + 1) z) (a - lastFree l1) A true) (a - lastFree l1 + A) _) _ _
              (a - lastFree l1 + 1 + j) = s.heap (a + 1 + j)
          rw [upd_other _ _ _ _ (by omega), upd_other _ _ _ _ (by omega),
            write_tags_other _ _ _ _ _ (by omega) (by omega),
            memcpy_copied _ _ _ _ _ (by omega) (Or.inl (by omega)), hsame2.1]
        · rw [if_neg hsplit]
          intro p hp
          simp only [Option.some.injEq] at hp
          subst hp
          refine ⟨by omega, fun j hj => ?_⟩
          rw [mark_block_used_eq _ _ _ (by omega) (by omega)]
          show write_tags (memcpy (remove_free_block s (some (a - lastFree l1))).heap
            (a - lastFree l1 + 1) (a + 1) z) (a - lastFree l1) (z + lastFree l1) true
              (a - lastFree l1 + 1 + j) = s.heap (a + 1 + j)
          rw [write_tags_other _ _ _ _ _ (by omega) (by omega),
            memcpy_copied _ _ _ _ _ (by omega) (Or.inl (by omega)), hsame2.1]
      · -- a new region is allocated
        rw [if_neg (mt hcond.1 hP4)]
        cases hm : mm_malloc s n with
        | mk r s1 =>
          cases r with
          | none =>
            intro p hp
            simp at hp
          | some q =>
            simp only
            rw [if_neg (by omega), hd4]
            intro p hp
            simp only [Option.some.injEq] at hp
            subst hp
            exact fallback_ok hinv hn h2 h1 (by omega) hm
  · -- the right neighbour is free
    have hRt := R2 hR
    have htemp : toSizeT ((tag_at s (a + z)).size * ((4 : Nat) : Int)) = 4 * headFree l2 := by
      rw [hRt]
      simp only
      rw [← Nat.cast_mul, toSizeT_ofNat _ (by omega)]
      omega
    have hRt1 : tag_at (remove_free_block s (some (a + z))) (a + z)
        = { inuse := false, size := (headFree l2 : Int) } := by
      rw [tag_at_same hsame1]; exact hRt
    simp only [hR, decide_False, Bool.not_false, if_true, htemp, hd4, hRt1]
    rw [add32_small (headFree l2) z (by omega), toSizeT_ofNat _ (by omega),
      add32_small (headFree l2) z (by omega)]
    have hused : mark_block_used (remove_free_block s (some (a + z))) a (toInt A)
        = { remove_free_block s (some (a + z)) with
            heap := write_tags (remove_free_block s (some (a + z))).heap a A true } :=
      mark_block_used_eq _ _ _ (by omega) (by omega)
    by_cases hsplit : sub32 (add32 (4 * headFree l2) (4 * z)) (4 * A) > 4 * 8
    · rw [if_pos hsplit, hused]
      have hnx : next_blk { remove_free_block s (some (a + z)) with
            heap := write_tags (remove_free_block s (some (a + z))).heap a A true } a = a + A := by
        apply next_blk_of_tag (u := true)
        rw [tag_at_heap]; exact write_tags_hd _ _ _ _ hAlt
      rw [hnx]
      intro p hp
      simp only [Option.some.injEq] at hp
      subst hp
      refine ⟨by omega, fun j hj => ?_⟩
      rw [(add_free_block_same _ _).1]
      unfold mark_block_free
      rw [toInt_sub32 _ _ (by omega) hAlt, set_header_and_footer_heap _ _ _ _ (by omega) (by omega)]
      show upd (upd (write_tags (remove_free_block s (some (a + z))).heap a A true) (a + A) _) _ _ (a + 1 + j)
        = s.heap (a + 1 + j)
      rw [upd_other _ _ _ _ (by omega), upd_other _ _ _ _ (by omega),
        write_tags_other _ _ _ _ _ (by omega) (by omega), hsame1.1]
    · rw [if_neg hsplit, if_pos (Nat.zero_le _)]
      intro p hp
      simp only [Option.some.injEq] at hp
      subst hp
      refine ⟨by omega, fun j hj => ?_⟩
      rw [mark_block_used_eq _ _ _ (by omega) (by omega)]
      show write_tags (remove_free_block s (some (a + z))).heap a (headFree l2 + z) true (a + 1 + j)
        = s.heap (a + 1 + j)
      rw [write_tags_other _ _ _ _ _ (by omega) (by omega), hsame1.1]

theorem malloc_even {s : State} {l : List Blk} {cs : List Chain} (hinv : Inv s l cs) (n p : Nat)
    (hp : (mm_malloc s n).1 = some p) : p % 2 = 0 := by
  by_cases hn : n = 0
  · subst hn
    unfold mm_malloc at hp
    simp at hp
  · obtain ⟨l', cs', m1, _, _, m4, _, _⟩ := mm_malloc_spec (n := n) hinv hn
    obtain ⟨z, k1, k2, _, _⟩ := m4 p hp
    have := (Tiles_odd m1.tiles (by norm_num)).2 _ k1
    simp only at this
    omega

theorem realloc_live {s : State} {l : List Blk} {cs : List Chain} {rs : List (Nat × Nat)}
    (hinv : Inv s l cs) (hlive : LiveOK l rs) (h2 : s.second ≤ 82) (h1 : s.first ≤ 2 ^ 30)
    {r m n p : Nat} (hr : (r, m) ∈ rs) (hp : (mm_realloc s (some r) n).1 = some p) :
    p % 2 = 0 ∧ ∀ k, k < m → (mm_realloc s (some r) n).2.heap (p + k / 4) = s.heap (r + k / 4) := by
  by_cases hn : n = 0
  · subst hn
    unfold mm_realloc at hp
    simp at hp
  · obtain ⟨hr1, z, hz, hcap⟩ := hlive.2 _ hr
    simp only at hr1 hz hcap
    obtain ⟨l1, l2, hl⟩ := List.append_of_mem hz
    subst hl
    have hra : r - 1 + 1 = r := by omega
    have key := realloc_result (n := n) hinv hn h2 h1
    rw [hra] at key
    obtain ⟨k1, k2⟩ := key p hp
    exact ⟨k1, fun k hk => k2 (k / 4) (by omega)⟩

/-- C2 (alignment).  Let `lo`, the byte address of the low bound of the arena, be a multiple of
`ALIGNMENT` (8).  In every state reached from `mm_init` by `mm_malloc` and `mm_free` calls: the
regions that are live start at addresses that are 0 modulo 8; a region returned by `mm_malloc`
(any size) does; a region returned by `mm_realloc` on a live region does, whichever path of
`mm_realloc` is taken (same block, merge with the right neighbour, extension of the arena, merge
with the left neighbour, new block), as does one returned by `mm_realloc` on a null pointer; and
every block header of the arena sits at an address that is 4 modulo 8. -/
theorem alignment (s0 : State) (ops : List Op) (lo : Nat) (hlo : lo % ALIGNMENT = 0) :
    (∀ r ∈ (run s0 ops).ranges, (lo + WSIZE * r.1) % ALIGNMENT = 0) ∧
    (∀ n p, (mm_malloc (run s0 ops).s n).1 = some p → (lo + WSIZE * p) % ALIGNMENT = 0) ∧
    (∀ r m n p, (r, m) ∈ (run s0 ops).ranges →
      (mm_realloc (run s0 ops).s (some r) n).1 = some p → (lo + WSIZE * p) % ALIGNMENT = 0) ∧
    (∀ n p, (mm_realloc (run s0 ops).s none n).1 = some p → (lo + WSIZE * p) % ALIGNMENT = 0) ∧
    (∀ bs, heap_blocks (run s0 ops).s = some bs → ∀ b ∈ bs, (lo + WSIZE * b) % ALIGNMENT = 4) := by
  obtain ⟨l, cs, hinv, hlive, h2, h1⟩ := DInv_run s0 ops
  have hodd := (Tiles_odd hinv.tiles (by norm_num)).2
  unfold ALIGNMENT at hlo
  unfold ALIGNMENT WSIZE
  refine ⟨?_, ?_, ?_, ?_, ?_⟩
  · intro r hr
    obtain ⟨hr1, z, hz, _⟩ := hlive.2 r hr
    have := hodd _ hz
    simp only at this
    omega
  · intro n p hp
    have := malloc_even hinv n p hp
    omega
  · intro r m n p hr hp
    have := (realloc_live hinv hlive h2 h1 hr hp).1
    omega
  · intro n p hp
    have hm : (mm_malloc (run s0 ops).s n).1 = some p := by
      by_cases hn : n = 0
      · subst hn
        unfold mm_realloc at hp
        simp at hp
      · unfold mm_realloc at hp
        rw [if_neg hn] at hp
        exact hp
    have := malloc_even hinv n p hm
    omega
  · intro bs hbs b hb
    rw [heap_blocks_of_Inv hinv] at hbs
    simp only [Option.some.injEq] at hbs
    subst hbs
    obtain ⟨B, hB, rfl⟩ := List.mem_map.1 hb
    have := hodd B hB
    omega

set_option maxRecDepth 1000000 in
/-- Witness for C2: the arena at byte address 8 after two requests of 24 bytes; resizing the first
region to 40 bytes moves it to word 18. -/
theorem alignment_witness :
    8 % ALIGNMENT = 0 ∧
    (mm_realloc (run empty_state [Op.alloc 24, Op.alloc 24]).s (some 2) 40).1 = some 18 ∧
    ((∀ r ∈ (run empty_state [Op.alloc 24, Op.alloc 24]).ranges, (8 + WSIZE * r.1) % ALIGNMENT = 0) ∧
    (∀ n p, (mm_malloc (run empty_state [Op.alloc 24, Op.alloc 24]).s n).1 = some p →
      (8 + WSIZE * p) % ALIGNMENT = 0) ∧
    (∀ r m n p, (r, m) ∈ (run empty_state [Op.alloc 24, Op.alloc 24]).ranges →
      (mm_realloc (run empty_state [Op.alloc 24, Op.alloc 24]).s (some r) n).1 = some p →
      (8 + WSIZE * p) % ALIGNMENT = 0) ∧
    (∀ n p, (mm_realloc (run empty_state [Op.alloc 24, Op.alloc 24]).s none n).1 = some p →
      (8 + WSIZE * p) % ALIGNMENT = 0) ∧
    (∀ bs, heap_blocks (run empty_state [Op.alloc 24, Op.alloc 24]).s = some bs →
      ∀ b ∈ bs, (8 + WSIZE * b) % ALIGNMENT = 4)) :=
  ⟨by decide, by decide, alignment empty_state [Op.alloc 24, Op.alloc 24] 8 (by decide)⟩

/-- Data preservation with the ascending copy.  In a state reached from `mm_init` by `mm_malloc`
and `mm_free` calls, let `r` be a live region that was requested with `m` bytes.  When
`mm_realloc r n` returns the region `p`, each of the first `min m n` bytes at `p` after the call
equals the byte at the same offset of `r` before the call.  This holds on every path of
`mm_realloc` as embedded here, where `memcpy` copies in ascending address order; the left-merge
paths can call it on ranges that overlap, for which the C standard fixes no result. -/
theorem data_preserved (s0 : State) (ops : List Op) (r m n p : Nat)
    (hr : (r, m) ∈ (run s0 ops).ranges)
    (hp : (mm_realloc (run s0 ops).s (some r) n).1 = some p) :
    ∀ k, k < min m n →
      byte_at (mm_realloc (run s0 ops).s (some r) n).2.heap p k = byte_at (run s0 ops).s.heap r k := by
  obtain ⟨l, cs, hinv, hlive, h2, h1⟩ := DInv_run s0 ops
  intro k hk
  unfold byte_at WSIZE
  rw [(realloc_live hinv hlive h2 h1 hr hp).2 k (lt_of_lt_of_le hk (Nat.min_le_left m n))]

set_option maxRecDepth 1000000 in
/-- An instance of `data_preserved`: after two requests of 24 bytes in a memory holding a
pattern, resizing the first region to 40 bytes moves it from word 2 to word 18. -/
theorem data_preserved_witness :
    (2, 24) ∈ (run patterned [Op.alloc 24, Op.alloc 24]).ranges ∧
    (mm_realloc (run patterned [Op.alloc 24, Op.alloc 24]).s (some 2) 40).1 = some 18 ∧
    (run patterned [Op.alloc 24, Op.alloc 24]).s.heap 3 = 24 ∧
    ∀ k, k < min 24 40 →
      byte_at (mm_realloc (run patterned [Op.alloc 24, Op.alloc 24]).s (some 2) 40).2.heap 18 k
        = byte_at (run patterned [Op.alloc 24, Op.alloc 24]).s.heap 2 k :=
  ⟨by decide, by decide, by decide,
    data_preserved patterned [Op.alloc 24, Op.alloc 24] 2 24 40 18 (by decide) (by decide)⟩

theorem extend_heap_none {s : State} {words : Nat}
    (h : mem_sbrk s (mul32 (clear_low1 (add32 words 1)) WSIZE) = none) :
    extend_heap s words = (none, s) := by
  unfold extend_heap
  simp only [h]

theorem extend_heap_none_state (s : State) (words : Nat) (h : (extend_heap s words).1 = none) :
    (extend_heap s words).2 = s := by
  revert h
  unfold extend_heap
  dsimp only
  cases hsb : mem_sbrk s (mul32 (clear_low1 (add32 words 1)) WSIZE) with
  | none => intro _; rfl
  | some r => intro h; simp at h

theorem find_fit_none_state (s : State) (asize : Nat) (h : (find_fit s asize).1 = none) :
    (find_fit s asize).2 = s := by
  revert h
  unfold find_fit
  dsimp only
  cases hnf : RB_NFIND s (sext31 (asize % 2 ^ 31)) with
  | none => intro _; rfl
  | some b => intro h; simp at h

/-- The frame of a failed `mm_malloc`: only the sizing trackers may have changed. -/
theorem mm_malloc_none_state (s : State) (n : Nat) (h : (mm_malloc s n).1 = none) :
    (mm_malloc s n).2.heap = s.heap ∧ (mm_malloc s n).2.brk = s.brk ∧
    (mm_malloc s n).2.tree = s.tree ∧ (mm_malloc s n).2.prev = s.prev ∧
    (mm_malloc s n).2.next = s.next := by
  by_cases hn : n = 0
  · subst hn
    unfold mm_malloc
    simp
  · obtain ⟨p1, p2, p3, p4, p5⟩ := profile_frame s n
    unfold mm_malloc at h ⊢
    rw [if_neg hn] at h ⊢
    dsimp only at h ⊢
    cases hff : find_fit (profile s n).2 (max MIN_BLOCK_SIZE_WORDS (adjust (profile s n).1 / WSIZE)) with
    | mk r s1 =>
      rw [hff] at h
      cases r with
      | some b => simp at h
      | none =>
        have hs1 : s1 = (profile s n).2 := by
          have := find_fit_none_state (profile s n).2 _ (by rw [hff])
          rw [hff] at this
          exact this
        subst hs1
        simp only at h ⊢
        cases hex : extend_heap (profile s n).2
            (if (!(tag_at (profile s n).2 ((mem_heap_hi (profile s n).2 - 4 - PADDING) / WSIZE)).inuse) = true then
              sub32 (max MIN_BLOCK_SIZE_WORDS (adjust (profile s n).1 / WSIZE))
                (toSizeT (tag_at (profile s n).2 ((mem_heap_hi (profile s n).2 - 4 - PADDING) / WSIZE)).size)
            else max MIN_BLOCK_SIZE_WORDS (adjust (profile s n).1 / WSIZE)) with
        | mk r2 s2 =>
          rw [hex] at h
          cases r2 with
          | some b => simp at h
          | none =>
            have hs2 : s2 = (profile s n).2 := by
              have := extend_heap_none_state (profile s n).2 _ (by rw [hex])
              rw [hex] at this
              exact this
            subst hs2
            exact ⟨p1, p2, p3, p4, p5⟩

theorem mem_sbrk_isNone (s : State) (k : Nat) :
    (mem_sbrk s k).isNone = true ↔ s.brk * WSIZE + k > MAX_HEAP := by
  unfold mem_sbrk
  split_ifs with h
  · simp [h]
  · simp [h]

/-- The only exit of `mm_realloc` that returns null for a non-null pointer and a size other than
zero is the failed `mm_malloc` of the fallback. -/
theorem mm_realloc_none (s : State) (p n : Nat) (hn : n ≠ 0)
    (h : (mm_realloc s (some p) n).1 = none) :
    (mm_malloc s n).1 = none ∧ (mm_realloc s (some p) n).2 = (mm_malloc s n).2 := by
  revert h
  unfold mm_realloc
  rw [if_neg hn]
  dsimp only
  split_ifs <;>
    first
    | (intro h; simp at h)
    | (cases hm : mm_malloc s n with
       | mk r s1 =>
         cases r with
         | none => intro _; exact ⟨rfl, rfl⟩
         | some q => intro h; simp at h)

/-- C11 (resize of a null region).  For every state and every `n > 0`, `mm_realloc` on a null
pointer returns the region and the state (arena, index, sizing trackers) that `mm_malloc n`
returns from the same state. -/
theorem realloc_null_is_malloc (s : State) (n : Nat) (h0 : 0 < n) :
    mm_realloc s none n = mm_malloc s n := by
  unfold mm_realloc
  rw [if_neg (by omega)]

set_option maxRecDepth 1000000 in
/-- Witness for C11: a request of 24 bytes after `mm_init`, which yields the region at word 2. -/
theorem realloc_null_is_malloc_witness :
    0 < 24 ∧ (mm_malloc (run empty_state []).s 24).1 = some 2 ∧
    mm_realloc (run empty_state []).s none 24 = mm_malloc (run empty_state []).s 24 :=
  ⟨by decide, by decide, realloc_null_is_malloc (run empty_state []).s 24 (by decide)⟩

/-- C12 (empty request).  For every state, `mm_malloc 0` returns null and leaves the whole state
as it is: arena extent, memory and with it every tag, the index, and the four tracker fields. -/
theorem malloc_zero_is_noop (s : State) : mm_malloc s 0 = (none, s) := by
  unfold mm_malloc
  rw [if_pos rfl]

/-- C13 (atomic failure of an allocation).  In a state reached from `mm_init` by `mm_malloc` and
`mm_free` calls, let every block of the index (by C6 these are the free blocks of the arena) be
smaller than the block size that `mm_malloc n` asks for, and let `mem_sbrk` refuse the extension
that `mm_malloc n` asks for.  Then `mm_malloc n` returns null, and the arena extent, the memory
of the arena (with it every boundary tag) and the index (tree entries and the `prev`/`next`
chains) are as before the call. -/
theorem alloc_failure_atomic (s0 : State) (ops : List Op) (n : Nat)
    (hnofit : ∀ b ∈ index_blocks (run s0 ops).s,
      blk_size (run s0 ops).s b < awords_of (run s0 ops).s n)
    (hrefuse : (mem_sbrk (run s0 ops).s (extend_request (run s0 ops).s n)).isNone = true) :
    (mm_malloc (run s0 ops).s n).1 = none ∧
    (mm_malloc (run s0 ops).s n).2.brk = (run s0 ops).s.brk ∧
    (mm_malloc (run s0 ops).s n).2.heap = (run s0 ops).s.heap ∧
    (mm_malloc (run s0 ops).s n).2.tree = (run s0 ops).s.tree ∧
    (mm_malloc (run s0 ops).s n).2.prev = (run s0 ops).s.prev ∧
    (mm_malloc (run s0 ops).s n).2.next = (run s0 ops).s.next := by
  obtain ⟨l, cs, hinv, _, _, _⟩ := DInv_run s0 ops
  have hnone : (mm_malloc (run s0 ops).s n).1 = none := by
    by_cases hn : n = 0
    · subst hn
      unfold mm_malloc; rw [if_pos rfl]
    · obtain ⟨p1, p2, p3, p4, p5⟩ := profile_frame (run s0 ops).s n
      have hinv1 : Inv (profile (run s0 ops).s n).2 l cs := Inv_congr p1 p2 p3 p4 p5 hinv
      obtain ⟨a8, aev, alt⟩ := awords_props (run s0 ops).s n
      have hff : find_fit (profile (run s0 ops).s n).2 (awords_of (run s0 ops).s n)
          = (none, (profile (run s0 ops).s n).2) := by
        rcases find_fit_spec hinv1 alt with ⟨hff, _⟩ | ⟨b, z, l1, l2, cs1, _, hl, hz, _, _, _⟩
        · exact hff
        · exfalso
          have hmem : Blk.mk b z false ∈ l := by rw [hl]; simp
          have hidx : b ∈ index_blocks (run s0 ops).s := by
            rw [index_blocks_of_Inv hinv]
            exact idx_mem_iff_flatMap.1 ⟨z, (hinv.compl b z).2 hmem⟩
          have htag := (Tiles_mem hinv.tiles hmem).2.2.2.2.1
          have hbs : blk_size (run s0 ops).s b = z := blk_size_of_tag htag
          have := hnofit b hidx
          omega
      have hsb : mem_sbrk (profile (run s0 ops).s n).2 (extend_request (run s0 ops).s n) = none := by
        have := (mem_sbrk_isNone _ _).1 hrefuse
        unfold mem_sbrk
        rw [p2, if_pos this]
      have hex := extend_heap_none hsb
      unfold mm_malloc
      rw [if_neg hn]
      show (match find_fit (profile (run s0 ops).s n).2 (awords_of (run s0 ops).s n) with
        | (some bp, s1) => (some (bp + 1), place s1 bp (awords_of (run s0 ops).s n))
        | (none, s1) =>
          let prev_boundary_tag := (mem_heap_hi s1 - 4 - PADDING) / WSIZE
          let extendwords :=
            if !(tag_at s1 prev_boundary_tag).inuse then
              sub32 (awords_of (run s0 ops).s n) (toSizeT (tag_at s1 prev_boundary_tag).size)
            else awords_of (run s0 ops).s n
          match extend_heap s1 extendwords with
          | (none, s2) => (none, s2)
          | (some bp, s2) => (some (bp + 1), place s2 bp (awords_of (run s0 ops).s n))).1 = none
      rw [hff]
      simp only
      rw [hex]
  obtain ⟨f1, f2, f3, f4, f5⟩ := mm_malloc_none_state _ _ hnone
  exact ⟨hnone, f2, f1, f3, f4, f5⟩

set_option maxRecDepth 1000000 in
/-- Witness for C13: a request of `2^30` bytes right after `mm_init`; the index holds one block
of 16 words and the arena may not grow beyond `2^30` bytes. -/
theorem alloc_failure_atomic_witness :
    (∀ b ∈ index_blocks (run empty_state []).s,
      blk_size (run empty_state []).s b < awords_of (run empty_state []).s (2 ^ 30)) ∧
    (mem_sbrk (run empty_state []).s (extend_request (run empty_state []).s (2 ^ 30))).isNone = true ∧
    ((mm_malloc (run empty_state []).s (2 ^ 30)).1 = none ∧
    (mm_malloc (run empty_state []).s (2 ^ 30)).2.brk = (run empty_state []).s.brk ∧
    (mm_malloc (run empty_state []).s (2 ^ 30)).2.heap = (run empty_state []).s.heap ∧
    (mm_malloc (run empty_state []).s (2 ^ 30)).2.tree = (run empty_state []).s.tree ∧
    (mm_malloc (run empty_state []).s (2 ^ 30)).2.prev = (run empty_state []).s.prev ∧
    (mm_malloc (run empty_state []).s (2 ^ 30)).2.next = (run empty_state []).s.next) :=
  ⟨by decide, by decide, alloc_failure_atomic empty_state [] (2 ^ 30) (by decide) (by decide)⟩

set_option maxRecDepth 1000000 in
/-- C14 (failed extension during a resize) fails on the code.  After `mm_init` and
`mm_malloc 56` the region at word 2 lies in the only block of the arena (16 words, arena extent
18 words).  For `mm_realloc` of that region to `2^30` bytes the extension of the arena is
refused (`extend_heap` returns null), yet `mm_realloc` returns the region instead of null: the
header of the block now claims 268435458 words, the arena extent is still 18 words, the footer was
written at word 268435458 outside of the arena, and the walk of the arena fails. -/
theorem realloc_ignores_extension_failure :
    (run empty_state [Op.alloc 56]).ranges = [(2, 56)] ∧
    heap_blocks (run empty_state [Op.alloc 56]).s = some [1] ∧
    tag_at (run empty_state [Op.alloc 56]).s 1 = { inuse := true, size := 16 } ∧
    (run empty_state [Op.alloc 56]).s.brk = 18 ∧
    (extend_heap (run empty_state [Op.alloc 56]).s (sub32 (adjust (2 ^ 30) / WSIZE) 16)).1 = none ∧
    (mm_realloc (run empty_state [Op.alloc 56]).s (some 2) (2 ^ 30)).1 = some 2 ∧
    tag_at (mm_realloc (run empty_state [Op.alloc 56]).s (some 2) (2 ^ 30)).2 1
      = { inuse := true, size := 268435458 } ∧
    (mm_realloc (run empty_state [Op.alloc 56]).s (some 2) (2 ^ 30)).2.brk = 18 ∧
    (run empty_state [Op.alloc 56]).s.heap 268435458 = 0 ∧
    (mm_realloc (run empty_state [Op.alloc 56]).s (some 2) (2 ^ 30)).2.heap 268435458 = 536870917 ∧
    heap_blocks (mm_realloc (run empty_state [Op.alloc 56]).s (some 2) (2 ^ 30)).2 = none := by
  decide

/-- A null return of `mm_realloc` changes nothing.  In a state reached from `mm_init` by
`mm_malloc` and `mm_free` calls, let `r` be a live region and `n > 0`.  `mm_realloc r n` returns
null only from its fallback, when the `mm_malloc n` made there fails; whenever it returns null,
the block of `r` is still marked allocated with the size it had, the memory of the arena (every
tag, every payload byte) and the arena extent are as before, and so is the index (tree entries
and the `prev`/`next` chains). -/
theorem realloc_null_frame (s0 : State) (ops : List Op) (r m n : Nat)
    (hr : (r, m) ∈ (run s0 ops).ranges) (h0 : 0 < n)
    (hnull : (mm_realloc (run s0 ops).s (some r) n).1 = none) :
    (mm_malloc (run s0 ops).s n).1 = none ∧
    (tag_at (mm_realloc (run s0 ops).s (some r) n).2 (r - 1)).inuse = true ∧
    blk_size (mm_realloc (run s0 ops).s (some r) n).2 (r - 1) = blk_size (run s0 ops).s (r - 1) ∧
    (mm_realloc (run s0 ops).s (some r) n).2.heap = (run s0 ops).s.heap ∧
    (mm_realloc (run s0 ops).s (some r) n).2.brk = (run s0 ops).s.brk ∧
    (mm_realloc (run s0 ops).s (some r) n).2.tree = (run s0 ops).s.tree ∧
    (mm_realloc (run s0 ops).s (some r) n).2.prev = (run s0 ops).s.prev ∧
    (mm_realloc (run s0 ops).s (some r) n).2.next = (run s0 ops).s.next := by
  obtain ⟨l, cs, hinv, ⟨_, hlive⟩, _, _⟩ := DInv_run s0 ops
  obtain ⟨_, z, hz, _⟩ := hlive _ hr
  have htag : tag_at (run s0 ops).s (r - 1) = { inuse := true, size := (z : Int) } :=
    (Tiles_mem hinv.tiles hz).2.2.2.2.1
  obtain ⟨hm, hst⟩ := mm_realloc_none (run s0 ops).s r n (by omega) hnull
  obtain ⟨f1, f2, f3, f4, f5⟩ := mm_malloc_none_state _ _ hm
  rw [hst]
  refine ⟨hm, ?_, ?_, f1, f2, f3, f4, f5⟩
  · unfold tag_at
    rw [f1]
    unfold tag_at at htag
    rw [htag]
  · unfold blk_size tag_at
    rw [f1]

theorem rb_min_le {s : State} {xs : List Nat} {b : Nat} (h : rb_min s xs = some b) :
    ∀ x ∈ xs, (tag_at s b).size ≤ (tag_at s x).size := by
  induction xs generalizing b with
  | nil => simp [rb_min] at h
  | cons x r ih =>
    unfold rb_min at h
    cases hr : rb_min s r with
    | none =>
      rw [hr] at h
      simp only [Option.some.injEq] at h
      subst h
      have := rb_min_none hr
      subst this
      intro y hy
      simp only [List.mem_singleton] at hy
      rw [hy]
    | some y =>
      rw [hr] at h
      simp only at h
      have ihy := ih hr
      unfold block_compare at h
      split at h
      · next hle =>
        simp only [Option.some.injEq] at h
        subst h
        intro w hw
        rcases List.mem_cons.1 hw with hw | hw
        · rw [hw]
        · have := ihy w hw
          omega
      · next hgt =>
        simp only [Option.some.injEq] at h
        subst h
        intro w hw
        rcases List.mem_cons.1 hw with hw | hw
        · rw [hw]; omega
        · exact ihy w hw

theorem index_blocks_of_IndexOK {s : State} {cs : List Chain} (hi : IndexOK s cs)
    (hlt : ∀ c ∈ cs, ∀ x ∈ c.blocks, x < s.brk) : index_blocks s = cs.flatMap Chain.blocks := by
  unfold index_blocks
  rw [hi.tree_eq, List.flatMap_map]
  apply List.flatMap_congr
  intro c hc
  apply chain_of_Linked (hi.linked c hc)
  have := nodup_length_le (IndexOK_chain_nodup hi hc) (hlt c hc)
  simp only [Chain.blocks, List.length_cons] at this
  omega

/-- The blocks of the index are the free blocks of the arena. -/
theorem mem_index_blocks {s : State} {l : List Blk} {cs : List Chain} (hinv : Inv s l cs) (b : Nat) :
    b ∈ index_blocks s ↔ ∃ z, Blk.mk b z false ∈ l := by
  rw [index_blocks_of_Inv hinv, ← idx_mem_iff_flatMap]
  constructor
  · rintro ⟨z, hz⟩; exact ⟨z, (hinv.compl b z).1 hz⟩
  · rintro ⟨z, hz⟩; exact ⟨z, (hinv.compl b z).2 hz⟩

theorem free_blk_size {s : State} {l : List Blk} {cs : List Chain} (hinv : Inv s l cs) {b z : Nat}
    {u : Bool} (hb : Blk.mk b z u ∈ l) : blk_size s b = z :=
  blk_size_of_tag (Tiles_mem hinv.tiles hb).2.2.2.2.1

/-- The block that `find_fit` returns is a smallest one among the free blocks that are large
enough. -/
theorem find_fit_min {s : State} {l : List Blk} {cs : List Chain} {asize b : Nat} {s1 : State}
    (hinv : Inv s l cs) (ha : asize < 2 ^ 30) (hff : find_fit s asize = (some b, s1)) :
    ∀ x z, Blk.mk x z false ∈ l → asize ≤ z → blk_size s b ≤ z := by
  intro x z hx hz
  unfold find_fit RB_NFIND at hff
  rw [sext31_small asize ha] at hff
  cases hmin : rb_min s (List.filter (fun x => decide (block_compare (asize : Int) (tag_at s x).size ≤ 0)) s.tree) with
  | none => rw [hmin] at hff; simp at hff
  | some b' =>
    rw [hmin] at hff
    simp only [Prod.mk.injEq, Option.some.injEq] at hff
    obtain ⟨hbb, _⟩ := hff
    subst hbb
    obtain ⟨c, hc, hcz, _⟩ := (hinv.compl x z).2 hx
    have hhead : c.head ∈ s.tree := by
      rw [hinv.index.tree_eq]; exact List.mem_map_of_mem _ hc
    have htag := hinv.index.tags c hc c.head (List.mem_cons_self _ _)
    have hin : c.head ∈ List.filter (fun x => decide (block_compare (asize : Int) (tag_at s x).size ≤ 0)) s.tree := by
      rw [List.mem_filter]
      refine ⟨hhead, ?_⟩
      simp only [htag, block_compare, decide_eq_true_eq]
      omega
    have hle := rb_min_le hmin c.head hin
    rw [htag] at hle
    have hb := rb_min_mem hmin
    rw [List.mem_filter] at hb
    obtain ⟨hb1, _⟩ := hb
    rw [hinv.index.tree_eq] at hb1
    obtain ⟨c', hc', hcb⟩ := List.mem_map.1 hb1
    have htag' := hinv.index.tags c' hc' c'.head (List.mem_cons_self _ _)
    rw [hcb] at htag'
    rw [htag'] at hle
    simp only at hle
    rw [blk_size_of_tag htag']
    omega

theorem mm_malloc_unfold (s : State) (n : Nat) (hn : n ≠ 0) :
    mm_malloc s n =
      match find_fit (profile s n).2 (awords_of s n) with
      | (some bp, s1) => (some (bp + 1), place s1 bp (awords_of s n))
      | (none, s1) =>
        let prev_boundary_tag := (mem_heap_hi s1 - 4 - PADDING) / WSIZE
        let extendwords :=
          if !(tag_at s1 prev_boundary_tag).inuse then
            sub32 (awords_of s n) (toSizeT (tag_at s1 prev_boundary_tag).size)
          else awords_of s n
        match extend_heap s1 extendwords with
        | (none, s2) => (none, s2)
        | (some bp, s2) => (some (bp + 1), place s2 bp (awords_of s n)) := by
  unfold mm_malloc
  rw [if_neg hn]
  rfl

/-- When a free block is large enough, `mm_malloc` takes a smallest such block and leaves the
arena extent as it is. -/
theorem mm_malloc_fit {s : State} {l : List Blk} {cs : List Chain} {n : Nat}
    (hinv : Inv s l cs) (hn : n ≠ 0) (hex : ∃ x z, Blk.mk x z false ∈ l ∧ awords_of s n ≤ z) :
    ∃ b z, Blk.mk b z false ∈ l ∧ awords_of s n ≤ z ∧
      (∀ x z', Blk.mk x z' false ∈ l → awords_of s n ≤ z' → z ≤ z') ∧
      (mm_malloc s n).1 = some (b + 1) ∧ (mm_malloc s n).2.brk = s.brk := by
  obtain ⟨p1, p2, p3, p4, p5⟩ := profile_frame s n
  have hinv1 : Inv (profile s n).2 l cs := Inv_congr p1 p2 p3 p4 p5 hinv
  obtain ⟨a8, aev, alt⟩ := awords_props s n
  rcases find_fit_spec hinv1 alt with ⟨_, hsmall⟩ | ⟨b, z, l1, l2, cs1, hff, hl, hz, hfoc, hn1, hn2⟩
  · exfalso
    obtain ⟨x, z, hx, hz⟩ := hex
    have := hsmall x z hx
    omega
  · have hmem : Blk.mk b z false ∈ l := by rw [hl]; simp
    have hmin := find_fit_min hinv1 alt hff
    rw [free_blk_size hinv1 hmem] at hmin
    obtain ⟨cs3, q1, q2, q3⟩ := place_spec hfoc hn2 a8 aev hz
    have hsame := remove_free_block_same (profile s n).2 (some b)
    refine ⟨b, z, hmem, hz, hmin, ?_, ?_⟩
    · rw [mm_malloc_unfold s n hn, hff]
    · rw [mm_malloc_unfold s n hn, hff]
      simp only
      rw [q2.1, hsame.2.1, p2]

theorem find_fit_index {s : State} {l : List Blk} {cs : List Chain} {asize : Nat}
    (hinv : Inv s l cs) (ha : asize < 2 ^ 30) :
    ((find_fit s asize).1 = none ↔ ∀ b ∈ index_blocks s, blk_size s b < asize) ∧
    (∀ b, (find_fit s asize).1 = some b →
      b ∈ index_blocks s ∧ asize ≤ blk_size s b ∧
      (∀ x ∈ index_blocks s, asize ≤ blk_size s x → blk_size s b ≤ blk_size s x) ∧
      (∀ x, x ∈ index_blocks (find_fit s asize).2 ↔ (x ∈ index_blocks s ∧ x ≠ b))) := by
  rcases find_fit_spec hinv ha with ⟨hff, hsmall⟩ | ⟨b, z, l1, l2, cs1, hff, hl, hz, hfoc, hn1, hn2⟩
  · rw [hff]
    refine ⟨⟨fun _ b hb => ?_, fun _ => rfl⟩, fun b hb => by simp at hb⟩
    obtain ⟨z, hz⟩ := (mem_index_blocks hinv b).1 hb
    rw [free_blk_size hinv hz]
    exact hsmall b z hz
  · have hmem : Blk.mk b z false ∈ l := by rw [hl]; simp
    have hbi : b ∈ index_blocks s := (mem_index_blocks hinv b).2 ⟨z, hmem⟩
    have hbz : blk_size s b = z := free_blk_size hinv hmem
    have hmin := find_fit_min hinv ha hff
    rw [hff]
    refine ⟨⟨fun h => by simp at h, fun h => ?_⟩, fun b' hb' => ?_⟩
    · have := h b hbi
      omega
    · simp only [Option.some.injEq] at hb'
      subst hb'
      refine ⟨hbi, by omega, ?_, ?_⟩
      · intro x hx hxa
        obtain ⟨z', hz'⟩ := (mem_index_blocks hinv x).1 hx
        rw [free_blk_size hinv hz'] at hxa ⊢
        exact hmin x z' hz' hxa
      · intro x
        have hlt : ∀ c ∈ cs1, ∀ y ∈ c.blocks, y < (remove_free_block s (some b)).brk := by
          intro c hc y hy
          have hy' := (hfoc.compl y c.size).1 ⟨c, hc, rfl, hy⟩
          have hb2 := Tiles_le hfoc.tiles2
          rcases List.mem_append.1 hy' with h | h
          · have := Tiles_mem hfoc.tiles1 h
            simp only at this
            have := hfoc.brk_ge
            omega
          · have := Tiles_mem hfoc.tiles2 h
            simp only at this
            have := hfoc.brk_ge
            omega
        show x ∈ index_blocks (remove_free_block s (some b)) ↔ _
        rw [index_blocks_of_IndexOK hfoc.index hlt, ← idx_mem_iff_flatMap, mem_index_blocks hinv]
        have hsplit : ∀ y, y ∈ l1 ++ l2 ↔ (y ∈ l ∧ y.addr ≠ b) := by
          intro y
          have := mem_split_ne (B := Blk.mk b z false) (by rw [← hl]; exact hinv.tiles) y
          rw [← hl] at this
          exact this
        constructor
        · rintro ⟨z', hz'⟩
          have := (hsplit _).1 ((hfoc.compl x z').1 hz')
          exact ⟨⟨z', this.1⟩, this.2⟩
        · rintro ⟨⟨z', hz'⟩, hne⟩
          exact ⟨z', (hfoc.compl x z').2 ((hsplit _).2 ⟨hz', hne⟩)⟩

/-- C16 (immediate reuse).  In a state reached from `mm_init` by `mm_malloc` and `mm_free`
calls, let `r` be a live region in a block of `S` words whose two neighbours are allocated (a
fence counts as allocated), and let `r` be freed.  If the block size that the next `mm_malloc n`
asks for is at most `S`, and no other block of the index has a size between that size and `S`,
then this `mm_malloc n` returns `r` and the arena extent stays as it is. -/
theorem immediate_reuse (s0 : State) (ops : List Op) (r m n : Nat)
    (hr : (r, m) ∈ (run s0 ops).ranges)
    (hprev : (tag_at (run s0 ops).s (prev_blk_footer (r - 1))).inuse = true)
    (hnext : blk_free (run s0 ops).s (next_blk (run s0 ops).s (r - 1)) = false)
    (h0 : 0 < n)
    (hle : awords_of (mm_free (run s0 ops).s (some r)) n ≤ blk_size (run s0 ops).s (r - 1))
    (huniq : ∀ b ∈ index_blocks (mm_free (run s0 ops).s (some r)), b ≠ r - 1 →
      ¬ (awords_of (mm_free (run s0 ops).s (some r)) n ≤ blk_size (mm_free (run s0 ops).s (some r)) b ∧
         blk_size (mm_free (run s0 ops).s (some r)) b ≤ blk_size (run s0 ops).s (r - 1))) :
    (mm_malloc (mm_free (run s0 ops).s (some r)) n).1 = some r ∧
    (mm_malloc (mm_free (run s0 ops).s (some r)) n).2.brk = (run s0 ops).s.brk := by
  obtain ⟨l, cs, hinv, ⟨_, hlive⟩, _, _⟩ := DInv_run s0 ops
  obtain ⟨hr1, z, hz, _⟩ := hlive _ hr
  simp only at hr1 hz
  have hzs : blk_size (run s0 ops).s (r - 1) = z := free_blk_size hinv hz
  have hnx : next_blk (run s0 ops).s (r - 1) = r - 1 + z :=
    next_blk_of_tag (Tiles_mem hinv.tiles hz).2.2.2.2.1
  rw [hzs] at hle huniq
  rw [hnx] at hnext
  obtain ⟨l1, l2, hl⟩ := List.append_of_mem hz
  subst hl
  obtain ⟨m', t1, t2⟩ := Tiles_append.1 hinv.tiles
  obtain ⟨n1, n2, _⟩ := List.chain'_append.1 hinv.noadj
  obtain ⟨g1, g2, g3, g4, g5, g6⟩ := t2
  simp only at g1 g6
  subst g1
  obtain ⟨L1, _⟩ := left_neighbour hinv.pro t1 n1
  obtain ⟨R1, _⟩ := right_neighbour hinv.epi g6 (List.Chain'.tail n2)
  have hL : lastFree l1 = 0 := by
    unfold prev_blk_footer at hprev
    rw [L1] at hprev
    simpa using hprev
  have hR : headFree l2 = 0 := by
    unfold blk_free at hnext
    rw [R1] at hnext
    simpa using hnext
  have hra : r - 1 + 1 = r := by omega
  obtain ⟨cs', hinv', hg, _⟩ := mm_free_spec hinv
  rw [hra] at hinv' hg
  have hmemA : Blk.mk (r - 1) z false ∈ freed l1 (r - 1) z l2 := by
    unfold freed
    rw [hL, hR]
    simp
  obtain ⟨b, z', hb, hbz, hmin, hres, hbrk⟩ :=
    mm_malloc_fit (n := n) hinv' (by omega) ⟨r - 1, z, hmemA, hle⟩
  have hba : b = r - 1 := by
    by_contra hne
    have hbi := (mem_index_blocks hinv' b).2 ⟨z', hb⟩
    have := huniq b hbi hne
    rw [free_blk_size hinv' hb] at this
    exact this ⟨hbz, hmin _ _ hmemA hle⟩
  rw [hba, hra] at hres
  exact ⟨hres, hbrk.trans hg.1⟩

set_option maxRecDepth 1000000 in
/-- Witness for C16, the scenario of the specification: `A = mm_malloc 100` (word 2, a block of
28 words), `B = mm_malloc 200`, `mm_free A`, and `mm_malloc 100` returns `A` again. -/
theorem immediate_reuse_witness :
    (2, 100) ∈ (run empty_state [Op.alloc 100, Op.alloc 200]).ranges ∧
    (tag_at (run empty_state [Op.alloc 100, Op.alloc 200]).s (prev_blk_footer (2 - 1))).inuse = true ∧
    blk_free (run empty_state [Op.alloc 100, Op.alloc 200]).s
      (next_blk (run empty_state [Op.alloc 100, Op.alloc 200]).s (2 - 1)) = false ∧
    0 < 100 ∧
    awords_of (mm_free (run empty_state [Op.alloc 100, Op.alloc 200]).s (some 2)) 100
      ≤ blk_size (run empty_state [Op.alloc 100, Op.alloc 200]).s (2 - 1) ∧
    (∀ b ∈ index_blocks (mm_free (run empty_state [Op.alloc 100, Op.alloc 200]).s (some 2)), b ≠ 2 - 1 →
      ¬ (awords_of (mm_free (run empty_state [Op.alloc 100, Op.alloc 200]).s (some 2)) 100
          ≤ blk_size (mm_free (run empty_state [Op.alloc 100, Op.alloc 200]).s (some 2)) b ∧
         blk_size (mm_free (run empty_state [Op.alloc 100, Op.alloc 200]).s (some 2)) b
          ≤ blk_size (run empty_state [Op.alloc 100, Op.alloc 200]).s (2 - 1))) ∧
    ((mm_malloc (mm_free (run empty_state [Op.alloc 100, Op.alloc 200]).s (some 2)) 100).1 = some 2 ∧
    (mm_malloc (mm_free (run empty_state [Op.alloc 100, Op.alloc 200]).s (some 2)) 100).2.brk
      = (run empty_state [Op.alloc 100, Op.alloc 200]).s.brk) :=
  ⟨by decide, by decide, by decide, by decide, by decide, by decide,
    immediate_reuse empty_state [Op.alloc 100, Op.alloc 200] 2 100 100 (by decide) (by decide)
      (by decide) (by decide) (by decide) (by decide)⟩

/-- C20 (best fit).  In a state reached from `mm_init` by `mm_malloc` and `mm_free` calls and for
a size `asize` in the range of the size field (below `2^30` words): `find_fit asize` returns null
exactly when every block of the index is smaller than `asize`; a block that it returns is in the
index, has at least `asize` words and no more words than any block of the index with at least
`asize` words, and afterwards the index holds the same blocks without it.  Consequently, when
some block of the index is large enough for `mm_malloc n`, the region returned lies in a block
that was a smallest sufficient block of the index, and the arena extent is unchanged. -/
theorem best_fit (s0 : State) (ops : List Op) (asize : Nat) (ha : asize < 2 ^ 30) :
    ((find_fit (run s0 ops).s asize).1 = none ↔
      ∀ b ∈ index_blocks (run s0 ops).s, blk_size (run s0 ops).s b < asize) ∧
    (∀ b, (find_fit (run s0 ops).s asize).1 = some b →
      b ∈ index_blocks (run s0 ops).s ∧ asize ≤ blk_size (run s0 ops).s b ∧
      (∀ x ∈ index_blocks (run s0 ops).s, asize ≤ blk_size (run s0 ops).s x →
        blk_size (run s0 ops).s b ≤ blk_size (run s0 ops).s x) ∧
      (∀ x, x ∈ index_blocks (find_fit (run s0 ops).s asize).2 ↔
        (x ∈ index_blocks (run s0 ops).s ∧ x ≠ b))) ∧
    (∀ n, 0 < n →
      (∃ x ∈ index_blocks (run s0 ops).s, awords_of (run s0 ops).s n ≤ blk_size (run s0 ops).s x) →
      ∃ p, (mm_malloc (run s0 ops).s n).1 = some p ∧ p - 1 ∈ index_blocks (run s0 ops).s ∧
        awords_of (run s0 ops).s n ≤ blk_size (run s0 ops).s (p - 1) ∧
        (∀ x ∈ index_blocks (run s0 ops).s, awords_of (run s0 ops).s n ≤ blk_size (run s0 ops).s x →
          blk_size (run s0 ops).s (p - 1) ≤ blk_size (run s0 ops).s x) ∧
        (mm_malloc (run s0 ops).s n).2.brk = (run s0 ops).s.brk) := by
  obtain ⟨l, cs, hinv, _, _, _⟩ := DInv_run s0 ops
  obtain ⟨f1, f2⟩ := find_fit_index hinv ha
  refine ⟨f1, f2, ?_⟩
  intro n hn ⟨x, hx, hxz⟩
  obtain ⟨zx, hzx⟩ := (mem_index_blocks hinv x).1 hx
  rw [free_blk_size hinv hzx] at hxz
  obtain ⟨b, z, hb, hbz, hmin, hres, hbrk⟩ :=
    mm_malloc_fit (n := n) hinv (by omega) ⟨x, zx, hzx, hxz⟩
  refine ⟨b + 1, hres, ?_, ?_, ?_, hbrk⟩
  · rw [Nat.add_sub_cancel]
    exact (mem_index_blocks hinv b).2 ⟨z, hb⟩
  · rw [Nat.add_sub_cancel, free_blk_size hinv hb]
    exact hbz
  · intro y hy hya
    obtain ⟨zy, hzy⟩ := (mem_index_blocks hinv y).1 hy
    rw [free_blk_size hinv hzy] at hya ⊢
    rw [Nat.add_sub_cancel, free_blk_size hinv hb]
    exact hmin y zy hzy hya

set_option maxRecDepth 1000000 in
/-- Witness for C20: after `mm_init` and a request of 24 bytes the index holds the block of 8
words at word 9, which `find_fit 8` returns. -/
theorem best_fit_witness :
    8 < 2 ^ 30 ∧ (find_fit (run empty_state [Op.alloc 24]).s 8).1 = some 9 ∧
    index_blocks (run empty_state [Op.alloc 24]).s = [9] ∧
    (((find_fit (run empty_state [Op.alloc 24]).s 8).1 = none ↔
      ∀ b ∈ index_blocks (run empty_state [Op.alloc 24]).s, blk_size (run empty_state [Op.alloc 24]).s b < 8) ∧
    (∀ b, (find_fit (run empty_state [Op.alloc 24]).s 8).1 = some b →
      b ∈ index_blocks (run empty_state [Op.alloc 24]).s ∧ 8 ≤ blk_size (run empty_state [Op.alloc 24]).s b ∧
      (∀ x ∈ index_blocks (run empty_state [Op.alloc 24]).s, 8 ≤ blk_size (run empty_state [Op.alloc 24]).s x →
        blk_size (run empty_state [Op.alloc 24]).s b ≤ blk_size (run empty_state [Op.alloc 24]).s x) ∧
      (∀ x, x ∈ index_blocks (find_fit (run empty_state [Op.alloc 24]).s 8).2 ↔
        (x ∈ index_blocks (run empty_state [Op.alloc 24]).s ∧ x ≠ b))) ∧
    (∀ n, 0 < n →
      (∃ x ∈ index_blocks (run empty_state [Op.alloc 24]).s,
        awords_of (run empty_state [Op.alloc 24]).s n ≤ blk_size (run empty_state [Op.alloc 24]).s x) →
      ∃ p, (mm_malloc (run empty_state [Op.alloc 24]).s n).1 = some p ∧
        p - 1 ∈ index_blocks (run empty_state [Op.alloc 24]).s ∧
        awords_of (run empty_state [Op.alloc 24]).s n ≤ blk_size (run empty_state [Op.alloc 24]).s (p - 1) ∧
        (∀ x ∈ index_blocks (run empty_state [Op.alloc 24]).s,
          awords_of (run empty_state [Op.alloc 24]).s n ≤ blk_size (run empty_state [Op.alloc 24]).s x →
          blk_size (run empty_state [Op.alloc 24]).s (p - 1) ≤ blk_size (run empty_state [Op.alloc 24]).s x) ∧
        (mm_malloc (run empty_state [Op.alloc 24]).s n).2.brk = (run empty_state [Op.alloc 24]).s.brk)) :=
  ⟨by decide, by decide, by decide, best_fit empty_state [Op.alloc 24] 8 (by decide)⟩

theorem list_eq_singleton {l : List Nat} {a : Nat} (hnd : l.Nodup) (h : ∀ b, b ∈ l ↔ b = a) :
    l = [a] := by
  cases l with
  | nil => exact absurd ((h a).2 rfl) (by simp)
  | cons x r =>
    have hx : x = a := (h x).1 (List.mem_cons_self _ _)
    subst hx
    cases r with
    | nil => rfl
    | cons y r' =>
      have hy : y = x := (h y).1 (by simp)
      subst hy
      simp at hnd

/-- The index of a state whose only block is the free block at word `a`. -/
theorem index_blocks_single {s : State} {cs : List Chain} {a z : Nat}
    (hinv : Inv s [Blk.mk a z false] cs) : index_blocks s = [a] := by
  apply list_eq_singleton
  · rw [index_blocks_of_Inv hinv]
    exact hinv.index.blocks_nodup
  · intro b
    rw [mem_index_blocks hinv]
    constructor
    · rintro ⟨z', hz'⟩
      simp only [List.mem_singleton, Blk.mk.injEq] at hz'
      exact hz'.1
    · rintro rfl
      exact ⟨z, by simp⟩

set_option maxRecDepth 1000000 in
/-- C17 (initial state) fails on the code as stated.  After a successful `mm_init` on a fresh
arena the index is not empty and the trackers `first` and `second` are not zero: the index holds
the block at word 1, `first` is 84 and `second` is 82. -/
theorem init_state_counterexample :
    (mm_init (mem_reset_brk empty_state)).1 = 0 ∧
    index_blocks (mm_init (mem_reset_brk empty_state)).2 = [1] ∧
    (mm_init (mem_reset_brk empty_state)).2.first = 84 ∧
    (mm_init (mem_reset_brk empty_state)).2.second = 82 ∧
    ¬ (index_blocks (mm_init (mem_reset_brk empty_state)).2 = [] ∧
       (mm_init (mem_reset_brk empty_state)).2.first = 0 ∧
       (mm_init (mem_reset_brk empty_state)).2.second = 0 ∧
       (mm_init (mem_reset_brk empty_state)).2.first_timer = 0 ∧
       (mm_init (mem_reset_brk empty_state)).2.second_timer = 0 ∧
       tag_at (mm_init (mem_reset_brk empty_state)).2 0 = FENCE ∧
       tag_at (mm_init (mem_reset_brk empty_state)).2
         ((mm_init (mem_reset_brk empty_state)).2.brk - 1) = FENCE) := by
  decide

/-- C17 as amended.  `mm_init` on a fresh arena (after `mem_reset_brk`, whatever the memory and
the globals held) succeeds; afterwards the index holds exactly one block, the free block of
`CHUNKSIZE` words at word 1, which is the only block of the arena; `first` is `DIV`, `second` is
`DIV - 2`, both repeat counters are zero; and the arena, 18 words, begins and ends with a fence
tag (allocated, size 0). -/
theorem init_state (s0 : State) :
    (mm_init (mem_reset_brk s0)).1 = 0 ∧
    index_blocks (mm_init (mem_reset_brk s0)).2 = [1] ∧
    heap_blocks (mm_init (mem_reset_brk s0)).2 = some [1] ∧
    tag_at (mm_init (mem_reset_brk s0)).2 1 = { inuse := false, size := (CHUNKSIZE : Int) } ∧
    (mm_init (mem_reset_brk s0)).2.first = DIV ∧
    (mm_init (mem_reset_brk s0)).2.second = DIV - 2 ∧
    (mm_init (mem_reset_brk s0)).2.first_timer = 0 ∧
    (mm_init (mem_reset_brk s0)).2.second_timer = 0 ∧
    (mm_init (mem_reset_brk s0)).2.brk = 18 ∧
    tag_at (mm_init (mem_reset_brk s0)).2 0 = FENCE ∧
    tag_at (mm_init (mem_reset_brk s0)).2 ((mm_init (mem_reset_brk s0)).2.brk - 1) = FENCE := by
  obtain ⟨h1, ⟨cs, hinv⟩, h3, h4, h5, h6, h7⟩ := @mm_init_spec (mem_reset_brk s0) rfl
  have htag := (Tiles_mem hinv.tiles (List.mem_singleton.2 rfl)).2.2.2.2.1
  refine ⟨h1, index_blocks_single hinv, ?_, htag, h4, h5, h6, h7, h3, hinv.pro, hinv.epi⟩
  rw [heap_blocks_of_Inv hinv]
  rfl

theorem profile_48 {s : State} (h1 : s.first = 84) (h2 : s.first_timer = 0)
    (h3 : s.second = 48 ∨ s.second = 82) :
    (profile s 48).1 = 48 ∧ (profile s 48).2.first = 84 ∧ (profile s 48).2.first_timer = 0 ∧
    (profile s 48).2.second = 48 := by
  unfold profile
  rcases h3 with h3 | h3 <;> simp [h1, h2, h3, add32, SZ, PT]

theorem awords_48 {s : State} (h1 : s.first = 84) (h2 : s.first_timer = 0)
    (h3 : s.second = 48 ∨ s.second = 82) : awords_of s 48 = 14 := by
  unfold awords_of
  rw [(profile_48 h1 h2 h3).1]
  decide

theorem singleton_split {B C : Blk} {l1 l2 : List Blk} (h : [B] = l1 ++ C :: l2) :
    l1 = [] ∧ l2 = [] ∧ C = B := by
  cases l1 with
  | nil =>
    simp only [List.nil_append, List.cons.injEq] at h
    exact ⟨rfl, h.2.symm, h.1.symm⟩
  | cons x r =>
    simp only [List.cons_append, List.cons.injEq] at h
    have := h.2
    simp at this

/-- A request of 48 bytes in an idle arena takes the whole block of 16 words. -/
theorem alloc_48_idle {s : State} {cs : List Chain} (hinv : Inv s [Blk.mk 1 16 false] cs)
    (h1 : s.first = 84) (h2 : s.first_timer = 0) (h3 : s.second = 48 ∨ s.second = 82) :
    (mm_malloc s 48).1 = some 2 ∧ (∃ cs', Inv (mm_malloc s 48).2 [Blk.mk 1 16 true] cs') ∧
    (mm_malloc s 48).2.brk = s.brk ∧ (mm_malloc s 48).2.first = 84 ∧
    (mm_malloc s 48).2.first_timer = 0 ∧ (mm_malloc s 48).2.second = 48 := by
  obtain ⟨p1, p2, p3, p4, p5⟩ := profile_frame s 48
  have hinv1 : Inv (profile s 48).2 [Blk.mk 1 16 false] cs := Inv_congr p1 p2 p3 p4 p5 hinv
  obtain ⟨_, q1, q2, q3⟩ := profile_48 h1 h2 h3
  have haw := awords_48 h1 h2 h3
  rcases @find_fit_spec _ _ _ 14 hinv1 (by norm_num) with
    ⟨_, hsmall⟩ | ⟨b, z, l1, l2, cs1, hff, hl, hz, hfoc, hn1, hn2⟩
  · have := hsmall 1 16 (by simp)
    omega
  · obtain ⟨e1, e2, e3⟩ := singleton_split hl
    simp only [Blk.mk.injEq] at e3
    obtain ⟨e4, e5, _⟩ := e3
    subst e1 e2 e4 e5
    obtain ⟨cs3, r1, r2, _⟩ := place_spec hfoc hn2 (by norm_num) (by norm_num) hz
    have hpl : placed [] 1 16 14 [] = [Blk.mk 1 16 true] := by
      unfold placed MIN_BLOCK_SIZE_WORDS
      rw [if_neg (by norm_num)]
      rfl
    rw [hpl] at r1
    have hsame := remove_free_block_same (profile s 48).2 (some 1)
    have hres : mm_malloc s 48 = (some 2, place (remove_free_block (profile s 48).2 (some 1)) 1 14) := by
      rw [mm_malloc_unfold s 48 (by norm_num), haw, hff]
    have hP : (mm_malloc s 48).1 = some 2 := by rw [hres]
    have hS : (mm_malloc s 48).2 = place (remove_free_block (profile s 48).2 (some 1)) 1 14 := by
      rw [hres]
    rw [hS]
    exact ⟨hP, ⟨cs3, r1⟩, by rw [r2.1, hsame.2.1, p2], by rw [r2.2.1, hsame.2.2.1, q1],
      by rw [r2.2.2.2.1, hsame.2.2.2.2.1, q2], by rw [r2.2.2.1, hsame.2.2.2.1, q3]⟩

theorem Idle_init (s0 : State) : Idle (run s0 []) := by
  obtain ⟨_, hinv, h3, h4, h5, h6, _⟩ := @mm_init_spec (mem_reset_brk s0) rfl
  exact ⟨rfl, hinv, h3, h4, h6, Or.inr h5⟩

theorem Idle_cycle {d : Driver} (h : Idle d) :
    Idle (step (step d (Op.alloc 48)) (Op.free 2)) ∧
    (step (step d (Op.alloc 48)) (Op.free 2)).s.second = 48 := by
  obtain ⟨hr, ⟨cs, hinv⟩, hb, h1, h2, h3⟩ := h
  obtain ⟨a1, ⟨cs1, a2⟩, a3, a4, a5, a6⟩ := alloc_48_idle hinv h1 h2 h3
  have hstep1 : step d (Op.alloc 48) = { s := (mm_malloc d.s 48).2, ranges := [(2, 48)] } := by
    simp only [step]
    rw [if_pos (by norm_num), a1, hr]
  obtain ⟨cs2, f1, f2, _⟩ :=
    mm_free_spec (show Inv (mm_malloc d.s 48).2 ([] ++ Blk.mk 1 16 true :: []) cs1 from a2)
  have hfr : freed [] 1 16 [] = [Blk.mk 1 16 false] := rfl
  rw [hfr] at f1
  have hstep2 : step (step d (Op.alloc 48)) (Op.free 2)
      = { s := mm_free (mm_malloc d.s 48).2 (some 2), ranges := [] } := by
    rw [hstep1]
    simp only [step]
    rw [if_pos (by simp)]
    simp
  rw [hstep2]
  refine ⟨⟨rfl, ⟨cs2, f1⟩, ?_, ?_, ?_, Or.inl ?_⟩, ?_⟩
  · exact f2.1.trans (a3.trans hb)
  · exact f2.2.1.trans a4
  · exact f2.2.2.2.1.trans a5
  · exact f2.2.2.1.trans a6
  · exact f2.2.2.1.trans a6

theorem Idle_cycles (s0 : State) (k : Nat) :
    Idle (run s0 (cycles (k + 1))) ∧ (run s0 (cycles (k + 1))).s.second = 48 := by
  have hrun : ∀ j, run s0 (cycles (j + 1))
      = step (step (run s0 (cycles j)) (Op.alloc 48)) (Op.free 2) := by
    intro j
    unfold run
    rw [cycles, List.foldl_append]
    rfl
  induction k with
  | zero =>
    rw [hrun 0]
    exact Idle_cycle (Idle_init s0)
  | succ j ih =>
    rw [hrun (j + 1)]
    exact Idle_cycle ih.1

set_option maxRecDepth 1000000 in
/-- C18 (hot-size padding) fails on the code as stated.  After three cycles
`p = mm_malloc 48; mm_free p` from `mm_init`, `second` is 48, yet the next `mm_malloc 48` is
sized for 48 bytes and not for `48 + second` bytes: it returns the region at word 2 in a block
of 16 words, whose payload capacity of 56 bytes is less than `48 + second = 96` bytes. -/
theorem hot_size_counterexample :
    (run empty_state (cycles 3)).s.second = 48 ∧
    (run empty_state (cycles 3)).s.first_timer = 0 ∧
    (profile (run empty_state (cycles 3)).s 48).1 = 48 ∧
    (mm_malloc (run empty_state (cycles 3)).s 48).1 = some 2 ∧
    ¬ (48 + (run empty_state (cycles 3)).s.second
        ≤ WSIZE * blk_size (mm_malloc (run empty_state (cycles 3)).s 48).2 (2 - 1) - 2 * WSIZE) := by
  decide

/-- C18 as amended.  Starting from `mm_init`, after any number `k + 1` of cycles
`p = mm_malloc 48; mm_free p` no region is live, `first` is still 84 with repeat counter 0 and
`second` is 48, so the padding test (both repeat counters at least `PT` and a request equal to
`first`) does not hold: the next `mm_malloc 48` is sized for 48 bytes, 14 words with the tags,
and returns the region at word 2 in the block of 16 words that fills the arena. -/
theorem hot_size_no_padding (s0 : State) (k : Nat) :
    (run s0 (cycles (k + 1))).ranges = [] ∧
    (run s0 (cycles (k + 1))).s.first = 84 ∧
    (run s0 (cycles (k + 1))).s.first_timer = 0 ∧
    (run s0 (cycles (k + 1))).s.second = 48 ∧
    (profile (run s0 (cycles (k + 1))).s 48).1 = 48 ∧
    awords_of (run s0 (cycles (k + 1))).s 48 = 14 ∧
    (mm_malloc (run s0 (cycles (k + 1))).s 48).1 = some 2 ∧
    tag_at (mm_malloc (run s0 (cycles (k + 1))).s 48).2 (2 - 1) = { inuse := true, size := 16 } ∧
    (mm_malloc (run s0 (cycles (k + 1))).s 48).2.brk = 18 := by
  obtain ⟨⟨hr, ⟨cs, hinv⟩, hb, h1, h2, h3⟩, h4⟩ := Idle_cycles s0 k
  obtain ⟨a1, ⟨cs1, a2⟩, a3, _, _, _⟩ := alloc_48_idle hinv h1 h2 h3
  have htag := (Tiles_mem a2.tiles (List.mem_singleton.2 rfl)).2.2.2.2.1
  exact ⟨hr, h1, h2, h4, (profile_48 h1 h2 h3).1, awords_48 h1 h2 h3, a1, htag, a3.trans hb⟩

/-- In a doubly linked chain whose first `prev` points outside of the chain, `next x = some y`
holds exactly when `prev y = some x`. -/
theorem Linked_mutual {prev next : Nat → Option Nat} {l : List Nat} {p : Option Nat}
    (hl : Linked prev next p l) (hnd : l.Nodup) (hp : ∀ q, p = some q → q ∉ l) :
    ∀ x ∈ l, ∀ y ∈ l, (next x = some y ↔ prev y = some x) := by
  induction l generalizing p with
  | nil => intro x hx; simp at hx
  | cons a r ih =>
    obtain ⟨h1, h2, h3⟩ := hl
    have hnd' := (List.nodup_cons.1 hnd).2
    have har := (List.nodup_cons.1 hnd).1
    have ihr := ih h3 hnd' (fun q hq => by
      simp only [Option.some.injEq] at hq
      rw [← hq]; exact har)
    intro x hx y hy
    rcases List.mem_cons.1 hx with hxa | hxr
    · subst hxa
      rcases List.mem_cons.1 hy with hya | hyr
      · subst hya
        constructor
        · intro h
          rw [h2] at h
          exact absurd (List.mem_of_mem_head? h) har
        · intro h
          rw [h1] at h
          exact absurd (List.mem_cons_self _ _) (hp _ h)
      · cases r with
        | nil => simp at hyr
        | cons b r' =>
          obtain ⟨g1, g2, g3⟩ := h3
          simp only [List.head?_cons] at h2
          rcases List.mem_cons.1 hyr with hyb | hyr'
          · subst hyb
            exact ⟨fun _ => g1, fun _ => h2⟩
          · constructor
            · intro h
              rw [h2] at h
              simp only [Option.some.injEq] at h
              subst h
              exact absurd hyr' (List.nodup_cons.1 hnd').1
            · intro h
              obtain ⟨q, hq1, hq2⟩ := Linked_prev_mem (q := some x) ⟨g1, g2, g3⟩ hyr'
              rw [h] at hq1
              simp only [Option.some.injEq] at hq1
              rw [← hq1] at hq2
              exact absurd hq2 har
    · rcases List.mem_cons.1 hy with hya | hyr
      · subst hya
        constructor
        · intro h
          exact absurd (Linked_next_mem h3 hxr h) har
        · intro h
          rw [h1] at h
          exact absurd (List.mem_cons_of_mem _ hxr) (hp _ h)
      · exact ihr x hxr y hyr

theorem chain_of_entry {s : State} {l : List Blk} {cs : List Chain} (hinv : Inv s l cs)
    {c : Chain} (hc : c ∈ cs) : chain_of s s.brk c.head = c.blocks := by
  apply chain_of_Linked (hinv.index.linked c hc)
  have hnd := IndexOK_chain_nodup hinv.index hc
  have hlt : ∀ x ∈ c.blocks, x < s.brk := by
    intro x hx
    have := (hinv.compl x c.size).1 ⟨c, hc, rfl, hx⟩
    have := Tiles_mem hinv.tiles this
    simp only at this
    omega
  have := nodup_length_le hnd hlt
  simp only [Chain.blocks, List.length_cons] at this
  omega

/-- Two entries of the index that share a block are the same entry. -/
theorem chain_unique {s : State} {cs : List Chain} (hi : IndexOK s cs) {c d : Chain} {x : Nat}
    (hc : c ∈ cs) (hd : d ∈ cs) (hxc : x ∈ c.blocks) (hxd : x ∈ d.blocks) : c = d := by
  by_contra hne
  obtain ⟨cs1, cs2, hsplit⟩ := List.append_of_mem hc
  rw [hsplit] at hi hd
  have hd' : d ∈ cs1 ++ cs2 := by
    rcases List.mem_append.1 hd with h | h
    · exact List.mem_append_left _ h
    · rcases List.mem_cons.1 h with h | h
      · exact absurd h.symm hne
      · exact List.mem_append_right _ h
  exact IndexOK_disj hi x hxc d hd' hxd

/-- C29 (well-formed blocks).  In every state reached from `mm_init` by `mm_malloc` calls (sizes
up to `2^30`) and `mm_free` calls on live regions, the walk of the arena succeeds and every block
that it visits has a footer equal to its header, a size that is a multiple of 2 words (8 bytes)
and at least `MIN_BLOCK_SIZE_WORDS` (8) words; the first and the last word of the arena hold
the fence tag (allocated, size 0). -/
theorem block_wellformed (s0 : State) (ops : List Op) :
    ∃ bl, heap_blocks (run s0 ops).s = some bl ∧
      (∀ b ∈ bl, tag_at (run s0 ops).s (get_footer (run s0 ops).s b) = tag_at (run s0 ops).s b ∧
        blk_size (run s0 ops).s b % 2 = 0 ∧
        WSIZE * blk_size (run s0 ops).s b % ALIGNMENT = 0 ∧
        MIN_BLOCK_SIZE_WORDS ≤ blk_size (run s0 ops).s b) ∧
      tag_at (run s0 ops).s 0 = FENCE ∧
      tag_at (run s0 ops).s ((run s0 ops).s.brk - 1) = FENCE := by
  obtain ⟨l, cs, hinv, _, _, _⟩ := DInv_run s0 ops
  refine ⟨l.map Blk.addr, heap_blocks_of_Inv hinv, ?_, hinv.pro, hinv.epi⟩
  intro b hb
  obtain ⟨B, hB, hBb⟩ := List.mem_map.1 hb
  obtain ⟨_, _, t3, t4, t5, t6⟩ := Tiles_mem hinv.tiles hB
  rw [hBb] at t5 t6
  have htag : tag_at (run s0 ops).s b = { inuse := B.used, size := (B.size : Int) } := t5
  have hft : get_footer (run s0 ops).s b = b + B.size - 1 := by
    unfold get_footer
    rw [htag]
    simp only
    omega
  rw [hft, htag, blk_size_of_tag htag]
  unfold WSIZE ALIGNMENT MIN_BLOCK_SIZE_WORDS
  exact ⟨t6, t4, by omega, t3⟩

/-- C30 (one index entry per size).  In every state reached from `mm_init` by `mm_malloc` calls
(sizes up to `2^30`) and `mm_free` calls on live regions: the entries of the tree have pairwise
distinct sizes; an entry has no `prev`, and every block chained to it through `next` is free and
has the size of the entry; for a block `x` of the index, `x.next = y` implies that `y` is in the
index with `y.prev = x`, and for a block `y` of the index, `y.prev = x` implies that `x` is in
the index with `x.next = y`; and no block occurs twice among the entries and their chains. -/
theorem index_one_entry_per_size (s0 : State) (ops : List Op) :
    ((run s0 ops).s.tree.map (blk_size (run s0 ops).s)).Nodup ∧
    (∀ h ∈ (run s0 ops).s.tree, (run s0 ops).s.prev h = none ∧
      ∀ b ∈ chain_of (run s0 ops).s (run s0 ops).s.brk h,
        blk_free (run s0 ops).s b = true ∧ blk_size (run s0 ops).s b = blk_size (run s0 ops).s h) ∧
    (∀ x ∈ index_blocks (run s0 ops).s, ∀ y, (run s0 ops).s.next x = some y →
      y ∈ index_blocks (run s0 ops).s ∧ (run s0 ops).s.prev y = some x) ∧
    (∀ y ∈ index_blocks (run s0 ops).s, ∀ x, (run s0 ops).s.prev y = some x →
      x ∈ index_blocks (run s0 ops).s ∧ (run s0 ops).s.next x = some y) ∧
    (index_blocks (run s0 ops).s).Nodup := by
  obtain ⟨l, cs, hinv, _, _, _⟩ := DInv_run s0 ops
  have hi := hinv.index
  have hsz : ∀ c ∈ cs, ∀ b ∈ c.blocks, blk_size (run s0 ops).s b = c.size :=
    fun c hc b hb => blk_size_of_tag (hi.tags c hc b hb)
  have hmut : ∀ c ∈ cs, ∀ x ∈ c.blocks, ∀ y ∈ c.blocks,
      ((run s0 ops).s.next x = some y ↔ (run s0 ops).s.prev y = some x) :=
    fun c hc => Linked_mutual (hi.linked c hc) (IndexOK_chain_nodup hi hc) (fun q hq => by simp at hq)
  refine ⟨?_, ?_, ?_, ?_, ?_⟩
  · have : (run s0 ops).s.tree.map (blk_size (run s0 ops).s) = cs.map Chain.size := by
      rw [hi.tree_eq, List.map_map]
      apply List.map_congr_left
      intro c hc
      exact hsz c hc c.head (List.mem_cons_self _ _)
    rw [this]
    exact hi.sizes_nodup
  · intro h hh
    rw [hi.tree_eq] at hh
    obtain ⟨c, hc, rfl⟩ := List.mem_map.1 hh
    refine ⟨(hi.linked c hc).1, ?_⟩
    intro b hb
    rw [chain_of_entry hinv hc] at hb
    refine ⟨?_, ?_⟩
    · unfold blk_free
      rw [hi.tags c hc b hb]
      rfl
    · rw [hsz c hc b hb, hsz c hc c.head (List.mem_cons_self _ _)]
  · intro x hx y hxy
    rw [index_blocks_of_Inv hinv] at hx ⊢
    obtain ⟨c, hc, hxc⟩ := List.mem_flatMap.1 hx
    have hyc := Linked_next_mem (hi.linked c hc) hxc hxy
    exact ⟨List.mem_flatMap.2 ⟨c, hc, hyc⟩, (hmut c hc x hxc y hyc).1 hxy⟩
  · intro y hy x hyx
    rw [index_blocks_of_Inv hinv] at hy ⊢
    obtain ⟨c, hc, hyc⟩ := List.mem_flatMap.1 hy
    have hxc : x ∈ c.blocks := by
      rcases List.mem_cons.1 hyc with hh | ht
      · have := (hi.linked c hc).1
        rw [← hh, hyx] at this
        simp at this
      · obtain ⟨q, hq1, hq2⟩ := Linked_prev_mem (hi.linked c hc) ht
        rw [hyx] at hq1
        simp only [Option.some.injEq] at hq1
        rw [hq1]
        exact hq2
    exact ⟨List.mem_flatMap.2 ⟨c, hc, hxc⟩, (hmut c hc x hxc y hyc).2 hyx⟩
  · rw [index_blocks_of_Inv hinv]
    exact hi.blocks_nodup

theorem profile_rule_aux (n k : Nat) (hn : n ≤ 2 ^ 30) (hs : n ≠ k) (s1 : State)
    (h2 : s1.second ≤ 82) :
    (if s1.first_timer ≥ PT ∧ s1.second_timer ≥ PT then
        if n = s1.first then (add32 n s1.second, s1) else (n, s1)
      else (n, s1)).1 =
      if n ≠ k ∧ n = (if s1.first_timer ≥ PT ∧ s1.second_timer ≥ PT then
            if n = s1.first then (add32 n s1.second, s1) else (n, s1)
          else (n, s1)).2.first ∧
          PT ≤ (if s1.first_timer ≥ PT ∧ s1.second_timer ≥ PT then
            if n = s1.first then (add32 n s1.second, s1) else (n, s1)
          else (n, s1)).2.first_timer ∧
          PT ≤ (if s1.first_timer ≥ PT ∧ s1.second_timer ≥ PT then
            if n = s1.first then (add32 n s1.second, s1) else (n, s1)
          else (n, s1)).2.second_timer
      then (if s1.first_timer ≥ PT ∧ s1.second_timer ≥ PT then
            if n = s1.first then (add32 n s1.second, s1) else (n, s1)
          else (n, s1)).2.first +
        (if s1.first_timer ≥ PT ∧ s1.second_timer ≥ PT then
            if n = s1.first then (add32 n s1.second, s1) else (n, s1)
          else (n, s1)).2.second
      else n := by
  by_cases ht : s1.first_timer ≥ PT ∧ s1.second_timer ≥ PT
  · rw [if_pos ht]
    by_cases hf : n = s1.first
    · rw [if_pos hf]
      simp only
      rw [if_pos ⟨hs, hf, ht.1, ht.2⟩, add32_small _ _ (by omega), hf]
    · rw [if_neg hf]
      simp only
      rw [if_neg (fun h => hf h.2.1)]
  · rw [if_neg ht]
    simp only
    rw [if_neg (fun h => ht ⟨h.2.2.1, h.2.2.2⟩)]

/-- The request size after the profiling prologue, in terms of the trackers it leaves. -/
theorem profile_rule (s : State) (n : Nat) (hn : n ≤ 2 ^ 30) (h2 : s.second ≤ 82)
    (h1 : s.first ≤ 2 ^ 30) :
    (profile s n).1 =
      if n ≠ s.first + s.second ∧ n = (profile s n).2.first ∧ PT ≤ (profile s n).2.first_timer ∧
          PT ≤ (profile s n).2.second_timer
      then (profile s n).2.first + (profile s n).2.second else n := by
  have hadd : add32 s.first s.second = s.first + s.second := add32_small _ _ (by omega)
  by_cases hsum : n = s.first + s.second
  · have : profile s n = (n, s) := by
      unfold profile
      rw [hadd, if_pos hsum]
    rw [this]
    simp [hsum]
  · unfold profile
    rw [hadd, if_neg hsum]
    dsimp only
    apply profile_rule_aux n _ hn hsum
    split_ifs <;> first | omega | (simp only; omega)

theorem adjust_round (x : Nat) (h : x + 15 < 2 ^ 32) :
    adjust x = (x + 2 * 4 + (DSIZE - 1)) / DSIZE * DSIZE := by
  unfold adjust clear_low3 DSIZE
  rw [add32_small x (2 * 4) (by omega), add32_small (x + 2 * 4) (8 - 1) (by omega)]
  omega

/-- C28 (padding rule).  In a state reached from `mm_init` by `mm_malloc` and `mm_free` calls and
for `0 < n ≤ 2^30`: the byte count from which `mm_malloc n` sizes the request is `first + second`
(the trackers as this call leaves them) when `n` differs from `first + second` as they were
before the call, `n` equals `first` after the tracker update and both repeat counters are then at
least `PT`; it is `n` itself in every other case.  The block size in words is the maximum of
`MIN_BLOCK_SIZE_WORDS` and that byte count plus 8, rounded up to a multiple of 8, divided by 4;
`mm_malloc` searches the index for that size and, when nothing fits, extends the arena for it. -/
theorem padding_rule (s0 : State) (ops : List Op) (n : Nat) (h0 : 0 < n) (hn : n ≤ 2 ^ 30) :
    ((profile (run s0 ops).s n).1 =
      if n ≠ (run s0 ops).s.first + (run s0 ops).s.second ∧
          n = (mm_malloc (run s0 ops).s n).2.first ∧
          PT ≤ (mm_malloc (run s0 ops).s n).2.first_timer ∧
          PT ≤ (mm_malloc (run s0 ops).s n).2.second_timer
      then (mm_malloc (run s0 ops).s n).2.first + (mm_malloc (run s0 ops).s n).2.second
      else n) ∧
    awords_of (run s0 ops).s n = max MIN_BLOCK_SIZE_WORDS
      (((profile (run s0 ops).s n).1 + 2 * 4 + (DSIZE - 1)) / DSIZE * DSIZE / WSIZE) ∧
    mm_malloc (run s0 ops).s n =
      (match find_fit (profile (run s0 ops).s n).2 (awords_of (run s0 ops).s n) with
      | (some bp, s1) => (some (bp + 1), place s1 bp (awords_of (run s0 ops).s n))
      | (none, s1) =>
        let prev_boundary_tag := (mem_heap_hi s1 - 4 - PADDING) / WSIZE
        let extendwords :=
          if !(tag_at s1 prev_boundary_tag).inuse then
            sub32 (awords_of (run s0 ops).s n) (toSizeT (tag_at s1 prev_boundary_tag).size)
          else awords_of (run s0 ops).s n
        match extend_heap s1 extendwords with
        | (none, s2) => (none, s2)
        | (some bp, s2) => (some (bp + 1), place s2 bp (awords_of (run s0 ops).s n))) := by
  obtain ⟨l, cs, hinv, _, h2, h1⟩ := DInv_run s0 ops
  obtain ⟨_, _, _, _, _, _, _, ht1, ht2, ht3, ht4⟩ := mm_malloc_spec (n := n) hinv (by omega)
  obtain ⟨_, _, _, p4⟩ := profile_trackers (run s0 ops).s n hn h2 h1
  refine ⟨?_, ?_, mm_malloc_unfold _ _ (by omega)⟩
  · rw [ht1, ht2, ht3, ht4]
    exact profile_rule _ _ hn h2 h1
  · unfold awords_of
    rw [adjust_round _ (by omega)]

set_option maxRecDepth 1000000 in
/-- Witness for C28: after two requests of 84 bytes and two requests of 82 bytes both repeat
counters have reached `PT`, and a further request of 84 bytes is sized from 166 bytes. -/
theorem padding_rule_witness :
    0 < 84 ∧ 84 ≤ 2 ^ 30 ∧
    (profile (run empty_state [Op.alloc 84, Op.alloc 84, Op.alloc 82, Op.alloc 82]).s 84).1 = 166 ∧
    (((profile (run empty_state [Op.alloc 84, Op.alloc 84, Op.alloc 82, Op.alloc 82]).s 84).1 =
      if 84 ≠ (run empty_state [Op.alloc 84, Op.alloc 84, Op.alloc 82, Op.alloc 82]).s.first
            + (run empty_state [Op.alloc 84, Op.alloc 84, Op.alloc 82, Op.alloc 82]).s.second ∧
          84 = (mm_malloc (run empty_state [Op.alloc 84, Op.alloc 84, Op.alloc 82, Op.alloc 82]).s 84).2.first ∧
          PT ≤ (mm_malloc (run empty_state [Op.alloc 84, Op.alloc 84, Op.alloc 82, Op.alloc 82]).s 84).2.first_timer ∧
          PT ≤ (mm_malloc (run empty_state [Op.alloc 84, Op.alloc 84, Op.alloc 82, Op.alloc 82]).s 84).2.second_timer
      then (mm_malloc (run empty_state [Op.alloc 84, Op.alloc 84, Op.alloc 82, Op.alloc 82]).s 84).2.first
        + (mm_malloc (run empty_state [Op.alloc 84, Op.alloc 84, Op.alloc 82, Op.alloc 82]).s 84).2.second
      else 84) ∧
    awords_of (run empty_state [Op.alloc 84, Op.alloc 84, Op.alloc 82, Op.alloc 82]).s 84
      = max MIN_BLOCK_SIZE_WORDS
        (((profile (run empty_state [Op.alloc 84, Op.alloc 84, Op.alloc 82, Op.alloc 82]).s 84).1
          + 2 * 4 + (DSIZE - 1)) / DSIZE * DSIZE / WSIZE) ∧
    mm_malloc (run empty_state [Op.alloc 84, Op.alloc 84, Op.alloc 82, Op.alloc 82]).s 84 =
      (match find_fit (profile (run empty_state [Op.alloc 84, Op.alloc 84, Op.alloc 82, Op.alloc 82]).s 84).2
          (awords_of (run empty_state [Op.alloc 84, Op.alloc 84, Op.alloc 82, Op.alloc 82]).s 84) with
      | (some bp, s1) => (some (bp + 1),
          place s1 bp (awords_of (run empty_state [Op.alloc 84, Op.alloc 84, Op.alloc 82, Op.alloc 82]).s 84))
      | (none, s1) =>
        let prev_boundary_tag := (mem_heap_hi s1 - 4 - PADDING) / WSIZE
        let extendwords :=
          if !(tag_at s1 prev_boundary_tag).inuse then
            sub32 (awords_of (run empty_state [Op.alloc 84, Op.alloc 84, Op.alloc 82, Op.alloc 82]).s 84)
              (toSizeT (tag_at s1 prev_boundary_tag).size)
          else awords_of (run empty_state [Op.alloc 84, Op.alloc 84, Op.alloc 82, Op.alloc 82]).s 84
        match extend_heap s1 extendwords with
        | (none, s2) => (none, s2)
        | (some bp, s2) => (some (bp + 1),
            place s2 bp (awords_of (run empty_state [Op.alloc 84, Op.alloc 84, Op.alloc 82, Op.alloc 82]).s 84)))) :=
  ⟨by decide, by decide, by decide,
    padding_rule empty_state [Op.alloc 84, Op.alloc 84, Op.alloc 82, Op.alloc 82] 84 (by decide) (by decide)⟩

theorem mem_sbrk_isSome (s : State) (k : Nat) :
    (mem_sbrk s k).isSome = true ↔ ¬ (s.brk * WSIZE + k > MAX_HEAP) := by
  unfold mem_sbrk
  split_ifs with h
  · simp [h]
  · simp [h]

/-- The extension that `mm_malloc` asks for when no block fits, in a state that satisfies the
invariant: the block size less the size of a free last block. -/
theorem extend_words_eq {s : State} {l : List Blk} {cs : List Chain} {n : Nat}
    (hinv : Inv s l cs) (hsmall : ∀ b z, Blk.mk b z false ∈ l → z < awords_of s n) :
    lastFree l < awords_of s n ∧
    (tag_at s (s.brk - 2)).inuse = decide (lastFree l = 0) ∧
    (lastFree l ≠ 0 → tag_at s (s.brk - 2) = { inuse := false, size := (lastFree l : Int) }) ∧
    (if !(tag_at (profile s n).2 ((mem_heap_hi (profile s n).2 - 4 - PADDING) / WSIZE)).inuse then
        sub32 (awords_of s n) (toSizeT (tag_at (profile s n).2
          ((mem_heap_hi (profile s n).2 - 4 - PADDING) / WSIZE)).size)
      else awords_of s n) = awords_of s n - lastFree l ∧
    extend_request s n = 4 * (awords_of s n - lastFree l) := by
  obtain ⟨p1, p2, p3, p4, p5⟩ := profile_frame s n
  obtain ⟨a8, aev, alt⟩ := awords_props s n
  have hbg := hinv.brk_ge
  obtain ⟨L1, L2, L3, L4, L5, L6, L7, L8, L9⟩ := left_neighbour hinv.pro hinv.tiles hinv.noadj
  have hlf : lastFree l < awords_of s n := by
    by_cases h0 : lastFree l = 0
    · omega
    · exact hsmall _ _ ((L9 _).2 (Or.inr ⟨h0, rfl⟩))
  have hpbt : (mem_heap_hi (profile s n).2 - 4 - PADDING) / WSIZE = s.brk - 1 - 1 := by
    unfold mem_heap_hi PADDING WSIZE
    rw [p2]
    omega
  have htag : ∀ w, tag_at (profile s n).2 w = tag_at s w := fun w => by unfold tag_at; rw [p1]
  have hew : (if !(tag_at (profile s n).2 ((mem_heap_hi (profile s n).2 - 4 - PADDING) / WSIZE)).inuse then
        sub32 (awords_of s n) (toSizeT (tag_at (profile s n).2
          ((mem_heap_hi (profile s n).2 - 4 - PADDING) / WSIZE)).size)
      else awords_of s n) = awords_of s n - lastFree l := by
    rw [hpbt, htag, L1]
    by_cases h0 : lastFree l = 0
    · simp [h0]
    · rw [L2 h0]
      simp only [h0, decide_False, Bool.not_false, if_true]
      rw [toSizeT_ofNat _ (by omega), sub32_small _ _ (by omega) (by omega)]
  have e2 : s.brk - 2 = s.brk - 1 - 1 := by omega
  refine ⟨hlf, by rw [e2]; exact L1, by rw [e2]; exact L2, hew, ?_⟩
  unfold extend_request
  dsimp only
  rw [hew, clear_low1_even _ (by omega) (by omega)]
  unfold WSIZE
  rw [mul32_small _ _ (by omega)]
  omega

/-- When no free block fits and the arena may grow, `mm_malloc` extends the arena by the
shortfall and places the request, unsplit, at the end of the arena. -/
theorem mm_malloc_extend {s : State} {l : List Blk} {cs : List Chain} {n : Nat}
    (hinv : Inv s l cs) (hn : n ≠ 0) (hsmall : ∀ b z, Blk.mk b z false ∈ l → z < awords_of s n)
    (hfit : ¬ (s.brk * 4 + (awords_of s n - lastFree l) * 4 > MAX_HEAP)) :
    (mm_malloc s n).1 = some (s.brk - 1 - lastFree l + 1) ∧
    (mm_malloc s n).2.brk = s.brk + (awords_of s n - lastFree l) ∧
    ∃ cs', Inv (mm_malloc s n).2
      (trimLast l ++ [Blk.mk (s.brk - 1 - lastFree l) (awords_of s n) true]) cs' := by
  obtain ⟨p1, p2, p3, p4, p5⟩ := profile_frame s n
  have hinv1 : Inv (profile s n).2 l cs := Inv_congr p1 p2 p3 p4 p5 hinv
  obtain ⟨a8, aev, alt⟩ := awords_props s n
  obtain ⟨hlf, _, _, hew, _⟩ := extend_words_eq hinv hsmall
  obtain ⟨_, _, _, L4, _⟩ := left_neighbour hinv.pro hinv.tiles hinv.noadj
  have hff : find_fit (profile s n).2 (awords_of s n) = (none, (profile s n).2) := by
    rcases find_fit_spec hinv1 alt with ⟨hff, _⟩ | ⟨b, z, l1, l2, cs1, _, hl, hz, _, _, _⟩
    · exact hff
    · have := hsmall b z (by rw [hl]; simp)
      omega
  have hfit1 : ¬ ((profile s n).2.brk * 4 + (awords_of s n - lastFree l) * 4 > MAX_HEAP) := by
    rw [p2]; exact hfit
  obtain ⟨cs2, e1, e2, e3, _⟩ := extend_heap_spec hinv1 (by omega) (by omega) hfit1
  have hsum : lastFree l + (awords_of s n - lastFree l) = awords_of s n := by omega
  rw [hsum] at e2
  rw [p2] at e1 e2 e3
  have hres : extend_heap (profile s n).2 (awords_of s n - lastFree l) =
      (some (s.brk - 1 - lastFree l), (extend_heap (profile s n).2 (awords_of s n - lastFree l)).2) := by
    rw [← e1]
  obtain ⟨cs3, q1, q2, _⟩ := place_spec e2 (by simp) a8 aev (le_refl _)
  have hpl : placed (trimLast l) (s.brk - 1 - lastFree l) (awords_of s n) (awords_of s n) []
      = trimLast l ++ [Blk.mk (s.brk - 1 - lastFree l) (awords_of s n) true] := by
    unfold placed MIN_BLOCK_SIZE_WORDS
    rw [if_neg (by omega)]
  rw [hpl] at q1
  have hmm : mm_malloc s n = (some (s.brk - 1 - lastFree l + 1),
      place (extend_heap (profile s n).2 (awords_of s n - lastFree l)).2 (s.brk - 1 - lastFree l)
        (awords_of s n)) := by
    rw [mm_malloc_unfold s n hn, hff]
    simp only
    rw [hew, hres]
  rw [hmm]
  exact ⟨rfl, q2.1.trans e3, cs3, q1⟩

/-- C21 (minimal extension).  In a state reached from `mm_init` by `mm_malloc` and `mm_free`
calls, let every block of the index be smaller than the block size `asize` that `mm_malloc n`
asks for, and let `mem_sbrk` grant the extension asked for.  Then `mm_malloc n` returns a region
whose block has exactly `asize` words (header and footer say allocated, `asize`), ends at the
new right fence, and no remainder enters the index (the index only loses the block that was
absorbed).  When the last block of the arena is allocated (the tag before the right fence says
so), the arena grows by exactly `asize` words and the block starts where the old right fence was;
when the last block is free with `t` words, `t < asize`, the arena grows by exactly `asize - t`
words and the block starts where that free block started. -/
theorem minimal_extension (s0 : State) (ops : List Op) (n : Nat) (h0 : 0 < n)
    (hnofit : ∀ b ∈ index_blocks (run s0 ops).s,
      blk_size (run s0 ops).s b < awords_of (run s0 ops).s n)
    (hgrant : (mem_sbrk (run s0 ops).s (extend_request (run s0 ops).s n)).isSome = true) :
    ∃ p, (mm_malloc (run s0 ops).s n).1 = some p ∧
      tag_at (mm_malloc (run s0 ops).s n).2 (p - 1)
        = { inuse := true, size := (awords_of (run s0 ops).s n : Int) } ∧
      tag_at (mm_malloc (run s0 ops).s n).2 (p - 1 + awords_of (run s0 ops).s n - 1)
        = { inuse := true, size := (awords_of (run s0 ops).s n : Int) } ∧
      p - 1 + awords_of (run s0 ops).s n = (mm_malloc (run s0 ops).s n).2.brk - 1 ∧
      tag_at (mm_malloc (run s0 ops).s n).2 ((mm_malloc (run s0 ops).s n).2.brk - 1) = FENCE ∧
      (∀ x, x ∈ index_blocks (mm_malloc (run s0 ops).s n).2 ↔
        (x ∈ index_blocks (run s0 ops).s ∧ x ≠ p - 1)) ∧
      ((tag_at (run s0 ops).s ((run s0 ops).s.brk - 2)).inuse = true →
        (mm_malloc (run s0 ops).s n).2.brk = (run s0 ops).s.brk + awords_of (run s0 ops).s n ∧
        p - 1 = (run s0 ops).s.brk - 1) ∧
      ((tag_at (run s0 ops).s ((run s0 ops).s.brk - 2)).inuse = false →
        blk_size (run s0 ops).s ((run s0 ops).s.brk - 2) < awords_of (run s0 ops).s n ∧
        (mm_malloc (run s0 ops).s n).2.brk = (run s0 ops).s.brk +
          (awords_of (run s0 ops).s n - blk_size (run s0 ops).s ((run s0 ops).s.brk - 2)) ∧
        p - 1 = (run s0 ops).s.brk - 1 - blk_size (run s0 ops).s ((run s0 ops).s.brk - 2)) := by
  obtain ⟨l, cs, hinv, _, _, _⟩ := DInv_run s0 ops
  have hsmall : ∀ b z, Blk.mk b z false ∈ l → z < awords_of (run s0 ops).s n := by
    intro b z hb
    have := hnofit b ((mem_index_blocks hinv b).2 ⟨z, hb⟩)
    rw [free_blk_size hinv hb] at this
    exact this
  obtain ⟨hlf, hU, hF, _, hreq⟩ := extend_words_eq hinv hsmall
  have hfit : ¬ ((run s0 ops).s.brk * 4 + (awords_of (run s0 ops).s n - lastFree l) * 4 > MAX_HEAP) := by
    have := (mem_sbrk_isSome _ _).1 hgrant
    rw [hreq] at this
    unfold WSIZE at this
    omega
  obtain ⟨m1, m2, cs', m3⟩ := mm_malloc_extend hinv (by omega) hsmall hfit
  obtain ⟨_, _, L3, _, _, L6, _, _, L9⟩ := left_neighbour hinv.pro hinv.tiles hinv.noadj
  have hbg := hinv.brk_ge
  obtain ⟨_, _, _, _, t5, t6⟩ := Tiles_mem m3.tiles
    (show Blk.mk ((run s0 ops).s.brk - 1 - lastFree l) (awords_of (run s0 ops).s n) true ∈ _ by simp)
  simp only at t5 t6
  refine ⟨_, m1, ?_, ?_, ?_, m3.epi, ?_, ?_, ?_⟩
  · rw [Nat.add_sub_cancel]; exact t5
  · rw [Nat.add_sub_cancel]; exact t6
  · rw [Nat.add_sub_cancel, m2]; omega
  · intro x
    rw [Nat.add_sub_cancel, mem_index_blocks m3, mem_index_blocks hinv]
    constructor
    · rintro ⟨z, hz⟩
      simp only [List.mem_append, List.mem_singleton, Blk.mk.injEq, Bool.false_eq_true, and_false,
        or_false] at hz
      have := Tiles_mem L6 hz
      simp only at this
      exact ⟨⟨z, (L9 _).2 (Or.inl hz)⟩, by omega⟩
    · rintro ⟨⟨z, hz⟩, hne⟩
      rcases (L9 _).1 hz with h | ⟨_, h⟩
      · exact ⟨z, List.mem_append_left _ h⟩
      · simp only [Blk.mk.injEq] at h
        exact absurd h.1 hne
  · intro hu
    rw [hU] at hu
    have h0' : lastFree l = 0 := by simpa using hu
    rw [Nat.add_sub_cancel, m2, h0']
    exact ⟨rfl, rfl⟩
  · intro hu
    rw [hU] at hu
    have h0' : lastFree l ≠ 0 := by simpa using hu
    have hbs : blk_size (run s0 ops).s ((run s0 ops).s.brk - 2) = lastFree l :=
      blk_size_of_tag (hF h0')
    rw [Nat.add_sub_cancel, m2, hbs]
    exact ⟨hlf, rfl, rfl⟩

set_option maxRecDepth 1000000 in
/-- Witness for C21: right after `mm_init` the arena is one free block of 16 words; a request of
100 bytes needs 28 words and the arena grows by 12 words. -/
theorem minimal_extension_witness :
    0 < 100 ∧
    (∀ b ∈ index_blocks (run empty_state []).s,
      blk_size (run empty_state []).s b < awords_of (run empty_state []).s 100) ∧
    (mem_sbrk (run empty_state []).s (extend_request (run empty_state []).s 100)).isSome = true ∧
    (mm_malloc (run empty_state []).s 100).2.brk = (run empty_state []).s.brk + 12 ∧
    ∃ p, (mm_malloc (run empty_state []).s 100).1 = some p ∧
      tag_at (mm_malloc (run empty_state []).s 100).2 (p - 1)
        = { inuse := true, size := (awords_of (run empty_state []).s 100 : Int) } ∧
      tag_at (mm_malloc (run empty_state []).s 100).2 (p - 1 + awords_of (run empty_state []).s 100 - 1)
        = { inuse := true, size := (awords_of (run empty_state []).s 100 : Int) } ∧
      p - 1 + awords_of (run empty_state []).s 100 = (mm_malloc (run empty_state []).s 100).2.brk - 1 ∧
      tag_at (mm_malloc (run empty_state []).s 100).2 ((mm_malloc (run empty_state []).s 100).2.brk - 1)
        = FENCE ∧
      (∀ x, x ∈ index_blocks (mm_malloc (run empty_state []).s 100).2 ↔
        (x ∈ index_blocks (run empty_state []).s ∧ x ≠ p - 1)) ∧
      ((tag_at (run empty_state []).s ((run empty_state []).s.brk - 2)).inuse = true →
        (mm_malloc (run empty_state []).s 100).2.brk
          = (run empty_state []).s.brk + awords_of (run empty_state []).s 100 ∧
        p - 1 = (run empty_state []).s.brk - 1) ∧
      ((tag_at (run empty_state []).s ((run empty_state []).s.brk - 2)).inuse = false →
        blk_size (run empty_state []).s ((run empty_state []).s.brk - 2)
          < awords_of (run empty_state []).s 100 ∧
        (mm_malloc (run empty_state []).s 100).2.brk = (run empty_state []).s.brk +
          (awords_of (run empty_state []).s 100
            - blk_size (run empty_state []).s ((run empty_state []).s.brk - 2)) ∧
        p - 1 = (run empty_state []).s.brk - 1
          - blk_size (run empty_state []).s ((run empty_state []).s.brk - 2)) :=
  ⟨by decide, by decide, by decide, by decide,
    minimal_extension empty_state [] 100 (by decide) (by decide) (by decide)⟩

/-- The blocks of the index of a focus state are the free blocks on either side of the focus. -/
theorem mem_index_blocks_focus {s : State} {l1 l2 : List Blk} {a sz : Nat} {cs : List Chain}
    (hf : Focus s l1 a sz l2 cs) (x : Nat) :
    x ∈ index_blocks s ↔ ∃ z, Blk.mk x z false ∈ l1 ++ l2 := by
  have hlt : ∀ c ∈ cs, ∀ y ∈ c.blocks, y < s.brk := by
    intro c hc y hy
    have hy' := (hf.compl y c.size).1 ⟨c, hc, rfl, hy⟩
    have hb2 := Tiles_le hf.tiles2
    have := hf.brk_ge
    rcases List.mem_append.1 hy' with h | h
    · have := Tiles_mem hf.tiles1 h
      simp only at this
      omega
    · have := Tiles_mem hf.tiles2 h
      simp only at this
      omega
  rw [index_blocks_of_IndexOK hf.index hlt, ← idx_mem_iff_flatMap]
  constructor
  · rintro ⟨z, hz⟩; exact ⟨z, (hf.compl x z).1 hz⟩
  · rintro ⟨z, hz⟩; exact ⟨z, (hf.compl x z).2 hz⟩

theorem focus_not_indexed {s : State} {l1 l2 : List Blk} {a sz : Nat} {cs : List Chain}
    (hf : Focus s l1 a sz l2 cs) : a ∉ index_blocks s := by
  rw [mem_index_blocks_focus hf]
  rintro ⟨z, hz⟩
  have := hf.sz_ge
  rcases List.mem_append.1 hz with h | h
  · have := Tiles_mem hf.tiles1 h
    simp only at this
    omega
  · have := Tiles_mem hf.tiles2 h
    simp only at this
    omega

/-- The walk of the arena reads the memory and the arena extent only. -/
theorem walk_congr {s s' : State} (h1 : s'.heap = s.heap) (h2 : s'.brk = s.brk) (fuel a : Nat) :
    walk s' fuel a = walk s fuel a := by
  have ht : ∀ w, tag_at s' w = tag_at s w := fun w => by unfold tag_at; rw [h1]
  have hn : ∀ w, next_blk s' w = next_blk s w := fun w => by unfold next_blk; rw [ht]
  induction fuel generalizing a with
  | zero => unfold walk; rw [h2]
  | succ f ih =>
    unfold walk
    rw [h2, ht, hn, ih]

/-- C22 (split policy of `place`).  In a state reached from `mm_init` by `mm_malloc` and
`mm_free` calls, let `find_fit` have taken the block `b` of `c` words out of the index, and let
`asize` be a block size (even, at least 8 words) with `asize ≤ c`.  Then `b` is not in the index,
and `place b asize` does the following.  If `c - asize ≥ MIN_BLOCK_SIZE_WORDS`: `b` is allocated
with `asize` words, the `c - asize` words behind it are one free block (header and footer), which
is added to the index, and the walk of the arena visits `b` and this block where it visited `b`.
Otherwise `b` is allocated with all its `c` words, the index (tree, `prev`, `next`) is unchanged,
and the walk of the arena visits the same blocks. -/
theorem place_split_policy (s0 : State) (ops : List Op) (k b asize : Nat) (hk : k < 2 ^ 30)
    (hff : (find_fit (run s0 ops).s k).1 = some b)
    (h8 : 8 ≤ asize) (hev : asize % 2 = 0) (hle : asize ≤ blk_size (run s0 ops).s b) :
    b ∉ index_blocks (find_fit (run s0 ops).s k).2 ∧
    (MIN_BLOCK_SIZE_WORDS ≤ blk_size (run s0 ops).s b - asize →
      tag_at (place (find_fit (run s0 ops).s k).2 b asize) b
        = { inuse := true, size := (asize : Int) } ∧
      tag_at (place (find_fit (run s0 ops).s k).2 b asize) (b + asize - 1)
        = { inuse := true, size := (asize : Int) } ∧
      tag_at (place (find_fit (run s0 ops).s k).2 b asize) (b + asize)
        = { inuse := false, size := ((blk_size (run s0 ops).s b - asize : Nat) : Int) } ∧
      tag_at (place (find_fit (run s0 ops).s k).2 b asize) (b + blk_size (run s0 ops).s b - 1)
        = { inuse := false, size := ((blk_size (run s0 ops).s b - asize : Nat) : Int) } ∧
      (∀ x, x ∈ index_blocks (place (find_fit (run s0 ops).s k).2 b asize) ↔
        (x ∈ index_blocks (find_fit (run s0 ops).s k).2 ∨ x = b + asize)) ∧
      ∃ pre post, heap_blocks (find_fit (run s0 ops).s k).2 = some (pre ++ b :: post) ∧
        heap_blocks (place (find_fit (run s0 ops).s k).2 b asize)
          = some (pre ++ b :: (b + asize) :: post)) ∧
    (blk_size (run s0 ops).s b - asize < MIN_BLOCK_SIZE_WORDS →
      tag_at (place (find_fit (run s0 ops).s k).2 b asize) b
        = { inuse := true, size := (blk_size (run s0 ops).s b : Int) } ∧
      tag_at (place (find_fit (run s0 ops).s k).2 b asize) (b + blk_size (run s0 ops).s b - 1)
        = { inuse := true, size := (blk_size (run s0 ops).s b : Int) } ∧
      (place (find_fit (run s0 ops).s k).2 b asize).tree = (find_fit (run s0 ops).s k).2.tree ∧
      (place (find_fit (run s0 ops).s k).2 b asize).prev = (find_fit (run s0 ops).s k).2.prev ∧
      (place (find_fit (run s0 ops).s k).2 b asize).next = (find_fit (run s0 ops).s k).2.next ∧
      heap_blocks (place (find_fit (run s0 ops).s k).2 b asize)
        = heap_blocks (find_fit (run s0 ops).s k).2) := by
  obtain ⟨l, cs, hinv, _, _, _⟩ := DInv_run s0 ops
  rcases find_fit_spec hinv hk with ⟨hnone, _⟩ | ⟨b', z, l1, l2, cs1, hsome, hl, hz, hfoc, hn1, hn2⟩
  · rw [hnone] at hff
    simp at hff
  rw [hsome] at hff ⊢
  simp only [Option.some.injEq] at hff
  subst hff
  have hmem : Blk.mk b' z false ∈ l := by rw [hl]; simp
  have hbz : blk_size (run s0 ops).s b' = z := free_blk_size hinv hmem
  rw [hbz] at hle ⊢
  have hsame := remove_free_block_same (run s0 ops).s (some b')
  have hwalk : heap_blocks (remove_free_block (run s0 ops).s (some b')) = some (l.map Blk.addr) := by
    rw [← heap_blocks_of_Inv hinv]
    unfold heap_blocks
    rw [hsame.2.1]
    exact walk_congr hsame.1 hsame.2.1 _ _
  obtain ⟨cs3, q1, q2, q3⟩ := place_spec hfoc hn2 h8 hev hle
  refine ⟨focus_not_indexed hfoc, ?_, ?_⟩
  · intro hsplit
    have hpl : placed l1 b' z asize l2
        = l1 ++ Blk.mk b' asize true :: Blk.mk (b' + asize) (z - asize) false :: l2 := by
      unfold placed
      rw [if_pos hsplit]
    rw [hpl] at q1
    obtain ⟨_, _, _, _, t5, t6⟩ := Tiles_mem q1.tiles
      (show Blk.mk b' asize true ∈ _ by simp)
    obtain ⟨_, _, _, _, u5, u6⟩ := Tiles_mem q1.tiles
      (show Blk.mk (b' + asize) (z - asize) false ∈ _ by simp)
    simp only at t5 t6 u5 u6
    have e1 : b' + asize + (z - asize) - 1 = b' + z - 1 := by omega
    rw [e1] at u6
    refine ⟨t5, t6, u5, u6, ?_, l1.map Blk.addr, l2.map Blk.addr, ?_, ?_⟩
    · intro x
      rw [mem_index_blocks q1, mem_index_blocks_focus hfoc]
      simp only [List.mem_append, List.mem_cons, Blk.mk.injEq, Bool.false_eq_true, and_false,
        false_or, and_true]
      constructor
      · rintro ⟨z', h | ⟨h, _⟩ | h⟩
        · exact Or.inl ⟨z', Or.inl h⟩
        · exact Or.inr h
        · exact Or.inl ⟨z', Or.inr h⟩
      · rintro (⟨z', h | h⟩ | h)
        · exact ⟨z', Or.inl h⟩
        · exact ⟨z', Or.inr (Or.inr h)⟩
        · exact ⟨z - asize, Or.inr (Or.inl ⟨h, rfl⟩)⟩
    · rw [hwalk, hl]; simp
    · rw [heap_blocks_of_Inv q1]; simp
  · intro hns
    have hpl : placed l1 b' z asize l2 = l1 ++ Blk.mk b' z true :: l2 := by
      unfold placed
      rw [if_neg (by omega)]
    rw [hpl] at q1
    obtain ⟨_, _, _, _, t5, t6⟩ := Tiles_mem q1.tiles (show Blk.mk b' z true ∈ _ by simp)
    simp only at t5 t6
    have hpe : place (remove_free_block (run s0 ops).s (some b')) b' asize
        = mark_block_used (remove_free_block (run s0 ops).s (some b')) b' (toInt z) := by
      unfold place
      rw [blk_size_of_tag hfoc.hd]
      dsimp only
      rw [sub32_small z asize hle (by have := tag_size_lt hfoc.hd; omega),
        if_neg (by unfold MIN_BLOCK_SIZE_WORDS at hns ⊢; omega)]
    refine ⟨t5, t6, ?_, ?_, ?_, ?_⟩
    · rw [hpe]; rfl
    · rw [hpe]; rfl
    · rw [hpe]; rfl
    · rw [heap_blocks_of_Inv q1, hwalk, hl]; simp

set_option maxRecDepth 1000000 in
/-- Witness for C22: right after `mm_init`, `find_fit 8` takes the block of 16 words at word 1;
placing 8 words splits it. -/
theorem place_split_policy_witness :
    8 < 2 ^ 30 ∧ (find_fit (run empty_state []).s 8).1 = some 1 ∧ 8 ≤ 8 ∧ 8 % 2 = 0 ∧
    8 ≤ blk_size (run empty_state []).s 1 ∧
    MIN_BLOCK_SIZE_WORDS ≤ blk_size (run empty_state []).s 1 - 8 ∧
    (1 ∉ index_blocks (find_fit (run empty_state []).s 8).2 ∧
    (MIN_BLOCK_SIZE_WORDS ≤ blk_size (run empty_state []).s 1 - 8 →
      tag_at (place (find_fit (run empty_state []).s 8).2 1 8) 1
        = { inuse := true, size := (8 : Int) } ∧
      tag_at (place (find_fit (run empty_state []).s 8).2 1 8) (1 + 8 - 1)
        = { inuse := true, size := (8 : Int) } ∧
      tag_at (place (find_fit (run empty_state []).s 8).2 1 8) (1 + 8)
        = { inuse := false, size := ((blk_size (run empty_state []).s 1 - 8 : Nat) : Int) } ∧
      tag_at (place (find_fit (run empty_state []).s 8).2 1 8) (1 + blk_size (run empty_state []).s 1 - 1)
        = { inuse := false, size := ((blk_size (run empty_state []).s 1 - 8 : Nat) : Int) } ∧
      (∀ x, x ∈ index_blocks (place (find_fit (run empty_state []).s 8).2 1 8) ↔
        (x ∈ index_blocks (find_fit (run empty_state []).s 8).2 ∨ x = 1 + 8)) ∧
      ∃ pre post, heap_blocks (find_fit (run empty_state []).s 8).2 = some (pre ++ 1 :: post) ∧
        heap_blocks (place (find_fit (run empty_state []).s 8).2 1 8)
          = some (pre ++ 1 :: (1 + 8) :: post)) ∧
    (blk_size (run empty_state []).s 1 - 8 < MIN_BLOCK_SIZE_WORDS →
      tag_at (place (find_fit (run empty_state []).s 8).2 1 8) 1
        = { inuse := true, size := (blk_size (run empty_state []).s 1 : Int) } ∧
      tag_at (place (find_fit (run empty_state []).s 8).2 1 8) (1 + blk_size (run empty_state []).s 1 - 1)
        = { inuse := true, size := (blk_size (run empty_state []).s 1 : Int) } ∧
      (place (find_fit (run empty_state []).s 8).2 1 8).tree = (find_fit (run empty_state []).s 8).2.tree ∧
      (place (find_fit (run empty_state []).s 8).2 1 8).prev = (find_fit (run empty_state []).s 8).2.prev ∧
      (place (find_fit (run empty_state []).s 8).2 1 8).next = (find_fit (run empty_state []).s 8).2.next ∧
      heap_blocks (place (find_fit (run empty_state []).s 8).2 1 8)
        = heap_blocks (find_fit (run empty_state []).s 8).2)) :=
  ⟨by decide, by decide, by decide, by decide, by decide, by decide,
    place_split_policy empty_state [] 8 1 8 (by decide) (by decide) (by decide) (by decide)
      (by decide)⟩

/-- What `coalesce` does on a focus state, in terms of the tags the code reads. -/
theorem coalesce_focus {s : State} {l1 l2 : List Blk} {a sz : Nat} {cs : List Chain}
    (hf : Focus s l1 a sz l2 cs) :
    ∃ lf rf : Nat,
      lf = (if (tag_at s (prev_blk_footer a)).inuse then 0 else blk_size s (prev_blk s a)) ∧
      rf = (if blk_free s (next_blk s a) then blk_size s (next_blk s a) else 0) ∧
      ((tag_at s (prev_blk_footer a)).inuse = false → prev_blk s a = a - lf) ∧
      (coalesce s a).1 = a - lf ∧
      tag_at (coalesce s a).2 (a - lf) = { inuse := false, size := ((lf + sz + rf : Nat) : Int) } ∧
      tag_at (coalesce s a).2 (a - lf + (lf + sz + rf) - 1)
        = { inuse := false, size := ((lf + sz + rf : Nat) : Int) } ∧
      (∀ x, x ∈ index_blocks (coalesce s a).2 ↔
        (x ∈ index_blocks s ∧
         ¬ ((tag_at s (prev_blk_footer a)).inuse = false ∧ x = prev_blk s a) ∧
         ¬ (blk_free s (next_blk s a) = true ∧ x = next_blk s a))) ∧
      a - lf ∉ index_blocks (coalesce s a).2 := by
  obtain ⟨L1, L2, L3, L4, L5, L6, L7, L8, L9⟩ := left_neighbour hf.pro hf.tiles1 hf.noadj1
  obtain ⟨R1, R2, R3, R4, R5, R6, R7, R8⟩ := right_neighbour hf.epi hf.tiles2 hf.noadj2
  obtain ⟨cs', c1, c2, _, _, _⟩ := coalesce_spec hf
  have hnext : next_blk s a = a + sz := next_blk_of_tag hf.hd
  have hpf : prev_blk_footer a = a - 1 := rfl
  have hprev : lastFree l1 ≠ 0 → prev_blk s a = a - lastFree l1 :=
    fun h => prev_blk_of_tag (L2 h) (by omega)
  have hlf : lastFree l1 = (if (tag_at s (prev_blk_footer a)).inuse then 0
      else blk_size s (prev_blk s a)) := by
    rw [hpf, L1]
    by_cases h : lastFree l1 = 0
    · simp [h]
    · simp only [h, decide_False, Bool.false_eq_true, if_false]
      rw [hprev h]
      exact (blk_size_of_tag (Tiles_mem hf.tiles1 ((L9 _).2 (Or.inr ⟨h, rfl⟩))).2.2.2.2.1).symm
  have hrf : headFree l2 = (if blk_free s (next_blk s a) then blk_size s (next_blk s a) else 0) := by
    unfold blk_free
    rw [hnext, R1]
    by_cases h : headFree l2 = 0
    · simp [h]
    · simp only [h, decide_False, Bool.not_false, if_true]
      exact (blk_size_of_tag (R2 h)).symm
  have hLU : (tag_at s (prev_blk_footer a)).inuse = false ↔ lastFree l1 ≠ 0 := by
    rw [hpf, L1]; simp
  have hRU : blk_free s (next_blk s a) = true ↔ headFree l2 ≠ 0 := by
    unfold blk_free
    rw [hnext, R1]; simp
  have hsz := hf.sz_ge
  have hR5 := Tiles_le R5
  refine ⟨lastFree l1, headFree l2, hlf, hrf, fun h => hprev (hLU.1 h), c1, c2.hd, c2.ft, ?_,
    focus_not_indexed c2⟩
  intro x
  rw [mem_index_blocks_focus c2, mem_index_blocks_focus hf, hLU, hRU, hnext]
  constructor
  · rintro ⟨z, hz⟩
    rcases List.mem_append.1 hz with h | h
    · have := Tiles_mem L6 h
      simp only at this
      refine ⟨⟨z, List.mem_append_left _ ((L9 _).2 (Or.inl h))⟩, ?_, ?_⟩
      · rintro ⟨h1, h2⟩
        rw [hprev h1] at h2
        omega
      · rintro ⟨_, h2⟩
        omega
    · have := Tiles_mem R5 h
      simp only at this
      refine ⟨⟨z, List.mem_append_right _ ((R8 _).2 (Or.inl h))⟩, ?_, ?_⟩
      · rintro ⟨h1, h2⟩
        rw [hprev h1] at h2
        omega
      · rintro ⟨h1, h2⟩
        have : 8 ≤ headFree l2 := by omega
        omega
  · rintro ⟨⟨z, hz⟩, hl, hr⟩
    rcases List.mem_append.1 hz with h | h
    · rcases (L9 _).1 h with h' | ⟨h1, h2⟩
      · exact ⟨z, List.mem_append_left _ h'⟩
      · simp only [Blk.mk.injEq] at h2
        exact absurd ⟨h1, by rw [hprev h1]; exact h2.1⟩ hl
    · rcases (R8 _).1 h with h' | ⟨h1, h2⟩
      · exact ⟨z, List.mem_append_right _ h'⟩
      · simp only [Blk.mk.injEq] at h2
        exact absurd ⟨h1, h2.1⟩ hr

theorem coalesce_noop (s : State) (a : Nat) (h1 : (tag_at s (prev_blk_footer a)).inuse = true)
    (h2 : blk_free s (next_blk s a) = false) : coalesce s a = (a, s) := by
  unfold coalesce
  simp [h1, h2]

/-- The state in which `mm_free` calls `coalesce`: the block carries free tags and is not in the
index. -/
theorem focus_of_mark_free {s : State} {l1 l2 : List Blk} {a sz : Nat} {cs : List Chain}
    (hinv : Inv s (l1 ++ Blk.mk a sz true :: l2) cs) :
    blk_size s a = sz ∧ Focus (mark_block_free s a (toInt (blk_size s a))) l1 a sz l2 cs := by
  obtain ⟨m, t1, t2⟩ := Tiles_append.1 hinv.tiles
  obtain ⟨g1, g2, g3, g4, g5, g6⟩ := t2
  simp only at g1 g2 g3 g4 g5 g6
  subst g1
  have hsize : blk_size s a = sz := blk_size_of_tag (u := true) g4
  have hszlt : sz < 2 ^ 30 := tag_size_lt (s := s) (u := true) g4
  obtain ⟨n1, n2, _⟩ := List.chain'_append.1 hinv.noadj
  refine ⟨hsize, ?_⟩
  rw [hsize, mark_block_free_eq _ _ _ (by omega) (by omega)]
  refine Focus_of_write hinv.brk_ge hinv.brk_le hinv.pro hinv.epi t1 g6 (by omega) g3 n1
    (List.Chain'.tail n2) (same_arena_refl s) hinv.index ?_
  intro b z
  rw [hinv.compl]
  simp only [List.mem_append, List.mem_cons, Blk.mk.injEq, Bool.false_eq_true, and_false, false_or]

/-- C23 (coalescing).  In a state reached from `mm_init` by `mm_malloc` and `mm_free` calls, let
`r` be a live region and let its block `b` be marked free, as `mm_free` does before it calls
`coalesce`.  Let `lf` be the size of the left neighbour when the tag before `b` says free (`0`
otherwise) and `rf` the size of the right neighbour when it is free (`0` otherwise).  Then
`coalesce b` returns the block at `b - lf`, which is the left neighbour when that one is free;
its header and footer say free with `lf + size b + rf` words; the index has lost exactly the
free neighbours; the returned block is not in the index; and when neither neighbour is free,
`coalesce` returns `b` and the state as it was. -/
theorem coalesce_merges (s0 : State) (ops : List Op) (r m : Nat)
    (hr : (r, m) ∈ (run s0 ops).ranges) :
    (∃ lf rf : Nat,
      lf = (if (tag_at (mark_freed (run s0 ops).s (r - 1)) (prev_blk_footer (r - 1))).inuse then 0
          else blk_size (mark_freed (run s0 ops).s (r - 1))
            (prev_blk (mark_freed (run s0 ops).s (r - 1)) (r - 1))) ∧
      rf = (if blk_free (mark_freed (run s0 ops).s (r - 1))
            (next_blk (mark_freed (run s0 ops).s (r - 1)) (r - 1))
          then blk_size (mark_freed (run s0 ops).s (r - 1))
            (next_blk (mark_freed (run s0 ops).s (r - 1)) (r - 1))
          else 0) ∧
      ((tag_at (mark_freed (run s0 ops).s (r - 1)) (prev_blk_footer (r - 1))).inuse = false →
        prev_blk (mark_freed (run s0 ops).s (r - 1)) (r - 1) = r - 1 - lf) ∧
      (coalesce (mark_freed (run s0 ops).s (r - 1)) (r - 1)).1 = r - 1 - lf ∧
      tag_at (coalesce (mark_freed (run s0 ops).s (r - 1)) (r - 1)).2 (r - 1 - lf)
        = { inuse := false, size := ((lf + blk_size (run s0 ops).s (r - 1) + rf : Nat) : Int) } ∧
      tag_at (coalesce (mark_freed (run s0 ops).s (r - 1)) (r - 1)).2
          (r - 1 - lf + (lf + blk_size (run s0 ops).s (r - 1) + rf) - 1)
        = { inuse := false, size := ((lf + blk_size (run s0 ops).s (r - 1) + rf : Nat) : Int) } ∧
      (∀ x, x ∈ index_blocks (coalesce (mark_freed (run s0 ops).s (r - 1)) (r - 1)).2 ↔
        (x ∈ index_blocks (mark_freed (run s0 ops).s (r - 1)) ∧
         ¬ ((tag_at (mark_freed (run s0 ops).s (r - 1)) (prev_blk_footer (r - 1))).inuse = false ∧
            x = prev_blk (mark_freed (run s0 ops).s (r - 1)) (r - 1)) ∧
         ¬ (blk_free (mark_freed (run s0 ops).s (r - 1))
              (next_blk (mark_freed (run s0 ops).s (r - 1)) (r - 1)) = true ∧
            x = next_blk (mark_freed (run s0 ops).s (r - 1)) (r - 1)))) ∧
      r - 1 - lf ∉ index_blocks (coalesce (mark_freed (run s0 ops).s (r - 1)) (r - 1)).2) ∧
    ((tag_at (mark_freed (run s0 ops).s (r - 1)) (prev_blk_footer (r - 1))).inuse = true →
      blk_free (mark_freed (run s0 ops).s (r - 1))
        (next_blk (mark_freed (run s0 ops).s (r - 1)) (r - 1)) = false →
      coalesce (mark_freed (run s0 ops).s (r - 1)) (r - 1)
        = (r - 1, mark_freed (run s0 ops).s (r - 1))) := by
  obtain ⟨l, cs, hinv, ⟨_, hlive⟩, _, _⟩ := DInv_run s0 ops
  obtain ⟨_, z, hz, _⟩ := hlive _ hr
  simp only at hz
  obtain ⟨l1, l2, hl⟩ := List.append_of_mem hz
  subst hl
  obtain ⟨hsz, hfoc⟩ := focus_of_mark_free hinv
  refine ⟨?_, fun h1 h2 => coalesce_noop _ _ h1 h2⟩
  rw [hsz]
  exact coalesce_focus hfoc

set_option maxRecDepth 1000000 in
/-- Witness for C23: after `trace23`, coalescing the block at word 9 merges the three blocks at
words 1, 9 and 17 into one block of 24 words at word 1. -/
theorem coalesce_merges_witness :
    (10, 24) ∈ (run empty_state trace23).ranges ∧
    (coalesce (mark_freed (run empty_state trace23).s (10 - 1)) (10 - 1)).1 = 1 ∧
    blk_size (coalesce (mark_freed (run empty_state trace23).s (10 - 1)) (10 - 1)).2 1 = 24 ∧
    ((∃ lf rf : Nat,
      lf = (if (tag_at (mark_freed (run empty_state trace23).s (10 - 1)) (prev_blk_footer (10 - 1))).inuse then 0
          else blk_size (mark_freed (run empty_state trace23).s (10 - 1))
            (prev_blk (mark_freed (run empty_state trace23).s (10 - 1)) (10 - 1))) ∧
      rf = (if blk_free (mark_freed (run empty_state trace23).s (10 - 1))
            (next_blk (mark_freed (run empty_state trace23).s (10 - 1)) (10 - 1))
          then blk_size (mark_freed (run empty_state trace23).s (10 - 1))
            (next_blk (mark_freed (run empty_state trace23).s (10 - 1)) (10 - 1))
          else 0) ∧
      ((tag_at (mark_freed (run empty_state trace23).s (10 - 1)) (prev_blk_footer (10 - 1))).inuse = false →
        prev_blk (mark_freed (run empty_state trace23).s (10 - 1)) (10 - 1) = 10 - 1 - lf) ∧
      (coalesce (mark_freed (run empty_state trace23).s (10 - 1)) (10 - 1)).1 = 10 - 1 - lf ∧
      tag_at (coalesce (mark_freed (run empty_state trace23).s (10 - 1)) (10 - 1)).2 (10 - 1 - lf)
        = { inuse := false, size := ((lf + blk_size (run empty_state trace23).s (10 - 1) + rf : Nat) : Int) } ∧
      tag_at (coalesce (mark_freed (run empty_state trace23).s (10 - 1)) (10 - 1)).2
          (10 - 1 - lf + (lf + blk_size (run empty_state trace23).s (10 - 1) + rf) - 1)
        = { inuse := false, size := ((lf + blk_size (run empty_state trace23).s (10 - 1) + rf : Nat) : Int) } ∧
      (∀ x, x ∈ index_blocks (coalesce (mark_freed (run empty_state trace23).s (10 - 1)) (10 - 1)).2 ↔
        (x ∈ index_blocks (mark_freed (run empty_state trace23).s (10 - 1)) ∧
         ¬ ((tag_at (mark_freed (run empty_state trace23).s (10 - 1)) (prev_blk_footer (10 - 1))).inuse = false ∧
            x = prev_blk (mark_freed (run empty_state trace23).s (10 - 1)) (10 - 1)) ∧
         ¬ (blk_free (mark_freed (run empty_state trace23).s (10 - 1))
              (next_blk (mark_freed (run empty_state trace23).s (10 - 1)) (10 - 1)) = true ∧
            x = next_blk (mark_freed (run empty_state trace23).s (10 - 1)) (10 - 1)))) ∧
      10 - 1 - lf ∉ index_blocks (coalesce (mark_freed (run empty_state trace23).s (10 - 1)) (10 - 1)).2) ∧
    ((tag_at (mark_freed (run empty_state trace23).s (10 - 1)) (prev_blk_footer (10 - 1))).inuse = true →
      blk_free (mark_freed (run empty_state trace23).s (10 - 1))
        (next_blk (mark_freed (run empty_state trace23).s (10 - 1)) (10 - 1)) = false →
      coalesce (mark_freed (run empty_state trace23).s (10 - 1)) (10 - 1)
        = (10 - 1, mark_freed (run empty_state trace23).s (10 - 1)))) :=
  ⟨by decide, by decide, by decide, coalesce_merges empty_state trace23 10 24 (by decide)⟩

/-- The result of `mm_realloc` when the block must grow and its free right neighbour is large
enough. -/
theorem realloc_right_eq {s : State} {l1 l2 : List Blk} {a z t : Nat} {cs : List Chain} {n A : Nat}
    (hinv : Inv s (l1 ++ Blk.mk a z true :: Blk.mk (a + z) t false :: l2) cs) (hn : n ≠ 0)
    (hA : adjust n = 4 * A) (hgt : z < A) (hle : A ≤ z + t) :
    mm_realloc s (some (a + 1)) n =
      (some (a + 1),
        if 8 < z + t - A then
          add_free_block
            { remove_free_block s (some (a + z)) with
              heap := write_tags (write_tags (remove_free_block s (some (a + z))).heap a A true)
                (a + A) (z + t - A) false }
            (some (a + A))
        else
          { remove_free_block s (some (a + z)) with
            heap := write_tags (remove_free_block s (some (a + z))).heap a (z + t) true }) := by
  obtain ⟨m, t1, t2⟩ := Tiles_append.1 hinv.tiles
  obtain ⟨g1, g2, g3, g4, g5, g6⟩ := t2
  simp only at g1 g2 g3 g4 g5 g6
  subst g1
  obtain ⟨y1, y2, y3, y4, y5, y6⟩ := g6
  simp only at y1 y2 y3 y4 y5 y6
  have ha1 : 1 ≤ a := Tiles_le t1
  have hsize : blk_size s a = z := blk_size_of_tag (u := true) g4
  have hzlt : z < 2 ^ 30 := tag_size_lt (s := s) (u := true) g4
  have hnext : next_blk s a = a + z := next_blk_of_tag (u := true) g4
  have hRt : tag_at s (a + z) = { inuse := false, size := (t : Int) } := y4
  have htlt : t < 2 ^ 30 := tag_size_lt hRt
  have hbrk : s.brk * 4 ≤ 1024 * 2 ^ 20 := hinv.brk_le
  have hend := Tiles_le y6
  have hold : mul32 z 4 = 4 * z := by rw [mul32_small z 4 (by omega)]; omega
  have hd4 : ∀ x : Nat, 4 * x / 4 = x := fun x => by omega
  have hfreeR : blk_free s (a + z) = true := by
    unfold blk_free; rw [hRt]; rfl
  have hsame1 := remove_free_block_same s (some (a + z))
  have htemp : toSizeT ((tag_at s (a + z)).size * ((4 : Nat) : Int)) = 4 * t := by
    rw [hRt]
    simp only
    rw [← Nat.cast_mul, toSizeT_ofNat _ (by omega)]
    omega
  have hRt1 : tag_at (remove_free_block s (some (a + z))) (a + z)
      = { inuse := false, size := (t : Int) } := by
    rw [tag_at_same hsame1]; exact hRt
  have hsub : sub32 (add32 (4 * t) (4 * z)) (4 * A) = 4 * (z + t - A) := by
    rw [add32_small _ _ (by omega), sub32_small _ _ (by omega) (by omega)]
    omega
  unfold mm_realloc
  rw [if_neg hn]
  simp only [Nat.add_sub_cancel, hsize, hnext, WSIZE, hold, MIN_BLOCK_SIZE_WORDS, hA, hd4, hfreeR,
    if_true, htemp, hRt1, hsub]
  rw [if_neg (by omega : ¬ 4 * A ≤ 4 * z)]
  rw [add32_small t z (by omega), toSizeT_ofNat _ (by omega), add32_small t z (by omega)]
  by_cases hsplit : 8 < z + t - A
  · rw [if_pos (by omega : 4 * (z + t - A) > 4 * 8), if_pos hsplit,
      mark_block_used_eq _ _ _ (by omega) (by omega)]
    have hnx : next_blk { remove_free_block s (some (a + z)) with
          heap := write_tags (remove_free_block s (some (a + z))).heap a A true } a = a + A := by
      apply next_blk_of_tag (u := true)
      rw [tag_at_heap]; exact write_tags_hd _ _ _ _ (by omega)
    rw [hnx, sub32_small (t + z) A (by omega) (by omega),
      mark_block_free_eq _ _ _ (by omega) (by omega)]
    have e : t + z - A = z + t - A := by omega
    rw [e]
  · rw [if_neg (by omega : ¬ 4 * (z + t - A) > 4 * 8), if_pos (Nat.zero_le _), if_neg hsplit,
      mark_block_used_eq _ _ _ (by omega) (by omega)]
    have e : t + z = z + t := by omega
    rw [e]

theorem realloc_right_spec {s : State} {l1 l2 : List Blk} {a z t : Nat} {cs : List Chain} {n A : Nat}
    (hinv : Inv s (l1 ++ Blk.mk a z true :: Blk.mk (a + z) t false :: l2) cs) (hn : n ≠ 0)
    (hA : adjust n = 4 * A) (hgt : z < A) (hle : A ≤ z + t) :
    (mm_realloc s (some (a + 1)) n).1 = some (a + 1) ∧
    (∃ cs', Inv (mm_realloc s (some (a + 1)) n).2 (grown l1 a z t A l2) cs') ∧
    (mm_realloc s (some (a + 1)) n).2.brk = s.brk ∧
    (∀ w, w ≠ a → (w < a + z - 1 ∨ a + z + t ≤ w) →
      (mm_realloc s (some (a + 1)) n).2.heap w = s.heap w) := by
  have hinv' : Inv s ((l1 ++ [Blk.mk a z true]) ++ Blk.mk (a + z) t false :: l2) cs := by
    have e : (l1 ++ [Blk.mk a z true]) ++ Blk.mk (a + z) t false :: l2
        = l1 ++ Blk.mk a z true :: Blk.mk (a + z) t false :: l2 := by simp
    rw [e]; exact hinv
  obtain ⟨cs1, hf, _, h2⟩ := Focus_of_remove hinv'
  obtain ⟨t1, ta, tz8, tzev, _, _⟩ := Tiles_concat.1 hf.tiles1
  simp only at t1 ta tz8 tzev
  have hsame := remove_free_block_same s (some (a + z))
  have hAev : A % 2 = 0 := by have := (adjust_props n).1; omega
  have hA8 : 8 ≤ A := by omega
  have htev := hf.sz_even
  have ht2 := hf.sz_ge
  have ha1 : 1 ≤ a := Tiles_le t1
  have hend := Tiles_le hf.tiles2
  have hbl : (remove_free_block s (some (a + z))).brk * 4 ≤ 1024 * 2 ^ 20 := hf.brk_le
  have n1 : NoAdjFree l1 := by
    have := hf.noadj1
    unfold NoAdjFree at this ⊢
    exact (List.chain'_append.1 this).1
  have compl0 : ∀ b z', idx_mem cs1 b z' ↔ Blk.mk b z' false ∈ l1 ++ l2 := by
    intro b z'
    rw [hf.compl]
    simp only [List.mem_append, List.mem_singleton, Blk.mk.injEq, Bool.false_eq_true, and_false,
      or_false]
  have hout : ∀ b ∈ cs1.flatMap Chain.blocks, b < a ∨ a + (z + t) ≤ b :=
    focus_members_outside t1 (by rw [← Nat.add_assoc]; exact hf.tiles2) compl0
  rw [realloc_right_eq hinv hn hA hgt hle]
  unfold grown
  by_cases hsplit : 8 < z + t - A
  · rw [if_pos hsplit, if_pos hsplit]
    have hfoc : Focus { remove_free_block s (some (a + z)) with
          heap := write_tags (write_tags (remove_free_block s (some (a + z))).heap a A true)
            (a + A) (z + t - A) false }
        (l1 ++ [Blk.mk a A true]) (a + A) (z + t - A) l2 cs1 := by
      refine Focus_of_write
        (s := { remove_free_block s (some (a + z)) with
          heap := write_tags (remove_free_block s (some (a + z))).heap a A true })
        hf.brk_ge hf.brk_le ?_ ?_ ?_ ?_ (by omega) (by omega) ?_ hf.noadj2 (same_arena_refl _) ?_ ?_
      · rw [tag_at_heap, write_tags_other _ _ _ _ _ (by omega) (by omega)]; exact hf.pro
      · show tag_at { remove_free_block s (some (a + z)) with
            heap := write_tags (remove_free_block s (some (a + z))).heap a A true }
          ((remove_free_block s (some (a + z))).brk - 1) = FENCE
        rw [tag_at_heap, write_tags_other _ _ _ _ _ (by omega) (by omega)]; exact hf.epi
      · show Tiles (write_tags (remove_free_block s (some (a + z))).heap a A true) 1
          (l1 ++ [Blk.mk a A true]) (a + A)
        rw [Tiles_concat]
        refine ⟨?_, rfl, hA8, hAev, write_tags_hd _ _ _ _ (by omega), ?_⟩
        · apply Tiles_congr _ t1
          intro w _ hw2
          rw [write_tags_other _ _ _ _ _ (by omega) (by omega)]
        · exact write_tags_ft _ _ _ _ (by omega)
      · show Tiles (write_tags (remove_free_block s (some (a + z))).heap a A true)
          (a + A + (z + t - A)) l2 ((remove_free_block s (some (a + z))).brk - 1)
        have : a + A + (z + t - A) = a + z + t := by omega
        rw [this]
        apply Tiles_congr _ hf.tiles2
        intro w hw1 _
        rw [write_tags_other _ _ _ _ _ (by omega) (by omega)]
      · unfold NoAdjFree
        rw [List.chain'_append]
        refine ⟨n1, List.chain'_singleton _, ?_⟩
        intro x _ y hy
        simp only [List.head?_cons, Option.mem_def, Option.some.injEq] at hy
        rw [← hy]
        exact Or.inr rfl
      · refine IndexOK_heap_congr (s := remove_free_block s (some (a + z))) rfl rfl rfl ?_ hf.index
        intro b hb
        have := hout b hb
        show write_tags (remove_free_block s (some (a + z))).heap a A true b = _
        rw [write_tags_other _ _ _ _ _ (by omega) (by omega)]
      · intro b z'
        rw [compl0]
        simp only [List.mem_append, List.mem_cons, List.mem_singleton, Blk.mk.injEq,
          Bool.false_eq_true, and_false, or_false, List.not_mem_nil]
    obtain ⟨cs', hinv2⟩ := Focus_add hfoc (by omega) (by simp) h2
    have hsame2 := add_free_block_same
      { remove_free_block s (some (a + z)) with
        heap := write_tags (write_tags (remove_free_block s (some (a + z))).heap a A true)
          (a + A) (z + t - A) false }
      (some (a + A))
    refine ⟨rfl, ⟨cs', ?_⟩, ?_, ?_⟩
    · have e : l1 ++ Blk.mk a A true :: Blk.mk (a + A) (z + t - A) false :: l2
          = (l1 ++ [Blk.mk a A true]) ++ Blk.mk (a + A) (z + t - A) false :: l2 := by simp
      rw [e]; exact hinv2
    · show (add_free_block _ _).brk = s.brk
      rw [hsame2.2.1]
      exact hsame.2.1
    · intro w hw1 hw2
      show (add_free_block _ _).heap w = s.heap w
      rw [hsame2.1]
      show write_tags (write_tags (remove_free_block s (some (a + z))).heap a A true)
        (a + A) (z + t - A) false w = s.heap w
      rw [write_tags_other _ _ _ _ _ (by omega) (by omega),
        write_tags_other _ _ _ _ _ (by omega) (by omega), hsame.1]
  · rw [if_neg hsplit, if_neg hsplit]
    refine ⟨rfl, ⟨cs1, ?_⟩, hsame.2.1, ?_⟩
    · exact Inv_of_write_used hf.brk_ge hf.brk_le hf.pro hf.epi t1
        (by rw [← Nat.add_assoc]; exact hf.tiles2) (by omega) (by omega) n1 hf.noadj2 hf.index compl0
    · intro w hw1 hw2
      show write_tags (remove_free_block s (some (a + z))).heap a (z + t) true w = s.heap w
      rw [write_tags_other _ _ _ _ _ (by omega) (by omega), hsame.1]

/-- A live region whose right neighbour is free: the shape of the block list. -/
theorem live_right_free {s : State} {l : List Blk} {cs : List Chain} {rs : List (Nat × Nat)}
    {r m : Nat} (hinv : Inv s l cs) (hlive : LiveOK l rs) (hr : (r, m) ∈ rs)
    (hfree : blk_free s (next_blk s (r - 1)) = true) :
    ∃ l1 l2 z t, l = l1 ++ Blk.mk (r - 1) z true :: Blk.mk (r - 1 + z) t false :: l2 ∧
      1 ≤ r ∧ blk_size s (r - 1) = z ∧ next_blk s (r - 1) = r - 1 + z ∧
      blk_size s (r - 1 + z) = t := by
  obtain ⟨hr1, z, hz, _⟩ := hlive.2 _ hr
  simp only at hr1 hz
  obtain ⟨l1, l2, hl⟩ := List.append_of_mem hz
  subst hl
  obtain ⟨m', t1, t2⟩ := Tiles_append.1 hinv.tiles
  obtain ⟨g1, g2, g3, g4, g5, g6⟩ := t2
  simp only at g1 g2 g3 g4 g5 g6
  subst g1
  have hsize : blk_size s (r - 1) = z := blk_size_of_tag (u := true) g4
  have hnext : next_blk s (r - 1) = r - 1 + z := next_blk_of_tag (u := true) g4
  rw [hnext] at hfree
  cases l2 with
  | nil =>
    have hab : r - 1 + z = s.brk - 1 := g6
    unfold blk_free at hfree
    rw [hab, hinv.epi] at hfree
    simp [FENCE] at hfree
  | cons Y L =>
    obtain ⟨y1, y2, y3, y4, y5, y6⟩ := g6
    have htag : tag_at s (r - 1 + z) = { inuse := Y.used, size := (Y.size : Int) } := y4
    unfold blk_free at hfree
    rw [htag] at hfree
    simp only [Bool.not_eq_true'] at hfree
    have hY : Y = Blk.mk (r - 1 + z) Y.size false := by
      cases Y
      simp only at y1 hfree
      simp [y1, hfree]
    refine ⟨l1, L, z, Y.size, by rw [← hY], hr1, hsize, hnext, ?_⟩
    rw [hfree] at htag
    exact blk_size_of_tag htag

/-- Growth of a live region into its free right neighbour, in terms of tags and index. -/
theorem realloc_right_facts {s : State} {l : List Blk} {cs : List Chain} {rs : List (Nat × Nat)}
    {r m n : Nat} (hinv : Inv s l cs) (hlive : LiveOK l rs) (hr : (r, m) ∈ rs) (hn : n ≠ 0)
    (hfree : blk_free s (next_blk s (r - 1)) = true)
    (hgt : blk_size s (r - 1) < adjust n / WSIZE)
    (hle : adjust n / WSIZE ≤ blk_size s (r - 1) + blk_size s (next_blk s (r - 1))) :
    ∃ z t A, blk_size s (r - 1) = z ∧ next_blk s (r - 1) = r - 1 + z ∧
      blk_size s (next_blk s (r - 1)) = t ∧ adjust n / WSIZE = A ∧
      (mm_realloc s (some r) n).1 = some r ∧
      (mm_realloc s (some r) n).2.brk = s.brk ∧
      (∀ w, r ≤ w → w + 2 < r + z → (mm_realloc s (some r) n).2.heap w = s.heap w) ∧
      (8 < z + t - A →
        tag_at (mm_realloc s (some r) n).2 (r - 1) = { inuse := true, size := (A : Int) } ∧
        tag_at (mm_realloc s (some r) n).2 (r - 1 + A - 1) = { inuse := true, size := (A : Int) } ∧
        tag_at (mm_realloc s (some r) n).2 (r - 1 + A)
          = { inuse := false, size := ((z + t - A : Nat) : Int) } ∧
        tag_at (mm_realloc s (some r) n).2 (r - 1 + z + t - 1)
          = { inuse := false, size := ((z + t - A : Nat) : Int) } ∧
        (∀ x, x ∈ index_blocks (mm_realloc s (some r) n).2 ↔
          ((x ∈ index_blocks s ∧ x ≠ r - 1 + z) ∨ x = r - 1 + A))) ∧
      (z + t - A ≤ 8 →
        tag_at (mm_realloc s (some r) n).2 (r - 1) = { inuse := true, size := ((z + t : Nat) : Int) } ∧
        tag_at (mm_realloc s (some r) n).2 (r - 1 + z + t - 1)
          = { inuse := true, size := ((z + t : Nat) : Int) } ∧
        (∀ x, x ∈ index_blocks (mm_realloc s (some r) n).2 ↔
          (x ∈ index_blocks s ∧ x ≠ r - 1 + z))) := by
  obtain ⟨l1, l2, z, t, hl, hr1, hsize, hnext, ht⟩ := live_right_free hinv hlive hr hfree
  subst hl
  rw [hnext, hsize, ht] at hle
  rw [hsize] at hgt
  have hadj := (adjust_props n).1
  have hA : adjust n = 4 * (adjust n / WSIZE) := by unfold WSIZE; omega
  have hra : r - 1 + 1 = r := by omega
  obtain ⟨e1, ⟨cs', e2⟩, e3, e4⟩ := realloc_right_spec hinv hn hA hgt hle
  rw [hra] at e1 e2 e3 e4
  obtain ⟨m', t1, t2⟩ := Tiles_append.1 hinv.tiles
  obtain ⟨g1, g2, g3, g4, g5, y1, y2, y3, y4, y5, y6⟩ := t2
  simp only at g1 g2 g3 y1 y2 y3 y6
  subst g1
  have hidx : ∀ x, (x ∈ index_blocks s ∧ x ≠ r - 1 + z) ↔ ∃ z', Blk.mk x z' false ∈ l1 ++ l2 := by
    intro x
    rw [mem_index_blocks hinv]
    simp only [List.mem_append, List.mem_cons, Blk.mk.injEq, Bool.false_eq_true, and_false,
      false_or, and_true]
    constructor
    · rintro ⟨⟨z', h | ⟨h, _⟩ | h⟩, hne⟩
      · exact ⟨z', Or.inl h⟩
      · exact absurd h hne
      · exact ⟨z', Or.inr h⟩
    · rintro ⟨z', h | h⟩
      · have := Tiles_mem t1 h
        simp only at this
        exact ⟨⟨z', Or.inl h⟩, by omega⟩
      · have := Tiles_mem y6 h
        simp only at this
        exact ⟨⟨z', Or.inr (Or.inr h)⟩, by omega⟩
  refine ⟨z, t, adjust n / WSIZE, hsize, hnext, by rw [hnext]; exact ht, rfl, e1, e3, ?_, ?_, ?_⟩
  · intro w hw1 hw2
    exact e4 w (by omega) (Or.inl (by omega))
  · intro hsplit
    unfold grown at e2
    rw [if_pos hsplit] at e2
    obtain ⟨_, _, _, _, u5, u6⟩ := Tiles_mem e2.tiles
      (show Blk.mk (r - 1) (adjust n / WSIZE) true ∈ _ by simp)
    obtain ⟨_, _, _, _, v5, v6⟩ := Tiles_mem e2.tiles
      (show Blk.mk (r - 1 + adjust n / WSIZE) (z + t - adjust n / WSIZE) false ∈ _ by simp)
    simp only at u5 u6 v5 v6
    have e : r - 1 + adjust n / WSIZE + (z + t - adjust n / WSIZE) - 1 = r - 1 + z + t - 1 := by
      omega
    rw [e] at v6
    refine ⟨u5, u6, v5, v6, ?_⟩
    intro x
    rw [hidx, mem_index_blocks e2]
    simp only [List.mem_append, List.mem_cons, Blk.mk.injEq, Bool.false_eq_true, and_false,
      false_or, and_true]
    constructor
    · rintro ⟨z', h | ⟨h, _⟩ | h⟩
      · exact Or.inl ⟨z', Or.inl h⟩
      · exact Or.inr h
      · exact Or.inl ⟨z', Or.inr h⟩
    · rintro (⟨z', h | h⟩ | h)
      · exact ⟨z', Or.inl h⟩
      · exact ⟨z', Or.inr (Or.inr h)⟩
      · exact ⟨z + t - adjust n / WSIZE, Or.inr (Or.inl ⟨h, rfl⟩)⟩
  · intro hwhole
    unfold grown at e2
    rw [if_neg (by omega)] at e2
    obtain ⟨_, _, _, _, u5, u6⟩ := Tiles_mem e2.tiles
      (show Blk.mk (r - 1) (z + t) true ∈ _ by simp)
    simp only at u5 u6
    have e : r - 1 + (z + t) - 1 = r - 1 + z + t - 1 := by omega
    rw [e] at u6
    refine ⟨u5, u6, ?_⟩
    intro x
    rw [hidx, mem_index_blocks e2]
    simp only [List.mem_append, List.mem_cons, Blk.mk.injEq, Bool.false_eq_true, and_false,
      false_or]

theorem extend_heap_unfold (s : State) (words : Nat) (hw2 : 2 ≤ words) (hev : words % 2 = 0)
    (hbg : 2 ≤ s.brk) (hfit : ¬ (s.brk * 4 + words * 4 > MAX_HEAP)) :
    extend_heap s words =
      (some (coalesce (extended s words) (s.brk - 1)).1, (coalesce (extended s words) (s.brk - 1)).2) := by
  have hmax : MAX_HEAP = 1024 * 2 ^ 20 := rfl
  have hfit2 := hfit
  rw [hmax] at hfit2
  have hwlt : words < 2 ^ 30 := by omega
  have hdiv : words * 4 / 4 = words := by omega
  have hs3 : set_tag (mark_block_free { s with brk := s.brk + words } (s.brk - 1) (toInt words))
      (s.brk - 1 + words) FENCE = extended s words := by
    rw [mark_block_free_eq _ _ _ (by omega) (by omega)]
    rfl
  have hnext : next_blk (mark_block_free { s with brk := s.brk + words } (s.brk - 1) (toInt words)) (s.brk - 1)
      = s.brk - 1 + words := by
    apply next_blk_of_tag (u := false)
    rw [mark_block_free_eq _ _ _ (by omega) (by omega), tag_at_heap]
    exact write_tags_hd _ _ _ _ (by omega)
  unfold extend_heap
  simp only [clear_low1_even words hev hwlt, WSIZE, mul32_small words 4 (by omega), mem_sbrk, hfit, if_false,
    hdiv]
  rw [hnext, hs3]

/-- When the last block of the arena is allocated, `extend_heap` merges nothing: it returns the
new free block and leaves the index as it is. -/
theorem extend_heap_last_used (s : State) (words : Nat) (hw2 : 2 ≤ words) (hev : words % 2 = 0)
    (hbg : 2 ≤ s.brk) (hfit : ¬ (s.brk * 4 + words * 4 > MAX_HEAP))
    (hlast : (tag_at s (s.brk - 2)).inuse = true) :
    extend_heap s words = (some (s.brk - 1), extended s words) := by
  have hmax : MAX_HEAP = 1024 * 2 ^ 20 := rfl
  have hfit2 := hfit
  rw [hmax] at hfit2
  rw [extend_heap_unfold s words hw2 hev hbg hfit]
  have h1 : (tag_at (extended s words) (prev_blk_footer (s.brk - 1))).inuse = true := by
    have e : prev_blk_footer (s.brk - 1) = s.brk - 2 := by unfold prev_blk_footer; omega
    rw [e]
    show (word_tag (upd (write_tags s.heap (s.brk - 1) words false) (s.brk - 1 + words)
      (tag_word FENCE) (s.brk - 2))).inuse = true
    rw [upd_other _ _ _ _ (by omega), write_tags_other _ _ _ _ _ (by omega) (by omega)]
    exact hlast
  have hnx : next_blk (extended s words) (s.brk - 1) = s.brk - 1 + words := by
    apply next_blk_of_tag (u := false)
    show word_tag (upd (write_tags s.heap (s.brk - 1) words false) (s.brk - 1 + words)
      (tag_word FENCE) (s.brk - 1)) = _
    rw [upd_other _ _ _ _ (by omega)]
    exact write_tags_hd _ _ _ _ (by omega)
  have h2 : blk_free (extended s words) (next_blk (extended s words) (s.brk - 1)) = false := by
    rw [hnx]
    unfold blk_free
    show (!(word_tag (upd (write_tags s.heap (s.brk - 1) words false) (s.brk - 1 + words)
      (tag_word FENCE) (s.brk - 1 + words))).inuse) = false
    rw [upd_same, word_tag_FENCE]
    rfl
  rw [coalesce_noop _ _ h1 h2]

/-- The result of `mm_realloc` when the block must grow and is the last block of the arena. -/
theorem realloc_last_eq {s : State} {l1 : List Blk} {a z : Nat} {cs : List Chain} {n A : Nat}
    (hinv : Inv s (l1 ++ [Blk.mk a z true]) cs) (hn : n ≠ 0)
    (hA : adjust n = 4 * A) (hgt : z < A) :
    mm_realloc s (some (a + 1)) n =
      (some (a + 1), mark_block_used (extend_heap s (A - z)).2 a (toInt A)) := by
  obtain ⟨t1, g1, g2, g3, g4, g5⟩ := Tiles_concat.1 hinv.tiles
  simp only at t1 g1 g2 g3 g4 g5
  have htag : tag_at s a = { inuse := true, size := (z : Int) } := g4
  have hsize : blk_size s a = z := blk_size_of_tag htag
  have hzlt : z < 2 ^ 30 := tag_size_lt htag
  have hnext : next_blk s a = a + z := next_blk_of_tag htag
  have hold : mul32 z 4 = 4 * z := by rw [mul32_small z 4 (by omega)]; omega
  have hd4 : ∀ x : Nat, 4 * x / 4 = x := fun x => by omega
  have hAlt : A < 2 ^ 30 := by have := (adjust_props n).2; omega
  have hfence : tag_at s (a + z) = FENCE := by rw [g1]; exact hinv.epi
  have hfreeR : blk_free s (a + z) = false := by
    unfold blk_free; rw [hfence]; rfl
  have hsz0 : (tag_at s (a + z)).size = 0 := by rw [hfence]; rfl
  unfold mm_realloc
  rw [if_neg hn]
  simp only [Nat.add_sub_cancel, hsize, hnext, WSIZE, hold, hA, hd4, hfreeR, Bool.false_eq_true,
    if_false, hsz0, if_true]
  rw [if_neg (by omega : ¬ 4 * A ≤ 4 * z), sub32_small A z (by omega) (by omega)]

theorem realloc_last_spec {s : State} {l1 : List Blk} {a z : Nat} {cs : List Chain} {n A : Nat}
    (hinv : Inv s (l1 ++ [Blk.mk a z true]) cs) (hn : n ≠ 0)
    (hA : adjust n = 4 * A) (hgt : z < A)
    (hfit : ¬ (s.brk * 4 + (A - z) * 4 > MAX_HEAP)) :
    mm_realloc s (some (a + 1)) n =
      (some (a + 1),
        { extended s (A - z) with heap := write_tags (extended s (A - z)).heap a A true }) ∧
    Inv { extended s (A - z) with heap := write_tags (extended s (A - z)).heap a A true }
      (l1 ++ [Blk.mk a A true]) cs ∧
    a + z = s.brk - 1 := by
  obtain ⟨t1, g1, g2, g3, g4, g5⟩ := Tiles_concat.1 hinv.tiles
  simp only at t1 g1 g2 g3 g4 g5
  have hmax : MAX_HEAP = 1024 * 2 ^ 20 := rfl
  have hfit2 := hfit
  rw [hmax] at hfit2
  have hbg := hinv.brk_ge
  have ha1 : 1 ≤ a := Tiles_le t1
  have hAev : A % 2 = 0 := by have := (adjust_props n).1; omega
  have hlast : (tag_at s (s.brk - 2)).inuse = true := by
    have e : s.brk - 2 = s.brk - 1 - 1 := by omega
    unfold tag_at
    rw [e, g5]
  have hext := extend_heap_last_used s (A - z) (by omega) (by omega) hbg hfit hlast
  have hbrk : (extended s (A - z)).brk = s.brk + (A - z) := rfl
  have hheap : ∀ w, w < s.brk - 1 → (extended s (A - z)).heap w = s.heap w := by
    intro w hw
    show upd (write_tags s.heap (s.brk - 1) (A - z) false) (s.brk - 1 + (A - z)) _ w = s.heap w
    rw [upd_other _ _ _ _ (by omega), write_tags_other _ _ _ _ _ (by omega) (by omega)]
  have hepi : tag_at (extended s (A - z)) ((extended s (A - z)).brk - 1) = FENCE := by
    show word_tag (upd (write_tags s.heap (s.brk - 1) (A - z) false) (s.brk - 1 + (A - z))
      (tag_word FENCE) (s.brk + (A - z) - 1)) = FENCE
    have : s.brk + (A - z) - 1 = s.brk - 1 + (A - z) := by omega
    rw [this, upd_same]
    exact word_tag_FENCE
  have n1 : NoAdjFree l1 := by
    have := hinv.noadj
    unfold NoAdjFree at this ⊢
    exact (List.chain'_append.1 this).1
  have compl0 : ∀ b z', idx_mem cs b z' ↔ Blk.mk b z' false ∈ l1 ++ [] := by
    intro b z'
    rw [hinv.compl]
    simp only [List.mem_append, List.mem_singleton, Blk.mk.injEq, Bool.false_eq_true, and_false,
      or_false, List.append_nil]
  refine ⟨?_, ?_, g1⟩
  · rw [realloc_last_eq hinv hn hA hgt, hext, mark_block_used_eq _ _ _ (by omega) (by omega)]
  · have hI := @Inv_of_write_used (extended s (A - z)) l1 [] a A cs
      (by rw [hbrk]; omega) (by rw [hbrk, hmax]; unfold WSIZE; omega) ?_ hepi
      ?_ ?_ (by omega) hAev n1 List.chain'_nil ?_ compl0
    · exact hI
    · unfold tag_at
      rw [hheap 0 (by omega)]
      exact hinv.pro
    · apply Tiles_congr _ t1
      intro w _ hw
      exact hheap w (by omega)
    · show a + A = (extended s (A - z)).brk - 1
      rw [hbrk]; omega
    · refine IndexOK_heap_congr (s := s) rfl rfl rfl ?_ hinv.index
      intro b hb
      obtain ⟨z', hz'⟩ := idx_mem_iff_flatMap.2 hb
      have := Tiles_mem hinv.tiles ((hinv.compl b z').1 hz')
      simp only at this
      exact hheap b (by omega)

/-- C24 (growth into a sufficient right neighbour).  In a state reached from `mm_init` by
`mm_malloc` and `mm_free` calls, let `r` be a live region in a block of `z` words whose right
neighbour is free with `t` words, and let the adjusted size of `n > 0`, `A` words, satisfy
`z < A ≤ z + t`.  Then `mm_realloc r n` returns `r`, the arena extent and the payload words of
`r` are untouched, the right neighbour is no longer in the index, and the block of `r` is
allocated with `c` words, `A ≤ c ≤ z + t`; when `c < z + t`, the `z + t - c` words behind it are
one free block that is in the index; the index is otherwise as before. -/
theorem grow_into_right_neighbour (s0 : State) (ops : List Op) (r m n : Nat)
    (hr : (r, m) ∈ (run s0 ops).ranges) (h0 : 0 < n)
    (hfree : blk_free (run s0 ops).s (next_blk (run s0 ops).s (r - 1)) = true)
    (hgt : blk_size (run s0 ops).s (r - 1) < adjust n / WSIZE)
    (hle : adjust n / WSIZE ≤ blk_size (run s0 ops).s (r - 1)
      + blk_size (run s0 ops).s (next_blk (run s0 ops).s (r - 1))) :
    (mm_realloc (run s0 ops).s (some r) n).1 = some r ∧
    (mm_realloc (run s0 ops).s (some r) n).2.brk = (run s0 ops).s.brk ∧
    (∀ w, r ≤ w → w + 2 < r + blk_size (run s0 ops).s (r - 1) →
      (mm_realloc (run s0 ops).s (some r) n).2.heap w = (run s0 ops).s.heap w) ∧
    next_blk (run s0 ops).s (r - 1) ∉ index_blocks (mm_realloc (run s0 ops).s (some r) n).2 ∧
    ∃ c, adjust n / WSIZE ≤ c ∧
      c ≤ blk_size (run s0 ops).s (r - 1) + blk_size (run s0 ops).s (next_blk (run s0 ops).s (r - 1)) ∧
      tag_at (mm_realloc (run s0 ops).s (some r) n).2 (r - 1) = { inuse := true, size := (c : Int) } ∧
      tag_at (mm_realloc (run s0 ops).s (some r) n).2 (r - 1 + c - 1)
        = { inuse := true, size := (c : Int) } ∧
      (c < blk_size (run s0 ops).s (r - 1)
          + blk_size (run s0 ops).s (next_blk (run s0 ops).s (r - 1)) →
        blk_free (mm_realloc (run s0 ops).s (some r) n).2 (r - 1 + c) = true ∧
        blk_size (mm_realloc (run s0 ops).s (some r) n).2 (r - 1 + c)
          = blk_size (run s0 ops).s (r - 1)
            + blk_size (run s0 ops).s (next_blk (run s0 ops).s (r - 1)) - c ∧
        r - 1 + c ∈ index_blocks (mm_realloc (run s0 ops).s (some r) n).2) ∧
      (∀ x, x ∈ index_blocks (mm_realloc (run s0 ops).s (some r) n).2 ↔
        ((x ∈ index_blocks (run s0 ops).s ∧ x ≠ next_blk (run s0 ops).s (r - 1)) ∨
         (c < blk_size (run s0 ops).s (r - 1)
            + blk_size (run s0 ops).s (next_blk (run s0 ops).s (r - 1)) ∧ x = r - 1 + c))) := by
  obtain ⟨l, cs, hinv, hlive, _, _⟩ := DInv_run s0 ops
  obtain ⟨z, t, A, e1, e2, e3, e4, f1, f2, f3, f4, f5⟩ :=
    realloc_right_facts hinv hlive hr (by omega) hfree hgt hle
  rw [e1, e3, e4] at hle
  rw [e1, e4] at hgt
  rw [e1, e3, e2, e4]
  by_cases hsplit : 8 < z + t - A
  · obtain ⟨u1, u2, u3, u4, u5⟩ := f4 hsplit
    refine ⟨f1, f2, f3, ?_, A, le_refl _, hle, u1, u2, ?_, ?_⟩
    · rw [u5]
      rintro (⟨_, h⟩ | h)
      · exact h rfl
      · omega
    · intro _
      refine ⟨by unfold blk_free; rw [u3]; rfl, blk_size_of_tag u3, (u5 _).2 (Or.inr rfl)⟩
    · intro x
      rw [u5]
      constructor
      · rintro (h | h)
        · exact Or.inl h
        · exact Or.inr ⟨by omega, h⟩
      · rintro (h | ⟨_, h⟩)
        · exact Or.inl h
        · exact Or.inr h
  · obtain ⟨u1, u2, u5⟩ := f5 (by omega)
    have e : r - 1 + (z + t) - 1 = r - 1 + z + t - 1 := by omega
    refine ⟨f1, f2, f3, ?_, z + t, hle, le_refl _, u1, by rw [e]; exact u2, ?_, ?_⟩
    · rw [u5]
      rintro ⟨_, h⟩
      exact h rfl
    · intro h
      omega
    · intro x
      rw [u5]
      constructor
      · intro h; exact Or.inl h
      · rintro (h | ⟨h, _⟩)
        · exact h
        · omega

/-- C25 as amended (split threshold of a resize).  With the premises of C24 (block of `z` words,
free right neighbour of `t` words, adjusted size `A` words, `z < A ≤ z + t`): when the remainder
`z + t - A` is larger than 8 words, the block of `r` gets exactly `A` words and the remainder is
one free block that is in the index; when the remainder is at most 8 words, the block of `r` gets
all `z + t` words and the index only loses the neighbour. -/
theorem resize_split_threshold (s0 : State) (ops : List Op) (r m n : Nat)
    (hr : (r, m) ∈ (run s0 ops).ranges) (h0 : 0 < n)
    (hfree : blk_free (run s0 ops).s (next_blk (run s0 ops).s (r - 1)) = true)
    (hgt : blk_size (run s0 ops).s (r - 1) < adjust n / WSIZE)
    (hle : adjust n / WSIZE ≤ blk_size (run s0 ops).s (r - 1)
      + blk_size (run s0 ops).s (next_blk (run s0 ops).s (r - 1))) :
    (MIN_BLOCK_SIZE_WORDS < blk_size (run s0 ops).s (r - 1)
        + blk_size (run s0 ops).s (next_blk (run s0 ops).s (r - 1)) - adjust n / WSIZE →
      blk_size (mm_realloc (run s0 ops).s (some r) n).2 (r - 1) = adjust n / WSIZE ∧
      blk_free (mm_realloc (run s0 ops).s (some r) n).2 (r - 1 + adjust n / WSIZE) = true ∧
      blk_size (mm_realloc (run s0 ops).s (some r) n).2 (r - 1 + adjust n / WSIZE)
        = blk_size (run s0 ops).s (r - 1)
          + blk_size (run s0 ops).s (next_blk (run s0 ops).s (r - 1)) - adjust n / WSIZE ∧
      r - 1 + adjust n / WSIZE ∈ index_blocks (mm_realloc (run s0 ops).s (some r) n).2) ∧
    (blk_size (run s0 ops).s (r - 1)
        + blk_size (run s0 ops).s (next_blk (run s0 ops).s (r - 1)) - adjust n / WSIZE
        ≤ MIN_BLOCK_SIZE_WORDS →
      blk_size (mm_realloc (run s0 ops).s (some r) n).2 (r - 1)
        = blk_size (run s0 ops).s (r - 1)
          + blk_size (run s0 ops).s (next_blk (run s0 ops).s (r - 1)) ∧
      (∀ x, x ∈ index_blocks (mm_realloc (run s0 ops).s (some r) n).2 ↔
        (x ∈ index_blocks (run s0 ops).s ∧ x ≠ next_blk (run s0 ops).s (r - 1)))) := by
  obtain ⟨l, cs, hinv, hlive, _, _⟩ := DInv_run s0 ops
  obtain ⟨z, t, A, e1, e2, e3, e4, f1, f2, f3, f4, f5⟩ :=
    realloc_right_facts hinv hlive hr (by omega) hfree hgt hle
  rw [e1, e3, e2, e4]
  unfold MIN_BLOCK_SIZE_WORDS
  refine ⟨fun h => ?_, fun h => ?_⟩
  · obtain ⟨u1, _, u3, _, u5⟩ := f4 h
    exact ⟨blk_size_of_tag u1, by unfold blk_free; rw [u3]; rfl, blk_size_of_tag u3,
      (u5 _).2 (Or.inr rfl)⟩
  · obtain ⟨u1, _, u5⟩ := f5 h
    exact ⟨blk_size_of_tag u1, u5⟩

/-- C27 (growth of the last block).  In a state reached from `mm_init` by `mm_malloc` and
`mm_free` calls, let `r` be a live region in a block of `z` words that is directly followed by
the right fence, let the adjusted size of `n > 0` be `A > z` words, and let `mem_sbrk` grant
`A - z` words.  Then `mm_realloc r n` returns `r`, the arena has grown by exactly `A - z` words,
the block of `r` is allocated with exactly `A` words (header and footer), the right fence
directly follows it, the payload words of `r` are untouched, and the index (tree, `prev`, `next`)
is unchanged. -/
theorem grow_last_block (s0 : State) (ops : List Op) (r m n : Nat)
    (hr : (r, m) ∈ (run s0 ops).ranges) (h0 : 0 < n)
    (hlast : next_blk (run s0 ops).s (r - 1) = (run s0 ops).s.brk - 1)
    (hgt : blk_size (run s0 ops).s (r - 1) < adjust n / WSIZE)
    (hgrant : (mem_sbrk (run s0 ops).s
      (WSIZE * (adjust n / WSIZE - blk_size (run s0 ops).s (r - 1)))).isSome = true) :
    (mm_realloc (run s0 ops).s (some r) n).1 = some r ∧
    (mm_realloc (run s0 ops).s (some r) n).2.brk
      = (run s0 ops).s.brk + (adjust n / WSIZE - blk_size (run s0 ops).s (r - 1)) ∧
    tag_at (mm_realloc (run s0 ops).s (some r) n).2 (r - 1)
      = { inuse := true, size := ((adjust n / WSIZE : Nat) : Int) } ∧
    tag_at (mm_realloc (run s0 ops).s (some r) n).2 (r - 1 + adjust n / WSIZE - 1)
      = { inuse := true, size := ((adjust n / WSIZE : Nat) : Int) } ∧
    r - 1 + adjust n / WSIZE = (mm_realloc (run s0 ops).s (some r) n).2.brk - 1 ∧
    tag_at (mm_realloc (run s0 ops).s (some r) n).2
      ((mm_realloc (run s0 ops).s (some r) n).2.brk - 1) = FENCE ∧
    (∀ w, r ≤ w → w + 2 < r + blk_size (run s0 ops).s (r - 1) →
      (mm_realloc (run s0 ops).s (some r) n).2.heap w = (run s0 ops).s.heap w) ∧
    (mm_realloc (run s0 ops).s (some r) n).2.tree = (run s0 ops).s.tree ∧
    (mm_realloc (run s0 ops).s (some r) n).2.prev = (run s0 ops).s.prev ∧
    (mm_realloc (run s0 ops).s (some r) n).2.next = (run s0 ops).s.next := by
  obtain ⟨l, cs, hinv, ⟨_, hlive⟩, _, _⟩ := DInv_run s0 ops
  obtain ⟨hr1, z, hz, _⟩ := hlive _ hr
  simp only at hr1 hz
  have hzs : blk_size (run s0 ops).s (r - 1) = z := free_blk_size hinv hz
  have hnx : next_blk (run s0 ops).s (r - 1) = r - 1 + z :=
    next_blk_of_tag (Tiles_mem hinv.tiles hz).2.2.2.2.1
  rw [hzs] at hgt hgrant ⊢
  rw [hnx] at hlast
  obtain ⟨l1, l2, hl⟩ := List.append_of_mem hz
  subst hl
  obtain ⟨m', t1, t2⟩ := Tiles_append.1 hinv.tiles
  obtain ⟨g1, g2, g3, g4, g5, g6⟩ := t2
  simp only at g1 g6
  subst g1
  have hl2 : l2 = [] := by
    cases l2 with
    | nil => rfl
    | cons Y L =>
      obtain ⟨_, y2, _, _, _, y6⟩ := g6
      have := Tiles_le y6
      omega
  subst hl2
  have hadj := (adjust_props n).1
  have hA : adjust n = 4 * (adjust n / WSIZE) := by unfold WSIZE; omega
  have hfit : ¬ ((run s0 ops).s.brk * 4 + (adjust n / WSIZE - z) * 4 > MAX_HEAP) := by
    have := (mem_sbrk_isSome _ _).1 hgrant
    unfold WSIZE at this ⊢
    omega
  have hra : r - 1 + 1 = r := by omega
  obtain ⟨e1, e2, e3⟩ := realloc_last_spec hinv (by omega) hA hgt hfit
  rw [hra] at e1
  rw [e1]
  obtain ⟨_, _, _, _, u5, u6⟩ := Tiles_mem e2.tiles
    (show Blk.mk (r - 1) (adjust n / WSIZE) true ∈ _ by simp)
  simp only at u5 u6
  have hAlt : adjust n / WSIZE < 2 ^ 30 := by have := (adjust_props n).2; unfold WSIZE; omega
  refine ⟨rfl, rfl, u5, u6, ?_, e2.epi, ?_, rfl, rfl, rfl⟩
  · show r - 1 + adjust n / WSIZE = (run s0 ops).s.brk + (adjust n / WSIZE - z) - 1
    omega
  · intro w hw1 hw2
    show write_tags (upd (write_tags (run s0 ops).s.heap ((run s0 ops).s.brk - 1)
      (adjust n / WSIZE - z) false) ((run s0 ops).s.brk - 1 + (adjust n / WSIZE - z))
      (tag_word FENCE)) (r - 1) (adjust n / WSIZE) true w = (run s0 ops).s.heap w
    rw [write_tags_other _ _ _ _ _ (by omega) (by omega), upd_other _ _ _ _ (by omega),
      write_tags_other _ _ _ _ _ (by omega) (by omega)]

set_option maxRecDepth 1000000 in
/-- C25 (same split threshold as allocation) fails on the code as stated.  After `trace25` the
block of the region at word 2 has 8 words and its free right neighbour 16 words; resizing the
region to 56 bytes (16 words) leaves a remainder of exactly `MIN_BLOCK_SIZE_WORDS` words, which
is not split off: the block gets all 24 words and the index is empty. -/
theorem resize_split_counterexample :
    (2, 24) ∈ (run empty_state trace25).ranges ∧
    blk_size (run empty_state trace25).s 1 = 8 ∧
    blk_free (run empty_state trace25).s (next_blk (run empty_state trace25).s 1) = true ∧
    blk_size (run empty_state trace25).s (next_blk (run empty_state trace25).s 1) = 16 ∧
    adjust 56 / WSIZE = 16 ∧
    MIN_BLOCK_SIZE_WORDS ≤ 8 + 16 - 16 ∧
    (mm_realloc (run empty_state trace25).s (some 2) 56).1 = some 2 ∧
    blk_size (mm_realloc (run empty_state trace25).s (some 2) 56).2 1 = 24 ∧
    index_blocks (mm_realloc (run empty_state trace25).s (some 2) 56).2 = [] ∧
    ¬ (blk_size (mm_realloc (run empty_state trace25).s (some 2) 56).2 1 = 16 ∧
       1 + 16 ∈ index_blocks (mm_realloc (run empty_state trace25).s (some 2) 56).2) := by
  decide

set_option maxRecDepth 1000000 in
/-- C26 (growth past an insufficient free right neighbour at the end of the arena) fails on the
code.  After `trace26` the block of the region at word 2 has 8 words, its right neighbour is free
with 8 words and ends at the right fence; the adjusted size of 100 bytes is 28 words.
`mm_realloc` returns the region but does not extend the arena: the extent stays 18 words, the
header claims 28 words, the walk of the arena fails and the index holds a block outside of the
arena. -/
theorem realloc_past_neighbour_no_extension :
    (run empty_state trace26).ranges = [(2, 24)] ∧
    heap_blocks (run empty_state trace26).s = some [1, 9] ∧
    tag_at (run empty_state trace26).s 9 = { inuse := false, size := 8 } ∧
    next_blk (run empty_state trace26).s 9 = (run empty_state trace26).s.brk - 1 ∧
    (run empty_state trace26).s.brk = 18 ∧
    adjust 100 / WSIZE = 28 ∧
    (mm_realloc (run empty_state trace26).s (some 2) 100).1 = some 2 ∧
    (mm_realloc (run empty_state trace26).s (some 2) 100).2.brk = 18 ∧
    tag_at (mm_realloc (run empty_state trace26).s (some 2) 100).2 1 = { inuse := true, size := 28 } ∧
    heap_blocks (mm_realloc (run empty_state trace26).s (some 2) 100).2 = none ∧
    index_blocks (mm_realloc (run empty_state trace26).s (some 2) 100).2 = [29] := by
  decide

set_option maxRecDepth 1000000 in
/-- Witness for C24: after `trace24`, resizing the first region (8 words, free neighbour of 28
words) to 40 bytes (12 words) leaves a free block of 24 words at word 13 in the index. -/
theorem grow_into_right_neighbour_witness :
    ((2, 24) ∈ (run empty_state trace24).ranges) ∧
    (0 < 40) ∧
    (blk_free (run empty_state trace24).s (next_blk (run empty_state trace24).s (2 - 1)) = true) ∧
    (blk_size (run empty_state trace24).s (2 - 1) < adjust 40 / WSIZE) ∧
    (adjust 40 / WSIZE ≤ blk_size (run empty_state trace24).s (2 - 1)
      + blk_size (run empty_state trace24).s (next_blk (run empty_state trace24).s (2 - 1))) ∧
    (index_blocks (mm_realloc (run empty_state trace24).s (some 2) 40).2 = [13]) ∧
    ((mm_realloc (run empty_state trace24).s (some 2) 40).1 = some 2 ∧
    (mm_realloc (run empty_state trace24).s (some 2) 40).2.brk = (run empty_state trace24).s.brk ∧
    (∀ w, 2 ≤ w → w + 2 < 2 + blk_size (run empty_state trace24).s (2 - 1) →
      (mm_realloc (run empty_state trace24).s (some 2) 40).2.heap w = (run empty_state trace24).s.heap w) ∧
    next_blk (run empty_state trace24).s (2 - 1) ∉ index_blocks (mm_realloc (run empty_state trace24).s (some 2) 40).2 ∧
    ∃ c, adjust 40 / WSIZE ≤ c ∧
      c ≤ blk_size (run empty_state trace24).s (2 - 1) + blk_size (run empty_state trace24).s (next_blk (run empty_state trace24).s (2 - 1)) ∧
      tag_at (mm_realloc (run empty_state trace24).s (some 2) 40).2 (2 - 1) = { inuse := true, size := (c : Int) } ∧
      tag_at (mm_realloc (run empty_state trace24).s (some 2) 40).2 (2 - 1 + c - 1)
        = { inuse := true, size := (c : Int) } ∧
      (c < blk_size (run empty_state trace24).s (2 - 1)
          + blk_size (run empty_state trace24).s (next_blk (run empty_state trace24).s (2 - 1)) →
        blk_free (mm_realloc (run empty_state trace24).s (some 2) 40).2 (2 - 1 + c) = true ∧
        blk_size (mm_realloc (run empty_state trace24).s (some 2) 40).2 (2 - 1 + c)
          = blk_size (run empty_state trace24).s (2 - 1)
            + blk_size (run empty_state trace24).s (next_blk (run empty_state trace24).s (2 - 1)) - c ∧
        2 - 1 + c ∈ index_blocks (mm_realloc (run empty_state trace24).s (some 2) 40).2) ∧
      (∀ x, x ∈ index_blocks (mm_realloc (run empty_state trace24).s (some 2) 40).2 ↔
        ((x ∈ index_blocks (run empty_state trace24).s ∧ x ≠ next_blk (run empty_state trace24).s (2 - 1)) ∨
         (c < blk_size (run empty_state trace24).s (2 - 1)
            + blk_size (run empty_state trace24).s (next_blk (run empty_state trace24).s (2 - 1)) ∧ x = 2 - 1 + c)))) :=
  ⟨by decide, by decide, by decide, by decide, by decide, by decide,
    grow_into_right_neighbour empty_state trace24 2 24 40 (by decide) (by decide) (by decide) (by decide) (by decide)⟩

set_option maxRecDepth 1000000 in
/-- Witness for C25 as amended: after `trace25`, resizing the first region (8 words, free
neighbour of 16 words) to 56 bytes (16 words): the remainder of 8 words is consumed. -/
theorem resize_split_threshold_witness :
    ((2, 24) ∈ (run empty_state trace25).ranges) ∧
    (0 < 56) ∧
    (blk_free (run empty_state trace25).s (next_blk (run empty_state trace25).s (2 - 1)) = true) ∧
    (blk_size (run empty_state trace25).s (2 - 1) < adjust 56 / WSIZE) ∧
    (adjust 56 / WSIZE ≤ blk_size (run empty_state trace25).s (2 - 1)
      + blk_size (run empty_state trace25).s (next_blk (run empty_state trace25).s (2 - 1))) ∧
    ((MIN_BLOCK_SIZE_WORDS < blk_size (run empty_state trace25).s (2 - 1)
        + blk_size (run empty_state trace25).s (next_blk (run empty_state trace25).s (2 - 1)) - adjust 56 / WSIZE →
      blk_size (mm_realloc (run empty_state trace25).s (some 2) 56).2 (2 - 1) = adjust 56 / WSIZE ∧
      blk_free (mm_realloc (run empty_state trace25).s (some 2) 56).2 (2 - 1 + adjust 56 / WSIZE) = true ∧
      blk_size (mm_realloc (run empty_state trace25).s (some 2) 56).2 (2 - 1 + adjust 56 / WSIZE)
        = blk_size (run empty_state trace25).s (2 - 1)
          + blk_size (run empty_state trace25).s (next_blk (run empty_state trace25).s (2 - 1)) - adjust 56 / WSIZE ∧
      2 - 1 + adjust 56 / WSIZE ∈ index_blocks (mm_realloc (run empty_state trace25).s (some 2) 56).2) ∧
    (blk_size (run empty_state trace25).s (2 - 1)
        + blk_size (run empty_state trace25).s (next_blk (run empty_state trace25).s (2 - 1)) - adjust 56 / WSIZE
        ≤ MIN_BLOCK_SIZE_WORDS →
      blk_size (mm_realloc (run empty_state trace25).s (some 2) 56).2 (2 - 1)
        = blk_size (run empty_state trace25).s (2 - 1)
          + blk_size (run empty_state trace25).s (next_blk (run empty_state trace25).s (2 - 1)) ∧
      (∀ x, x ∈ index_blocks (mm_realloc (run empty_state trace25).s (some 2) 56).2 ↔
        (x ∈ index_blocks (run empty_state trace25).s ∧ x ≠ next_blk (run empty_state trace25).s (2 - 1))))) :=
  ⟨by decide, by decide, by decide, by decide, by decide,
    resize_split_threshold empty_state trace25 2 24 56 (by decide) (by decide) (by decide) (by decide) (by decide)⟩

set_option maxRecDepth 1000000 in
/-- Witness for C27: the only region of 56 bytes (block of 16 words) grows to 100 bytes (28
words); the arena grows by 12 words. -/
theorem grow_last_block_witness :
    ((2, 56) ∈ (run empty_state [Op.alloc 56]).ranges) ∧
    (0 < 100) ∧
    (next_blk (run empty_state [Op.alloc 56]).s (2 - 1) = (run empty_state [Op.alloc 56]).s.brk - 1) ∧
    (blk_size (run empty_state [Op.alloc 56]).s (2 - 1) < adjust 100 / WSIZE) ∧
    ((mem_sbrk (run empty_state [Op.alloc 56]).s
      (WSIZE * (adjust 100 / WSIZE - blk_size (run empty_state [Op.alloc 56]).s (2 - 1)))).isSome = true) ∧
    ((mm_realloc (run empty_state [Op.alloc 56]).s (some 2) 100).2.brk = 30) ∧
    ((mm_realloc (run empty_state [Op.alloc 56]).s (some 2) 100).1 = some 2 ∧
    (mm_realloc (run empty_state [Op.alloc 56]).s (some 2) 100).2.brk
      = (run empty_state [Op.alloc 56]).s.brk + (adjust 100 / WSIZE - blk_size (run empty_state [Op.alloc 56]).s (2 - 1)) ∧
    tag_at (mm_realloc (run empty_state [Op.alloc 56]).s (some 2) 100).2 (2 - 1)
      = { inuse := true, size := ((adjust 100 / WSIZE : Nat) : Int) } ∧
    tag_at (mm_realloc (run empty_state [Op.alloc 56]).s (some 2) 100).2 (2 - 1 + adjust 100 / WSIZE - 1)
      = { inuse := true, size := ((adjust 100 / WSIZE : Nat) : Int) } ∧
    2 - 1 + adjust 100 / WSIZE = (mm_realloc (run empty_state [Op.alloc 56]).s (some 2) 100).2.brk - 1 ∧
    tag_at (mm_realloc (run empty_state [Op.alloc 56]).s (some 2) 100).2
      ((mm_realloc (run empty_state [Op.alloc 56]).s (some 2) 100).2.brk - 1) = FENCE ∧
    (∀ w, 2 ≤ w → w + 2 < 2 + blk_size (run empty_state [Op.alloc 56]).s (2 - 1) →
      (mm_realloc (run empty_state [Op.alloc 56]).s (some 2) 100).2.heap w = (run empty_state [Op.alloc 56]).s.heap w) ∧
    (mm_realloc (run empty_state [Op.alloc 56]).s (some 2) 100).2.tree = (run empty_state [Op.alloc 56]).s.tree ∧
    (mm_realloc (run empty_state [Op.alloc 56]).s (some 2) 100).2.prev = (run empty_state [Op.alloc 56]).s.prev ∧
    (mm_realloc (run empty_state [Op.alloc 56]).s (some 2) 100).2.next = (run empty_state [Op.alloc 56]).s.next) :=
  ⟨by decide, by decide, by decide, by decide, by decide, by decide,
    grow_last_block empty_state ([Op.alloc 56]) 2 56 100 (by decide) (by decide) (by decide) (by decide) (by decide)⟩

theorem brk_set_header_and_footer (s : State) (b : Nat) (z : Int) (u : Bool) :
    (set_header_and_footer s b z u).brk = s.brk := rfl

theorem brk_remove_free_block (s : State) (bp : Option Nat) :
    (remove_free_block s bp).brk = s.brk := (remove_free_block_same s bp).2.1

theorem brk_add_free_block (s : State) (bp : Option Nat) :
    (add_free_block s bp).brk = s.brk := (add_free_block_same s bp).2.1

/-- C33 (unreachable branches of a resize).  For every state, every region pointer `p` and every
size `n ≠ 0`: when the adjusted size is larger than the block of `p` and the right neighbour is
free, `mm_realloc` returns `p` and its effect is that of one of its first two branches, the
split when the `size_t` value `temp + oldsize - size` exceeds `WSIZE * MIN_BLOCK_SIZE_WORDS`
and the whole consumption of the neighbour otherwise, the second test `>= 0` being true of
every `size_t`.  So the arena is never extended in this case (`brk` is unchanged), and neither
the left-neighbour merge nor the allocate-copy-free branch runs.  No assumption is made on the
sizes: this holds also when block plus neighbour are smaller than the adjusted size. -/
theorem resize_right_two_branches (s : State) (p n : Nat) (h0 : n ≠ 0)
    (hgt : mul32 (blk_size s (p - 1)) WSIZE < adjust n)
    (hfree : blk_free s (next_blk s (p - 1)) = true) :
    0 ≤ realloc_slack s p (adjust n) ∧
    mm_realloc s (some p) n =
      (some p,
        if realloc_slack s p (adjust n) > WSIZE * MIN_BLOCK_SIZE_WORDS
        then realloc_split s p (adjust n) else realloc_absorb s p) ∧
    (mm_realloc s (some p) n).2.brk = s.brk := by
  have heq : mm_realloc s (some p) n =
      (some p,
        if realloc_slack s p (adjust n) > WSIZE * MIN_BLOCK_SIZE_WORDS
        then realloc_split s p (adjust n) else realloc_absorb s p) := by
    unfold mm_realloc
    simp only [if_neg h0, if_neg (not_le.2 hgt), hfree, if_true]
    by_cases h1 : realloc_slack s p (adjust n) > WSIZE * MIN_BLOCK_SIZE_WORDS
    · rw [if_pos h1, if_pos (show sub32 _ _ > _ from h1)]
      rfl
    · rw [if_neg h1, if_neg (show ¬ sub32 _ _ > _ from h1), if_pos (Nat.zero_le _)]
      rfl
  refine ⟨Nat.zero_le _, heq, ?_⟩
  rw [heq]
  simp only
  split_ifs
  · unfold realloc_split
    simp only [brk_add_free_block]
    unfold mark_block_free mark_block_used
    rw [brk_set_header_and_footer, brk_set_header_and_footer, brk_remove_free_block]
  · unfold realloc_absorb
    simp only
    unfold mark_block_used
    rw [brk_set_header_and_footer, brk_remove_free_block]

set_option maxRecDepth 1000000 in
/-- C34 (no wrap-around in the size adjustment) fails on the code.  For the request size
`2^32 - 8` the adjusted size wraps to `0`: on the fresh arena `mm_malloc` returns the region at
word 2 in a block of 8 words (24 bytes of payload), and `mm_realloc` of a live region of 24
bytes to that size returns the region as it is, in its block of 8 words. -/
theorem size_adjustment_wraps :
    4294967288 < SZ ∧
    adjust 4294967288 = 0 ∧
    (mm_malloc (run empty_state []).s 4294967288).1 = some 2 ∧
    blk_size (mm_malloc (run empty_state []).s 4294967288).2 (2 - 1) = 8 ∧
    WSIZE * 8 - 8 < 4294967288 ∧
    (2, 24) ∈ (run empty_state [Op.alloc 24]).ranges ∧
    (mm_realloc (run empty_state [Op.alloc 24]).s (some 2) 4294967288).1 = some 2 ∧
    blk_size (mm_realloc (run empty_state [Op.alloc 24]).s (some 2) 4294967288).2 (2 - 1) = 8 := by
  decide

set_option maxRecDepth 1000000 in
/-- Witness for C33: after `trace33` the block of the region at word 2 has 8 words and a free
right neighbour of 8 words; the adjusted size of 100 bytes is 28 words, more than both together,
and the `size_t` value `32 + 32 - 112` exceeds 32: the split branch runs. -/
theorem resize_right_two_branches_witness :
    (100 ≠ 0) ∧
    (mul32 (blk_size (run empty_state trace33).s (2 - 1)) WSIZE < adjust 100) ∧
    (blk_free (run empty_state trace33).s (next_blk (run empty_state trace33).s (2 - 1)) = true) ∧
    (blk_size (run empty_state trace33).s 1 + blk_size (run empty_state trace33).s 9 < adjust 100 / WSIZE) ∧
    (realloc_slack (run empty_state trace33).s 2 (adjust 100) > WSIZE * MIN_BLOCK_SIZE_WORDS) ∧
    (0 ≤ realloc_slack (run empty_state trace33).s 2 (adjust 100) ∧
    mm_realloc (run empty_state trace33).s (some 2) 100 =
      (some 2,
        if realloc_slack (run empty_state trace33).s 2 (adjust 100) > WSIZE * MIN_BLOCK_SIZE_WORDS
        then realloc_split (run empty_state trace33).s 2 (adjust 100) else realloc_absorb (run empty_state trace33).s 2) ∧
    (mm_realloc (run empty_state trace33).s (some 2) 100).2.brk = (run empty_state trace33).s.brk) :=
  ⟨by decide, by decide, by decide, by decide, by decide,
    resize_right_two_branches ((run empty_state trace33).s) 2 100 (by decide) (by decide) (by decide)⟩

theorem trackers_shf (s : State) (b : Nat) (z : Int) (u : Bool) :
    trackers (set_header_and_footer s b z u) = trackers s := rfl

theorem trackers_remove (s : State) (bp : Option Nat) :
    trackers (remove_free_block s bp) = trackers s := by
  obtain ⟨_, _, h1, h2, h3, h4⟩ := remove_free_block_same s bp
  unfold trackers
  rw [h1, h2, h3, h4]

theorem trackers_add (s : State) (bp : Option Nat) :
    trackers (add_free_block s bp) = trackers s := by
  obtain ⟨_, _, h1, h2, h3, h4⟩ := add_free_block_same s bp
  unfold trackers
  rw [h1, h2, h3, h4]

theorem trackers_coalesce (s : State) (bp : Nat) : trackers (coalesce s bp).2 = trackers s := by
  unfold coalesce
  simp only
  split_ifs <;>
    simp only [mark_block_free, trackers_shf, trackers_remove]

theorem trackers_extend_heap (s : State) (words : Nat) :
    trackers (extend_heap s words).2 = trackers s := by
  unfold extend_heap
  simp only
  cases h : mem_sbrk s (mul32 (clear_low1 (add32 words 1)) WSIZE) with
  | none => rfl
  | some r =>
    obtain ⟨bp, s1⟩ := r
    have h1 : trackers s1 = trackers s := by
      unfold mem_sbrk at h
      split at h
      · exact absurd h (by simp)
      · simp only [Option.some.injEq, Prod.mk.injEq] at h
        rw [← h.2]
        rfl
    simp only [trackers_coalesce]
    exact h1

theorem trackers_find_fit (s : State) (asize : Nat) :
    trackers (find_fit s asize).2 = trackers s := by
  unfold find_fit
  simp only
  cases RB_NFIND s (sext31 (asize % 2 ^ 31)) with
  | none => rfl
  | some b => exact trackers_remove s _

theorem trackers_place (s : State) (bp asize : Nat) : trackers (place s bp asize) = trackers s := by
  unfold place
  simp only
  split_ifs
  · simp only [trackers_add, mark_block_free, mark_block_used, trackers_shf]
  · rfl

theorem trackers_free (s : State) (ptr : Option Nat) : trackers (mm_free s ptr) = trackers s := by
  unfold mm_free
  cases ptr with
  | none => rfl
  | some p =>
    simp only [trackers_add, trackers_coalesce, mark_block_free, trackers_shf]

theorem trackers_malloc (s : State) (n : Nat) :
    trackers (mm_malloc s n).2 = if n = 0 then trackers s else trackers (profile s n).2 := by
  by_cases hn : n = 0
  · rw [if_pos hn]
    unfold mm_malloc
    rw [if_pos hn]
  · rw [if_neg hn, mm_malloc_unfold s n hn]
    have hff := trackers_find_fit (profile s n).2 (awords_of s n)
    cases hf : find_fit (profile s n).2 (awords_of s n) with
    | mk o s1 =>
      rw [hf] at hff
      cases o with
      | some bp =>
        simp only [trackers_place]
        exact hff
      | none =>
        simp only
        generalize hw : (if (!(tag_at s1 ((mem_heap_hi s1 - 4 - PADDING) / WSIZE)).inuse) = true then
            sub32 (awords_of s n) (toSizeT (tag_at s1 ((mem_heap_hi s1 - 4 - PADDING) / WSIZE)).size)
          else awords_of s n) = w
        have he := trackers_extend_heap s1 w
        cases hx : extend_heap s1 w with
        | mk o2 s2 =>
          rw [hx] at he
          cases o2 with
          | none => simp only; rw [he]; exact hff
          | some bp => simp only [trackers_place]; rw [he]; exact hff

theorem trackers_with_heap (s : State) (h : Nat → Nat) :
    trackers { s with heap := h } = trackers s := rfl

theorem trackers_fallback (s : State) (p n k : Nat) :
    trackers (match mm_malloc s n with
      | (none, s1) => ((none : Option Nat), s1)
      | (some newptr, s1) =>
        (some newptr, mm_free { s1 with heap := memcpy s1.heap newptr p k } (some p))).2
      = trackers (mm_malloc s n).2 := by
  cases h : mm_malloc s n with
  | mk o s1 =>
    cases o with
    | none => rfl
    | some q => simp only [trackers_free]; rfl

theorem trackers_realloc (s : State) (ptr : Option Nat) (n : Nat) :
    trackers (mm_realloc s ptr n).2 = trackers s ∨
    trackers (mm_realloc s ptr n).2 = trackers (mm_malloc s n).2 := by
  unfold mm_realloc
  simp only
  split_ifs
  · exact Or.inl (trackers_free s ptr)
  · cases ptr with
    | none => exact Or.inr rfl
    | some p =>
      simp only
      split_ifs
      all_goals first
        | (left
           simp only [trackers_add, mark_block_free, mark_block_used, trackers_shf, trackers_with_heap,
             trackers_remove, trackers_extend_heap]
           done)
        | exact Or.inr (trackers_fallback s p n _)

theorem profile_mono (s : State) (n : Nat) (hn : n ≠ 0) (h1 : 1 ≤ s.second) (h2 : s.second < s.first) :
    s.first ≤ (profile s n).2.first ∧ (profile s n).2.second ≤ s.second ∧
    1 ≤ (profile s n).2.second ∧ (profile s n).2.second < (profile s n).2.first := by
  unfold profile
  simp only
  split_ifs <;> (simp only; omega)

theorem profile_quiet (s : State) (n : Nat) (hn : n < SZ)
    (h : (s.second < n ∧ n < s.first) ∨ n = s.first + s.second) :
    trackers (profile s n).2 = trackers s := by
  unfold profile
  rcases h with ⟨h1, h2⟩ | h
  · simp only
    split_ifs <;> first | rfl | omega
  · have : n = add32 s.first s.second := by
      unfold add32
      rw [Nat.mod_eq_of_lt (by omega)]
      exact h
    rw [if_pos this]

/-- The tracker fields are in order: `1 ≤ second < first`. -/
theorem trackers_ordered_call (s : State) (c : Call) (h1 : 1 ≤ s.second) (h2 : s.second < s.first) :
    s.first ≤ (call s c).first ∧ (call s c).second ≤ s.second ∧
    1 ≤ (call s c).second ∧ (call s c).second < (call s c).first := by
  have key : ∀ s' : State, (trackers s' = trackers s ∨ ∃ n, n ≠ 0 ∧ trackers s' = trackers (profile s n).2) →
      s.first ≤ s'.first ∧ s'.second ≤ s.second ∧ 1 ≤ s'.second ∧ s'.second < s'.first := by
    intro s' h
    rcases h with h | ⟨n, hn, h⟩
    · unfold trackers at h
      simp only [Prod.mk.injEq] at h
      omega
    · have := profile_mono s n hn h1 h2
      unfold trackers at h
      simp only [Prod.mk.injEq] at h
      omega
  have hm : ∀ n, trackers (mm_malloc s n).2 = trackers s ∨
      ∃ k, k ≠ 0 ∧ trackers (mm_malloc s n).2 = trackers (profile s k).2 := by
    intro n
    rw [trackers_malloc]
    by_cases hn : n = 0
    · rw [if_pos hn]; exact Or.inl rfl
    · rw [if_neg hn]; exact Or.inr ⟨n, hn, rfl⟩
  cases c with
  | malloc n => exact key _ (hm n)
  | free p => exact key _ (Or.inl (trackers_free s p))
  | realloc p n =>
    apply key
    rcases trackers_realloc s p n with h | h
    · exact Or.inl h
    · show trackers (mm_realloc s p n).2 = _ ∨ ∃ k, k ≠ 0 ∧ trackers (mm_realloc s p n).2 = _
      rw [h]
      exact hm n

theorem trackers_ordered_foldl (cl : List Call) : ∀ s : State, 1 ≤ s.second → s.second < s.first →
    1 ≤ (cl.foldl call s).second ∧ (cl.foldl call s).second < (cl.foldl call s).first := by
  induction cl with
  | nil => intro s h1 h2; exact ⟨h1, h2⟩
  | cons c r ih =>
    intro s h1 h2
    obtain ⟨_, _, k1, k2⟩ := trackers_ordered_call s c h1 h2
    exact ih (call s c) k1 k2

/-- C38 (tracker monotonicity).  After `mm_init` and any sequence of `mm_malloc`, `mm_free` and
`mm_realloc` calls (arbitrary arguments), one more call does not decrease `first` and does not
increase `second`; `1 ≤ second < first` holds in every such state, the values after `mm_init`
being `first = 84` and `second = 82`; an `mm_free` call changes none of the four tracker fields,
and neither does an `mm_malloc` or `mm_realloc` call whose size `n` (a `size_t`) satisfies
`second < n < first` or `n = first + second`. -/
theorem tracker_monotone (s0 : State) (cl : List Call) (c : Call) :
    (calls s0 cl).first ≤ (call (calls s0 cl) c).first ∧
    (call (calls s0 cl) c).second ≤ (calls s0 cl).second ∧
    1 ≤ (calls s0 cl).second ∧ (calls s0 cl).second < (calls s0 cl).first ∧
    (calls s0 []).first = 84 ∧ (calls s0 []).second = 82 ∧
    (Call.size c = none → trackers (call (calls s0 cl) c) = trackers (calls s0 cl)) ∧
    (∀ n, Call.size c = some n → n < SZ →
      ((calls s0 cl).second < n ∧ n < (calls s0 cl).first) ∨
        n = (calls s0 cl).first + (calls s0 cl).second →
      trackers (call (calls s0 cl) c) = trackers (calls s0 cl)) := by
  obtain ⟨_, _, _, i1, i2, _, _⟩ := @mm_init_spec (mem_reset_brk s0) rfl
  have hord := trackers_ordered_foldl cl (mm_init (mem_reset_brk s0)).2 (by rw [i2]; omega)
    (by rw [i1, i2]; omega)
  obtain ⟨m1, m2, _, _⟩ := trackers_ordered_call (calls s0 cl) c hord.1 hord.2
  refine ⟨m1, m2, hord.1, hord.2, i1, i2, ?_, ?_⟩
  · intro hc
    cases c with
    | malloc n => simp [Call.size] at hc
    | free p => exact trackers_free _ p
    | realloc p n => simp [Call.size] at hc
  · intro n hc hn hq
    have hmal : trackers (mm_malloc (calls s0 cl) n).2 = trackers (calls s0 cl) := by
      rw [trackers_malloc]
      split_ifs
      · rfl
      · exact profile_quiet _ n hn hq
    cases c with
    | malloc k =>
      simp only [Call.size, Option.some.injEq] at hc
      subst hc
      exact hmal
    | free p => simp [Call.size] at hc
    | realloc p k =>
      simp only [Call.size, Option.some.injEq] at hc
      subst hc
      rcases trackers_realloc (calls s0 cl) p k with h | h
      · exact h
      · exact h.trans hmal

theorem tree_of_single {s : State} {cs : List Chain} {a z : Nat}
    (hinv : Inv s [Blk.mk a z false] cs) : s.tree = [a] ∧ s.prev a = none ∧ s.next a = none := by
  have hidx := index_blocks_single hinv
  rw [index_blocks_of_Inv hinv] at hidx
  have hi := hinv.index
  cases cs with
  | nil => simp at hidx
  | cons c r =>
    simp only [List.flatMap_cons, Chain.blocks, List.cons_append] at hidx
    have h1 : c.head = a := by
      have := congrArg List.head? hidx
      simpa using this
    have h2 : c.tail ++ r.flatMap Chain.blocks = [] := by
      have := congrArg List.tail hidx
      simpa using this
    obtain ⟨h3, h4⟩ := List.append_eq_nil.1 h2
    have hr : r = [] := by
      cases r with
      | nil => rfl
      | cons d r' => simp [Chain.blocks] at h4
    subst hr
    have hl := hi.linked c (List.mem_singleton.2 rfl)
    simp only [Chain.blocks, h3, Linked, h1] at hl
    refine ⟨?_, hl.1, hl.2.1⟩
    rw [hi.tree_eq]
    simp [h1]

/-- C32 (state established by `mm_init`).  Whatever the memory and the globals held before
(`s0` and `s1` are two arbitrary prior states), `mm_init` on a reset arena succeeds and yields
an arena of 18 words: fence, one free block of `CHUNKSIZE = 16` words at word 1, fence; the
index is the single entry for that block, with no chain; `first = 84`, `second = 82` and both
repeat counters are 0.  From the two prior states the results agree in the extent, the index,
the trackers, the walk of the arena and the four words that hold tags. -/
theorem init_from_any_state (s0 s1 : State) :
    (mm_init (mem_reset_brk s0)).1 = 0 ∧
    (mm_init (mem_reset_brk s0)).2.brk = 18 ∧
    heap_blocks (mm_init (mem_reset_brk s0)).2 = some [1] ∧
    tag_at (mm_init (mem_reset_brk s0)).2 0 = FENCE ∧
    tag_at (mm_init (mem_reset_brk s0)).2 1 = { inuse := false, size := 16 } ∧
    tag_at (mm_init (mem_reset_brk s0)).2 16 = { inuse := false, size := 16 } ∧
    tag_at (mm_init (mem_reset_brk s0)).2 17 = FENCE ∧
    (mm_init (mem_reset_brk s0)).2.tree = [1] ∧
    (mm_init (mem_reset_brk s0)).2.prev 1 = none ∧
    (mm_init (mem_reset_brk s0)).2.next 1 = none ∧
    index_blocks (mm_init (mem_reset_brk s0)).2 = [1] ∧
    trackers (mm_init (mem_reset_brk s0)).2 = (84, 82, 0, 0) ∧
    (mm_init (mem_reset_brk s1)).1 = (mm_init (mem_reset_brk s0)).1 ∧
    (mm_init (mem_reset_brk s1)).2.brk = (mm_init (mem_reset_brk s0)).2.brk ∧
    (mm_init (mem_reset_brk s1)).2.tree = (mm_init (mem_reset_brk s0)).2.tree ∧
    index_blocks (mm_init (mem_reset_brk s1)).2 = index_blocks (mm_init (mem_reset_brk s0)).2 ∧
    heap_blocks (mm_init (mem_reset_brk s1)).2 = heap_blocks (mm_init (mem_reset_brk s0)).2 ∧
    trackers (mm_init (mem_reset_brk s1)).2 = trackers (mm_init (mem_reset_brk s0)).2 ∧
    (∀ w ∈ [0, 1, 16, 17],
      tag_at (mm_init (mem_reset_brk s1)).2 w = tag_at (mm_init (mem_reset_brk s0)).2 w) := by
  have key : ∀ s : State,
      (mm_init (mem_reset_brk s)).1 = 0 ∧
      (mm_init (mem_reset_brk s)).2.brk = 18 ∧
      heap_blocks (mm_init (mem_reset_brk s)).2 = some [1] ∧
      tag_at (mm_init (mem_reset_brk s)).2 0 = FENCE ∧
      tag_at (mm_init (mem_reset_brk s)).2 1 = { inuse := false, size := 16 } ∧
      tag_at (mm_init (mem_reset_brk s)).2 16 = { inuse := false, size := 16 } ∧
      tag_at (mm_init (mem_reset_brk s)).2 17 = FENCE ∧
      (mm_init (mem_reset_brk s)).2.tree = [1] ∧
      (mm_init (mem_reset_brk s)).2.prev 1 = none ∧
      (mm_init (mem_reset_brk s)).2.next 1 = none ∧
      index_blocks (mm_init (mem_reset_brk s)).2 = [1] ∧
      trackers (mm_init (mem_reset_brk s)).2 = (84, 82, 0, 0) := by
    intro s
    obtain ⟨h1, ⟨cs, hinv⟩, h3, h4, h5, h6, h7⟩ := @mm_init_spec (mem_reset_brk s) rfl
    obtain ⟨_, _, _, _, t5, t6⟩ := Tiles_mem hinv.tiles (List.mem_singleton.2 rfl)
    obtain ⟨k1, k2, k3⟩ := tree_of_single hinv
    have hepi := hinv.epi
    rw [h3] at hepi
    refine ⟨h1, h3, ?_, hinv.pro, t5, t6, hepi, k1, k2, k3, index_blocks_single hinv, ?_⟩
    · rw [heap_blocks_of_Inv hinv]; rfl
    · unfold trackers
      rw [h4, h5, h6, h7]
  obtain ⟨a1, a2, a3, a4, a5, a6, a7, a8, a9, a10, a11, a12⟩ := key s0
  obtain ⟨b1, b2, b3, b4, b5, b6, b7, b8, b9, b10, b11, b12⟩ := key s1
  refine ⟨a1, a2, a3, a4, a5, a6, a7, a8, a9, a10, a11, a12, by rw [a1, b1], by rw [a2, b2],
    by rw [a8, b8], by rw [a11, b11], by rw [a3, b3], by rw [a12, b12], ?_⟩
  intro w hw
  simp only [List.mem_cons, List.mem_singleton, List.not_mem_nil, or_false] at hw
  rcases hw with rfl | rfl | rfl | rfl
  · rw [a4, b4]
  · rw [a5, b5]
  · rw [a6, b6]
  · rw [a7, b7]

theorem remove_head_facts {s : State} {cs : List Chain} {b : Nat} {c : Chain}
    (hi : IndexOK s cs) (hc : c ∈ cs) (hbc : b ∈ c.blocks) :
    (b ∈ s.tree ↔ b = c.head) ∧
    (b ≠ c.head → (remove_free_block s (some b)).tree = s.tree) ∧
    (b = c.head → c.tail = [] →
      s.next b = none ∧ (remove_free_block s (some b)).tree = s.tree.erase b) ∧
    (b = c.head → ∀ y r, c.tail = y :: r →
      s.next b = some y ∧ (remove_free_block s (some b)).tree = y :: s.tree.erase b ∧
      Linked (remove_free_block s (some b)).prev (remove_free_block s (some b)).next none (y :: r)) := by
  have hl := hi.linked c hc
  have hnd := IndexOK_chain_nodup hi hc
  simp only [Chain.blocks] at hl hnd hbc
  refine ⟨?_, ?_, ?_, ?_⟩
  · rw [hi.tree_eq]
    constructor
    · intro h
      obtain ⟨d, hd, hdb⟩ := List.mem_map.1 h
      have := chain_unique hi hc hd (show b ∈ c.blocks from hbc)
        (show b ∈ d.blocks by rw [← hdb]; exact List.mem_cons_self _ _)
      rw [this, hdb]
    · intro h
      exact List.mem_map.2 ⟨c, hc, h.symm⟩
  · intro hne
    have hbt : b ∈ c.tail := by
      rcases List.mem_cons.1 hbc with h | h
      · exact absurd h hne
      · exact h
    obtain ⟨p, hp1, _⟩ := Linked_prev_mem hl hbt
    unfold remove_free_block
    simp only [hp1]
    cases s.next b <;> rfl
  · intro hbh htl
    obtain ⟨l1, l2, _⟩ := hl
    rw [← hbh] at l1 l2
    have hn : s.next b = none := by rw [l2, htl]; rfl
    refine ⟨hn, ?_⟩
    unfold remove_free_block
    simp only [l1, hn]
    rfl
  · intro hbh y r htl
    obtain ⟨cs1, cs2, hsplit⟩ := List.append_of_mem hc
    subst hsplit
    have hdisj := IndexOK_disj hi
    have hsz := IndexOK_size_inj hi
    have hob : ∀ d ∈ cs1 ++ cs2, ∀ x ∈ d.blocks, x ∉ c.blocks := fun d hd x hx hxc => hdisj x hxc d hd hx
    obtain ⟨l1, l2, l3⟩ := hl
    rw [← hbh] at l1 l2 l3 hnd
    have hn : s.next b = some y := by rw [l2, htl]; rfl
    rw [htl] at l3 hnd
    obtain ⟨k1, k2, k3⟩ := l3
    have hyb : y ≠ b := fun h => (List.nodup_cons.1 hnd).1 (by simp [h])
    have hmid : IndexOK (RB_REMOVE { s with prev := upd s.prev y none, next := upd s.next b none } b)
        (cs1 ++ cs2) := by
      refine IndexOK_drop hi rfl (by rw [← hbh]; rfl) ?_
      intro d hd x hx
      have hxb : x ≠ b := fun h => hob d hd x hx (by simp [Chain.blocks, h, hbh])
      have hxy : x ≠ y := fun h => hob d hd x hx (by simp [Chain.blocks, h, htl])
      show upd s.prev y none x = s.prev x ∧ upd s.next b none x = s.next x
      rw [upd_other _ _ _ _ hxy, upd_other _ _ _ _ hxb]
      exact ⟨rfl, rfl⟩
    have hytag : tag_at s y = { inuse := false, size := (c.size : Int) } :=
      hi.tags c hc y (by simp [Chain.blocks, htl])
    have hfind : RB_FIND (RB_REMOVE { s with prev := upd s.prev y none, next := upd s.next b none } b)
        (c.size : Int) = none := by
      rw [RB_FIND_eq hmid]
      have : List.find? (fun d : Chain => decide ((d.size : Int) = (c.size : Int))) (cs1 ++ cs2) = none := by
        apply List.find?_eq_none.2
        intro d hd
        have := hsz d hd
        simpa using this
      rw [this]; rfl
    have hytag2 : tag_at (RB_REMOVE { s with prev := upd s.prev y none, next := upd s.next b none } b) y
        = { inuse := false, size := (c.size : Int) } := hytag
    refine ⟨hn, ?_, ?_⟩
    · unfold remove_free_block
      simp only [l1, hn]
      unfold RB_INSERT
      simp only [hytag2, hfind]
      rfl
    · have hst : remove_free_block s (some b)
          = RB_INSERT (RB_REMOVE { s with prev := upd s.prev y none, next := upd s.next b none } b) y := by
        unfold remove_free_block
        simp only [l1, hn]
      rw [hst]
      unfold RB_INSERT
      simp only [hytag2, hfind]
      show Linked (upd s.prev y none) (upd s.next b none) none (y :: r)
      simp only [Linked]
      refine ⟨upd_same _ _ _, ?_, ?_⟩
      · rw [upd_other _ _ _ _ hyb]; exact k2
      · apply Linked_congr _ k3
        intro w hw
        have hwy : w ≠ y := fun h => (List.nodup_cons.1 (List.nodup_cons.1 hnd).2).1 (h ▸ hw)
        have hwb : w ≠ b := fun h => (List.nodup_cons.1 hnd).1 (by simp [← h, hw])
        rw [upd_other _ _ _ _ hwy, upd_other _ _ _ _ hwb]
        exact ⟨rfl, rfl⟩

theorem tree_nodup {s : State} {cs : List Chain} (hi : IndexOK s cs) : s.tree.Nodup := by
  rw [hi.tree_eq]
  apply List.Nodup.map_on _ (List.Nodup.of_map _ hi.sizes_nodup)
  intro x hx y hy hxy
  exact chain_unique hi hx hy (List.mem_cons_self _ _)
    (show x.head ∈ y.blocks by rw [hxy]; exact List.mem_cons_self _ _)

/-- C31 (`remove_free_block` removes exactly one block).  In a state reached from `mm_init` by
`mm_malloc` and `mm_free` calls, let `b` be a block of the index.  After
`remove_free_block b` the blocks of the index are those of before without `b`.  If `b` was a
tree entry with a chained block `n` behind it, `n` takes the place of `b` in the tree, has the
size of `b` and no `prev`, and its chain is the chain of `b` without `b`.  If `b` was a tree
entry with nothing chained to it, the tree loses `b` and has no entry of the size of `b`.  If
`b` was not a tree entry, the tree is unchanged. -/
theorem remove_exactly_one (s0 : State) (ops : List Op) (b : Nat)
    (hb : b ∈ index_blocks (run s0 ops).s) :
    (∀ x, x ∈ index_blocks (remove_free_block (run s0 ops).s (some b)) ↔
      (x ∈ index_blocks (run s0 ops).s ∧ x ≠ b)) ∧
    (b ∈ (run s0 ops).s.tree → ∀ n, (run s0 ops).s.next b = some n →
      (∀ x, x ∈ (remove_free_block (run s0 ops).s (some b)).tree ↔
        (x = n ∨ (x ∈ (run s0 ops).s.tree ∧ x ≠ b))) ∧
      blk_size (remove_free_block (run s0 ops).s (some b)) n = blk_size (run s0 ops).s b ∧
      (remove_free_block (run s0 ops).s (some b)).prev n = none ∧
      chain_of (remove_free_block (run s0 ops).s (some b))
          (remove_free_block (run s0 ops).s (some b)).brk n
        = (chain_of (run s0 ops).s (run s0 ops).s.brk b).tail) ∧
    (b ∈ (run s0 ops).s.tree → (run s0 ops).s.next b = none →
      (∀ x, x ∈ (remove_free_block (run s0 ops).s (some b)).tree ↔
        (x ∈ (run s0 ops).s.tree ∧ x ≠ b)) ∧
      (∀ x ∈ (remove_free_block (run s0 ops).s (some b)).tree,
        blk_size (remove_free_block (run s0 ops).s (some b)) x ≠ blk_size (run s0 ops).s b)) ∧
    (b ∉ (run s0 ops).s.tree → (remove_free_block (run s0 ops).s (some b)).tree = (run s0 ops).s.tree) := by
  obtain ⟨l, cs, hinv, _⟩ := DInv_run s0 ops
  generalize (run s0 ops).s = s at hb hinv ⊢
  have hb' : b ∈ cs.flatMap Chain.blocks := by rw [← index_blocks_of_Inv hinv]; exact hb
  obtain ⟨c, hc, hbc⟩ := List.mem_flatMap.1 hb'
  obtain ⟨f1, f2, f3, f4⟩ := remove_head_facts hinv.index hc hbc
  have hsame := remove_free_block_same s (some b)
  have tnd := tree_nodup hinv.index
  have hbl : Blk.mk b c.size false ∈ l := (hinv.compl b c.size).1 ⟨c, hc, rfl, hbc⟩
  have hbtag : blk_size s b = c.size := blk_size_of_tag (hinv.index.tags c hc b hbc)
  have hlt : ∀ x ∈ c.blocks, x < s.brk := by
    intro x hx
    have := (hinv.compl x c.size).1 ⟨c, hc, rfl, hx⟩
    have := Tiles_mem hinv.tiles this
    simp only at this
    omega
  have hnd := IndexOK_chain_nodup hinv.index hc
  obtain ⟨l1, l2, hl⟩ := List.append_of_mem hbl
  subst hl
  obtain ⟨cs', hf, _, _⟩ := Focus_of_remove hinv
  refine ⟨?_, ?_, ?_, ?_⟩
  · intro x
    rw [mem_index_blocks_focus hf, mem_index_blocks hinv]
    constructor
    · rintro ⟨z, hz⟩
      have := (mem_split_ne hinv.tiles _).1 hz
      exact ⟨⟨z, this.1⟩, this.2⟩
    · rintro ⟨⟨z, hz⟩, hxb⟩
      exact ⟨z, (mem_split_ne hinv.tiles _).2 ⟨hz, hxb⟩⟩
  · intro hbt n hn
    have hbh := f1.1 hbt
    cases htl : c.tail with
    | nil =>
      rw [(f3 hbh htl).1] at hn
      exact absurd hn (by simp)
    | cons y r =>
      obtain ⟨g1, g2, g3⟩ := f4 hbh y r htl
      have hny : n = y := by rw [g1] at hn; exact (Option.some.inj hn).symm
      subst hny
      have hyc : n ∈ c.blocks := by simp [Chain.blocks, htl]
      refine ⟨?_, ?_, g3.1, ?_⟩
      · intro x
        rw [g2, List.mem_cons, tnd.mem_erase_iff]
        constructor
        · rintro (h | ⟨h1, h2⟩)
          · exact Or.inl h
          · exact Or.inr ⟨h2, h1⟩
        · rintro (h | ⟨h1, h2⟩)
          · exact Or.inl h
          · exact Or.inr ⟨h2, h1⟩
      · rw [hbtag]
        apply blk_size_of_tag
        rw [tag_at_same hsame]
        exact hinv.index.tags c hc n hyc
      · have hce := chain_of_entry hinv hc
        rw [← hbh] at hce
        rw [hce, hsame.2.1]
        simp only [Chain.blocks, htl, List.tail_cons]
        apply chain_of_Linked g3
        have := nodup_length_le hnd hlt
        simp only [Chain.blocks, htl, List.length_cons] at this
        omega
  · intro hbt hn
    have hbh := f1.1 hbt
    cases htl : c.tail with
    | cons y r =>
      rw [(f4 hbh y r htl).1] at hn
      exact absurd hn (by simp)
    | nil =>
      obtain ⟨_, g2⟩ := f3 hbh htl
      have hmem : ∀ x, x ∈ (remove_free_block s (some b)).tree ↔ (x ∈ s.tree ∧ x ≠ b) := by
        intro x
        rw [g2, tnd.mem_erase_iff]
        exact ⟨fun h => ⟨h.2, h.1⟩, fun h => ⟨h.2, h.1⟩⟩
      refine ⟨hmem, ?_⟩
      intro x hx
      obtain ⟨hxt, hxb⟩ := (hmem x).1 hx
      rw [hinv.index.tree_eq] at hxt
      obtain ⟨d, hd, hdx⟩ := List.mem_map.1 hxt
      have hdc : d ≠ c := fun h => hxb (by rw [← hdx, h, hbh])
      have hsz : d.size ≠ c.size := fun h =>
        hdc (List.inj_on_of_nodup_map hinv.index.sizes_nodup hd hc h)
      have hxtag : blk_size (remove_free_block s (some b)) x = d.size := by
        apply blk_size_of_tag
        rw [tag_at_same hsame]
        exact hinv.index.tags d hd x (by rw [← hdx]; exact List.mem_cons_self _ _)
      rw [hxtag, hbtag]
      exact hsz
  · intro hnt
    exact f2 (fun h => hnt (f1.2 h))

set_option maxRecDepth 1000000 in
/-- Witness for C31: after `trace31` the tree entry is the block at word 9 and the block at word
25 is chained to it; after `remove_free_block 9` the index holds the block at word 25 alone. -/
theorem remove_exactly_one_witness :
    (9 ∈ index_blocks (run empty_state trace31).s) ∧
    ((run empty_state trace31).s.tree = [9]) ∧
    ((run empty_state trace31).s.next 9 = some 25) ∧
    (index_blocks (remove_free_block (run empty_state trace31).s (some 9)) = [25]) ∧
    ((∀ x, x ∈ index_blocks (remove_free_block (run empty_state trace31).s (some 9)) ↔
      (x ∈ index_blocks (run empty_state trace31).s ∧ x ≠ 9)) ∧
    (9 ∈ (run empty_state trace31).s.tree → ∀ n, (run empty_state trace31).s.next 9 = some n →
      (∀ x, x ∈ (remove_free_block (run empty_state trace31).s (some 9)).tree ↔
        (x = n ∨ (x ∈ (run empty_state trace31).s.tree ∧ x ≠ 9))) ∧
      blk_size (remove_free_block (run empty_state trace31).s (some 9)) n = blk_size (run empty_state trace31).s 9 ∧
      (remove_free_block (run empty_state trace31).s (some 9)).prev n = none ∧
      chain_of (remove_free_block (run empty_state trace31).s (some 9))
          (remove_free_block (run empty_state trace31).s (some 9)).brk n
        = (chain_of (run empty_state trace31).s (run empty_state trace31).s.brk 9).tail) ∧
    (9 ∈ (run empty_state trace31).s.tree → (run empty_state trace31).s.next 9 = none →
      (∀ x, x ∈ (remove_free_block (run empty_state trace31).s (some 9)).tree ↔
        (x ∈ (run empty_state trace31).s.tree ∧ x ≠ 9)) ∧
      (∀ x ∈ (remove_free_block (run empty_state trace31).s (some 9)).tree,
        blk_size (remove_free_block (run empty_state trace31).s (some 9)) x ≠ blk_size (run empty_state trace31).s 9)) ∧
    (9 ∉ (run empty_state trace31).s.tree → (remove_free_block (run empty_state trace31).s (some 9)).tree = (run empty_state trace31).s.tree)) :=
  ⟨by decide, by decide, by decide, by decide,
    remove_exactly_one empty_state trace31 9 (by decide)⟩

/-- When a free block is large enough, `mm_malloc` takes one out of the index and places the
request in it. -/
theorem mm_malloc_fit_state {s : State} {l : List Blk} {cs : List Chain} {n : Nat}
    (hinv : Inv s l cs) (hn : n ≠ 0) (hex : ∃ x z, Blk.mk x z false ∈ l ∧ awords_of s n ≤ z) :
    ∃ b z l1 l2 cs1 cs', l = l1 ++ Blk.mk b z false :: l2 ∧ awords_of s n ≤ z ∧
      mm_malloc s n =
        (some (b + 1), place (remove_free_block (profile s n).2 (some b)) b (awords_of s n)) ∧
      Focus (remove_free_block (profile s n).2 (some b)) l1 b z l2 cs1 ∧
      Inv (mm_malloc s n).2 (placed l1 b z (awords_of s n) l2) cs' ∧
      (∀ x ∈ l1.getLast?, x.used = true) ∧ (∀ y ∈ l2.head?, y.used = true) := by
  obtain ⟨p1, p2, p3, p4, p5⟩ := profile_frame s n
  have hinv1 : Inv (profile s n).2 l cs := Inv_congr p1 p2 p3 p4 p5 hinv
  obtain ⟨a8, aev, alt⟩ := awords_props s n
  rcases find_fit_spec hinv1 alt with ⟨_, hsmall⟩ | ⟨b, z, l1, l2, cs1, hff, hl, hz, hfoc, hn1, hn2⟩
  · exfalso
    obtain ⟨x, z, hx, hz⟩ := hex
    have := hsmall x z hx
    omega
  · obtain ⟨cs3, q1, _, _⟩ := place_spec hfoc hn2 a8 aev hz
    have hmm : mm_malloc s n =
        (some (b + 1), place (remove_free_block (profile s n).2 (some b)) b (awords_of s n)) := by
      rw [mm_malloc_unfold s n hn, hff]
    refine ⟨b, z, l1, l2, cs1, cs3, hl, hz, hmm, hfoc, ?_, hn1, hn2⟩
    rw [hmm]
    exact q1

theorem lastFree_of_used {l : List Blk} (h : ∀ x ∈ l.getLast?, x.used = true) :
    lastFree l = 0 ∧ trimLast l = l := by
  unfold lastFree trimLast
  cases hl : l.getLast? with
  | none => exact ⟨rfl, rfl⟩
  | some x =>
    have := h x (by rw [hl]; rfl)
    simp only [this, if_true, and_self]

theorem headFree_of_used {l : List Blk} (h : ∀ x ∈ l.head?, x.used = true) :
    headFree l = 0 ∧ trimHead l = l := by
  unfold headFree trimHead
  cases hl : l.head? with
  | none => exact ⟨rfl, rfl⟩
  | some x =>
    have := h x (by rw [hl]; rfl)
    simp only [this, if_true, and_self]

/-- Freeing the block that `place` has just filled gives back the list of blocks. -/
theorem freed_placed {l1 l2 : List Blk} {b z aw : Nat} (hle : aw ≤ z)
    (h1 : ∀ x ∈ l1.getLast?, x.used = true) (h2 : ∀ y ∈ l2.head?, y.used = true) :
    (z - aw ≥ MIN_BLOCK_SIZE_WORDS →
      freed l1 b aw (Blk.mk (b + aw) (z - aw) false :: l2) = l1 ++ Blk.mk b z false :: l2) ∧
    freed l1 b z l2 = l1 ++ Blk.mk b z false :: l2 := by
  obtain ⟨e1, e2⟩ := lastFree_of_used h1
  obtain ⟨e3, e4⟩ := headFree_of_used h2
  constructor
  · intro _
    unfold freed
    rw [e1, e2, headFree_cons, trimHead_cons]
    simp only [Bool.false_eq_true, if_false, Nat.sub_zero, Nat.zero_add]
    have : aw + (z - aw) = z := by omega
    rw [this]
  · unfold freed
    rw [e1, e2, e3, e4]
    simp only [Nat.sub_zero, Nat.zero_add, Nat.add_zero]

/-- C37 (allocate-then-free round trip).  In a state reached from `mm_init` by `mm_malloc` and
`mm_free` calls, let the index hold a block that is large enough for the request `n > 0`.  Then
`mm_malloc n` returns a region `p` without extending the arena, and after the following
`mm_free p` the walk of the arena visits the same blocks as before the allocation, every one of
them with the same header and footer (size and allocation flag), the arena has its old extent,
and the index holds the same blocks as before. -/
theorem alloc_free_round_trip (s0 : State) (ops : List Op) (n : Nat) (h0 : 0 < n)
    (hfit : ∃ b ∈ index_blocks (run s0 ops).s,
      awords_of (run s0 ops).s n ≤ blk_size (run s0 ops).s b) :
    ∃ p, (mm_malloc (run s0 ops).s n).1 = some p ∧
      (mm_malloc (run s0 ops).s n).2.brk = (run s0 ops).s.brk ∧
      (mm_free (mm_malloc (run s0 ops).s n).2 (some p)).brk = (run s0 ops).s.brk ∧
      heap_blocks (mm_free (mm_malloc (run s0 ops).s n).2 (some p)) = heap_blocks (run s0 ops).s ∧
      (∀ bl, heap_blocks (run s0 ops).s = some bl → ∀ b ∈ bl,
        tag_at (mm_free (mm_malloc (run s0 ops).s n).2 (some p)) b = tag_at (run s0 ops).s b ∧
        tag_at (mm_free (mm_malloc (run s0 ops).s n).2 (some p)) (get_footer (run s0 ops).s b)
          = tag_at (run s0 ops).s (get_footer (run s0 ops).s b)) ∧
      (∀ x, x ∈ index_blocks (mm_free (mm_malloc (run s0 ops).s n).2 (some p)) ↔
        x ∈ index_blocks (run s0 ops).s) := by
  obtain ⟨l, cs, hinv, _⟩ := DInv_run s0 ops
  generalize (run s0 ops).s = s at hfit hinv ⊢
  have hn : n ≠ 0 := by omega
  have hex : ∃ x z, Blk.mk x z false ∈ l ∧ awords_of s n ≤ z := by
    obtain ⟨b, hb, hle⟩ := hfit
    obtain ⟨z, hz⟩ := (mem_index_blocks hinv b).1 hb
    rw [free_blk_size hinv hz] at hle
    exact ⟨b, z, hz, hle⟩
  obtain ⟨_, _, _, _, _, _, hbrk⟩ := mm_malloc_fit hinv hn hex
  obtain ⟨b, z, l1, l2, cs1, cs', hl, hz, hmm, hfoc, hinv', h1, h2⟩ := mm_malloc_fit_state hinv hn hex
  subst hl
  obtain ⟨fp1, fp2⟩ := @freed_placed l1 l2 b z (awords_of s n) hz h1 h2
  have hfin : ∃ cs2, Inv (mm_free (mm_malloc s n).2 (some (b + 1))) (l1 ++ Blk.mk b z false :: l2) cs2 ∧
      (mm_free (mm_malloc s n).2 (some (b + 1))).brk = (mm_malloc s n).2.brk := by
    unfold placed at hinv'
    by_cases hsplit : z - awords_of s n ≥ MIN_BLOCK_SIZE_WORDS
    · rw [if_pos hsplit] at hinv'
      obtain ⟨cs2, q1, q2, _⟩ := mm_free_spec hinv'
      rw [fp1 hsplit] at q1
      exact ⟨cs2, q1, q2.1⟩
    · rw [if_neg hsplit] at hinv'
      obtain ⟨cs2, q1, q2, _⟩ := mm_free_spec hinv'
      rw [fp2] at q1
      exact ⟨cs2, q1, q2.1⟩
  obtain ⟨cs2, hfin, hbrk2⟩ := hfin
  refine ⟨b + 1, by rw [hmm], hbrk, by rw [hbrk2, hbrk], ?_, ?_, ?_⟩
  · rw [heap_blocks_of_Inv hfin, heap_blocks_of_Inv hinv]
  · intro bl hbl x hx
    rw [heap_blocks_of_Inv hinv] at hbl
    have hbl' := Option.some.inj hbl
    rw [← hbl'] at hx
    obtain ⟨B, hB, hBx⟩ := List.mem_map.1 hx
    obtain ⟨_, _, _, _, t5, t6⟩ := Tiles_mem hinv.tiles hB
    obtain ⟨_, _, _, _, u5, u6⟩ := Tiles_mem hfin.tiles hB
    rw [hBx] at t5 t6 u5 u6
    have htag : tag_at s x = { inuse := B.used, size := (B.size : Int) } := t5
    have hft : get_footer s x = x + B.size - 1 := by
      unfold get_footer
      rw [htag]
      simp only
      omega
    rw [hft]
    exact ⟨u5.trans t5.symm, u6.trans t6.symm⟩
  · intro x
    rw [mem_index_blocks hfin, mem_index_blocks hinv]

set_option maxRecDepth 1000000 in
/-- Witness for C37: on the fresh arena a request of 24 bytes (8 words) fits the free block of 16
words at word 1, which is split; the following `mm_free` merges the two halves again. -/
theorem alloc_free_round_trip_witness :
    (0 < 24) ∧
    (∃ b ∈ index_blocks (run empty_state []).s,
      awords_of (run empty_state []).s 24 ≤ blk_size (run empty_state []).s b) ∧
    (index_blocks (run empty_state []).s = [1]) ∧
    ((mm_malloc (run empty_state []).s 24).1 = some 2) ∧
    (index_blocks (mm_malloc (run empty_state []).s 24).2 = [9]) ∧
    (∃ p, (mm_malloc (run empty_state []).s 24).1 = some p ∧
      (mm_malloc (run empty_state []).s 24).2.brk = (run empty_state []).s.brk ∧
      (mm_free (mm_malloc (run empty_state []).s 24).2 (some p)).brk = (run empty_state []).s.brk ∧
      heap_blocks (mm_free (mm_malloc (run empty_state []).s 24).2 (some p)) = heap_blocks (run empty_state []).s ∧
      (∀ bl, heap_blocks (run empty_state []).s = some bl → ∀ b ∈ bl,
        tag_at (mm_free (mm_malloc (run empty_state []).s 24).2 (some p)) b = tag_at (run empty_state []).s b ∧
        tag_at (mm_free (mm_malloc (run empty_state []).s 24).2 (some p)) (get_footer (run empty_state []).s b)
          = tag_at (run empty_state []).s (get_footer (run empty_state []).s b)) ∧
      (∀ x, x ∈ index_blocks (mm_free (mm_malloc (run empty_state []).s 24).2 (some p)) ↔
        x ∈ index_blocks (run empty_state []).s)) :=
  ⟨by decide, by decide, by decide, by decide, by decide,
    alloc_free_round_trip empty_state ([]) 24 (by decide) (by decide)⟩

theorem link_changed_trans {s s1 s2 : State} {x : Nat} (h : link_changed s s2 x) :
    link_changed s s1 x ∨ link_changed s1 s2 x := by
  unfold link_changed at *
  by_contra hc
  push_neg at hc
  obtain ⟨⟨a1, a2⟩, b1, b2⟩ := hc
  rcases h with h | h
  · exact h (b1.trans a1)
  · exact h (b2.trans a2)

theorem link_changed_of_eq {s s' t t' : State} {x : Nat} (h1 : t.prev = s.prev) (h2 : t.next = s.next)
    (h3 : t'.prev = s'.prev) (h4 : t'.next = s'.next) (h : link_changed t t' x) : link_changed s s' x := by
  unfold link_changed at *
  rw [h1, h2, h3, h4] at h
  exact h

theorem RB_INSERT_links (s : State) (e : Nat) :
    (RB_INSERT s e).prev = s.prev ∧ (RB_INSERT s e).next = s.next := by
  unfold RB_INSERT
  cases RB_FIND s (tag_at s e).size <;> exact ⟨rfl, rfl⟩

theorem remove_links {s : State} {b x : Nat}
    (h : link_changed s (remove_free_block s (some b)) x) :
    x = b ∨ s.prev b = some x ∨ s.next b = some x := by
  by_contra hc
  push_neg at hc
  obtain ⟨hxb, hp, hn⟩ := hc
  unfold link_changed remove_free_block at h
  cases hpb : s.prev b with
  | none =>
    cases hnb : s.next b with
    | none =>
      simp only [hpb, hnb] at h
      rcases h with h | h <;> exact h rfl
    | some n =>
      have hxn : x ≠ n := fun e => hn (by rw [hnb, e])
      simp only [hpb, hnb, (RB_INSERT_links _ _).1, (RB_INSERT_links _ _).2] at h
      rcases h with h | h
      · apply h
        show upd s.prev n none x = s.prev x
        rw [upd_other _ _ _ _ hxn]
      · apply h
        show upd s.next b none x = s.next x
        rw [upd_other _ _ _ _ hxb]
  | some p =>
    have hxp : x ≠ p := fun e => hp (by rw [hpb, e])
    cases hnb : s.next b with
    | none =>
      simp only [hpb, hnb] at h
      rcases h with h | h
      · apply h
        show upd s.prev b none x = s.prev x
        rw [upd_other _ _ _ _ hxb]
      · apply h
        show upd s.next p none x = s.next x
        rw [upd_other _ _ _ _ hxp]
    | some n =>
      have hxn : x ≠ n := fun e => hn (by rw [hnb, e])
      simp only [hpb, hnb] at h
      rcases h with h | h
      · apply h
        show upd (upd s.prev n (some p)) b none x = s.prev x
        rw [upd_other _ _ _ _ hxb, upd_other _ _ _ _ hxn]
      · apply h
        show upd (upd s.next p (some n)) b none x = s.next x
        rw [upd_other _ _ _ _ hxb, upd_other _ _ _ _ hxp]

theorem add_links {s : State} {b x : Nat}
    (h : link_changed s (add_free_block s (some b)) x) :
    x = b ∨ RB_FIND s (tag_at s b).size = some x ∨
      ∃ e, RB_FIND s (tag_at s b).size = some e ∧ s.next e = some x := by
  by_contra hc
  push_neg at hc
  obtain ⟨hxb, hf, hn⟩ := hc
  unfold link_changed add_free_block at h
  cases hfb : RB_FIND s (tag_at s b).size with
  | none =>
    simp only [hfb, (RB_INSERT_links _ _).1, (RB_INSERT_links _ _).2] at h
    rcases h with h | h
    · apply h
      show upd s.prev b none x = s.prev x
      rw [upd_other _ _ _ _ hxb]
    · apply h
      show upd s.next b none x = s.next x
      rw [upd_other _ _ _ _ hxb]
  | some e =>
    have hxe : x ≠ e := fun e' => hf (by rw [hfb, e'])
    cases hne : s.next e with
    | none =>
      simp only [hfb, hne] at h
      rcases h with h | h
      · apply h
        show upd s.prev b (some e) x = s.prev x
        rw [upd_other _ _ _ _ hxb]
      · apply h
        show upd (upd s.next b none) e (some b) x = s.next x
        rw [upd_other _ _ _ _ hxe, upd_other _ _ _ _ hxb]
    | some n =>
      have hxn : x ≠ n := fun e' => hn e hfb (by rw [hne, e'])
      simp only [hfb, hne] at h
      rcases h with h | h
      · apply h
        show upd (upd s.prev n (some b)) b (some e) x = s.prev x
        rw [upd_other _ _ _ _ hxb, upd_other _ _ _ _ hxn]
      · apply h
        show upd (upd s.next b (some n)) e (some b) x = s.next x
        rw [upd_other _ _ _ _ hxe, upd_other _ _ _ _ hxb]

/-- In a well-formed index, `remove_free_block` of an indexed block writes only the links of
indexed blocks.  The state `t` may differ from `s` in the heap. -/
theorem remove_links_index {s t : State} {cs : List Chain} {b x : Nat} (hi : IndexOK s cs)
    (hp : t.prev = s.prev) (hn : t.next = s.next)
    (hb : b ∈ cs.flatMap Chain.blocks)
    (h : link_changed t (remove_free_block t (some b)) x) : x ∈ cs.flatMap Chain.blocks := by
  obtain ⟨c, hc, hbc⟩ := List.mem_flatMap.1 hb
  have hl := hi.linked c hc
  have key : x ∈ c.blocks := by
    rcases remove_links h with h | h | h
    · rw [h]; exact hbc
    · rw [hp] at h
      simp only [Chain.blocks] at hl hbc ⊢
      rcases List.mem_cons.1 hbc with e | e
      · rw [e, hl.1] at h
        exact absurd h (by simp)
      · obtain ⟨p, hp1, hp2⟩ := Linked_prev_mem hl e
        rw [hp1] at h
        rw [← Option.some.inj h]
        exact hp2
    · rw [hn] at h
      exact Linked_next_mem hl hbc h
  exact List.mem_flatMap.2 ⟨c, hc, key⟩

/-- In a well-formed index, `add_free_block` writes only the links of the added block and of
indexed blocks.  The state `t` may differ from `s` in the heap. -/
theorem add_links_index {s t : State} {cs : List Chain} {b x : Nat} (hi : IndexOK s cs)
    (ht : t.tree = s.tree) (hn : t.next = s.next)
    (h : link_changed t (add_free_block t (some b)) x) : x = b ∨ x ∈ cs.flatMap Chain.blocks := by
  have hhead : ∀ e, RB_FIND t (tag_at t b).size = some e → ∃ c ∈ cs, e = c.head := by
    intro e he
    unfold RB_FIND at he
    have := List.mem_of_find?_eq_some he
    rw [ht, hi.tree_eq] at this
    obtain ⟨c, hc, hce⟩ := List.mem_map.1 this
    exact ⟨c, hc, hce.symm⟩
  rcases add_links h with h | h | ⟨e, he, h⟩
  · exact Or.inl h
  · obtain ⟨c, hc, hce⟩ := hhead x h
    exact Or.inr (List.mem_flatMap.2 ⟨c, hc, by rw [hce]; exact List.mem_cons_self _ _⟩)
  · obtain ⟨c, hc, hce⟩ := hhead e he
    rw [hn] at h
    have := Linked_next_mem (hi.linked c hc) (show e ∈ c.blocks by rw [hce]; exact List.mem_cons_self _ _) h
    exact Or.inr (List.mem_flatMap.2 ⟨c, hc, this⟩)

theorem coalesce_links_shape (s : State) (bp : Nat) :
    ∃ t : State, (coalesce s bp).2.prev = t.prev ∧ (coalesce s bp).2.next = t.next ∧
      (t = s ∨
       (blk_free s (next_blk s bp) = true ∧ t = remove_free_block s (some (next_blk s bp))) ∨
       ((tag_at s (prev_blk_footer bp)).inuse = false ∧ t = remove_free_block s (some (prev_blk s bp))) ∨
       (blk_free s (next_blk s bp) = true ∧ (tag_at s (prev_blk_footer bp)).inuse = false ∧
         t = remove_free_block (remove_free_block s (some (next_blk s bp))) (some (prev_blk s bp)))) := by
  unfold coalesce
  simp only
  cases hp : (tag_at s (prev_blk_footer bp)).inuse <;> cases hn : blk_free s (next_blk s bp) <;>
    simp only [Bool.not_true, Bool.not_false, Bool.and_self, Bool.and_true, Bool.and_false,
      Bool.true_and, Bool.false_and, if_true, if_false, Bool.false_eq_true]
  · exact ⟨remove_free_block s (some (prev_blk s bp)), rfl, rfl,
      Or.inr (Or.inr (Or.inl ⟨trivial, rfl⟩))⟩
  · exact ⟨remove_free_block (remove_free_block s (some (next_blk s bp))) (some (prev_blk s bp)),
      rfl, rfl, Or.inr (Or.inr (Or.inr ⟨trivial, trivial, rfl⟩))⟩
  · exact ⟨s, rfl, rfl, Or.inl rfl⟩
  · exact ⟨remove_free_block s (some (next_blk s bp)), rfl, rfl, Or.inr (Or.inl ⟨trivial, rfl⟩)⟩

/-- The call of `coalesce` on the block in focus writes only the links of indexed blocks. -/
theorem coalesce_links {s : State} {l1 l2 : List Blk} {a sz : Nat} {cs : List Chain} {x : Nat}
    (hf : Focus s l1 a sz l2 cs) (h : link_changed s (coalesce s a).2 x) :
    x ∈ cs.flatMap Chain.blocks := by
  obtain ⟨L1, L2, L3, L4, L5, L6, L7, L8, L9⟩ := left_neighbour hf.pro hf.tiles1 hf.noadj1
  obtain ⟨R1, R2, R3, R4, R5, R6, R7, R8⟩ := right_neighbour hf.epi hf.tiles2 hf.noadj2
  have hnext : next_blk s a = a + sz := next_blk_of_tag hf.hd
  have hpf : prev_blk_footer a = a - 1 := rfl
  have hfree : blk_free s (a + sz) = !decide (headFree l2 = 0) := by
    unfold blk_free; rw [R1]
  have hmemn : headFree l2 ≠ 0 → (a + sz) ∈ cs.flatMap Chain.blocks := by
    intro hR
    apply idx_mem_iff_flatMap.1
    exact ⟨headFree l2, (hf.compl _ _).2 (List.mem_append_right _ ((R8 _).2 (Or.inr ⟨hR, rfl⟩)))⟩
  have hmemp : lastFree l1 ≠ 0 → (a - lastFree l1) ∈ cs.flatMap Chain.blocks := by
    intro hL
    apply idx_mem_iff_flatMap.1
    exact ⟨lastFree l1, (hf.compl _ _).2 (List.mem_append_left _ ((L9 _).2 (Or.inr ⟨hL, rfl⟩)))⟩
  have hprev : lastFree l1 ≠ 0 → prev_blk s a = a - lastFree l1 := fun hL =>
    prev_blk_of_tag (L2 hL) (by omega)
  have hRof : blk_free s (next_blk s a) = true → headFree l2 ≠ 0 := by
    intro hb hR
    rw [hnext, hfree, hR] at hb
    simp at hb
  have hLof : (tag_at s (prev_blk_footer a)).inuse = false → lastFree l1 ≠ 0 := by
    intro hb hL
    rw [hpf, L1, hL] at hb
    simp at hb
  obtain ⟨t, e1, e2, ht⟩ := coalesce_links_shape s a
  have h' : link_changed s t x := link_changed_of_eq rfl rfl e1 e2 h
  rcases ht with ht | ⟨hn, ht⟩ | ⟨hp, ht⟩ | ⟨hn, hp, ht⟩
  · subst ht
    rcases h' with h' | h' <;> exact absurd rfl h'
  · subst ht
    rw [hnext] at h'
    exact remove_links_index hf.index rfl rfl (hmemn (hRof hn)) h'
  · subst ht
    rw [hprev (hLof hp)] at h'
    exact remove_links_index hf.index rfl rfl (hmemp (hLof hp)) h'
  · subst ht
    rw [hnext, hprev (hLof hp)] at h'
    have hR := hRof hn
    have hL := hLof hp
    obtain ⟨cs1, hi1, hm1⟩ := remove_free_block_spec hf.index (hmemn hR)
    have hmemp1 : (a - lastFree l1) ∈ cs1.flatMap Chain.blocks := by
      apply idx_mem_iff_flatMap.1
      obtain ⟨z, hz⟩ := idx_mem_iff_flatMap.2 (hmemp hL)
      exact ⟨z, (hm1 _ _).2 ⟨hz, by omega⟩⟩
    rcases @link_changed_trans _ (remove_free_block s (some (a + sz))) _ _ h' with k | k
    · exact remove_links_index hf.index rfl rfl (hmemn hR) k
    · have := remove_links_index hi1 rfl rfl hmemp1 k
      obtain ⟨z, hz⟩ := idx_mem_iff_flatMap.2 this
      exact idx_mem_iff_flatMap.1 ⟨z, ((hm1 _ _).1 hz).1⟩

/-- The call of `place` on the block in focus writes only the links of the split-off remainder
and of indexed blocks. -/
theorem place_links {s : State} {l1 l2 : List Blk} {a sz asize : Nat} {cs : List Chain} {x : Nat}
    (hf : Focus s l1 a sz l2 cs) (h8 : 8 ≤ asize) (hle : asize ≤ sz)
    (h : link_changed s (place s a asize) x) :
    (sz - asize ≥ MIN_BLOCK_SIZE_WORDS ∧ x = a + asize) ∨ x ∈ cs.flatMap Chain.blocks := by
  have hsize : blk_size s a = sz := blk_size_of_tag hf.hd
  have hszlt : sz < 2 ^ 30 := tag_size_lt hf.hd
  have ha : 1 ≤ a := Tiles_le hf.tiles1
  unfold place at h
  simp only [hsize, sub32_small sz asize hle (by omega)] at h
  by_cases hsplit : sz - asize ≥ MIN_BLOCK_SIZE_WORDS
  · rw [if_pos hsplit] at h
    have h8' : sz - asize ≥ 8 := hsplit
    rw [mark_block_used_eq _ _ _ (by omega) (by omega)] at h
    have hnext : next_blk { s with heap := write_tags s.heap a asize true } a = a + asize := by
      apply next_blk_of_tag (u := true)
      rw [tag_at_heap]; exact write_tags_hd _ _ _ _ (by omega)
    rw [hnext, mark_block_free_eq _ (a + asize) (sz - asize) (by omega) (by omega)] at h
    have k : link_changed
        { s with heap := write_tags (write_tags s.heap a asize true) (a + asize) (sz - asize) false }
        (add_free_block
          { s with heap := write_tags (write_tags s.heap a asize true) (a + asize) (sz - asize) false }
          (some (a + asize))) x := h
    have key := fun h1 h2 => @add_links_index s _ cs (a + asize) x hf.index h1 h2 k
    rcases key rfl rfl with e | e
    · exact Or.inl ⟨hsplit, e⟩
    · exact Or.inr e
  · rw [if_neg hsplit, mark_block_used_eq _ _ _ (by omega) (by omega)] at h
    have k : link_changed s s x := h
    rcases k with k | k <;> exact absurd rfl k

/-- The state in which `extend_heap` calls `coalesce` has the new block in focus. -/
theorem focus_extended {s : State} {l : List Blk} {cs : List Chain} {words : Nat}
    (hinv : Inv s l cs) (hw2 : 2 ≤ words) (hev : words % 2 = 0)
    (hfit : ¬ (s.brk * 4 + words * 4 > MAX_HEAP)) :
    Focus (extended s words) l (s.brk - 1) words [] cs := by
  have hmax : MAX_HEAP = 1024 * 2 ^ 20 := rfl
  have hfit2 := hfit
  rw [hmax] at hfit2
  have hbg := hinv.brk_ge
  have hle := Tiles_le hinv.tiles
  unfold extended
  refine ⟨?_, ?_, ?_, ?_, ?_, hw2, hev, ?_, ?_, ?_, hinv.noadj, List.chain'_nil, ?_, ?_⟩
  · show 2 ≤ s.brk + words
    omega
  · show (s.brk + words) * WSIZE ≤ MAX_HEAP
    rw [hmax]; unfold WSIZE; omega
  · show word_tag (upd (write_tags s.heap (s.brk - 1) words false) (s.brk - 1 + words) (tag_word FENCE) 0)
      = FENCE
    rw [upd_other _ _ _ _ (by omega), write_tags_other _ _ _ _ _ (by omega) (by omega)]
    exact hinv.pro
  · show word_tag (upd (write_tags s.heap (s.brk - 1) words false) (s.brk - 1 + words) (tag_word FENCE)
      (s.brk + words - 1)) = FENCE
    have : s.brk + words - 1 = s.brk - 1 + words := by omega
    rw [this, upd_same]
    exact word_tag_FENCE
  · apply Tiles_congr _ hinv.tiles
    intro w _ hw
    show upd (write_tags s.heap (s.brk - 1) words false) (s.brk - 1 + words) _ w = s.heap w
    rw [upd_other _ _ _ _ (by omega), write_tags_other _ _ _ _ _ (by omega) (by omega)]
  · show word_tag (upd (write_tags s.heap (s.brk - 1) words false) (s.brk - 1 + words) (tag_word FENCE)
      (s.brk - 1)) = _
    rw [upd_other _ _ _ _ (by omega)]
    exact write_tags_hd _ _ _ _ (by omega)
  · show word_tag (upd (write_tags s.heap (s.brk - 1) words false) (s.brk - 1 + words) (tag_word FENCE)
      (s.brk - 1 + words - 1)) = _
    rw [upd_other _ _ _ _ (by omega)]
    exact write_tags_ft _ _ _ _ (by omega)
  · show s.brk - 1 + words = s.brk + words - 1
    omega
  · refine IndexOK_heap_congr (s := s) rfl rfl rfl ?_ hinv.index
    intro b hb
    obtain ⟨z, hz⟩ := idx_mem_iff_flatMap.2 hb
    have := Tiles_mem hinv.tiles ((hinv.compl b z).1 hz)
    simp only at this
    show upd (write_tags s.heap (s.brk - 1) words false) (s.brk - 1 + words) _ b = s.heap b
    rw [upd_other _ _ _ _ (by omega), write_tags_other _ _ _ _ _ (by omega) (by omega)]
  · intro b z
    rw [hinv.compl, List.append_nil]

/-- A successful `extend_heap` writes only the links of indexed blocks. -/
theorem extend_links {s : State} {l : List Blk} {cs : List Chain} {words x : Nat}
    (hinv : Inv s l cs) (hw2 : 2 ≤ words) (hev : words % 2 = 0)
    (hfit : ¬ (s.brk * 4 + words * 4 > MAX_HEAP))
    (h : link_changed s (extend_heap s words).2 x) : x ∈ cs.flatMap Chain.blocks := by
  rw [extend_heap_unfold s words hw2 hev hinv.brk_ge hfit] at h
  have h2 : link_changed (extended s words) (coalesce (extended s words) (s.brk - 1)).2 x := h
  exact coalesce_links (focus_extended hinv hw2 hev hfit) h2

/-- When no free block is large enough, `mm_malloc` extends the arena by the shortfall beyond
the last free block and places the request in the block that `extend_heap` returns, or leaves
everything but the trackers as it was when the arena cannot grow. -/
theorem mm_malloc_nofit_state {s : State} {l : List Blk} {cs : List Chain} {n : Nat}
    (hinv : Inv s l cs) (hn : n ≠ 0) (hsmall : ∀ b z, Blk.mk b z false ∈ l → z < awords_of s n) :
    2 ≤ awords_of s n - lastFree l ∧ (awords_of s n - lastFree l) % 2 = 0 ∧
    (s.brk * 4 + (awords_of s n - lastFree l) * 4 > MAX_HEAP → (mm_malloc s n).2 = (profile s n).2) ∧
    (¬ (s.brk * 4 + (awords_of s n - lastFree l) * 4 > MAX_HEAP) →
      (mm_malloc s n).2 = place (extend_heap (profile s n).2 (awords_of s n - lastFree l)).2
        (s.brk - 1 - lastFree l) (awords_of s n) ∧
      ∃ cs2, Focus (extend_heap (profile s n).2 (awords_of s n - lastFree l)).2 (trimLast l)
          (s.brk - 1 - lastFree l) (awords_of s n) [] cs2 ∧
        (∀ x z, idx_mem cs2 x z → idx_mem cs x z)) := by
  obtain ⟨p1, p2, p3, p4, p5⟩ := profile_frame s n
  have hinv1 : Inv (profile s n).2 l cs := Inv_congr p1 p2 p3 p4 p5 hinv
  obtain ⟨a8, aev, alt⟩ := awords_props s n
  obtain ⟨hlf, _, _, hew, _⟩ := extend_words_eq hinv hsmall
  obtain ⟨_, _, _, L4, L5, _⟩ := left_neighbour hinv.pro hinv.tiles hinv.noadj
  have hff : find_fit (profile s n).2 (awords_of s n) = (none, (profile s n).2) := by
    rcases find_fit_spec hinv1 alt with ⟨hff, _⟩ | ⟨b, z, l1, l2, cs1, _, hl, hz, _, _, _⟩
    · exact hff
    · have := hsmall b z (by rw [hl]; simp)
      omega
  have hmm := mm_malloc_unfold s n hn
  rw [hff] at hmm
  simp only at hmm
  rw [hew] at hmm
  refine ⟨by omega, by omega, ?_, ?_⟩
  · intro hfull
    have hfull1 : (profile s n).2.brk * 4 + (awords_of s n - lastFree l) * 4 > MAX_HEAP := by
      rw [p2]; exact hfull
    rw [hmm, extend_heap_fail (by omega) (by omega) hfull1]
  · intro hfit
    have hfit1 : ¬ ((profile s n).2.brk * 4 + (awords_of s n - lastFree l) * 4 > MAX_HEAP) := by
      rw [p2]; exact hfit
    obtain ⟨cs2, e1, e2, e3, _, _, _, _, _, e9⟩ := extend_heap_spec hinv1 (by omega) (by omega) hfit1
    have hsum : lastFree l + (awords_of s n - lastFree l) = awords_of s n := by omega
    rw [hsum] at e2
    rw [p2] at e1 e2
    have hres : extend_heap (profile s n).2 (awords_of s n - lastFree l) =
        (some (s.brk - 1 - lastFree l), (extend_heap (profile s n).2 (awords_of s n - lastFree l)).2) := by
      rw [← e1]
    refine ⟨?_, cs2, e2, e9⟩
    rw [hmm, hres]

/-- Every block whose `prev` or `next` field `mm_malloc` writes is in the index before or after
the call. -/
theorem mm_malloc_links {s : State} {l : List Blk} {cs : List Chain} {n x : Nat}
    (hinv : Inv s l cs) (hn : n ≠ 0) (h : link_changed s (mm_malloc s n).2 x) :
    x ∈ index_blocks s ∨ x ∈ index_blocks (mm_malloc s n).2 := by
  obtain ⟨p1, p2, p3, p4, p5⟩ := profile_frame s n
  have hinv1 : Inv (profile s n).2 l cs := Inv_congr p1 p2 p3 p4 p5 hinv
  obtain ⟨a8, aev, alt⟩ := awords_props s n
  have hcs : ∀ y, y ∈ cs.flatMap Chain.blocks → y ∈ index_blocks s := by
    intro y hy
    rw [index_blocks_of_Inv hinv]; exact hy
  have hps : ∀ t : State, link_changed s t x → link_changed (profile s n).2 t x := fun t ht =>
    @link_changed_of_eq _ _ s t x p4.symm p5.symm rfl rfl ht
  by_cases hex : ∃ x z, Blk.mk x z false ∈ l ∧ awords_of s n ≤ z
  · obtain ⟨b, z, l1, l2, cs1, cs', hl, hz, hmm, hfoc, hinv', h1, h2⟩ := mm_malloc_fit_state hinv hn hex
    have hb : b ∈ cs.flatMap Chain.blocks :=
      idx_mem_iff_flatMap.1 ⟨z, (hinv.compl b z).2 (by rw [hl]; simp)⟩
    have hst : (mm_malloc s n).2 = place (remove_free_block (profile s n).2 (some b)) b (awords_of s n) := by
      rw [hmm]
    rw [hst] at h
    rcases @link_changed_trans _ (remove_free_block (profile s n).2 (some b)) _ _ h with k | k
    · exact Or.inl (hcs x (remove_links_index hinv1.index rfl rfl hb (hps _ k)))
    · rcases place_links hfoc a8 hz k with ⟨hsplit, e⟩ | e
      · right
        rw [mem_index_blocks hinv']
        unfold placed
        rw [if_pos hsplit, e]
        exact ⟨z - awords_of s n, by simp⟩
      · left
        obtain ⟨z', hz'⟩ := idx_mem_iff_flatMap.2 e
        have := (hfoc.compl x z').1 hz'
        rw [mem_index_blocks hinv]
        refine ⟨z', ?_⟩
        rw [hl]
        rcases List.mem_append.1 this with m | m
        · exact List.mem_append_left _ m
        · exact List.mem_append_right _ (List.mem_cons_of_mem _ m)
  · have hsmall : ∀ b z, Blk.mk b z false ∈ l → z < awords_of s n := by
      intro b z hb
      by_contra hc
      exact hex ⟨b, z, hb, by omega⟩
    obtain ⟨w2, wev, f1, f2⟩ := mm_malloc_nofit_state hinv hn hsmall
    by_cases hfit : s.brk * 4 + (awords_of s n - lastFree l) * 4 > MAX_HEAP
    · rw [f1 hfit] at h
      have k := hps _ h
      rcases k with k | k <;> exact absurd rfl k
    · obtain ⟨hst, cs2, e2, e9⟩ := f2 hfit
      have hfit1 : ¬ ((profile s n).2.brk * 4 + (awords_of s n - lastFree l) * 4 > MAX_HEAP) := by
        rw [p2]; exact hfit
      rw [hst] at h
      left
      rcases @link_changed_trans _ (extend_heap (profile s n).2 (awords_of s n - lastFree l)).2 _ _ h
        with k | k
      · exact hcs x (extend_links hinv1 w2 wev hfit1 (hps _ k))
      · rcases place_links e2 a8 (le_refl _) k with ⟨hsplit, _⟩ | e
        · unfold MIN_BLOCK_SIZE_WORDS at hsplit
          omega
        · obtain ⟨z', hz'⟩ := idx_mem_iff_flatMap.2 e
          exact hcs x (idx_mem_iff_flatMap.1 ⟨z', e9 x z' hz'⟩)

/-- Every block whose `prev` or `next` field `mm_free` writes is in the index before or after
the call. -/
theorem mm_free_links {s : State} {l1 l2 : List Blk} {a sz : Nat} {cs : List Chain} {x : Nat}
    (hinv : Inv s (l1 ++ Blk.mk a sz true :: l2) cs)
    (h : link_changed s (mm_free s (some (a + 1))) x) :
    x ∈ index_blocks s ∨ x ∈ index_blocks (mm_free s (some (a + 1))) := by
  obtain ⟨m, t1, t2⟩ := Tiles_append.1 hinv.tiles
  obtain ⟨g1, g2, g3, g4, g5, g6⟩ := t2
  simp only at g1 g2 g3 g4 g5 g6
  subst g1
  have hsize : blk_size s a = sz := blk_size_of_tag (u := true) g4
  have hszlt : sz < 2 ^ 30 := tag_size_lt (s := s) (u := true) g4
  obtain ⟨n1, n2, _⟩ := List.chain'_append.1 hinv.noadj
  have hfoc : Focus { s with heap := write_tags s.heap a sz false } l1 a sz l2 cs := by
    refine Focus_of_write hinv.brk_ge hinv.brk_le hinv.pro hinv.epi t1 g6 (by omega) g3 n1
      (List.Chain'.tail n2) (same_arena_refl s) hinv.index ?_
    intro b z
    rw [hinv.compl]
    simp only [List.mem_append, List.mem_cons, Blk.mk.injEq, Bool.false_eq_true, and_false, false_or]
  obtain ⟨cs1, c1, c2, _, _, c5⟩ := coalesce_spec hfoc
  obtain ⟨cs', hinv', _, _⟩ := mm_free_spec hinv
  have hmm : mm_free s (some (a + 1)) =
      add_free_block (coalesce { s with heap := write_tags s.heap a sz false } a).2
        (some (a - lastFree l1)) := by
    unfold mm_free
    simp only [Nat.add_sub_cancel, hsize]
    rw [mark_block_free_eq _ _ _ (by omega) (by omega), c1]
  have hcs : ∀ y, y ∈ cs.flatMap Chain.blocks → y ∈ index_blocks s := by
    intro y hy
    rw [index_blocks_of_Inv hinv]; exact hy
  rcases @link_changed_trans _ (coalesce { s with heap := write_tags s.heap a sz false } a).2 _ _ h
    with k | k
  · have k' : link_changed { s with heap := write_tags s.heap a sz false }
        (coalesce { s with heap := write_tags s.heap a sz false } a).2 x := k
    exact Or.inl (hcs x (coalesce_links hfoc k'))
  · rw [hmm] at k
    rcases add_links_index c2.index rfl rfl k with e | e
    · right
      rw [mem_index_blocks hinv', e]
      unfold freed
      exact ⟨lastFree l1 + sz + headFree l2, by simp⟩
    · left
      obtain ⟨z', hz'⟩ := idx_mem_iff_flatMap.2 e
      exact hcs x (idx_mem_iff_flatMap.1 ⟨z', c5 x z' hz'⟩)

theorem index_free {s : State} {l : List Blk} {cs : List Chain} (hinv : Inv s l cs) {x : Nat}
    (hx : x ∈ index_blocks s) : blk_free s x = true := by
  obtain ⟨z, hz⟩ := (mem_index_blocks hinv x).1 hx
  exact ((blocks_of_Inv hinv).2 ⟨z, hz⟩).2

/-- C19 (lock discipline of the wrapper) fails on the code as stated: `mm_ts.c` has no wrapper
for `mm_init`.  From the start of a process, `mm_init` runs on the engine state without any lock
event, so its events do not follow the discipline; those of the three wrappers do. -/
theorem lock_discipline_counterexample :
    (mm_init_ts ts_start).2.log = [Event.engine Entry.init] ∧
    Event.lock ∉ (mm_init_ts ts_start).2.log ∧
    disciplined false (mm_init_ts ts_start).2.log = false ∧
    (mm_malloc_ts ts_start 24).map (fun r => disciplined false r.2.log) = some true := by
  refine ⟨rfl, by decide, rfl, rfl⟩

/-- C19 as amended.  With the wrapper enabled and the lock free, each of the wrappers
`mm_malloc`, `mm_free` and `mm_realloc` returns, with the result and the engine state of the
routine of `mm.c`, the lock free again, and exactly three new events: the lock is taken, the
routine of `mm.c` runs, the lock is released; this sequence follows the lock discipline, and it
is the only path through a wrapper.  `mm_init` has no wrapper: it runs on the engine state
without a lock event, whatever the state of the lock. -/
theorem lock_discipline (t : TsState) (size : Nat) (bp ptr : Option Nat) (hfree : t.held = false) :
    mm_malloc_ts t size = some ((mm_malloc t.s size).1,
      { s := (mm_malloc t.s size).2, held := false,
        log := t.log ++ [Event.lock, Event.engine (Entry.malloc size), Event.unlock] }) ∧
    mm_free_ts t bp = some
      { s := mm_free t.s bp, held := false,
        log := t.log ++ [Event.lock, Event.engine (Entry.free bp), Event.unlock] } ∧
    mm_realloc_ts t ptr size = some ((mm_realloc t.s ptr size).1,
      { s := (mm_realloc t.s ptr size).2, held := false,
        log := t.log ++ [Event.lock, Event.engine (Entry.realloc ptr size), Event.unlock] }) ∧
    (∀ e, disciplined false [Event.lock, Event.engine e, Event.unlock] = true) ∧
    mm_init_ts t = ((mm_init t.s).1,
      { s := (mm_init t.s).2, held := t.held, log := t.log ++ [Event.engine Entry.init] }) ∧
    disciplined false [Event.engine Entry.init] = false := by
  refine ⟨?_, ?_, ?_, fun _ => rfl, rfl, rfl⟩
  · unfold mm_malloc_ts pthread_mutex_lock
    rw [hfree]
    simp [engine_malloc, pthread_mutex_unlock]
  · unfold mm_free_ts pthread_mutex_lock
    rw [hfree]
    simp [engine_free, pthread_mutex_unlock]
  · unfold mm_realloc_ts pthread_mutex_lock
    rw [hfree]
    simp [engine_realloc, pthread_mutex_unlock]

set_option maxRecDepth 1000000 in
/-- Witness for C19 as amended: the start of a process, a request of 24 bytes, the release and
the resize of the region at word 2. -/
theorem lock_discipline_witness :
    (ts_start.held = false) ∧
    (mm_malloc_ts ts_start 24 = some ((mm_malloc ts_start.s 24).1,
      { s := (mm_malloc ts_start.s 24).2, held := false,
        log := ts_start.log ++ [Event.lock, Event.engine (Entry.malloc 24), Event.unlock] }) ∧
    mm_free_ts ts_start (some 2) = some
      { s := mm_free ts_start.s (some 2), held := false,
        log := ts_start.log ++ [Event.lock, Event.engine (Entry.free (some 2)), Event.unlock] } ∧
    mm_realloc_ts ts_start (some 2) 24 = some ((mm_realloc ts_start.s (some 2) 24).1,
      { s := (mm_realloc ts_start.s (some 2) 24).2, held := false,
        log := ts_start.log ++ [Event.lock, Event.engine (Entry.realloc (some 2) 24), Event.unlock] }) ∧
    (∀ e, disciplined false [Event.lock, Event.engine e, Event.unlock] = true) ∧
    mm_init_ts ts_start = ((mm_init ts_start.s).1,
      { s := (mm_init ts_start.s).2, held := ts_start.held, log := ts_start.log ++ [Event.engine Entry.init] }) ∧
    disciplined false [Event.engine Entry.init] = false) :=
  ⟨by decide,
    lock_discipline ts_start 24 ((some 2)) ((some 2)) (by decide)⟩

/-- The last branch of `mm_realloc`, reached when the block is too small, the right neighbour is
allocated and is not the fence, and the left neighbour cannot be used: with a failing
`mm_malloc` the result is null and the state is the one `mm_malloc` leaves. -/
theorem realloc_fallback_eq (s : State) (p n : Nat) (h0 : n ≠ 0)
    (c1 : ¬ adjust n ≤ mul32 (blk_size s (p - 1)) WSIZE)
    (c2 : blk_free s (next_blk s (p - 1)) = false)
    (c3 : ¬ (tag_at s (next_blk s (p - 1))).size = 0)
    (c4 : ¬ ((!(tag_at s (prev_blk_footer (p - 1))).inuse) = true ∧
      add32 (toSizeT ((tag_at s (prev_blk_footer (p - 1))).size * WSIZE))
        (mul32 (blk_size s (p - 1)) WSIZE) > adjust n))
    (hfail : (mm_malloc s n).1 = none) :
    mm_realloc s (some p) n = (none, (mm_malloc s n).2) := by
  unfold mm_realloc
  simp only [if_neg h0, if_neg c1, c2, Bool.false_eq_true, if_false, if_neg c3, if_neg c4]
  cases hm : mm_malloc s n with
  | mk o s1 =>
    rw [hm] at hfail
    simp only at hfail
    subst hfail
    rfl

/-- C15 (failed fallback of a resize).  In a state reached from `mm_init` by `mm_malloc` and
`mm_free` calls, let `r` be a live region whose block (`s` words) is smaller than the adjusted
size of `n > 0`, whose right neighbour is allocated and is not the right fence, and whose left
neighbour is allocated or, together with the block, not larger than the adjusted size: these are
the conditions under which `mm_realloc` reaches its allocate-copy-free fallback.  If the
`mm_malloc n` made there fails, `mm_realloc r n` returns null, the block of `r` is still marked
allocated with the tags it had, and the memory of the arena (every tag, every payload byte), the
arena extent and the index (tree entries and the `prev`/`next` chains) are as before. -/
theorem realloc_fallback_null (s0 : State) (ops : List Op) (r m n : Nat)
    (hr : (r, m) ∈ (run s0 ops).ranges) (h0 : 0 < n)
    (hgt : blk_size (run s0 ops).s (r - 1) < adjust n / WSIZE)
    (hnf : blk_free (run s0 ops).s (next_blk (run s0 ops).s (r - 1)) = false)
    (hnl : next_blk (run s0 ops).s (r - 1) ≠ (run s0 ops).s.brk - 1)
    (hleft : (tag_at (run s0 ops).s (prev_blk_footer (r - 1))).inuse = true ∨
      blk_size (run s0 ops).s (prev_blk (run s0 ops).s (r - 1)) + blk_size (run s0 ops).s (r - 1)
        ≤ adjust n / WSIZE)
    (hfail : (mm_malloc (run s0 ops).s n).1 = none) :
    (mm_realloc (run s0 ops).s (some r) n).1 = none ∧
    (tag_at (mm_realloc (run s0 ops).s (some r) n).2 (r - 1)).inuse = true ∧
    tag_at (mm_realloc (run s0 ops).s (some r) n).2 (r - 1) = tag_at (run s0 ops).s (r - 1) ∧
    tag_at (mm_realloc (run s0 ops).s (some r) n).2 (get_footer (run s0 ops).s (r - 1))
      = tag_at (run s0 ops).s (r - 1) ∧
    (mm_realloc (run s0 ops).s (some r) n).2.heap = (run s0 ops).s.heap ∧
    (mm_realloc (run s0 ops).s (some r) n).2.brk = (run s0 ops).s.brk ∧
    (mm_realloc (run s0 ops).s (some r) n).2.tree = (run s0 ops).s.tree ∧
    (mm_realloc (run s0 ops).s (some r) n).2.prev = (run s0 ops).s.prev ∧
    (mm_realloc (run s0 ops).s (some r) n).2.next = (run s0 ops).s.next := by
  obtain ⟨l, cs, hinv, ⟨_, hlive⟩, _, _⟩ := DInv_run s0 ops
  obtain ⟨hr1, z, hz, _⟩ := hlive _ hr
  simp only at hr1 hz
  generalize (run s0 ops).s = s at hinv hgt hnf hnl hleft hfail ⊢
  obtain ⟨l1, l2, hl⟩ := List.append_of_mem hz
  subst hl
  obtain ⟨m', t1, t2⟩ := Tiles_append.1 hinv.tiles
  obtain ⟨n1, n2, _⟩ := List.chain'_append.1 hinv.noadj
  obtain ⟨g1, g2, g3, g4, g5, g6⟩ := t2
  simp only at g1 g2 g3 g4 g5 g6
  subst g1
  have htag : tag_at s (r - 1) = { inuse := true, size := (z : Int) } := g4
  have hsize : blk_size s (r - 1) = z := blk_size_of_tag htag
  have hzlt : z < 2 ^ 30 := tag_size_lt htag
  have hnext : next_blk s (r - 1) = r - 1 + z := next_blk_of_tag htag
  have hft : get_footer s (r - 1) = r - 1 + z - 1 := by
    unfold get_footer
    rw [htag]
    simp only
    omega
  obtain ⟨L1, L2, L3, L4, L5, L6, L7, L8, L9⟩ := left_neighbour hinv.pro t1 n1
  obtain ⟨hadj8, hadjlt⟩ := adjust_props n
  rw [hsize] at hgt hleft
  rw [hnext] at hnf hnl
  have hold : mul32 z WSIZE = 4 * z := by unfold WSIZE; rw [mul32_small z 4 (by omega)]; omega
  have hA : adjust n = 4 * (adjust n / WSIZE) := by unfold WSIZE; omega
  have c1 : ¬ adjust n ≤ mul32 (blk_size s (r - 1)) WSIZE := by
    rw [hsize, hold]; omega
  have c3 : ¬ (tag_at s (next_blk s (r - 1))).size = 0 := by
    rw [hnext]
    cases l2 with
    | nil => exact absurd g6 hnl
    | cons Y L =>
      obtain ⟨y1, y2, _, y4, _, _⟩ := g6
      have : tag_at s (r - 1 + z) = { inuse := Y.used, size := (Y.size : Int) } := y4
      rw [this]
      simp only
      omega
  have c4 : ¬ ((!(tag_at s (prev_blk_footer (r - 1))).inuse) = true ∧
      add32 (toSizeT ((tag_at s (prev_blk_footer (r - 1))).size * WSIZE))
        (mul32 (blk_size s (r - 1)) WSIZE) > adjust n) := by
    rintro ⟨hu, hsum⟩
    have hpf : prev_blk_footer (r - 1) = r - 1 - 1 := rfl
    rw [hpf] at hu hsum hleft
    have hL : lastFree l1 ≠ 0 := by
      intro hL
      rw [L1, hL] at hu
      simp at hu
    have hptag := L2 hL
    have hprev : prev_blk s (r - 1) = r - 1 - lastFree l1 := prev_blk_of_tag hptag (by omega)
    have hpb : Blk.mk (r - 1 - lastFree l1) (lastFree l1) false ∈ l1 := (L9 _).2 (Or.inr ⟨hL, rfl⟩)
    have hpsz : blk_size s (r - 1 - lastFree l1) = lastFree l1 :=
      blk_size_of_tag (Tiles_mem t1 hpb).2.2.2.2.1
    have hlflt : lastFree l1 < 2 ^ 30 := tag_size_lt hptag
    rcases hleft with h | h
    · rw [hptag] at h
      simp at h
    · rw [hprev, hpsz] at h
      rw [hptag, hsize, hold] at hsum
      simp only at hsum
      have e : ((lastFree l1 : Nat) : Int) * ((WSIZE : Nat) : Int) = ((lastFree l1 * 4 : Nat) : Int) := by
        unfold WSIZE; push_cast; ring
      rw [e, toSizeT_ofNat _ (by omega), add32_small _ _ (by omega)] at hsum
      omega
  have heq := realloc_fallback_eq s r n (by omega) c1 (by rw [hnext]; exact hnf) c3 c4 hfail
  obtain ⟨f1, f2, f3, f4, f5⟩ := mm_malloc_none_state _ _ hfail
  rw [heq]
  have ht : ∀ w, tag_at (mm_malloc s n).2 w = tag_at s w := by
    intro w
    unfold tag_at
    rw [f1]
  refine ⟨rfl, ?_, ht _, ?_, f1, f2, f3, f4, f5⟩
  · show (tag_at (mm_malloc s n).2 (r - 1)).inuse = true
    rw [ht, htag]
  · show tag_at (mm_malloc s n).2 (get_footer s (r - 1)) = _
    rw [ht, hft, htag]
    exact g5

set_option maxRecDepth 1000000 in
/-- Witness for C15: after two requests of 24 bytes, resizing the first region (word 2) to
`2^30` bytes: the right neighbour is allocated, the left neighbour is the fence, and the arena
may not grow that far, so the `mm_malloc` of the fallback fails. -/
theorem realloc_fallback_null_witness :
    ((2, 24) ∈ (run empty_state [Op.alloc 24, Op.alloc 24]).ranges) ∧
    (0 < (2 ^ 30)) ∧
    (blk_size (run empty_state [Op.alloc 24, Op.alloc 24]).s (2 - 1) < adjust (2 ^ 30) / WSIZE) ∧
    (blk_free (run empty_state [Op.alloc 24, Op.alloc 24]).s (next_blk (run empty_state [Op.alloc 24, Op.alloc 24]).s (2 - 1)) = false) ∧
    (next_blk (run empty_state [Op.alloc 24, Op.alloc 24]).s (2 - 1) ≠ (run empty_state [Op.alloc 24, Op.alloc 24]).s.brk - 1) ∧
    ((tag_at (run empty_state [Op.alloc 24, Op.alloc 24]).s (prev_blk_footer (2 - 1))).inuse = true ∨
      blk_size (run empty_state [Op.alloc 24, Op.alloc 24]).s (prev_blk (run empty_state [Op.alloc 24, Op.alloc 24]).s (2 - 1)) + blk_size (run empty_state [Op.alloc 24, Op.alloc 24]).s (2 - 1)
        ≤ adjust (2 ^ 30) / WSIZE) ∧
    ((mm_malloc (run empty_state [Op.alloc 24, Op.alloc 24]).s (2 ^ 30)).1 = none) ∧
    ((mm_realloc (run empty_state [Op.alloc 24, Op.alloc 24]).s (some 2) (2 ^ 30)).1 = none ∧
    (tag_at (mm_realloc (run empty_state [Op.alloc 24, Op.alloc 24]).s (some 2) (2 ^ 30)).2 (2 - 1)).inuse = true ∧
    tag_at (mm_realloc (run empty_state [Op.alloc 24, Op.alloc 24]).s (some 2) (2 ^ 30)).2 (2 - 1) = tag_at (run empty_state [Op.alloc 24, Op.alloc 24]).s (2 - 1) ∧
    tag_at (mm_realloc (run empty_state [Op.alloc 24, Op.alloc 24]).s (some 2) (2 ^ 30)).2 (get_footer (run empty_state [Op.alloc 24, Op.alloc 24]).s (2 - 1))
      = tag_at (run empty_state [Op.alloc 24, Op.alloc 24]).s (2 - 1) ∧
    (mm_realloc (run empty_state [Op.alloc 24, Op.alloc 24]).s (some 2) (2 ^ 30)).2.heap = (run empty_state [Op.alloc 24, Op.alloc 24]).s.heap ∧
    (mm_realloc (run empty_state [Op.alloc 24, Op.alloc 24]).s (some 2) (2 ^ 30)).2.brk = (run empty_state [Op.alloc 24, Op.alloc 24]).s.brk ∧
    (mm_realloc (run empty_state [Op.alloc 24, Op.alloc 24]).s (some 2) (2 ^ 30)).2.tree = (run empty_state [Op.alloc 24, Op.alloc 24]).s.tree ∧
    (mm_realloc (run empty_state [Op.alloc 24, Op.alloc 24]).s (some 2) (2 ^ 30)).2.prev = (run empty_state [Op.alloc 24, Op.alloc 24]).s.prev ∧
    (mm_realloc (run empty_state [Op.alloc 24, Op.alloc 24]).s (some 2) (2 ^ 30)).2.next = (run empty_state [Op.alloc 24, Op.alloc 24]).s.next) :=
  ⟨by decide, by decide, by decide, by decide, by decide, by decide, by decide,
    realloc_fallback_null empty_state ([Op.alloc 24, Op.alloc 24]) 2 24 ((2 ^ 30)) (by decide) (by decide) (by decide) (by decide) (by decide) (by decide) (by decide)⟩

theorem mem_link_fields {b w : Nat} : w ∈ link_fields b ↔ (b + 1 ≤ w ∧ w ≤ b + 6) := by
  unfold link_fields RB_ENTRY_WORDS
  simp only [List.mem_map, List.mem_range]
  constructor
  · rintro ⟨i, hi, rfl⟩
    omega
  · intro h
    exact ⟨w - (b + 1), by omega, by omega⟩

/-- Every block whose `prev` or `next` differs after `remove_free_block` is in its write set. -/
theorem remove_writes_sound {s : State} {b x : Nat}
    (h : link_changed s (remove_free_block s (some b)) x) : x ∈ remove_writes s (some b) := by
  have := remove_links h
  unfold remove_writes
  cases hp : s.prev b <;> cases hn : s.next b <;> rw [hp, hn] at this <;>
    simp only [RB_REMOVE_writes, RB_INSERT_writes, List.mem_cons, List.mem_append, Option.some.injEq] <;>
    rcases this with e | e | e <;> simp_all

/-- Every block whose `prev` or `next` differs after `add_free_block` is in its write set. -/
theorem add_writes_sound {s : State} {b x : Nat}
    (h : link_changed s (add_free_block s (some b)) x) : x ∈ add_writes s (some b) := by
  have := add_links h
  unfold add_writes
  cases hf : RB_FIND s (tag_at s b).size with
  | none =>
    rw [hf] at this
    simp only [hf, RB_INSERT_writes, List.mem_cons, List.mem_append]
    rcases this with e | e | ⟨_, e, _⟩ <;> simp_all
  | some blk =>
    rw [hf] at this
    simp only [Option.some.injEq] at this
    cases hn : s.next blk with
    | none =>
      simp only [hf, hn, List.nil_append, List.mem_cons, List.not_mem_nil, or_false]
      rcases this with e | e | ⟨y, e, e2⟩
      · exact Or.inl e
      · exact Or.inr (Or.inl e.symm)
      · rw [← e, hn] at e2
        exact absurd e2 (by simp)
    | some n =>
      simp only [hf, hn, List.mem_cons, List.mem_append, List.not_mem_nil, or_false]
      rcases this with e | e | ⟨y, e, e2⟩
      · exact Or.inr (Or.inl e)
      · exact Or.inr (Or.inr (Or.inl e.symm))
      · rw [← e, hn] at e2
        exact Or.inl (Option.some.inj e2).symm

theorem remove_writes_mem {t : State} {b x : Nat} (h : x ∈ remove_writes t (some b)) :
    x = b ∨ t.prev b = some x ∨ t.next b = some x ∨ x ∈ t.tree := by
  unfold remove_writes at h
  have he : x ∈ t.tree.erase b → x ∈ t.tree := List.mem_of_mem_erase
  cases hp : t.prev b <;> cases hn : t.next b <;>
    simp only [hp, hn, RB_REMOVE_writes, RB_INSERT_writes, RB_REMOVE, List.mem_cons, List.mem_append,
      List.not_mem_nil, or_false] at h <;>
    (try simp only [Option.some.injEq, eq_comm (b := x)]) <;>
    tauto

theorem add_writes_mem {t : State} {b x : Nat} (h : x ∈ add_writes t (some b)) :
    x = b ∨ x ∈ t.tree ∨
      ∃ e, RB_FIND t (tag_at t b).size = some e ∧ (x = e ∨ t.next e = some x) := by
  unfold add_writes at h
  cases hf : RB_FIND t (tag_at t b).size with
  | none =>
    simp only [hf, RB_INSERT_writes, List.mem_cons, List.mem_append, List.not_mem_nil, or_false] at h
    rcases h with (e | e) | (e | e)
    · exact Or.inl e
    · exact Or.inl e
    · exact Or.inl e
    · exact Or.inr (Or.inl e)
  | some blk =>
    cases hn : t.next blk with
    | none =>
      simp only [hf, hn, List.nil_append, List.mem_cons, List.not_mem_nil, or_false] at h
      rcases h with e | e | e
      · exact Or.inl e
      · exact Or.inr (Or.inr ⟨blk, rfl, Or.inl e⟩)
      · exact Or.inl e
    | some n =>
      simp only [hf, hn, List.mem_cons, List.mem_append, List.not_mem_nil, or_false] at h
      rcases h with e | e | e | e
      · exact Or.inr (Or.inr ⟨blk, rfl, Or.inr (by rw [hn, e])⟩)
      · exact Or.inl e
      · exact Or.inr (Or.inr ⟨blk, rfl, Or.inl e⟩)
      · exact Or.inl e

theorem tree_index {s : State} {cs : List Chain} (hi : IndexOK s cs) {x : Nat} (hx : x ∈ s.tree) :
    ∃ c ∈ cs, x = c.head ∧ x ∈ cs.flatMap Chain.blocks := by
  rw [hi.tree_eq] at hx
  obtain ⟨c, hc, hcx⟩ := List.mem_map.1 hx
  exact ⟨c, hc, hcx.symm, List.mem_flatMap.2 ⟨c, hc, by rw [← hcx]; exact List.mem_cons_self _ _⟩⟩

/-- In a well-formed index, `remove_free_block` of an indexed block writes only to the linkage
fields of indexed blocks.  The state `t` may differ from `s` in the heap. -/
theorem remove_writes_index {s t : State} {cs : List Chain} {b x : Nat} (hi : IndexOK s cs)
    (ht : t.tree = s.tree) (hp : t.prev = s.prev) (hn : t.next = s.next)
    (hb : b ∈ cs.flatMap Chain.blocks)
    (h : x ∈ remove_writes t (some b)) : x ∈ cs.flatMap Chain.blocks := by
  obtain ⟨c, hc, hbc⟩ := List.mem_flatMap.1 hb
  have hl := hi.linked c hc
  rcases remove_writes_mem h with h | h | h | h
  · rw [h]; exact hb
  · rw [hp] at h
    simp only [Chain.blocks] at hl hbc
    rcases List.mem_cons.1 hbc with e | e
    · rw [e, hl.1] at h
      exact absurd h (by simp)
    · obtain ⟨p, hp1, hp2⟩ := Linked_prev_mem hl e
      rw [hp1] at h
      rw [← Option.some.inj h]
      exact List.mem_flatMap.2 ⟨c, hc, hp2⟩
  · rw [hn] at h
    exact List.mem_flatMap.2 ⟨c, hc, Linked_next_mem hl hbc h⟩
  · rw [ht] at h
    exact (tree_index hi h).choose_spec.2.2

/-- In a well-formed index, `add_free_block` writes only to the linkage fields of the added
block and of indexed blocks.  The state `t` may differ from `s` in the heap. -/
theorem add_writes_index {s t : State} {cs : List Chain} {b x : Nat} (hi : IndexOK s cs)
    (ht : t.tree = s.tree) (hn : t.next = s.next)
    (h : x ∈ add_writes t (some b)) : x = b ∨ x ∈ cs.flatMap Chain.blocks := by
  rcases add_writes_mem h with h | h | ⟨e, he, h⟩
  · exact Or.inl h
  · rw [ht] at h
    exact Or.inr (tree_index hi h).choose_spec.2.2
  · have het : e ∈ s.tree := by
      unfold RB_FIND at he
      have := List.mem_of_find?_eq_some he
      rw [ht] at this
      exact this
    obtain ⟨c, hc, hce, hmem⟩ := tree_index hi het
    rcases h with h | h
    · rw [h]; exact Or.inr hmem
    · rw [hn] at h
      have := Linked_next_mem (hi.linked c hc)
        (show e ∈ c.blocks by rw [hce]; exact List.mem_cons_self _ _) h
      exact Or.inr (List.mem_flatMap.2 ⟨c, hc, this⟩)

/-- The call of `coalesce` on the block in focus writes only to the linkage fields of indexed
blocks. -/
theorem coalesce_writes_index {s : State} {l1 l2 : List Blk} {a sz : Nat} {cs : List Chain} {x : Nat}
    (hf : Focus s l1 a sz l2 cs) (h : x ∈ coalesce_writes s a) : x ∈ cs.flatMap Chain.blocks := by
  obtain ⟨L1, L2, L3, L4, L5, L6, L7, L8, L9⟩ := left_neighbour hf.pro hf.tiles1 hf.noadj1
  obtain ⟨R1, R2, R3, R4, R5, R6, R7, R8⟩ := right_neighbour hf.epi hf.tiles2 hf.noadj2
  have hnext : next_blk s a = a + sz := next_blk_of_tag hf.hd
  have hpf : prev_blk_footer a = a - 1 := rfl
  have hfree : blk_free s (a + sz) = !decide (headFree l2 = 0) := by
    unfold blk_free; rw [R1]
  have hmemn : headFree l2 ≠ 0 → (a + sz) ∈ cs.flatMap Chain.blocks := by
    intro hR
    apply idx_mem_iff_flatMap.1
    exact ⟨headFree l2, (hf.compl _ _).2 (List.mem_append_right _ ((R8 _).2 (Or.inr ⟨hR, rfl⟩)))⟩
  have hmemp : lastFree l1 ≠ 0 → (a - lastFree l1) ∈ cs.flatMap Chain.blocks := by
    intro hL
    apply idx_mem_iff_flatMap.1
    exact ⟨lastFree l1, (hf.compl _ _).2 (List.mem_append_left _ ((L9 _).2 (Or.inr ⟨hL, rfl⟩)))⟩
  have hprev : lastFree l1 ≠ 0 → prev_blk s a = a - lastFree l1 := fun hL =>
    prev_blk_of_tag (L2 hL) (by omega)
  have hRof : blk_free s (next_blk s a) = true → headFree l2 ≠ 0 := by
    intro hb hR
    rw [hnext, hfree, hR] at hb
    simp at hb
  have hLof : (tag_at s (prev_blk_footer a)).inuse = false → lastFree l1 ≠ 0 := by
    intro hb hL
    rw [hpf, L1, hL] at hb
    simp at hb
  unfold coalesce_writes at h
  cases hp : (tag_at s (prev_blk_footer a)).inuse <;> cases hn : blk_free s (next_blk s a) <;>
    simp only [hp, hn, Bool.not_true, Bool.not_false, Bool.and_self, Bool.and_true, Bool.and_false,
      Bool.true_and, Bool.false_and, if_true, if_false, Bool.false_eq_true, List.not_mem_nil,
      List.mem_append] at h
  · rw [hprev (hLof hp)] at h
    exact remove_writes_index hf.index rfl rfl rfl (hmemp (hLof hp)) h
  · rw [hnext, hprev (hLof hp)] at h
    have hR := hRof hn
    have hL := hLof hp
    obtain ⟨cs1, hi1, hm1⟩ := remove_free_block_spec hf.index (hmemn hR)
    have hmemp1 : (a - lastFree l1) ∈ cs1.flatMap Chain.blocks := by
      apply idx_mem_iff_flatMap.1
      obtain ⟨z, hz⟩ := idx_mem_iff_flatMap.2 (hmemp hL)
      exact ⟨z, (hm1 _ _).2 ⟨hz, by omega⟩⟩
    rcases h with k | k
    · exact remove_writes_index hf.index rfl rfl rfl (hmemn hR) k
    · have := remove_writes_index hi1 rfl rfl rfl hmemp1 k
      obtain ⟨z, hz⟩ := idx_mem_iff_flatMap.2 this
      exact idx_mem_iff_flatMap.1 ⟨z, ((hm1 _ _).1 hz).1⟩
  · rw [hnext] at h
    exact remove_writes_index hf.index rfl rfl rfl (hmemn (hRof hn)) h

/-- The call of `place` on the block in focus writes only to the linkage fields of the
split-off remainder and of indexed blocks. -/
theorem place_writes_index {s : State} {l1 l2 : List Blk} {a sz asize : Nat} {cs : List Chain}
    {x : Nat} (hf : Focus s l1 a sz l2 cs) (h8 : 8 ≤ asize) (hle : asize ≤ sz)
    (h : x ∈ place_writes s a asize) :
    (sz - asize ≥ MIN_BLOCK_SIZE_WORDS ∧ x = a + asize) ∨ x ∈ cs.flatMap Chain.blocks := by
  have hsize : blk_size s a = sz := blk_size_of_tag hf.hd
  have hszlt : sz < 2 ^ 30 := tag_size_lt hf.hd
  have ha : 1 ≤ a := Tiles_le hf.tiles1
  unfold place_writes at h
  simp only [hsize, sub32_small sz asize hle (by omega)] at h
  by_cases hsplit : sz - asize ≥ MIN_BLOCK_SIZE_WORDS
  · rw [if_pos hsplit] at h
    have h8' : sz - asize ≥ 8 := hsplit
    rw [mark_block_used_eq _ _ _ (by omega) (by omega)] at h
    have hnext : next_blk { s with heap := write_tags s.heap a asize true } a = a + asize := by
      apply next_blk_of_tag (u := true)
      rw [tag_at_heap]; exact write_tags_hd _ _ _ _ (by omega)
    rw [hnext, mark_block_free_eq _ (a + asize) (sz - asize) (by omega) (by omega)] at h
    have key := fun h1 h2 => @add_writes_index s _ cs (a + asize) x hf.index h1 h2 h
    rcases key rfl rfl with e | e
    · exact Or.inl ⟨hsplit, e⟩
    · exact Or.inr e
  · rw [if_neg hsplit] at h
    exact absurd h (List.not_mem_nil _)

theorem extend_heap_writes_unfold (s : State) (words : Nat) (hw2 : 2 ≤ words) (hev : words % 2 = 0)
    (hbg : 2 ≤ s.brk) (hfit : ¬ (s.brk * 4 + words * 4 > MAX_HEAP)) :
    extend_heap_writes s words = coalesce_writes (extended s words) (s.brk - 1) := by
  have hmax : MAX_HEAP = 1024 * 2 ^ 20 := rfl
  have hfit2 := hfit
  rw [hmax] at hfit2
  have hwlt : words < 2 ^ 30 := by omega
  have hdiv : words * 4 / 4 = words := by omega
  have hs3 : set_tag (mark_block_free { s with brk := s.brk + words } (s.brk - 1) (toInt words))
      (s.brk - 1 + words) FENCE = extended s words := by
    rw [mark_block_free_eq _ _ _ (by omega) (by omega)]
    rfl
  have hnext : next_blk (mark_block_free { s with brk := s.brk + words } (s.brk - 1) (toInt words)) (s.brk - 1)
      = s.brk - 1 + words := by
    apply next_blk_of_tag (u := false)
    rw [mark_block_free_eq _ _ _ (by omega) (by omega), tag_at_heap]
    exact write_tags_hd _ _ _ _ (by omega)
  unfold extend_heap_writes
  simp only [clear_low1_even words hev hwlt, WSIZE, mul32_small words 4 (by omega), mem_sbrk, hfit, if_false,
    hdiv]
  rw [hnext, hs3]

theorem extend_heap_writes_fail {s : State} {words : Nat} (h1 : words % 2 = 0) (h2 : words < 2 ^ 30)
    (h : s.brk * 4 + words * 4 > MAX_HEAP) : extend_heap_writes s words = [] := by
  unfold extend_heap_writes
  simp only [clear_low1_even words h1 h2, WSIZE, mul32_small words 4 (by omega), mem_sbrk, h, if_true]

/-- A successful `extend_heap` writes only to the linkage fields of indexed blocks. -/
theorem extend_writes_index {s : State} {l : List Blk} {cs : List Chain} {words x : Nat}
    (hinv : Inv s l cs) (hw2 : 2 ≤ words) (hev : words % 2 = 0)
    (hfit : ¬ (s.brk * 4 + words * 4 > MAX_HEAP))
    (h : x ∈ extend_heap_writes s words) : x ∈ cs.flatMap Chain.blocks := by
  rw [extend_heap_writes_unfold s words hw2 hev hinv.brk_ge hfit] at h
  exact coalesce_writes_index (focus_extended hinv hw2 hev hfit) h

theorem find_fit_writes_some {s s1 : State} {asize b : Nat} (h : find_fit s asize = (some b, s1)) :
    find_fit_writes s asize = remove_writes s (some b) := by
  unfold find_fit at h
  unfold find_fit_writes
  cases hr : RB_NFIND s (sext31 (asize % 2 ^ 31)) with
  | none =>
    rw [hr] at h
    simp at h
  | some c =>
    rw [hr] at h
    simp only [Prod.mk.injEq, Option.some.injEq] at h
    rw [h.1]

theorem find_fit_writes_none {s s1 : State} {asize : Nat} (h : find_fit s asize = (none, s1)) :
    find_fit_writes s asize = [] := by
  unfold find_fit at h
  unfold find_fit_writes
  cases hr : RB_NFIND s (sext31 (asize % 2 ^ 31)) with
  | none => rfl
  | some c =>
    rw [hr] at h
    simp at h

theorem mm_malloc_writes_unfold (s : State) (n : Nat) (hn : n ≠ 0) :
    mm_malloc_writes s n =
      find_fit_writes (profile s n).2 (awords_of s n) ++
      match find_fit (profile s n).2 (awords_of s n) with
      | (some bp, s1) => place_writes s1 bp (awords_of s n)
      | (none, s1) =>
        let prev_boundary_tag := (mem_heap_hi s1 - 4 - PADDING) / WSIZE
        let extendwords :=
          if !(tag_at s1 prev_boundary_tag).inuse then
            sub32 (awords_of s n) (toSizeT (tag_at s1 prev_boundary_tag).size)
          else awords_of s n
        extend_heap_writes s1 extendwords ++
        match extend_heap s1 extendwords with
        | (none, _) => []
        | (some bp, s2) => place_writes s2 bp (awords_of s n) := by
  unfold mm_malloc_writes
  rw [if_neg hn]
  rfl

/-- Every block to whose linkage fields `mm_malloc` writes is a free block before the call, or
the remainder that `place` splits off a free block, which is a free block after the call. -/
theorem mm_malloc_writes_blocks {s : State} {l : List Blk} {cs : List Chain} {n x : Nat}
    (hinv : Inv s l cs) (hn : n ≠ 0) (h : x ∈ mm_malloc_writes s n) :
    (∃ z, Blk.mk x z false ∈ l) ∨
    (∃ b z l' cs', Blk.mk b z false ∈ l ∧ b ≤ x ∧ x + 8 ≤ b + z ∧
      Inv (mm_malloc s n).2 l' cs' ∧ ∃ z', Blk.mk x z' false ∈ l') := by
  obtain ⟨p1, p2, p3, p4, p5⟩ := profile_frame s n
  have hinv1 : Inv (profile s n).2 l cs := Inv_congr p1 p2 p3 p4 p5 hinv
  obtain ⟨a8, aev, alt⟩ := awords_props s n
  have hcs : ∀ y, y ∈ cs.flatMap Chain.blocks → ∃ z, Blk.mk y z false ∈ l := by
    intro y hy
    obtain ⟨z, hz⟩ := idx_mem_iff_flatMap.2 hy
    exact ⟨z, (hinv.compl y z).1 hz⟩
  rw [mm_malloc_writes_unfold s n hn] at h
  rcases find_fit_spec hinv1 alt with ⟨hff, hsmall⟩ | ⟨b, z, l1, l2, cs1, hff, hl, hz, hfoc, hn1, hn2⟩
  · rw [find_fit_writes_none hff, hff] at h
    simp only [List.nil_append] at h
    obtain ⟨_, _, _, hew, _⟩ := extend_words_eq hinv hsmall
    rw [hew] at h
    obtain ⟨w2, wev, f1, f2⟩ := mm_malloc_nofit_state hinv hn hsmall
    by_cases hfit : s.brk * 4 + (awords_of s n - lastFree l) * 4 > MAX_HEAP
    · have hfull1 : (profile s n).2.brk * 4 + (awords_of s n - lastFree l) * 4 > MAX_HEAP := by
        rw [p2]; exact hfit
      rw [extend_heap_writes_fail (by omega) (by omega) hfull1,
        extend_heap_fail (by omega) (by omega) hfull1] at h
      simp at h
    · obtain ⟨hst, cs2, e2, e9⟩ := f2 hfit
      have hfit1 : ¬ ((profile s n).2.brk * 4 + (awords_of s n - lastFree l) * 4 > MAX_HEAP) := by
        rw [p2]; exact hfit
      obtain ⟨cs3, g1, _⟩ := extend_heap_spec hinv1 w2 wev hfit1
      rw [p2] at g1
      have hres : extend_heap (profile s n).2 (awords_of s n - lastFree l) =
          (some (s.brk - 1 - lastFree l), (extend_heap (profile s n).2 (awords_of s n - lastFree l)).2) := by
        rw [← g1]
      left
      rcases List.mem_append.1 h with k | k
      · exact hcs x (extend_writes_index hinv1 w2 wev hfit1 k)
      · rw [hres] at k
        simp only at k
        rcases place_writes_index e2 a8 (le_refl _) k with ⟨hsplit, _⟩ | e
        · unfold MIN_BLOCK_SIZE_WORDS at hsplit
          omega
        · obtain ⟨z', hz'⟩ := idx_mem_iff_flatMap.2 e
          exact hcs x (idx_mem_iff_flatMap.1 ⟨z', e9 x z' hz'⟩)
  · rw [find_fit_writes_some hff, hff] at h
    simp only at h
    have hb : b ∈ cs.flatMap Chain.blocks :=
      idx_mem_iff_flatMap.1 ⟨z, (hinv.compl b z).2 (by rw [hl]; simp)⟩
    obtain ⟨cs3, q1, _, _⟩ := place_spec hfoc hn2 a8 aev hz
    have hmm : mm_malloc s n =
        (some (b + 1), place (remove_free_block (profile s n).2 (some b)) b (awords_of s n)) := by
      rw [mm_malloc_unfold s n hn, hff]
    rcases List.mem_append.1 h with k | k
    · exact Or.inl (hcs x (remove_writes_index hinv1.index rfl rfl rfl hb k))
    · rcases place_writes_index hfoc a8 hz k with ⟨hsplit, e⟩ | e
      · right
        have hsp : z - awords_of s n ≥ 8 := hsplit
        refine ⟨b, z, placed l1 b z (awords_of s n) l2, cs3, by rw [hl]; simp, by omega, by omega, ?_,
          z - awords_of s n, ?_⟩
        · rw [hmm]; exact q1
        · unfold placed
          rw [if_pos hsplit, e]
          simp
      · left
        obtain ⟨z', hz'⟩ := idx_mem_iff_flatMap.2 e
        have := (hfoc.compl x z').1 hz'
        refine ⟨z', ?_⟩
        rw [hl]
        rcases List.mem_append.1 this with m | m
        · exact List.mem_append_left _ m
        · exact List.mem_append_right _ (List.mem_cons_of_mem _ m)

/-- Every block to whose linkage fields `mm_free` writes is a free block before the call, or the
block that results from merging the released block with its free neighbours. -/
theorem mm_free_writes_blocks {s : State} {l1 l2 : List Blk} {a sz : Nat} {cs : List Chain} {x : Nat}
    (hinv : Inv s (l1 ++ Blk.mk a sz true :: l2) cs)
    (h : x ∈ mm_free_writes s (some (a + 1))) :
    (∃ z, Blk.mk x z false ∈ l1 ++ Blk.mk a sz true :: l2) ∨ x = a - lastFree l1 := by
  obtain ⟨m, t1, t2⟩ := Tiles_append.1 hinv.tiles
  obtain ⟨g1, g2, g3, g4, g5, g6⟩ := t2
  simp only at g1 g2 g3 g4 g5 g6
  subst g1
  have hsize : blk_size s a = sz := blk_size_of_tag (u := true) g4
  have hszlt : sz < 2 ^ 30 := tag_size_lt (s := s) (u := true) g4
  obtain ⟨n1, n2, _⟩ := List.chain'_append.1 hinv.noadj
  have hfoc : Focus { s with heap := write_tags s.heap a sz false } l1 a sz l2 cs := by
    refine Focus_of_write hinv.brk_ge hinv.brk_le hinv.pro hinv.epi t1 g6 (by omega) g3 n1
      (List.Chain'.tail n2) (same_arena_refl s) hinv.index ?_
    intro b z
    rw [hinv.compl]
    simp only [List.mem_append, List.mem_cons, Blk.mk.injEq, Bool.false_eq_true, and_false, false_or]
  obtain ⟨cs1, c1, c2, _, _, c5⟩ := coalesce_spec hfoc
  have hcs : ∀ y, y ∈ cs.flatMap Chain.blocks → ∃ z, Blk.mk y z false ∈ l1 ++ Blk.mk a sz true :: l2 := by
    intro y hy
    obtain ⟨z, hz⟩ := idx_mem_iff_flatMap.2 hy
    exact ⟨z, (hinv.compl y z).1 hz⟩
  unfold mm_free_writes at h
  simp only [Nat.add_sub_cancel, hsize] at h
  rw [mark_block_free_eq _ _ _ (by omega) (by omega), c1] at h
  rcases List.mem_append.1 h with k | k
  · exact Or.inl (hcs x (coalesce_writes_index hfoc k))
  · rcases add_writes_index c2.index rfl rfl k with e | e
    · exact Or.inr e
    · left
      obtain ⟨z', hz'⟩ := idx_mem_iff_flatMap.2 e
      exact hcs x (idx_mem_iff_flatMap.1 ⟨z', c5 x z' hz'⟩)

theorem link_changed_self {s t : State} {x : Nat} (hp : t.prev = s.prev) (hn : t.next = s.next)
    (h : link_changed s t x) : False := by
  unfold link_changed at h
  rw [hp, hn] at h
  rcases h with k | k <;> exact k rfl

/-- Every block whose `prev` or `next` differs after `coalesce` is in its write set. -/
theorem coalesce_writes_sound {s : State} {bp x : Nat} (h : link_changed s (coalesce s bp).2 x) :
    x ∈ coalesce_writes s bp := by
  unfold coalesce at h
  unfold coalesce_writes
  simp only at h ⊢
  cases hp : (tag_at s (prev_blk_footer bp)).inuse <;> cases hn : blk_free s (next_blk s bp) <;>
    simp only [hp, hn, Bool.not_true, Bool.not_false, Bool.and_self, Bool.and_true, Bool.and_false,
      Bool.true_and, Bool.false_and, if_true, if_false, Bool.false_eq_true, List.mem_append] at h ⊢
  · have k : link_changed s (remove_free_block s (some (prev_blk s bp))) x := h
    exact remove_writes_sound k
  · have k : link_changed s (remove_free_block (remove_free_block s (some (next_blk s bp)))
        (some (prev_blk s bp))) x := h
    rcases @link_changed_trans _ (remove_free_block s (some (next_blk s bp))) _ _ k with k | k
    · exact Or.inl (remove_writes_sound k)
    · exact Or.inr (remove_writes_sound k)
  · exact absurd h (fun k => link_changed_self rfl rfl k)
  · have k : link_changed s (remove_free_block s (some (next_blk s bp))) x := h
    exact remove_writes_sound k

/-- Every block whose `prev` or `next` differs after `place` is in its write set. -/
theorem place_writes_sound {s : State} {bp asize x : Nat} (h : link_changed s (place s bp asize) x) :
    x ∈ place_writes s bp asize := by
  unfold place at h
  unfold place_writes
  simp only at h ⊢
  by_cases hsplit : sub32 (blk_size s bp) asize ≥ MIN_BLOCK_SIZE_WORDS
  · rw [if_pos hsplit] at h ⊢
    have k : link_changed
        (mark_block_free (mark_block_used s bp (toInt asize)) (next_blk (mark_block_used s bp (toInt asize)) bp)
          (toInt (sub32 (blk_size s bp) asize)))
        (add_free_block (mark_block_free (mark_block_used s bp (toInt asize))
          (next_blk (mark_block_used s bp (toInt asize)) bp) (toInt (sub32 (blk_size s bp) asize)))
          (some (next_blk (mark_block_used s bp (toInt asize)) bp))) x := h
    exact add_writes_sound k
  · rw [if_neg hsplit] at h
    exact absurd h (fun k => link_changed_self rfl rfl k)

/-- Every block whose `prev` or `next` differs after `find_fit` is in its write set. -/
theorem find_fit_writes_sound {s : State} {asize x : Nat} (h : link_changed s (find_fit s asize).2 x) :
    x ∈ find_fit_writes s asize := by
  unfold find_fit at h
  unfold find_fit_writes
  cases hr : RB_NFIND s (sext31 (asize % 2 ^ 31)) with
  | none =>
    rw [hr] at h
    exact absurd h (fun k => link_changed_self rfl rfl k)
  | some b =>
    rw [hr] at h
    exact remove_writes_sound h

/-- Every block whose `prev` or `next` differs after `extend_heap` is in its write set. -/
theorem extend_heap_writes_sound {s : State} {words x : Nat}
    (h : link_changed s (extend_heap s words).2 x) : x ∈ extend_heap_writes s words := by
  unfold extend_heap at h
  unfold extend_heap_writes
  simp only at h ⊢
  cases hm : mem_sbrk s (mul32 (clear_low1 (add32 words 1)) WSIZE) with
  | none =>
    rw [hm] at h
    exact absurd h (fun k => link_changed_self rfl rfl k)
  | some r =>
    obtain ⟨bp, s1⟩ := r
    rw [hm] at h
    simp only at h ⊢
    have e : s1.prev = s.prev ∧ s1.next = s.next := by
      unfold mem_sbrk at hm
      split_ifs at hm
      simp only [Option.some.injEq, Prod.mk.injEq] at hm
      rw [← hm.2]
      exact ⟨rfl, rfl⟩
    apply coalesce_writes_sound
    exact @link_changed_of_eq _ _ s _ x e.1.symm e.2.symm rfl rfl h

/-- Every block whose `prev` or `next` differs after `mm_free` is in its write set. -/
theorem mm_free_writes_sound {s : State} {p x : Nat} (h : link_changed s (mm_free s (some p)) x) :
    x ∈ mm_free_writes s (some p) := by
  unfold mm_free at h
  unfold mm_free_writes
  simp only at h ⊢
  rcases @link_changed_trans _
    (coalesce (mark_block_free s (p - 1) (toInt (blk_size s (p - 1)))) (p - 1)).2 _ _ h with k | k
  · have k' : link_changed (mark_block_free s (p - 1) (toInt (blk_size s (p - 1))))
        (coalesce (mark_block_free s (p - 1) (toInt (blk_size s (p - 1)))) (p - 1)).2 x := k
    exact List.mem_append_left _ (coalesce_writes_sound k')
  · exact List.mem_append_right _ (add_writes_sound k)

/-- Every block whose `prev` or `next` differs after `mm_malloc` is in its write set. -/
theorem mm_malloc_writes_sound {s : State} {n x : Nat} (h : link_changed s (mm_malloc s n).2 x) :
    x ∈ mm_malloc_writes s n := by
  by_cases hn : n = 0
  · unfold mm_malloc at h
    rw [if_pos hn] at h
    exact absurd h (fun k => link_changed_self rfl rfl k)
  · obtain ⟨p1, p2, p3, p4, p5⟩ := profile_frame s n
    have hw := mm_malloc_writes_unfold s n hn
    have hm := mm_malloc_unfold s n hn
    have h1 : link_changed (profile s n).2 (mm_malloc s n).2 x :=
      @link_changed_of_eq _ _ s _ x p4.symm p5.symm rfl rfl h
    have hfs := @find_fit_writes_sound (profile s n).2 (awords_of s n) x
    rcases hff : find_fit (profile s n).2 (awords_of s n) with ⟨o, s1⟩
    rw [hff] at hw hm hfs
    simp only at hfs
    rw [hw, List.mem_append]
    rcases @link_changed_trans _ s1 _ _ h1 with k | k
    · exact Or.inl (hfs k)
    · right
      cases o with
      | some bp =>
        simp only at hm ⊢
        rw [hm] at k
        exact place_writes_sound k
      | none =>
        simp only at hm ⊢
        generalize (if !(tag_at s1 ((mem_heap_hi s1 - 4 - PADDING) / WSIZE)).inuse then
            sub32 (awords_of s n) (toSizeT (tag_at s1 ((mem_heap_hi s1 - 4 - PADDING) / WSIZE)).size)
          else awords_of s n) = ew at hm ⊢
        have hes := @extend_heap_writes_sound s1 ew x
        rcases hex : extend_heap s1 ew with ⟨o2, s2⟩
        rw [hex] at hm hes
        simp only at hes
        rw [List.mem_append]
        rcases @link_changed_trans _ s2 _ _ k with k2 | k2
        · exact Or.inl (hes k2)
        · cases o2 with
          | none =>
            simp only at hm
            rw [hm] at k2
            exact absurd k2 (fun k => link_changed_self rfl rfl k)
          | some bp =>
            simp only at hm ⊢
            rw [hm] at k2
            exact Or.inr (place_writes_sound k2)

theorem linkage_of_free {s : State} {l : List Blk} {cs : List Chain} (hinv : Inv s l cs) {x z : Nat}
    (hx : Blk.mk x z false ∈ l) : linkage_in_free_block s x := by
  have hz := free_blk_size hinv hx
  have h8 := (Tiles_mem hinv.tiles hx).2.2.1
  simp only at h8
  refine ⟨(mem_index_blocks hinv x).2 ⟨z, hx⟩, ((blocks_of_Inv hinv).2 ⟨z, hx⟩).2, ?_, ?_⟩
  · rw [hz]; exact h8
  · intro w hw
    rw [hz]
    have := mem_link_fields.1 hw
    omega

/-- No word of a free block belongs to an allocated block. -/
theorem free_words_disjoint {s : State} {l : List Blk} {cs : List Chain} (hinv : Inv s l cs)
    {x z : Nat} (hx : Blk.mk x z false ∈ l) {B : Blk} (hB : B ∈ l) (hu : B.used = true) {w : Nat}
    (h1 : x ≤ w) (h2 : w < x + z) : ¬ (B.addr ≤ w ∧ w < B.addr + B.size) := by
  intro hc
  have hne := Tiles_free_unique hinv.tiles hB hu hx
  rcases Nat.lt_or_gt_of_ne hne with k | k
  · have := Tiles_disjoint hinv.tiles hB hx k
    simp only at this
    omega
  · have := Tiles_disjoint hinv.tiles hx hB k
    simp only at this
    omega

theorem used_block_of_tag {s : State} {l : List Blk} {cs : List Chain} (hinv : Inv s l cs) {b : Nat}
    (hb : b ∈ l.map Blk.addr) (hu : (tag_at s b).inuse = true) :
    ∃ B ∈ l, B.addr = b ∧ B.used = true ∧ blk_size s b = B.size := by
  obtain ⟨B, hB, hBb⟩ := List.mem_map.1 hb
  have t5 := (Tiles_mem hinv.tiles hB).2.2.2.2.1
  rw [hBb] at t5
  have htag : tag_at s b = { inuse := B.used, size := (B.size : Int) } := t5
  rw [htag] at hu
  exact ⟨B, hB, hBb, hu, blk_size_of_tag htag⟩

/-- C36 (live data is never touched).  In a state reached from `mm_init` by `mm_malloc` and
`mm_free` calls, with `bl` the blocks of the arena, take an `mm_malloc n` call (`n > 0`) and an
`mm_free r` call on a live region.  The memory that a call writes consists of the words of
`heap` that it changes (tags and payload) and of the fields `node`, `prev` and `next`
(`link_fields`) of the blocks in its write set.  (1) `mm_malloc` changes no word (header,
payload, footer) of a block that is allocated before the call.  (2) Every block whose `prev` or
`next` differs after `mm_malloc` is in `mm_malloc_writes`.  (3) Every block in
`mm_malloc_writes` is a free block of the index before or after the call, of at least
`MIN_BLOCK_SIZE_WORDS` words, with its linkage fields between its header and its footer, and no
word of these fields belongs to a block that is allocated before the call.  (4), (5), (6): the
same for `mm_free`, for the allocated blocks other than the block of `r`. -/
theorem live_blocks_untouched (s0 : State) (ops : List Op) (n r m : Nat) (h0 : 0 < n)
    (hr : (r, m) ∈ (run s0 ops).ranges) :
    ∃ bl, heap_blocks (run s0 ops).s = some bl ∧
      (∀ b ∈ bl, (tag_at (run s0 ops).s b).inuse = true →
        ∀ w, b ≤ w → w < b + blk_size (run s0 ops).s b →
          (mm_malloc (run s0 ops).s n).2.heap w = (run s0 ops).s.heap w) ∧
      (∀ x, link_changed (run s0 ops).s (mm_malloc (run s0 ops).s n).2 x →
        x ∈ mm_malloc_writes (run s0 ops).s n) ∧
      (∀ x ∈ mm_malloc_writes (run s0 ops).s n,
        (linkage_in_free_block (run s0 ops).s x ∨
          linkage_in_free_block (mm_malloc (run s0 ops).s n).2 x) ∧
        ∀ w ∈ link_fields x, ∀ b ∈ bl, (tag_at (run s0 ops).s b).inuse = true →
          ¬ (b ≤ w ∧ w < b + blk_size (run s0 ops).s b)) ∧
      (∀ b ∈ bl, (tag_at (run s0 ops).s b).inuse = true → b ≠ r - 1 →
        ∀ w, b ≤ w → w < b + blk_size (run s0 ops).s b →
          (mm_free (run s0 ops).s (some r)).heap w = (run s0 ops).s.heap w) ∧
      (∀ x, link_changed (run s0 ops).s (mm_free (run s0 ops).s (some r)) x →
        x ∈ mm_free_writes (run s0 ops).s (some r)) ∧
      (∀ x ∈ mm_free_writes (run s0 ops).s (some r),
        (linkage_in_free_block (run s0 ops).s x ∨
          linkage_in_free_block (mm_free (run s0 ops).s (some r)) x) ∧
        ∀ w ∈ link_fields x, ∀ b ∈ bl, (tag_at (run s0 ops).s b).inuse = true → b ≠ r - 1 →
          ¬ (b ≤ w ∧ w < b + blk_size (run s0 ops).s b)) := by
  obtain ⟨l, cs, hinv, ⟨_, hlive⟩, _, _⟩ := DInv_run s0 ops
  obtain ⟨hr1, z, hz, _⟩ := hlive _ hr
  simp only at hr1 hz
  generalize (run s0 ops).s = s at hinv ⊢
  have hn : n ≠ 0 := by omega
  obtain ⟨l', cs', minv, _, mframe, _⟩ := mm_malloc_spec hinv hn
  obtain ⟨l1, l2, hl⟩ := List.append_of_mem hz
  subst hl
  have hra : r - 1 + 1 = r := by omega
  obtain ⟨cs2, finv, _, fframe⟩ := mm_free_spec hinv
  rw [hra] at finv fframe
  obtain ⟨m', t1, t2⟩ := Tiles_append.1 hinv.tiles
  obtain ⟨g1, g2, g3, g4, g5, g6⟩ := t2
  simp only at g1 g2 g6
  subst g1
  obtain ⟨n1, n2, _⟩ := List.chain'_append.1 hinv.noadj
  obtain ⟨_, _, L3, _, _, L6, _, _, L9⟩ := left_neighbour hinv.pro t1 n1
  obtain ⟨_, _, _, _, R5, _, _, R8⟩ := right_neighbour hinv.epi g6 (List.Chain'.tail n2)
  have hside : ∀ B ∈ l1 ++ Blk.mk (r - 1) z true :: l2, B.used = true → B.addr ≠ r - 1 →
      B.addr + B.size ≤ r - 1 - lastFree l1 ∨ r - 1 + z + headFree l2 ≤ B.addr := by
    intro B hB hBu hne
    rcases List.mem_append.1 hB with hB1 | hB2
    · left
      rcases (L9 B).1 hB1 with e | ⟨_, e⟩
      · have := Tiles_mem L6 e
        omega
      · rw [e] at hBu
        exact absurd hBu (by simp)
    · rcases List.mem_cons.1 hB2 with e | hB2
      · exfalso
        apply hne
        rw [e]
      · right
        rcases (R8 B).1 hB2 with e | ⟨_, e⟩
        · have := Tiles_mem R5 e
          omega
        · rw [e] at hBu
          exact absurd hBu (by simp)
  refine ⟨_, heap_blocks_of_Inv hinv, ?_, ?_, ?_, ?_, ?_, ?_⟩
  · intro b hb hu w hw1 hw2
    obtain ⟨B, hB, hBb, hBu, hBs⟩ := used_block_of_tag hinv hb hu
    rw [hBs, ← hBb] at hw2
    rw [← hBb] at hw1
    exact mframe B hB hBu w hw1 hw2
  · intro x hx
    exact mm_malloc_writes_sound hx
  · intro x hx
    rcases mm_malloc_writes_blocks hinv hn hx with ⟨zx, hzx⟩ | ⟨b, zb, l3, cs3, hb, hbx, hxb, inv3, zx, hzx⟩
    · refine ⟨Or.inl (linkage_of_free hinv hzx), ?_⟩
      intro w hw b hb hu
      obtain ⟨B, hB, hBb, hBu, hBs⟩ := used_block_of_tag hinv hb hu
      rw [hBs, ← hBb]
      have h8 := (Tiles_mem hinv.tiles hzx).2.2.1
      simp only at h8
      have := mem_link_fields.1 hw
      exact free_words_disjoint hinv hzx hB hBu (by omega) (by omega)
    · refine ⟨Or.inr (linkage_of_free inv3 hzx), ?_⟩
      intro w hw b' hb' hu
      obtain ⟨B, hB, hBb, hBu, hBs⟩ := used_block_of_tag hinv hb' hu
      rw [hBs, ← hBb]
      have := mem_link_fields.1 hw
      exact free_words_disjoint hinv hb hB hBu (by omega) (by omega)
  · intro b hb hu hne w hw1 hw2
    obtain ⟨B, hB, hBb, hBu, hBs⟩ := used_block_of_tag hinv hb hu
    rw [hBs] at hw2
    apply fframe
    have := hside B hB hBu (by rw [hBb]; exact hne)
    omega
  · intro x hx
    exact mm_free_writes_sound hx
  · intro x hx
    have hx' : x ∈ mm_free_writes s (some (r - 1 + 1)) := by rw [hra]; exact hx
    rcases mm_free_writes_blocks hinv hx' with ⟨zx, hzx⟩ | e
    · refine ⟨Or.inl (linkage_of_free hinv hzx), ?_⟩
      intro w hw b hb hu _
      obtain ⟨B, hB, hBb, hBu, hBs⟩ := used_block_of_tag hinv hb hu
      rw [hBs, ← hBb]
      have h8 := (Tiles_mem hinv.tiles hzx).2.2.1
      simp only at h8
      have := mem_link_fields.1 hw
      exact free_words_disjoint hinv hzx hB hBu (by omega) (by omega)
    · have hmem : Blk.mk x (lastFree l1 + z + headFree l2) false ∈ freed l1 (r - 1) z l2 := by
        unfold freed
        rw [e]
        simp
      refine ⟨Or.inr (linkage_of_free finv hmem), ?_⟩
      intro w hw b hb hu hne
      obtain ⟨B, hB, hBb, hBu, hBs⟩ := used_block_of_tag hinv hb hu
      rw [hBs, ← hBb]
      have := mem_link_fields.1 hw
      have := hside B hB hBu (by rw [hBb]; exact hne)
      omega

set_option maxRecDepth 1000000 in
/-- Witness for C36: after `trace24` (blocks at words 1, 9 and 37, the middle one free with 28
words) a request of 24 bytes, which splits the free block, and the release of the region at
word 2, which merges its block with the free block. -/
theorem live_blocks_untouched_witness :
    (0 < 24) ∧
    ((2, 24) ∈ (run empty_state trace24).ranges) ∧
    (mm_malloc_writes (run empty_state trace24).s 24 = [9, 9, 17, 17, 17]) ∧
    (mm_free_writes (run empty_state trace24).s (some 2) = [9, 9, 1, 1, 1]) ∧
    (link_fields 17 = [18, 19, 20, 21, 22, 23]) ∧
    (heap_blocks (run empty_state trace24).s = some [1, 9, 37]) ∧
    (∃ bl, heap_blocks (run empty_state trace24).s = some bl ∧
      (∀ b ∈ bl, (tag_at (run empty_state trace24).s b).inuse = true →
        ∀ w, b ≤ w → w < b + blk_size (run empty_state trace24).s b →
          (mm_malloc (run empty_state trace24).s 24).2.heap w = (run empty_state trace24).s.heap w) ∧
      (∀ x, link_changed (run empty_state trace24).s (mm_malloc (run empty_state trace24).s 24).2 x →
        x ∈ mm_malloc_writes (run empty_state trace24).s 24) ∧
      (∀ x ∈ mm_malloc_writes (run empty_state trace24).s 24,
        (linkage_in_free_block (run empty_state trace24).s x ∨
          linkage_in_free_block (mm_malloc (run empty_state trace24).s 24).2 x) ∧
        ∀ w ∈ link_fields x, ∀ b ∈ bl, (tag_at (run empty_state trace24).s b).inuse = true →
          ¬ (b ≤ w ∧ w < b + blk_size (run empty_state trace24).s b)) ∧
      (∀ b ∈ bl, (tag_at (run empty_state trace24).s b).inuse = true → b ≠ 2 - 1 →
        ∀ w, b ≤ w → w < b + blk_size (run empty_state trace24).s b →
          (mm_free (run empty_state trace24).s (some 2)).heap w = (run empty_state trace24).s.heap w) ∧
      (∀ x, link_changed (run empty_state trace24).s (mm_free (run empty_state trace24).s (some 2)) x →
        x ∈ mm_free_writes (run empty_state trace24).s (some 2)) ∧
      (∀ x ∈ mm_free_writes (run empty_state trace24).s (some 2),
        (linkage_in_free_block (run empty_state trace24).s x ∨
          linkage_in_free_block (mm_free (run empty_state trace24).s (some 2)) x) ∧
        ∀ w ∈ link_fields x, ∀ b ∈ bl, (tag_at (run empty_state trace24).s b).inuse = true → b ≠ 2 - 1 →
          ¬ (b ≤ w ∧ w < b + blk_size (run empty_state trace24).s b))) :=
  ⟨by decide, by decide, by decide, by decide, by decide, by decide,
    live_blocks_untouched empty_state trace24 24 2 24 (by decide) (by decide)⟩

theorem memcpy_desc_outside (h : Nat → Nat) (dst src n w : Nat) (hw : w < dst ∨ dst + n ≤ w) :
    memcpy_desc h dst src n w = h w := by
  induction n generalizing h with
  | zero => rfl
  | succ k ih =>
    unfold memcpy_desc
    rw [ih _ (by omega), upd_other _ _ _ _ (by omega)]

theorem memcpy_desc_copied (h : Nat → Nat) (dst src n j : Nat) (hj : j < n)
    (hd : src ≤ dst ∨ dst + n ≤ src) : memcpy_desc h dst src n (dst + j) = h (src + j) := by
  induction n generalizing h with
  | zero => omega
  | succ k ih =>
    unfold memcpy_desc
    by_cases hjk : j = k
    · subst hjk
      rw [memcpy_desc_outside _ _ _ _ _ (by omega), upd_same]
    · rw [ih _ (by omega) (by omega), upd_other _ _ _ _ (by omega)]

/-- On ranges that do not overlap, the only ones for which the C standard defines `memcpy`, the
descending copy and the ascending copy give the same memory. -/
theorem memcpy_desc_eq (h : Nat → Nat) (dst src n : Nat) (hd : dst + n ≤ src ∨ src + n ≤ dst) :
    memcpy_desc h dst src n = memcpy h dst src n := by
  funext w
  by_cases hw : w < dst ∨ dst + n ≤ w
  · rw [memcpy_desc_outside h dst src n w hw, memcpy_outside h dst src n w hw]
  · have e : w = dst + (w - dst) := by omega
    rw [e, memcpy_desc_copied h dst src n (w - dst) (by omega) (by omega),
      memcpy_copied h dst src n (w - dst) (by omega) (by omega)]

/-- The branch of `mm_realloc` for an allocated right neighbour that is not the fence and a
usable free left neighbour is `realloc_left_merge` with the copy routine `memcpy`. -/
theorem realloc_left_merge_eq (s : State) (p n : Nat) (h0 : n ≠ 0)
    (c1 : ¬ adjust n ≤ mul32 (blk_size s (p - 1)) WSIZE)
    (c2 : blk_free s (next_blk s (p - 1)) = false)
    (c3 : ¬ (tag_at s (next_blk s (p - 1))).size = 0)
    (c4 : (!(tag_at s (prev_blk_footer (p - 1))).inuse) = true ∧
      add32 (toSizeT ((tag_at s (prev_blk_footer (p - 1))).size * WSIZE))
        (mul32 (blk_size s (p - 1)) WSIZE) > adjust n) :
    mm_realloc s (some p) n = realloc_left_merge memcpy s p (adjust n) := by
  unfold mm_realloc realloc_left_merge
  simp only [if_neg h0, if_neg c1, c2, Bool.false_eq_true, if_false, if_neg c3, if_pos c4]

set_option maxRecDepth 1000000 in
/-- C8 (data preservation), a defect of the code.  The branches of `mm_realloc` that move the
data into a free left neighbour call the library routine `memcpy` with the payload of the left
neighbour as destination and the old payload as source, over the size of the old block; when
the old block is larger than the left neighbour the two ranges overlap, which the C standard
leaves undefined.  After `trace8` in a memory holding a pattern, `mm_realloc` of the region at
word 10 (requested with 56 bytes, block of 16 words, free left neighbour of 8 words) to 64 bytes
takes this branch and copies 16 words from word 10 to word 2.  With the ascending copy `memcpy`
the first 56 bytes are preserved; with the descending copy `memcpy_desc`, which agrees with
`memcpy` wherever the standard defines it, the same branch returns the same region and its
first byte is 129 where the old region held 73. -/
theorem realloc_copy_overlaps :
    (10, 56) ∈ (run patterned trace8).ranges ∧
    heap_blocks (run patterned trace8).s = some [1, 9, 25] ∧
    index_blocks (run patterned trace8).s = [1] ∧
    mm_realloc (run patterned trace8).s (some 10) 64
      = realloc_left_merge memcpy (run patterned trace8).s 10 (adjust 64) ∧
    prev_blk (run patterned trace8).s (10 - 1) + 1 = 2 ∧
    mul32 (blk_size (run patterned trace8).s (10 - 1)) WSIZE / WSIZE = 16 ∧
    (2 < 10 ∧ 10 < 2 + 16) ∧
    (mm_realloc (run patterned trace8).s (some 10) 64).1 = some 2 ∧
    (∀ k, k < min 56 64 →
      byte_at (mm_realloc (run patterned trace8).s (some 10) 64).2.heap 2 k
        = byte_at (run patterned trace8).s.heap 10 k) ∧
    (realloc_left_merge memcpy_desc (run patterned trace8).s 10 (adjust 64)).1 = some 2 ∧
    heap_blocks (realloc_left_merge memcpy_desc (run patterned trace8).s 10 (adjust 64)).2
      = some [1, 25] ∧
    byte_at (realloc_left_merge memcpy_desc (run patterned trace8).s 10 (adjust 64)).2.heap 2 0 = 129 ∧
    byte_at (run patterned trace8).s.heap 10 0 = 73 :=
  ⟨by decide, by decide, by decide,
    realloc_left_merge_eq _ 10 64 (by decide) (by decide) (by decide) (by decide) (by decide),
    by decide, by decide, by decide, by decide, by decide, by decide, by decide, by decide, by decide⟩

set_option maxRecDepth 1000000 in
/-- C35 (merge into a free left neighbour) fails on the code: the split test of the left-merge
branch adds the old size in bytes to the size of the left neighbour in words.  After `trace35`
the block of the region at word 10 has `s = 8` words, its left neighbour is free with `p = 8`
words and its right neighbour, the block of the live region at word 18, is allocated and is not
the right fence.  Resizing to 48 bytes (`a = 14` words, `p + s = 16 > a`, remainder 2 words)
must give a block of 16 words; the test value `32 + 8 - 56` wraps to `2^32 - 16`, the split
branch runs, and the code returns the region at word 2 in a block of 14 words (header at word
1) and writes the header of a free block of 2 words, below `MIN_BLOCK_SIZE_WORDS`, at word 15,
which it enters into the index.  The fields `node`, `prev` and `next` of that block are the
words 16 to 21: they reach beyond the block into the header (word 17) and the payload of the
region at word 18; the statement is about the tags at words 1 and 15 and the index only.  After
`trace35b` (`p = 40`, `s = 8`), resizing to 32 bytes (`a = 10`, remainder 38 words) must split;
the test value is `32 + 40 - 40 = 32`, and the code gives the block all 48 words. -/
theorem left_merge_unit_mix :
    (10, 24) ∈ (run empty_state trace35).ranges ∧
    (18, 24) ∈ (run empty_state trace35).ranges ∧
    heap_blocks (run empty_state trace35).s = some [1, 9, 17] ∧
    tag_at (run empty_state trace35).s 1 = { inuse := false, size := 8 } ∧
    tag_at (run empty_state trace35).s 9 = { inuse := true, size := 8 } ∧
    tag_at (run empty_state trace35).s 17 = { inuse := true, size := 8 } ∧
    adjust 48 / WSIZE = 14 ∧
    sub32 (add32 (mul32 (blk_size (run empty_state trace35).s 9) WSIZE)
      (blk_size (run empty_state trace35).s (prev_blk (run empty_state trace35).s 9))) (adjust 48)
      = 2 ^ 32 - 16 ∧
    2 ^ 32 - 16 > WSIZE * MIN_BLOCK_SIZE_WORDS ∧
    (mm_realloc (run empty_state trace35).s (some 10) 48).1 = some 2 ∧
    tag_at (mm_realloc (run empty_state trace35).s (some 10) 48).2 1 = { inuse := true, size := 14 } ∧
    tag_at (mm_realloc (run empty_state trace35).s (some 10) 48).2 15 = { inuse := false, size := 2 } ∧
    blk_size (mm_realloc (run empty_state trace35).s (some 10) 48).2 15 < MIN_BLOCK_SIZE_WORDS ∧
    (mm_realloc (run empty_state trace35).s (some 10) 48).2.tree = [15] ∧
    (mm_realloc (run empty_state trace35).s (some 10) 48).2.prev 15 = none ∧
    (mm_realloc (run empty_state trace35).s (some 10) 48).2.next 15 = none ∧
    link_fields 15 = [16, 17, 18, 19, 20, 21] ∧
    (42, 24) ∈ (run empty_state trace35b).ranges ∧
    heap_blocks (run empty_state trace35b).s = some [1, 41, 49] ∧
    tag_at (run empty_state trace35b).s 1 = { inuse := false, size := 40 } ∧
    tag_at (run empty_state trace35b).s 41 = { inuse := true, size := 8 } ∧
    tag_at (run empty_state trace35b).s 49 = { inuse := true, size := 8 } ∧
    adjust 32 / WSIZE = 10 ∧
    sub32 (add32 (mul32 (blk_size (run empty_state trace35b).s 41) WSIZE)
      (blk_size (run empty_state trace35b).s (prev_blk (run empty_state trace35b).s 41))) (adjust 32)
      = 32 ∧
    ¬ (32 > WSIZE * MIN_BLOCK_SIZE_WORDS) ∧
    (mm_realloc (run empty_state trace35b).s (some 42) 32).1 = some 2 ∧
    heap_blocks (mm_realloc (run empty_state trace35b).s (some 42) 32).2 = some [1, 49] ∧
    tag_at (mm_realloc (run empty_state trace35b).s (some 42) 32).2 1 = { inuse := true, size := 48 } ∧
    index_blocks (mm_realloc (run empty_state trace35b).s (some 42) 32).2 = [] := by
  decide

end MM
